import Mathlib

/-! # motor-movegen: position state, move encoding, move buffer and move generator

A shallow embedding of `src/chess/bits.hpp`, `src/chess/chessmove.hpp`,
`src/chess/fen_utils.hpp`, `src/chess/board.hpp`, `src/generator/movelist.hpp` and
`src/generator/move_generator.hpp`.

Conventions.
* `std::uint64_t` bitboards are `Nat`; every operation that can leave the 64-bit range
  (`~x`, `x << k`) is reduced modulo `2^64` explicitly.  `std::uint8_t` counters are reduced
  modulo `256`, the packed move word modulo `2^32`.
* Squares are `Nat` (`0 .. 63`, `Null_Square = 64`), colours and pieces are enumerations.
* `while (bb) { sq = pop_lsb(bb); ... }` loops are `while_pop 64 bb body st`: at most 64
  iterations are needed for a 64-bit word (`while_pop_fuel_irrelevant`).
* Mutating member functions take the object and return the new object.
* The headers `types.hpp`, `attacks.hpp`, `pinmask.hpp` and `zobrist.hpp` are not part of the
  excerpt.  Their constants are modelled from the specification, the attack tables are a
  parameter (`AttackTables`) with a standard instance (`std_tables`), the hash keys are a
  parameter (`ZobristKeys`).
-/

namespace Motor

/-! ## types.hpp -/

/-- Modelled from the spec: the enumeration `Color` of types.hpp, `{White, Black}`. -/
inductive Color where
  | White
  | Black
  deriving DecidableEq, Repr, Fintype

/-- Modelled from the spec: the enumeration `Piece` of types.hpp,
`{Pawn, Knight, Bishop, Rook, Queen, King}` plus the sentinel `Null_Piece`. -/
inductive Piece where
  | Pawn
  | Knight
  | Bishop
  | Rook
  | Queen
  | King
  | Null_Piece
  deriving DecidableEq, Repr, Fintype

open Color Piece

/-- Modelled from the spec: the integer value of a `Color` enumerator. -/
def Color.val : Color → Nat
  | White => 0
  | Black => 1

/-- Modelled from the spec: the integer value of a `Piece` enumerator (declaration order). -/
def Piece.val : Piece → Nat
  | Pawn => 0
  | Knight => 1
  | Bishop => 2
  | Rook => 3
  | Queen => 4
  | King => 5
  | Null_Piece => 6

/-- Modelled from the spec: a `Square` is an integer `0 .. 63`, rank-major from a1, plus the
sentinel `Null_Square`. -/
abbrev Square := Nat

/-- Modelled from the spec: the "no square" sentinel, the enumerator after `H8`. -/
def Null_Square : Square := 64

def A1 : Square := 0
def B1 : Square := 1
def C1 : Square := 2
def D1 : Square := 3
def E1 : Square := 4
def F1 : Square := 5
def G1 : Square := 6
def H1 : Square := 7
def A8 : Square := 56
def B8 : Square := 57
def C8 : Square := 58
def D8 : Square := 59
def E8 : Square := 60
def F8 : Square := 61
def G8 : Square := 62
def H8 : Square := 63

/-- Modelled from the spec: the castling-rights bits of types.hpp.  The values are fixed by
`castling_mask` (a1 clears 2, h1 clears 1, a8 clears 8, h8 clears 4). -/
def CASTLE_WHITE_KINGSIDE : Nat := 1
def CASTLE_WHITE_QUEENSIDE : Nat := 2
def CASTLE_BLACK_KINGSIDE : Nat := 4
def CASTLE_BLACK_QUEENSIDE : Nat := 8

/-- Modelled from the spec: the enumeration `Direction` of types.hpp; the value of a
direction is the square offset of the corresponding `shift`. -/
inductive Direction where
  | NORTH
  | SOUTH
  | NORTH_2
  | SOUTH_2
  | NORTH_EAST
  | NORTH_WEST
  | SOUTH_EAST
  | SOUTH_WEST
  | EAST
  | WEST
  deriving DecidableEq, Repr

open Direction

/-- Modelled from the spec: the square offset of a direction. -/
def Direction.val : Direction → Int
  | NORTH => 8
  | SOUTH => -8
  | NORTH_2 => 16
  | SOUTH_2 => -16
  | NORTH_EAST => 9
  | NORTH_WEST => 7
  | SOUTH_EAST => -7
  | SOUTH_WEST => -9
  | EAST => 1
  | WEST => -1

/-- The expression `square - direction` converted back to a `Square`. -/
def sq_sub (square : Square) (d : Direction) : Square :=
  ((square : Int) - d.val).toNat

/-- Modelled from the spec: the all-ones bitboard. -/
def full_board : Nat := 0xFFFFFFFFFFFFFFFF

/-- Modelled from the spec: `files[FILE_A]`, the a-file. -/
def FILE_A_BB : Nat := 0x0101010101010101

/-- Modelled from the spec: `files[FILE_H]`, the h-file. -/
def FILE_H_BB : Nat := 0x8080808080808080

/-- Modelled from the spec: `ranks[r]` for the rank index `r = 0 .. 7` (`RANK_1 = 0`). -/
def ranks (r : Nat) : Nat := 0xFF <<< (8 * r)

def RANK_2 : Nat := 1
def RANK_3 : Nat := 2
def RANK_6 : Nat := 5
def RANK_7 : Nat := 6

/-- Bitwise complement `~x` of a 64-bit word. -/
def not64 (x : Nat) : Nat := full_board ^^^ (x % 2 ^ 64)

/-- Left shift `x << k` of a 64-bit word. -/
def shl64 (x k : Nat) : Nat := (x <<< k) % 2 ^ 64

/-! ## bits.hpp -/

/-- The single-square bitboard `1ull << square`. -/
def bit (square : Square) : Nat := shl64 1 square

def set_bit (bitboard : Nat) (square : Square) : Nat :=
  bitboard ||| bit square

def pop_bit (bitboard : Nat) (square : Square) : Nat :=
  bitboard &&& not64 (bit square)

/-- Count of trailing zero bits among the lowest `fuel` bits. -/
def countr_zero_aux : Nat → Nat → Nat
  | 0, _ => 0
  | fuel + 1, x => if x % 2 = 1 then 0 else 1 + countr_zero_aux fuel (x / 2)

/-- The library function `std::countr_zero` on a 64-bit word (64 for zero). -/
def countr_zero (x : Nat) : Nat := countr_zero_aux 64 x

def lsb (bitboard : Nat) : Square := countr_zero bitboard

/-- Returns the index of the lowest set bit and the bitboard with that bit cleared. -/
def pop_lsb (bitboard : Nat) : Square × Nat :=
  let index := lsb bitboard
  (index, bitboard &&& (bitboard - 1))

/-- The loop `while (bb) { sq = pop_lsb(bb); st = body(st, sq); }`. -/
def while_pop {σ : Type} : Nat → Nat → (σ → Square → σ) → σ → σ
  | 0, _, _, st => st
  | fuel + 1, bb, body, st =>
    if bb = 0 then st
    else while_pop fuel (pop_lsb bb).2 body (body st (pop_lsb bb).1)

/-- The squares visited by a `pop_lsb` loop, in order. -/
def serialize : Nat → Nat → List Square
  | 0, _ => []
  | fuel + 1, bb => if bb = 0 then [] else (pop_lsb bb).1 :: serialize fuel (pop_lsb bb).2

/-! ## chessmove.hpp -/

abbrev MoveType := Nat

def QUIET : MoveType := 0
def DOUBLE_PAWN_PUSH : MoveType := 1
def KING_CASTLE : MoveType := 2
def QUEEN_CASTLE : MoveType := 3
def CAPTURE : MoveType := 4
def EN_PASSANT : MoveType := 5
def KNIGHT_PROMOTION : MoveType := 8
def BISHOP_PROMOTION : MoveType := 9
def ROOK_PROMOTION : MoveType := 10
def QUEEN_PROMOTION : MoveType := 11
def KNIGHT_PROMOTION_CAPTURE : MoveType := 12
def BISHOP_PROMOTION_CAPTURE : MoveType := 13
def ROOK_PROMOTION_CAPTURE : MoveType := 14
def QUEEN_PROMOTION_CAPTURE : MoveType := 15

/-- The class `chessmove`: one packed 32-bit word. -/
structure chessmove where
  packed_move_data : Nat
  deriving DecidableEq, Repr

/-- The default constructor `chessmove()`. -/
def chessmove.null : chessmove := ⟨0⟩

/-- The constructor `chessmove(from, to, move_type)`. -/
def chessmove.new3 (from_sq to_sq : Square) (move_type : MoveType) : chessmove :=
  ⟨(from_sq ||| (to_sq <<< 6) ||| (move_type <<< 12)) % 2 ^ 32⟩

/-- The constructor `chessmove(from, to, move_type, piece_type)`. -/
def chessmove.new4 (from_sq to_sq : Square) (move_type : MoveType) (piece_type : Piece) :
    chessmove :=
  ⟨(from_sq ||| (to_sq <<< 6) ||| (move_type <<< 12) ||| (piece_type.val <<< 16)) % 2 ^ 32⟩

/-- The constructor `chessmove(from, to, move_type, piece_type, captured)`. -/
def chessmove.new5 (from_sq to_sq : Square) (move_type : MoveType) (piece_type : Piece)
    (captured : Piece) : chessmove :=
  ⟨(from_sq ||| (to_sq <<< 6) ||| (move_type <<< 12) ||| (piece_type.val <<< 16)
      ||| (captured.val <<< 19)) % 2 ^ 32⟩

def chessmove.get_from (m : chessmove) : Square :=
  m.packed_move_data &&& 0b111111

def chessmove.get_to (m : chessmove) : Square :=
  (m.packed_move_data >>> 6) &&& 0b111111

def chessmove.get_move_type (m : chessmove) : MoveType :=
  (m.packed_move_data >>> 12) &&& 0b1111

/-- The accessor `get_piece`; the result is the integer value of the `Piece`. -/
def chessmove.get_piece (m : chessmove) : Nat :=
  (m.packed_move_data >>> 16) &&& 0b111

/-- The accessor `get_captured_piece`; the result is the integer value of the `Piece`. -/
def chessmove.get_captured_piece (m : chessmove) : Nat :=
  (m.packed_move_data >>> 19) &&& 0b111

/-! ## movelist.hpp -/

/-- The class `movelist`: 256 (move, score) pairs and an 8-bit count. -/
structure movelist where
  pseudolegal_moves : List (chessmove × Int)
  count : Nat
  deriving DecidableEq, Repr

/-- The constructor `movelist()`: value-initialised entries, count zero. -/
def movelist.new : movelist := ⟨List.replicate 256 (chessmove.null, 0), 0⟩

def movelist.size (ml : movelist) : Nat := ml.count

/-- The assignment `entries[i].first = m`. -/
def set_first : List (chessmove × Int) → Nat → chessmove → List (chessmove × Int)
  | [], _, _ => []
  | e :: rest, 0, m => (m, e.2) :: rest
  | e :: rest, i + 1, m => e :: set_first rest i m

def movelist.add (ml : movelist) (m : chessmove) : movelist :=
  ⟨set_first ml.pseudolegal_moves ml.count m, (ml.count + 1) % 256⟩

/-- The moves in the range `begin() .. end()`. -/
def movelist.moves (ml : movelist) : List chessmove :=
  (ml.pseudolegal_moves.take ml.count).map Prod.fst

/-! ## attacks.hpp and pinmask.hpp -/

/-- Modelled from the spec: the enumeration `Ray` selecting the sliding-attack function. -/
inductive Ray where
  | ROOK
  | BISHOP
  | QUEEN
  deriving DecidableEq, Repr

/-- Modelled from the spec: the precomputed attack tables, the occupancy-aware sliding-attack
function and the square-pair "between" table, supplied at startup by attacks.hpp and
pinmask.hpp.  They are a parameter of everything that reads them. -/
structure AttackTables where
  KING_ATTACKS : Square → Nat
  KNIGHT_ATTACKS : Square → Nat
  PAWN_ATTACKS_TABLE : Color → Square → Nat
  attacks : Ray → Square → Nat → Nat
  pinmask : Square → Square → Nat

/-- Modelled from the spec: the bit of the square on file `f` and rank `r` (both `0 .. 7`),
or zero when the coordinates are off the board. -/
def coord_bit (f r : Int) : Nat :=
  if 0 ≤ f ∧ f < 8 ∧ 0 ≤ r ∧ r < 8 then 2 ^ (8 * r + f).toNat else 0

/-- Modelled from the spec: the squares at the given (file, rank) offsets from `sq`. -/
def leaper_attacks (sq : Square) (offsets : List (Int × Int)) : Nat :=
  offsets.foldl (fun acc d => acc ||| coord_bit ((sq % 8 : Nat) + d.1) ((sq / 8 : Nat) + d.2)) 0

/-- Modelled from the spec: the squares of one ray from (`f`, `r`) in direction (`df`, `dr`),
up to and including the first occupied square. -/
def ray_attacks (occ : Nat) (df dr : Int) : Nat → Int → Int → Nat
  | 0, _, _ => 0
  | n + 1, f, r =>
    let b := coord_bit (f + df) (r + dr)
    if b = 0 then 0
    else if occ &&& b ≠ 0 then b
    else b ||| ray_attacks occ df dr n (f + df) (r + dr)

/-- Modelled from the spec: "squares attacked by a rook from square S given blockers O". -/
def std_rook_attacks (sq : Square) (occ : Nat) : Nat :=
  ray_attacks occ 1 0 7 (sq % 8 : Nat) (sq / 8 : Nat)
    ||| ray_attacks occ (-1) 0 7 (sq % 8 : Nat) (sq / 8 : Nat)
    ||| ray_attacks occ 0 1 7 (sq % 8 : Nat) (sq / 8 : Nat)
    ||| ray_attacks occ 0 (-1) 7 (sq % 8 : Nat) (sq / 8 : Nat)

/-- Modelled from the spec: "squares attacked by a bishop from square S given blockers O". -/
def std_bishop_attacks (sq : Square) (occ : Nat) : Nat :=
  ray_attacks occ 1 1 7 (sq % 8 : Nat) (sq / 8 : Nat)
    ||| ray_attacks occ (-1) 1 7 (sq % 8 : Nat) (sq / 8 : Nat)
    ||| ray_attacks occ 1 (-1) 7 (sq % 8 : Nat) (sq / 8 : Nat)
    ||| ray_attacks occ (-1) (-1) 7 (sq % 8 : Nat) (sq / 8 : Nat)

/-- Modelled from the spec: the occupancy-aware sliding-attack function; the queen is the
union of rook and bishop. -/
def std_attacks : Ray → Square → Nat → Nat
  | Ray.ROOK, sq, occ => std_rook_attacks sq occ
  | Ray.BISHOP, sq, occ => std_bishop_attacks sq occ
  | Ray.QUEEN, sq, occ => std_rook_attacks sq occ ||| std_bishop_attacks sq occ

/-- Modelled from the spec: the "inclusive bitboard of squares between squares A and B":
the squares strictly between `a` and `b` on a common rank, file or diagonal, and `b` itself;
only `b` when the squares share no line. -/
def std_pinmask (a b : Square) : Nat :=
  let fa : Int := (a % 8 : Nat)
  let ra : Int := (a / 8 : Nat)
  let fb : Int := (b % 8 : Nat)
  let rb : Int := (b / 8 : Nat)
  if fa = fb ∨ ra = rb ∨ (fb - fa).natAbs = (rb - ra).natAbs then
    ray_attacks (2 ^ b) (fb - fa).sign (rb - ra).sign 7 fa ra
  else 2 ^ b

/-- Modelled from the spec: the standard attack tables. -/
def std_tables : AttackTables where
  KING_ATTACKS sq :=
    leaper_attacks sq [(1, 0), (1, 1), (0, 1), (-1, 1), (-1, 0), (-1, -1), (0, -1), (1, -1)]
  KNIGHT_ATTACKS sq :=
    leaper_attacks sq [(1, 2), (2, 1), (2, -1), (1, -2), (-1, -2), (-2, -1), (-2, 1), (-1, 2)]
  PAWN_ATTACKS_TABLE c sq :=
    match c with
    | White => leaper_attacks sq [(-1, 1), (1, 1)]
    | Black => leaper_attacks sq [(-1, -1), (1, -1)]
  attacks := std_attacks
  pinmask := std_pinmask

/-! ## zobrist.hpp -/

/-- Modelled from the spec: the pseudo-random keys of zobrist.hpp, "a key per (color, piece,
square), a key for black to move, a key per castling-rights bit, a key for the en-passant
file". -/
structure ZobristKeys where
  psqt : Color → Piece → Square → Nat
  side : Nat
  castling : Nat → Nat
  enpassant : Nat → Nat

/-- Modelled from the spec: the exclusive-or of the keys of the castling-rights bits set in
`rights`. -/
def castling_key (K : ZobristKeys) (rights : Nat) : Nat :=
  (if rights.testBit 0 then K.castling 0 else 0)
    ^^^ (if rights.testBit 1 then K.castling 1 else 0)
    ^^^ (if rights.testBit 2 then K.castling 2 else 0)
    ^^^ (if rights.testBit 3 then K.castling 3 else 0)

/-- Modelled from the spec: the key of the en-passant file, "if any". -/
def enpassant_key (K : ZobristKeys) (square : Square) : Nat :=
  if square = Null_Square then 0 else K.enpassant (square % 8)

/-- Modelled from the spec: `zobrist::update_psqt_hash`, folding one piece-square key into
the hash. -/
def update_psqt_hash (K : ZobristKeys) (hash : Nat) (c : Color) (p : Piece) (sq : Square) :
    Nat :=
  hash ^^^ K.psqt c p sq

/-- Modelled from the spec: `zobrist::update_side_hash`. -/
def update_side_hash (K : ZobristKeys) (hash : Nat) : Nat :=
  hash ^^^ K.side

/-- Modelled from the spec: `zobrist::update_castling_hash`. -/
def update_castling_hash (K : ZobristKeys) (hash : Nat) (rights : Nat) : Nat :=
  hash ^^^ castling_key K rights

/-- Modelled from the spec: `zobrist::update_enpassant_hash`. -/
def update_enpassant_hash (K : ZobristKeys) (hash : Nat) (square : Square) : Nat :=
  hash ^^^ enpassant_key K square

/-! ## fen_utils.hpp -/

def get_color_and_piece (fen_char : Char) : Color × Piece :=
  if fen_char = 'P' then (White, Pawn)
  else if fen_char = 'R' then (White, Rook)
  else if fen_char = 'N' then (White, Knight)
  else if fen_char = 'B' then (White, Bishop)
  else if fen_char = 'Q' then (White, Queen)
  else if fen_char = 'K' then (White, King)
  else if fen_char = 'p' then (Black, Pawn)
  else if fen_char = 'r' then (Black, Rook)
  else if fen_char = 'n' then (Black, Knight)
  else if fen_char = 'b' then (Black, Bishop)
  else if fen_char = 'q' then (Black, Queen)
  else if fen_char = 'k' then (Black, King)
  else (White, Null_Piece)

def char_to_castling_right (fen_right : Char) : Nat :=
  if fen_right = 'K' then CASTLE_WHITE_KINGSIDE
  else if fen_right = 'Q' then CASTLE_WHITE_QUEENSIDE
  else if fen_right = 'k' then CASTLE_BLACK_KINGSIDE
  else if fen_right = 'q' then CASTLE_BLACK_QUEENSIDE
  else 0

/-- The character `s[i]` of a `std::string`: the terminating null at `i = size()`. -/
def char_at (s : List Char) (i : Nat) : Nat :=
  match s.get? i with
  | some c => c.toNat
  | none => 0

/-- The function `square_from_string`; the result is converted to the 8-bit `Square`. -/
def square_from_string (s : List Char) : Square :=
  let s0 := char_at s 0
  let s1 := char_at s 1
  if 97 ≤ s0 ∧ s0 ≤ 122 then
    ((((s0 : Int) - 97) + ((s1 : Int) - 49) * 8) % 256).toNat
  else if 65 ≤ s0 ∧ s0 ≤ 90 then
    ((((s0 : Int) - 65) + ((s1 : Int) - 49) * 8) % 256).toNat
  else Null_Square

/-! ## board.hpp -/

def castling_mask : List Nat :=
  [13, 15, 15, 15, 12, 15, 15, 14,
   15, 15, 15, 15, 15, 15, 15, 15,
   15, 15, 15, 15, 15, 15, 15, 15,
   15, 15, 15, 15, 15, 15, 15, 15,
   15, 15, 15, 15, 15, 15, 15, 15,
   15, 15, 15, 15, 15, 15, 15, 15,
   15, 15, 15, 15, 15, 15, 15, 15,
    7, 15, 15, 15,  3, 15, 15, 11]

structure board_info where
  castling_rights : Nat
  enpassant : Square
  fifty_move_clock : Nat
  played_move : chessmove
  hash_key : Nat
  deriving DecidableEq, Repr

/-- The class `board`.  The arrays `pieces`, `bitboards` and `side_occupancy` are functions
of their index; `hash_key` is the key held by the `zobrist` member. -/
structure board where
  side : Color
  enpassant : Square
  castling_rights : Nat
  fifty_move_clock : Nat
  pieces : Square → Piece
  bitboards : Color → Piece → Nat
  side_occupancy : Color → Nat
  occupancy : Nat
  hash_key : Nat
  history : List board_info

/-- The colour other than `c`, written `c == White ? Black : White` in the source. -/
def other (c : Color) : Color := if c = White then Black else White

/-- Assignment to one bitboard `bitboards[c][p]`. -/
def set_bitboard (bbs : Color → Piece → Nat) (c : Color) (p : Piece) (v : Nat) :
    Color → Piece → Nat :=
  fun c2 p2 => if c2 = c ∧ p2 = p then v else bbs c2 p2

/-- Assignment to one array element. -/
def set_at {α β : Type} [DecidableEq α] (f : α → β) (i : α) (v : β) : α → β :=
  fun j => if j = i then v else f j

/-- Whitespace as skipped by stream extraction. -/
def is_space (c : Char) : Bool :=
  c = ' ' || c = '\t' || c = '\n' || c = '\r' || c.toNat = 11 || c.toNat = 12

/-- The whitespace-separated words that successive `ss >> word` extractions yield. -/
def stream_words : List Char → List Char → List (List Char)
  | [], cur => if cur = [] then [] else [cur.reverse]
  | c :: rest, cur =>
    if is_space c then
      (if cur = [] then stream_words rest [] else cur.reverse :: stream_words rest [])
    else stream_words rest (c :: cur)

/-- State of the piece-placement loop of `fen_to_board`. -/
structure placement where
  square : Int
  bitboards : Color → Piece → Nat
  hash_key : Nat
  pieces : Square → Piece

/-- One iteration of the piece-placement loop of `fen_to_board`. -/
def place_char (K : ZobristKeys) (st : placement) (fen_char : Char) : placement :=
  if fen_char.isDigit then
    { st with square := st.square + ((fen_char.toNat : Int) - 48) }
  else if fen_char = '/' then
    { st with square := st.square - 16 }
  else
    let cp := get_color_and_piece fen_char
    let piece_square : Square := st.square.toNat
    { square := st.square + 1
      bitboards := set_bitboard st.bitboards cp.1 cp.2
        (st.bitboards cp.1 cp.2 ||| bit piece_square)
      hash_key := update_psqt_hash K st.hash_key cp.1 cp.2 piece_square
      pieces := set_at st.pieces piece_square cp.2 }

/-- The member values set by the constructor `board::board` before it calls
`fen_to_board`. -/
def board.blank : board where
  side := White
  enpassant := Null_Square
  castling_rights := 0
  fifty_move_clock := 0
  pieces := fun _ => Null_Piece
  bitboards := fun _ _ => 0
  side_occupancy := fun _ => 0
  occupancy := 0
  hash_key := 0
  history := []

/-- The member function `fen_to_board`.  The extraction `ss >> fifty_move_clock` into a
`std::uint8_t` reads one character, and leaves the member unchanged when the stream has
failed.  The local `checks` is computed and never read; it is left out. -/
def board.fen_to_board (K : ZobristKeys) (b : board) (fen : String) : board :=
  let words := stream_words fen.toList []
  let board_str := words.getD 0 []
  let side_str := words.getD 1 []
  let castling_str := words.getD 2 []
  let enpassant_str := words.getD 3 []
  let fifty_move_clock :=
    match words.getD 4 [] with
    | c :: _ => c.toNat % 256
    | [] => b.fifty_move_clock
  let st := board_str.foldl (place_char K) ⟨A8, fun _ _ => 0, 0, fun _ => Null_Piece⟩
  let side_occupancy : Color → Nat := fun c =>
    [Pawn, Knight, Bishop, Rook, Queen, King].foldl (fun acc piece => acc ||| st.bitboards c piece) 0
  let occupancy := side_occupancy White ||| side_occupancy Black
  let side := if side_str = ['w'] then White else Black
  let hash_key := if side_str = ['w'] then st.hash_key else update_side_hash K st.hash_key
  let castling_rights := castling_str.foldl (fun r fen_right => r ||| char_to_castling_right fen_right) 0
  let hash_key := update_castling_hash K hash_key castling_rights
  let enpassant := square_from_string enpassant_str
  let hash_key := update_enpassant_hash K hash_key enpassant
  { side := side
    enpassant := enpassant
    castling_rights := castling_rights
    fifty_move_clock := fifty_move_clock
    pieces := st.pieces
    bitboards := st.bitboards
    side_occupancy := side_occupancy
    occupancy := occupancy
    hash_key := hash_key
    history := [⟨castling_rights, enpassant, fifty_move_clock, chessmove.null, hash_key⟩] }

/-- The default argument of the constructor `board::board`. -/
def default_fen : String := "rnbqkbnr/pppppppp/8/8/8/8/PPPPPPPP/RNBQKBNR w KQkq - 0 1"

/-- The constructor `board::board(fen)`. -/
def board.new (K : ZobristKeys) (fen : String) : board :=
  board.blank.fen_to_board K fen

def board.get_piece (b : board) (square : Nat) : Piece := b.pieces square

def board.get_side (b : board) : Color := b.side

def board.get_king_square (b : board) : Square := lsb (b.bitboards b.side King)

def board.get_occupancy (b : board) : Nat := b.occupancy

def board.get_side_occupancy (color : Color) (b : board) : Nat := b.side_occupancy color

def board.get_pieces (b : board) (color : Color) (piece : Piece) : Nat := b.bitboards color piece

def board.get_castle_rights (b : board) : Nat := b.castling_rights

def board.enpassant_square (b : board) : Square := b.enpassant

/-- The member template `attackers<color>(square, occ)`. -/
def board.attackers_occ (T : AttackTables) (color : Color) (b : board) (square : Square)
    (occ : Nat) : Nat :=
  let their_color := other color
  (T.attacks Ray.ROOK square occ &&& (b.bitboards their_color Rook ||| b.bitboards their_color Queen))
    ||| (T.attacks Ray.BISHOP square occ
          &&& (b.bitboards their_color Bishop ||| b.bitboards their_color Queen))
    ||| (T.KING_ATTACKS square &&& b.bitboards their_color King)
    ||| (T.KNIGHT_ATTACKS square &&& b.bitboards their_color Knight)
    ||| (T.PAWN_ATTACKS_TABLE color square &&& b.bitboards their_color Pawn)

/-- The member template `attackers<color>(square)`. -/
def board.attackers (T : AttackTables) (color : Color) (b : board) (square : Square) : Nat :=
  let their_color := other color
  (T.attacks Ray.ROOK square b.occupancy
      &&& (b.bitboards their_color Rook ||| b.bitboards their_color Queen))
    ||| (T.attacks Ray.BISHOP square b.occupancy
          &&& (b.bitboards their_color Bishop ||| b.bitboards their_color Queen))
    ||| (T.KING_ATTACKS square &&& b.bitboards their_color King)
    ||| (T.KNIGHT_ATTACKS square &&& b.bitboards their_color Knight)
    ||| (T.PAWN_ATTACKS_TABLE color square &&& b.bitboards their_color Pawn)

/-- The member function `in_check`; the integer result is converted to `bool`. -/
def board.in_check (T : AttackTables) (b : board) : Bool :=
  if b.side = White then
    b.attackers T Black b.get_king_square != 0
  else
    b.attackers T White b.get_king_square != 0

/-- The member template `get_checkmask<enemy_color>(square)`. -/
def board.get_checkmask (T : AttackTables) (enemy_color : Color) (b : board) (square : Square) :
    Nat :=
  let our_color := other enemy_color
  let checkers := b.attackers T our_color (lsb (b.bitboards our_color King))
  if checkers = 0 then full_board
  else
    let sq := (pop_lsb checkers).1
    let checkers := (pop_lsb checkers).2
    if checkers ≠ 0 then 0
    else T.pinmask square sq

/-- The member template `get_attacked_squares<their_color>()`. -/
def board.get_attacked_squares (T : AttackTables) (their_color : Color) (b : board) : Nat :=
  let attacked_squares := 0
  let pawns := b.bitboards their_color Pawn
  let attacked_squares :=
    while_pop 64 pawns (fun acc sq => acc ||| T.PAWN_ATTACKS_TABLE their_color sq) attacked_squares
  let knights := b.bitboards their_color Knight
  let attacked_squares :=
    while_pop 64 knights (fun acc sq => acc ||| T.KNIGHT_ATTACKS sq) attacked_squares
  let ad_pieces := b.bitboards their_color Bishop ||| b.bitboards their_color Queen
  let attacked_squares :=
    while_pop 64 ad_pieces (fun acc sq => acc ||| T.attacks Ray.BISHOP sq b.occupancy)
      attacked_squares
  let hv_pieces := b.bitboards their_color Rook ||| b.bitboards their_color Queen
  let attacked_squares :=
    while_pop 64 hv_pieces (fun acc sq => acc ||| T.attacks Ray.ROOK sq b.occupancy)
      attacked_squares
  attacked_squares ||| T.KING_ATTACKS (lsb (b.bitboards their_color King))

/-- The member template `get_safe_squares<their_color>(square)`: the result and the board
it leaves behind. -/
def board.get_safe_squares (T : AttackTables) (their_color : Color) (b : board)
    (square : Square) : Nat × board :=
  let b1 := { b with occupancy := pop_bit b.occupancy square }
  let attackers_squares := not64 (b1.get_attacked_squares T their_color)
  let b2 := { b1 with occupancy := set_bit b1.occupancy square }
  (attackers_squares, b2)

/-- The member function `update_castling_rights`. -/
def board.update_castling_rights (K : ZobristKeys) (b : board) (square : Square) : board :=
  let hash_key := update_castling_hash K b.hash_key b.castling_rights
  let castling_rights := b.castling_rights &&& castling_mask.getD square 0
  let hash_key := update_castling_hash K hash_key castling_rights
  { b with castling_rights := castling_rights, hash_key := hash_key }

/-- The member template `set_piece<our_color, make>(square, piece)`. -/
def board.set_piece (K : ZobristKeys) (our_color : Color) (make : Bool) (b : board)
    (square : Square) (piece : Piece) : board :=
  let bitboard := bit square
  { b with
    pieces := set_at b.pieces square piece
    bitboards := set_bitboard b.bitboards our_color piece (b.bitboards our_color piece ||| bitboard)
    side_occupancy := set_at b.side_occupancy our_color (b.side_occupancy our_color ||| bitboard)
    occupancy := b.occupancy ||| bitboard
    hash_key := if make then update_psqt_hash K b.hash_key our_color piece square else b.hash_key }

/-- The member template `unset_piece<our_color, make>(square, piece)`. -/
def board.unset_piece (K : ZobristKeys) (our_color : Color) (make : Bool) (b : board)
    (square : Square) (piece : Piece) : board :=
  let bitboard := not64 (bit square)
  { b with
    pieces := set_at b.pieces square Null_Piece
    bitboards := set_bitboard b.bitboards our_color piece (b.bitboards our_color piece &&& bitboard)
    side_occupancy := set_at b.side_occupancy our_color (b.side_occupancy our_color &&& bitboard)
    occupancy := b.occupancy &&& bitboard
    hash_key := if make then update_psqt_hash K b.hash_key our_color piece square else b.hash_key }

/-- The member template `replace_piece<our_color, their_color, make>(square, piece,
captured_piece)`. -/
def board.replace_piece (K : ZobristKeys) (our_color their_color : Color) (make : Bool)
    (b : board) (square : Square) (piece captured_piece : Piece) : board :=
  let bitboard := bit square
  let rem_bitboard := not64 bitboard
  let bitboards1 := set_bitboard b.bitboards their_color captured_piece
    (b.bitboards their_color captured_piece &&& rem_bitboard)
  let bitboards2 := set_bitboard bitboards1 our_color piece (bitboards1 our_color piece ||| bitboard)
  let side_occupancy1 := set_at b.side_occupancy their_color
    (b.side_occupancy their_color &&& rem_bitboard)
  let side_occupancy2 := set_at side_occupancy1 our_color (side_occupancy1 our_color ||| bitboard)
  { b with
    pieces := set_at b.pieces square piece
    bitboards := bitboards2
    side_occupancy := side_occupancy2
    hash_key :=
      if make then
        update_psqt_hash K (update_psqt_hash K b.hash_key our_color piece square)
          their_color captured_piece square
      else b.hash_key }

/-- The member template `make_null_move<color>()`.  The snapshot pushed is the one built
from the castling rights, en-passant square, clock, default move and hash; the source
passes `Piece::Null_Piece` as well, for which `board_info` has no member. -/
def board.make_null_move (K : ZobristKeys) (color : Color) (b : board) : board :=
  let their_color := other color
  let hash_key := update_side_hash K b.hash_key
  let hash_key := update_enpassant_hash K hash_key b.enpassant
  let enpassant := Null_Square
  let fifty_move_clock := (b.fifty_move_clock + 1) % 256
  { b with
    side := their_color
    hash_key := hash_key
    enpassant := enpassant
    fifty_move_clock := fifty_move_clock
    history := b.history ++ [⟨b.castling_rights, enpassant, fifty_move_clock, chessmove.null, hash_key⟩] }

/-- The member template `undo_null_move<color>()`; `none` when `history.back()` is taken of
an empty vector. -/
def board.undo_null_move (color : Color) (b : board) : Option board :=
  match b.history.dropLast.getLast? with
  | none => none
  | some hist =>
    some { b with
      history := b.history.dropLast
      side := color
      hash_key := hist.hash_key
      enpassant := hist.enpassant
      castling_rights := hist.castling_rights
      fifty_move_clock := hist.fifty_move_clock }

def board.get_hash_key (b : board) : Nat := b.hash_key

def board.increment_fifty_move_clock (b : board) : board :=
  { b with fifty_move_clock := (b.fifty_move_clock + 1) % 256 }

def board.reset_fifty_move_clock (b : board) : board :=
  { b with fifty_move_clock := 0 }

def board.set_side (b : board) (color : Color) : board :=
  { b with side := color }

def board.set_enpassant (K : ZobristKeys) (b : board) (square : Square) : board :=
  { b with enpassant := square, hash_key := update_enpassant_hash K b.hash_key square }

def board.emplace_history (b : board) (_captured_piece : Piece) (move : chessmove) : board :=
  { b with
    history := b.history ++
      [⟨b.castling_rights, b.enpassant, b.fifty_move_clock, move, b.hash_key⟩] }

def board.update_board_hash (K : ZobristKeys) (b : board) : board :=
  { b with hash_key := update_side_hash K (update_enpassant_hash K b.hash_key b.enpassant) }

/-- The member function `undo_history`; `none` when `history.back()` is taken of an empty
vector. -/
def board.undo_history (b : board) : Option board :=
  match b.history.dropLast.getLast? with
  | none => none
  | some b_info =>
    some { b with
      history := b.history.dropLast
      enpassant := b_info.enpassant
      fifty_move_clock := b_info.fifty_move_clock
      castling_rights := b_info.castling_rights
      hash_key := b_info.hash_key }

/-! ## move_generator.hpp -/

/-- The function template `shift<direction>(bitboard)`. -/
def shift (direction : Direction) (bitboard : Nat) : Nat :=
  match direction with
  | NORTH => shl64 bitboard 8
  | SOUTH => bitboard >>> 8
  | NORTH_2 => shl64 bitboard 16
  | SOUTH_2 => bitboard >>> 16
  | NORTH_EAST => shl64 (bitboard &&& not64 FILE_H_BB) 9
  | NORTH_WEST => shl64 (bitboard &&& not64 FILE_A_BB) 7
  | SOUTH_EAST => (bitboard &&& not64 FILE_H_BB) >>> 7
  | SOUTH_WEST => (bitboard &&& not64 FILE_A_BB) >>> 9
  | EAST => shl64 (bitboard &&& not64 FILE_H_BB) 1
  | WEST => (bitboard &&& not64 FILE_A_BB) >>> 1

/-- The constant `penultimate_rank` of `generate_pawn_moves`. -/
def penultimate_rank (our_color : Color) : Nat :=
  if our_color = White then ranks RANK_7 else ranks RANK_2

/-- The constant `not_penultimate_rank` of `generate_pawn_moves`. -/
def not_penultimate_rank (our_color : Color) : Nat :=
  if our_color = White then 0xFF00FFFFFFFFFFFF else 0xFFFFFFFFFFFF00FF

/-- The constant `enpassant_rank` of `generate_pawn_moves`. -/
def enpassant_rank (our_color : Color) : Nat :=
  if our_color = White then ranks RANK_3 else ranks RANK_6

/-- The constant `up` of `generate_pawn_moves`. -/
def up (our_color : Color) : Direction := if our_color = White then NORTH else SOUTH

/-- The constant `up_2` of `generate_pawn_moves`. -/
def up_2 (our_color : Color) : Direction := if our_color = White then NORTH_2 else SOUTH_2

/-- The constant `antidiagonal_capture` of `generate_pawn_moves`. -/
def antidiagonal_capture (our_color : Color) : Direction :=
  if our_color = White then NORTH_WEST else SOUTH_EAST

/-- The constant `diagonal_capture` of `generate_pawn_moves`. -/
def diagonal_capture (our_color : Color) : Direction :=
  if our_color = White then NORTH_EAST else SOUTH_WEST

/-- The block `// PAWN PUSH` of `generate_pawn_moves` (inside `if constexpr
(!captures_only)`). -/
def pawn_pushes (our_color : Color) (ml : movelist) (pawn_bitboard checkmask empty : Nat) :
    movelist :=
  let pawns_not_penultimate := pawn_bitboard &&& not_penultimate_rank our_color
  let blocking_squares := empty &&& checkmask
  let bitboard_push_1 := shift (up our_color) pawns_not_penultimate &&& empty
  let bitboard_push_2 :=
    shift (up our_color) (bitboard_push_1 &&& enpassant_rank our_color) &&& blocking_squares
  let bitboard_push_1 := bitboard_push_1 &&& checkmask
  let ml := while_pop 64 bitboard_push_1 (fun ml pawn_square =>
    ml.add (chessmove.new4 (sq_sub pawn_square (up our_color)) pawn_square QUIET Pawn)) ml
  while_pop 64 bitboard_push_2 (fun ml pawn_square =>
    ml.add (chessmove.new4 (sq_sub pawn_square (up_2 our_color)) pawn_square DOUBLE_PAWN_PUSH
      Pawn)) ml

/-- One iteration of the promotion-push loop of `generate_pawn_moves`. -/
def promote_push_body (our_color : Color) (captures_only : Bool) (ml : movelist)
    (pawn_square : Square) : movelist :=
  let ml := ml.add
    (chessmove.new4 (sq_sub pawn_square (up our_color)) pawn_square QUEEN_PROMOTION Pawn)
  if !captures_only then
    let ml := ml.add
      (chessmove.new4 (sq_sub pawn_square (up our_color)) pawn_square ROOK_PROMOTION Pawn)
    let ml := ml.add
      (chessmove.new4 (sq_sub pawn_square (up our_color)) pawn_square BISHOP_PROMOTION Pawn)
    ml.add (chessmove.new4 (sq_sub pawn_square (up our_color)) pawn_square KNIGHT_PROMOTION Pawn)
  else ml

/-- One iteration of a promotion-capture loop of `generate_pawn_moves`, for the capture
direction `d`. -/
def promote_capture_body (d : Direction) (captures_only : Bool) (b : board) (ml : movelist)
    (pawn_square : Square) : movelist :=
  let captured_piece := b.get_piece pawn_square
  let ml := ml.add
    (chessmove.new5 (sq_sub pawn_square d) pawn_square QUEEN_PROMOTION_CAPTURE Pawn captured_piece)
  if !captures_only then
    let ml := ml.add
      (chessmove.new5 (sq_sub pawn_square d) pawn_square ROOK_PROMOTION_CAPTURE Pawn
        captured_piece)
    let ml := ml.add
      (chessmove.new5 (sq_sub pawn_square d) pawn_square BISHOP_PROMOTION_CAPTURE Pawn
        captured_piece)
    ml.add
      (chessmove.new5 (sq_sub pawn_square d) pawn_square KNIGHT_PROMOTION_CAPTURE Pawn
        captured_piece)
  else ml

/-- The block `// PAWNS PROMOTE` of `generate_pawn_moves`. -/
def pawn_promotions (our_color : Color) (captures_only : Bool) (b : board) (ml : movelist)
    (pawn_bitboard checkmask enemy empty : Nat) : movelist :=
  let pawns_penultimate := pawn_bitboard &&& penultimate_rank our_color
  let blocking_squares := empty &&& checkmask
  let capture_bitboard := enemy &&& checkmask
  if pawns_penultimate ≠ 0 then
    let bitboard_promote_push := shift (up our_color) pawns_penultimate &&& blocking_squares
    let bitboard_promote_antidiagonal :=
      shift (antidiagonal_capture our_color) pawns_penultimate &&& capture_bitboard
    let bitboard_promote_diagonal :=
      shift (diagonal_capture our_color) pawns_penultimate &&& capture_bitboard
    let ml := while_pop 64 bitboard_promote_push (promote_push_body our_color captures_only) ml
    let ml := while_pop 64 bitboard_promote_antidiagonal
      (promote_capture_body (antidiagonal_capture our_color) captures_only b) ml
    while_pop 64 bitboard_promote_diagonal
      (promote_capture_body (diagonal_capture our_color) captures_only b) ml
  else ml

/-- The block `// PAWN CAPTURES` of `generate_pawn_moves`. -/
def pawn_captures (our_color : Color) (b : board) (ml : movelist)
    (pawn_bitboard checkmask enemy : Nat) : movelist :=
  let pawns_not_penultimate := pawn_bitboard &&& not_penultimate_rank our_color
  let capture_bitboard := enemy &&& checkmask
  let bitboard_left_capture :=
    shift (antidiagonal_capture our_color) pawns_not_penultimate &&& capture_bitboard
  let bitboard_right_capture :=
    shift (diagonal_capture our_color) pawns_not_penultimate &&& capture_bitboard
  let ml := while_pop 64 bitboard_left_capture (fun ml pawn_square =>
    let captured_piece := b.get_piece pawn_square
    ml.add (chessmove.new5 (sq_sub pawn_square (antidiagonal_capture our_color)) pawn_square
      CAPTURE Pawn captured_piece)) ml
  while_pop 64 bitboard_right_capture (fun ml pawn_square =>
    let captured_piece := b.get_piece pawn_square
    ml.add (chessmove.new5 (sq_sub pawn_square (diagonal_capture our_color)) pawn_square
      CAPTURE Pawn captured_piece)) ml

/-- The block `// EN PASSANT` of `generate_pawn_moves`. -/
def pawn_enpassant (our_color : Color) (b : board) (ml : movelist) (pawn_bitboard : Nat) :
    movelist :=
  let pawns_not_penultimate := pawn_bitboard &&& not_penultimate_rank our_color
  let enpassant_square := b.enpassant_square
  if enpassant_square ≠ Null_Square then
    let enpassant_bitboard := bit enpassant_square
    let enpassant_antidiagonal :=
      shift (antidiagonal_capture our_color) pawns_not_penultimate &&& enpassant_bitboard
    let ml :=
      if enpassant_antidiagonal ≠ 0 then
        ml.add (chessmove.new5 (sq_sub enpassant_square (antidiagonal_capture our_color))
          enpassant_square EN_PASSANT Pawn Pawn)
      else ml
    let enpassant_diagonal :=
      shift (diagonal_capture our_color) pawns_not_penultimate &&& enpassant_bitboard
    if enpassant_diagonal ≠ 0 then
      ml.add (chessmove.new5 (sq_sub enpassant_square (diagonal_capture our_color))
        enpassant_square EN_PASSANT Pawn Pawn)
    else ml
  else ml

/-- The function template `generate_pawn_moves<our_color, captures_only>`: its four blocks in
source order. -/
def generate_pawn_moves (our_color : Color) (captures_only : Bool) (b : board) (ml : movelist)
    (pawn_bitboard checkmask enemy empty : Nat) : movelist :=
  let ml := if !captures_only then pawn_pushes our_color ml pawn_bitboard checkmask empty else ml
  let ml := pawn_promotions our_color captures_only b ml pawn_bitboard checkmask enemy empty
  let ml := pawn_captures our_color b ml pawn_bitboard checkmask enemy
  pawn_enpassant our_color b ml pawn_bitboard

/-- The function template `generate_knight_moves<our_color, captures_only>`. -/
def generate_knight_moves (T : AttackTables) (_our_color : Color) (captures_only : Bool)
    (b : board) (ml : movelist) (knight_bitboard target enemy empty _occupancy : Nat) :
    movelist :=
  while_pop 64 knight_bitboard (fun ml square =>
    let attack_bitboard := T.KNIGHT_ATTACKS square &&& target
    let captures := attack_bitboard &&& enemy
    let ml := while_pop 64 captures (fun ml target_square =>
      let captured_piece := b.get_piece target_square
      ml.add (chessmove.new5 square target_square CAPTURE Knight captured_piece)) ml
    if !captures_only then
      let quiets := attack_bitboard &&& empty
      while_pop 64 quiets (fun ml target_square =>
        ml.add (chessmove.new4 square target_square QUIET Knight)) ml
    else ml) ml

/-- The function template `generate_king_moves<our_color, captures_only>`. -/
def generate_king_moves (T : AttackTables) (_our_color : Color) (captures_only : Bool)
    (b : board) (ml : movelist) (king_square : Square) (safe_squares empty enemy : Nat) :
    movelist :=
  let king_moves := T.KING_ATTACKS king_square &&& safe_squares
  let king_captures := king_moves &&& enemy
  let ml := while_pop 64 king_captures (fun ml target_square =>
    let captured_piece := b.get_piece target_square
    ml.add (chessmove.new5 king_square target_square CAPTURE King captured_piece)) ml
  if !captures_only then
    let king_quiets := king_moves &&& empty
    while_pop 64 king_quiets (fun ml target_square =>
      ml.add (chessmove.new4 king_square target_square QUIET King)) ml
  else ml

/-- The function template `generate_castle_moves<our_color>`. -/
def generate_castle_moves (our_color : Color) (ml : movelist)
    (castling_right safe_squares empty : Nat) : movelist :=
  let king_e_square := if our_color = White then E1 else E8
  let king_g_square := if our_color = White then G1 else G8
  let king_c_square := if our_color = White then C1 else C8
  let kingside_castle_efg_mask := if our_color = White then 0x70 else 0x7000000000000000
  let kingside_castle_fg_mask := if our_color = White then 0x60 else 0x6000000000000000
  let queenside_castle_cde_mask := if our_color = White then 0x1c else 0x1c00000000000000
  let queenside_castle_bcd_mask := if our_color = White then 0xe else 0xe00000000000000
  let kingside_castle_right :=
    if our_color = White then CASTLE_WHITE_KINGSIDE else CASTLE_BLACK_KINGSIDE
  let queenside_castle_right :=
    if our_color = White then CASTLE_WHITE_QUEENSIDE else CASTLE_BLACK_QUEENSIDE
  let ml :=
    if castling_right &&& kingside_castle_right ≠ 0
        ∧ safe_squares &&& kingside_castle_efg_mask = kingside_castle_efg_mask
        ∧ empty &&& kingside_castle_fg_mask = kingside_castle_fg_mask then
      ml.add (chessmove.new4 king_e_square king_g_square KING_CASTLE King)
    else ml
  if castling_right &&& queenside_castle_right ≠ 0
      ∧ safe_squares &&& queenside_castle_cde_mask = queenside_castle_cde_mask
      ∧ empty &&& queenside_castle_bcd_mask = queenside_castle_bcd_mask then
    ml.add (chessmove.new4 king_e_square king_c_square QUEEN_CASTLE King)
  else ml

/-- The function template `generate_slider_moves<our_color, ray, piece, captures_only>`. -/
def generate_slider_moves (T : AttackTables) (_our_color : Color) (ray : Ray) (piece : Piece)
    (captures_only : Bool) (b : board) (ml : movelist)
    (piece_bitboard checkmask enemy empty occupancy : Nat) : movelist :=
  while_pop 64 piece_bitboard (fun ml square =>
    let attack_bitboard := T.attacks ray square occupancy &&& checkmask
    let captures := attack_bitboard &&& enemy
    let ml := while_pop 64 captures (fun ml target_square =>
      let captured_piece := b.get_piece target_square
      ml.add (chessmove.new5 square target_square CAPTURE piece captured_piece)) ml
    if !captures_only then
      let quiets := attack_bitboard &&& empty
      while_pop 64 quiets (fun ml target_square =>
        ml.add (chessmove.new4 square target_square QUIET piece)) ml
    else ml) ml

/-- The function template `generate_all_moves<our_color, captures_only>(b, ml)`: the
returned flag, the board it leaves behind and the move buffer. -/
def generate_all_moves (T : AttackTables) (our_color : Color) (captures_only : Bool)
    (b : board) (ml : movelist) : Bool × board × movelist :=
  let enemy_color := other our_color
  let king_square := b.get_king_square
  let enemy_pieces := b.get_side_occupancy enemy_color
  let occupancy := b.get_occupancy
  let empty := not64 occupancy
  let safe := b.get_safe_squares T enemy_color king_square
  let safe_squares := safe.1
  let b := safe.2
  let checkmask := b.get_checkmask T enemy_color king_square
  let ml := generate_king_moves T our_color captures_only b ml king_square safe_squares empty
    enemy_pieces
  let rook_bitboard := b.get_pieces our_color Rook
  let bishop_bitboard := b.get_pieces our_color Bishop
  let queen_bitboard := b.get_pieces our_color Queen
  let knight_bitboard := b.get_pieces our_color Knight
  let pawn_bitboard := b.get_pieces our_color Pawn
  let ml := generate_slider_moves T our_color Ray.ROOK Rook captures_only b ml rook_bitboard
    checkmask enemy_pieces empty occupancy
  let ml := generate_slider_moves T our_color Ray.BISHOP Bishop captures_only b ml
    bishop_bitboard checkmask enemy_pieces empty occupancy
  let ml := generate_slider_moves T our_color Ray.QUEEN Queen captures_only b ml queen_bitboard
    checkmask enemy_pieces empty occupancy
  let ml := generate_knight_moves T our_color captures_only b ml knight_bitboard checkmask
    enemy_pieces empty occupancy
  let ml := generate_pawn_moves our_color captures_only b ml pawn_bitboard checkmask
    enemy_pieces empty
  let ml :=
    if !captures_only then
      generate_castle_moves our_color ml b.get_castle_rights safe_squares empty
    else ml
  (checkmask == full_board, b, ml)

/-! ## Sample data -/

/-- A concrete set of hash keys, used to instantiate statements on concrete positions. -/
def sample_keys : ZobristKeys :=
  ⟨fun c p s => 1000 * c.val + 100 * p.val + s + 1, 7777, fun i => 90000 + i,
    fun f => 80000 + f⟩

/-! ## Auxiliary predicates -/

/-- `k` is the index of the lowest set bit of `x`. -/
def IsLowest (x k : Nat) : Prop := x.testBit k = true ∧ ∀ j, j < k → x.testBit j = false

/-- The 64-bit typing of the bitboard members of a `board`. -/
def board.wf (b : board) : Prop :=
  b.occupancy < 2 ^ 64 ∧ (∀ c, b.side_occupancy c < 2 ^ 64) ∧ ∀ c p, b.bitboards c p < 2 ^ 64

/-- The moves that `generate_slider_moves` adds: for a piece on `square` and a target in its
masked attack set, a capture of the mailbox piece on an enemy square or, in full mode, a quiet
move to an empty square. -/
def slider_move (T : AttackTables) (ray : Ray) (piece : Piece) (captures_only : Bool) (b : board)
    (piece_bitboard checkmask enemy empty occupancy : Nat) (m : chessmove) : Prop :=
  ∃ square target_square, piece_bitboard.testBit square = true
    ∧ (T.attacks ray square occupancy &&& checkmask).testBit target_square = true
    ∧ ((enemy.testBit target_square = true
          ∧ m = chessmove.new5 square target_square CAPTURE piece (b.get_piece target_square))
        ∨ (captures_only = false ∧ empty.testBit target_square = true
          ∧ m = chessmove.new4 square target_square QUIET piece))

/-- The moves that `generate_knight_moves` adds. -/
def knight_move (T : AttackTables) (captures_only : Bool) (b : board)
    (knight_bitboard target enemy empty : Nat) (m : chessmove) : Prop :=
  ∃ square target_square, knight_bitboard.testBit square = true
    ∧ (T.KNIGHT_ATTACKS square &&& target).testBit target_square = true
    ∧ ((enemy.testBit target_square = true
          ∧ m = chessmove.new5 square target_square CAPTURE Knight (b.get_piece target_square))
        ∨ (captures_only = false ∧ empty.testBit target_square = true
          ∧ m = chessmove.new4 square target_square QUIET Knight))

/-- The moves that `generate_king_moves` adds. -/
def king_move (T : AttackTables) (captures_only : Bool) (b : board) (king_square : Square)
    (safe_squares empty enemy : Nat) (m : chessmove) : Prop :=
  ∃ target_square, (T.KING_ATTACKS king_square &&& safe_squares).testBit target_square = true
    ∧ ((enemy.testBit target_square = true
          ∧ m = chessmove.new5 king_square target_square CAPTURE King (b.get_piece target_square))
        ∨ (captures_only = false ∧ empty.testBit target_square = true
          ∧ m = chessmove.new4 king_square target_square QUIET King))

/-- The king-side castling condition of `generate_castle_moves`. -/
def kingside_castle_ok (our_color : Color) (castling_right safe_squares empty : Nat) : Prop :=
  castling_right &&& (if our_color = White then CASTLE_WHITE_KINGSIDE else CASTLE_BLACK_KINGSIDE) ≠ 0
    ∧ safe_squares &&& (if our_color = White then 0x70 else 0x7000000000000000)
        = (if our_color = White then 0x70 else 0x7000000000000000)
    ∧ empty &&& (if our_color = White then 0x60 else 0x6000000000000000)
        = (if our_color = White then 0x60 else 0x6000000000000000)

/-- The queen-side castling condition of `generate_castle_moves`. -/
def queenside_castle_ok (our_color : Color) (castling_right safe_squares empty : Nat) : Prop :=
  castling_right &&& (if our_color = White then CASTLE_WHITE_QUEENSIDE else CASTLE_BLACK_QUEENSIDE)
      ≠ 0
    ∧ safe_squares &&& (if our_color = White then 0x1c else 0x1c00000000000000)
        = (if our_color = White then 0x1c else 0x1c00000000000000)
    ∧ empty &&& (if our_color = White then 0xe else 0xe00000000000000)
        = (if our_color = White then 0xe else 0xe00000000000000)


instance (our_color : Color) (castling_right safe_squares empty : Nat) :
    Decidable (kingside_castle_ok our_color castling_right safe_squares empty) := by
  unfold kingside_castle_ok
  infer_instance

instance (our_color : Color) (castling_right safe_squares empty : Nat) :
    Decidable (queenside_castle_ok our_color castling_right safe_squares empty) := by
  unfold queenside_castle_ok
  infer_instance

/-- The moves that `generate_pawn_moves` adds, block by block: single push, double push,
promoting push, promoting capture, capture, en passant. -/
def pawn_move (our_color : Color) (captures_only : Bool) (b : board)
    (pawn_bitboard checkmask enemy empty : Nat) (m : chessmove) : Prop :=
  (captures_only = false ∧ ∃ t,
      (shift (up our_color) (pawn_bitboard &&& not_penultimate_rank our_color) &&& empty
        &&& checkmask).testBit t = true
      ∧ m = chessmove.new4 (sq_sub t (up our_color)) t QUIET Pawn)
  ∨ (captures_only = false ∧ ∃ t,
      (shift (up our_color)
          (shift (up our_color) (pawn_bitboard &&& not_penultimate_rank our_color) &&& empty
            &&& enpassant_rank our_color)
        &&& (empty &&& checkmask)).testBit t = true
      ∧ m = chessmove.new4 (sq_sub t (up_2 our_color)) t DOUBLE_PAWN_PUSH Pawn)
  ∨ (∃ t k,
      (shift (up our_color) (pawn_bitboard &&& penultimate_rank our_color)
        &&& (empty &&& checkmask)).testBit t = true
      ∧ (k = QUEEN_PROMOTION ∨ (captures_only = false
          ∧ (k = ROOK_PROMOTION ∨ k = BISHOP_PROMOTION ∨ k = KNIGHT_PROMOTION)))
      ∧ m = chessmove.new4 (sq_sub t (up our_color)) t k Pawn)
  ∨ (∃ d t k, (d = antidiagonal_capture our_color ∨ d = diagonal_capture our_color)
      ∧ (shift d (pawn_bitboard &&& penultimate_rank our_color)
        &&& (enemy &&& checkmask)).testBit t = true
      ∧ (k = QUEEN_PROMOTION_CAPTURE ∨ (captures_only = false
          ∧ (k = ROOK_PROMOTION_CAPTURE ∨ k = BISHOP_PROMOTION_CAPTURE
            ∨ k = KNIGHT_PROMOTION_CAPTURE)))
      ∧ m = chessmove.new5 (sq_sub t d) t k Pawn (b.get_piece t))
  ∨ (∃ d t, (d = antidiagonal_capture our_color ∨ d = diagonal_capture our_color)
      ∧ (shift d (pawn_bitboard &&& not_penultimate_rank our_color)
        &&& (enemy &&& checkmask)).testBit t = true
      ∧ m = chessmove.new5 (sq_sub t d) t CAPTURE Pawn (b.get_piece t))
  ∨ (∃ d, (d = antidiagonal_capture our_color ∨ d = diagonal_capture our_color)
      ∧ b.enpassant_square ≠ Null_Square
      ∧ shift d (pawn_bitboard &&& not_penultimate_rank our_color) &&& bit b.enpassant_square ≠ 0
      ∧ m = chessmove.new5 (sq_sub b.enpassant_square d) b.enpassant_square EN_PASSANT Pawn Pawn)


/-- The checkmask that `generate_all_moves` computes: `get_checkmask` on the board that
`get_safe_squares` leaves behind. -/
def gen_checkmask (T : AttackTables) (our_color : Color) (b : board) : Nat :=
  (b.get_safe_squares T (other our_color) b.get_king_square).2.get_checkmask T (other our_color)
    b.get_king_square

/-- The safe squares that `generate_all_moves` computes. -/
def gen_safe_squares (T : AttackTables) (our_color : Color) (b : board) : Nat :=
  (b.get_safe_squares T (other our_color) b.get_king_square).1

/-- The moves that `generate_all_moves` adds, generator by generator. -/
inductive generated_move (T : AttackTables) (our_color : Color) (captures_only : Bool)
    (b : board) (m : chessmove) : Prop where
  | king (h : king_move T captures_only b b.get_king_square (gen_safe_squares T our_color b)
      (not64 b.occupancy) (b.side_occupancy (other our_color)) m)
  | rook (h : slider_move T Ray.ROOK Rook captures_only b (b.bitboards our_color Rook)
      (gen_checkmask T our_color b) (b.side_occupancy (other our_color)) (not64 b.occupancy)
      b.occupancy m)
  | bishop (h : slider_move T Ray.BISHOP Bishop captures_only b (b.bitboards our_color Bishop)
      (gen_checkmask T our_color b) (b.side_occupancy (other our_color)) (not64 b.occupancy)
      b.occupancy m)
  | queen (h : slider_move T Ray.QUEEN Queen captures_only b (b.bitboards our_color Queen)
      (gen_checkmask T our_color b) (b.side_occupancy (other our_color)) (not64 b.occupancy)
      b.occupancy m)
  | knight (h : knight_move T captures_only b (b.bitboards our_color Knight)
      (gen_checkmask T our_color b) (b.side_occupancy (other our_color)) (not64 b.occupancy) m)
  | pawn (h : pawn_move our_color captures_only b (b.bitboards our_color Pawn)
      (gen_checkmask T our_color b) (b.side_occupancy (other our_color)) (not64 b.occupancy) m)
  | king_castle (hfull : captures_only = false)
      (hok : kingside_castle_ok our_color b.castling_rights (gen_safe_squares T our_color b)
        (not64 b.occupancy))
      (hm : m = chessmove.new4 (if our_color = White then E1 else E8)
        (if our_color = White then G1 else G8) KING_CASTLE King)
  | queen_castle (hfull : captures_only = false)
      (hok : queenside_castle_ok our_color b.castling_rights (gen_safe_squares T our_color b)
        (not64 b.occupancy))
      (hm : m = chessmove.new4 (if our_color = White then E1 else E8)
        (if our_color = White then C1 else C8) QUEEN_CASTLE King)

/-- The buffer of `generate_all_moves` after its six piece generators, before castling. -/
def generated_pieces (T : AttackTables) (c : Color) (captures_only : Bool) (b : board)
    (ml : movelist) : movelist :=
  generate_pawn_moves c captures_only (b.get_safe_squares T (other c) b.get_king_square).2
    (generate_knight_moves T c captures_only (b.get_safe_squares T (other c) b.get_king_square).2
      (generate_slider_moves T c Ray.QUEEN Queen captures_only
        (b.get_safe_squares T (other c) b.get_king_square).2
        (generate_slider_moves T c Ray.BISHOP Bishop captures_only
          (b.get_safe_squares T (other c) b.get_king_square).2
          (generate_slider_moves T c Ray.ROOK Rook captures_only
            (b.get_safe_squares T (other c) b.get_king_square).2
            (generate_king_moves T c captures_only
              (b.get_safe_squares T (other c) b.get_king_square).2 ml b.get_king_square
              (gen_safe_squares T c b) (not64 b.occupancy) (b.side_occupancy (other c)))
            (b.bitboards c Rook) (gen_checkmask T c b) (b.side_occupancy (other c))
            (not64 b.occupancy) b.occupancy)
          (b.bitboards c Bishop) (gen_checkmask T c b) (b.side_occupancy (other c))
          (not64 b.occupancy) b.occupancy)
        (b.bitboards c Queen) (gen_checkmask T c b) (b.side_occupancy (other c))
        (not64 b.occupancy) b.occupancy)
      (b.bitboards c Knight) (gen_checkmask T c b) (b.side_occupancy (other c))
      (not64 b.occupancy) b.occupancy)
    (b.bitboards c Pawn) (gen_checkmask T c b) (b.side_occupancy (other c)) (not64 b.occupancy)

instance (b : board) : Decidable b.wf := by
  unfold board.wf
  infer_instance

/-- The standard initial position, as the constructor builds it from its default argument
(for the sample keys). -/
def initial_board : board := board.new sample_keys default_fen


/-- A position with a single check by a slider and an en-passant square: White king h2,
White pawn d5, Black bishop b8, Black pawn c5 (it has just played c7-c5), Black king h8. -/
def bishop_check_board : board := board.new sample_keys "1b5k/8/8/2pP4/8/8/7K/8 w - c6 0 1"

/-- A position with a double check and an en-passant square: White king e1, White pawn d5,
Black rook e8, Black knight f3, Black pawn c5, Black king h8. -/
def double_check_board : board :=
  board.new sample_keys "4r2k/8/8/2pP4/8/5n2/8/4K3 w - c6 0 1"

/-- The position `bishop_check_board` after the en-passant capture d5xc6: the White pawn has
gone from d5 to c6 and the Black pawn c5 is removed. -/
def bishop_check_board_after : board :=
  ((bishop_check_board.unset_piece sample_keys White true 35 Pawn).unset_piece sample_keys Black
    true 34 Pawn).set_piece sample_keys White true 42 Pawn

/-- The position `double_check_board` after the en-passant capture d5xc6. -/
def double_check_board_after : board :=
  ((double_check_board.unset_piece sample_keys White true 35 Pawn).unset_piece sample_keys Black
    true 34 Pawn).set_piece sample_keys White true 42 Pawn

/-- The castling-rights bit index of a colour and wing (`true` is the king side). -/
def castle_bit (c : Color) (kingside : Bool) : Nat :=
  match c, kingside with
  | White, true => 0
  | White, false => 1
  | Black, true => 2
  | Black, false => 3

/-- The square on file `file` (`0 .. 7`) of the home rank of colour `c`. -/
def home_square (c : Color) (file : Nat) : Square :=
  match c with
  | White => file
  | Black => 56 + file


/-- Two boards with the same piece placement, side, castling rights and en-passant square
(the clock, hash and history may differ). -/
def same_position (b1 b2 : board) : Prop :=
  b1.side = b2.side ∧ b1.enpassant = b2.enpassant ∧ b1.castling_rights = b2.castling_rights
    ∧ b1.pieces = b2.pieces ∧ b1.bitboards = b2.bitboards
    ∧ b1.side_occupancy = b2.side_occupancy ∧ b1.occupancy = b2.occupancy


/-- Invariant 1: `occupancy == side_occupancy[White] | side_occupancy[Black]`. -/
def inv1 (b : board) : Prop :=
  b.occupancy = b.side_occupancy White ||| b.side_occupancy Black

/-- Invariant 2: `side_occupancy[c]` is the union of the six piece bitboards of `c`. -/
def inv2 (b : board) : Prop :=
  ∀ c, b.side_occupancy c
    = b.bitboards c Pawn ||| b.bitboards c Knight ||| b.bitboards c Bishop
      ||| b.bitboards c Rook ||| b.bitboards c Queen ||| b.bitboards c King

/-- Invariant 3: for every square `s`, `pieces[s]` is the piece `p` such that
`bitboards[c][p]` has bit `s` set for some `c`, or `Null_Piece` if there is no such
`(c, p)`. -/
def inv3 (b : board) : Prop :=
  ∀ s, s < 64 → ∀ p, p ≠ Null_Piece →
    ((∃ c, (b.bitboards c p).testBit s = true) ↔ b.pieces s = p)

/-- Invariants 1-3 of a position, on 64-bit bitboards. -/
def invariants (b : board) : Prop :=
  b.wf ∧ inv1 b ∧ inv2 b ∧ inv3 b

/-- The square `s` is empty: no piece bitboard contains it. -/
def square_empty (b : board) (s : Square) : Prop :=
  ∀ c p, p ≠ Null_Piece → (b.bitboards c p).testBit s = false

/-- The square `s` holds the piece `p` of colour `c`: the bitboard of `(c, p)` is the one
piece bitboard that contains `s`. -/
def square_holds (b : board) (s : Square) (c : Color) (p : Piece) : Prop :=
  ∀ c2 p2, p2 ≠ Null_Piece → ((b.bitboards c2 p2).testBit s = true ↔ (c2 = c ∧ p2 = p))


instance (b : board) : Decidable (invariants b) := by
  unfold invariants inv1 inv2 inv3
  infer_instance

instance (b : board) (s : Square) : Decidable (square_empty b s) := by
  unfold square_empty
  infer_instance

instance (b : board) (s : Square) (c : Color) (p : Piece) : Decidable (square_holds b s c p) := by
  unfold square_holds
  infer_instance

/-- Exclusive-or of `f x` over the elements of a list. -/
def xor_fold {α : Type} (l : List α) (f : α → Nat) : Nat :=
  l.foldl (fun acc x => acc ^^^ f x) 0

/-- The piece-square part of the from-scratch hash: the key of every (colour, piece, square)
whose bitboard bit is set. -/
def psqt_hash (K : ZobristKeys) (bbs : Color → Piece → Nat) : Nat :=
  xor_fold [White, Black] (fun c =>
    xor_fold [Pawn, Knight, Bishop, Rook, Queen, King] (fun p =>
      xor_fold (List.range 64) (fun s => if (bbs c p).testBit s then K.psqt c p s else 0)))

/-- The from-scratch recomputation of the hash over piece placement, side to move, castling
rights and en-passant square, in the order `fen_to_board` folds them. -/
def recomputed_hash (K : ZobristKeys) (b : board) : Nat :=
  psqt_hash K b.bitboards ^^^ (if b.side = Black then K.side else 0)
    ^^^ castling_key K b.castling_rights ^^^ enpassant_key K b.enpassant

/-- Invariant 4: the hash equals its from-scratch recomputation. -/
def hash_ok (K : ZobristKeys) (b : board) : Prop :=
  b.hash_key = recomputed_hash K b

instance (K : ZobristKeys) (b : board) : Decidable (hash_ok K b) := by
  unfold hash_ok
  infer_instance


/-! ## History round trips -/

/-- The scalar and piece mutations a caller performs between two history snapshots. -/
inductive Mutation where
  | update_castling_rights (square : Square)
  | set_enpassant (square : Square)
  | increment_fifty_move_clock
  | reset_fifty_move_clock
  | update_board_hash
  | set_piece (our_color : Color) (make : Bool) (square : Square) (piece : Piece)
  | unset_piece (our_color : Color) (make : Bool) (square : Square) (piece : Piece)
  | replace_piece (our_color their_color : Color) (make : Bool) (square : Square)
      (piece captured_piece : Piece)

/-- One mutation applied to a position. -/
def Mutation.apply (K : ZobristKeys) (b : board) : Mutation → board
  | .update_castling_rights square => b.update_castling_rights K square
  | .set_enpassant square => b.set_enpassant K square
  | .increment_fifty_move_clock => b.increment_fifty_move_clock
  | .reset_fifty_move_clock => b.reset_fifty_move_clock
  | .update_board_hash => b.update_board_hash K
  | .set_piece our_color make square piece => b.set_piece K our_color make square piece
  | .unset_piece our_color make square piece => b.unset_piece K our_color make square piece
  | .replace_piece our_color their_color make square piece captured_piece =>
    b.replace_piece K our_color their_color make square piece captured_piece

/-- A sequence of mutations applied in order. -/
def apply_mutations (K : ZobristKeys) (ms : List Mutation) (b : board) : board :=
  ms.foldl (Mutation.apply K) b

/-- The top history snapshot records the current castling rights, en-passant square,
fifty-move clock and hash. -/
def snapshot_mirrors (b : board) : Prop :=
  b.history.getLast?.map
      (fun top => (top.castling_rights, top.enpassant, top.fifty_move_clock, top.hash_key))
    = some (b.castling_rights, b.enpassant, b.fifty_move_clock, b.hash_key)

instance (b : board) : Decidable (snapshot_mirrors b) := by
  unfold snapshot_mirrors
  infer_instance

/-- The initial position after 207 further clock increments (48 + 207 = 255) and a
snapshot. -/
def clock_max_board : board :=
  (Nat.iterate board.increment_fifty_move_clock 207 initial_board).emplace_history
    Null_Piece chessmove.null

/-- A sample sequence of mutations for the initial position. -/
def sample_mutations : List Mutation :=
  [.unset_piece White true 12 Pawn, .set_piece White true 28 Pawn, .set_enpassant 20,
    .reset_fifty_move_clock, .update_castling_rights 7, .increment_fifty_move_clock,
    .replace_piece White Black true 52 Knight Pawn, .update_board_hash]


/-! ## board.hpp: `is_draw` -/

/-- The `for` loop of `is_draw`: `i` runs down in steps of two while `i >= end`, counting the
snapshots whose hash is the current one.  Every iteration lowers `i`, so `i + 1` units of fuel
run the loop to its end. -/
def is_draw_loop (history : List board_info) (hash_key : Nat) (end_index : Int) :
    Nat → Int → Nat → Nat
  | 0, _, repetitions => repetitions
  | fuel + 1, i, repetitions =>
    if i ≥ end_index then
      is_draw_loop history hash_key end_index fuel (i - 2)
        (match history.get? i.toNat with
          | some info => if info.hash_key = hash_key then repetitions + 1 else repetitions
          | none => repetitions)
    else repetitions

/-- The member function `is_draw`. -/
def board.is_draw (b : board) : Bool :=
  if b.fifty_move_clock ≥ 100 then true
  else
    let end_index : Int := max 0 ((b.history.length : Int) - 1 - (b.fifty_move_clock : Int))
    let repetitions :=
      is_draw_loop b.history b.hash_key end_index b.history.length
        ((b.history.length : Int) - 3) 0
    decide (repetitions ≥ 2)

/-- The indices the repetition scan looks at: `size - 3`, `size - 5`, ... not below
`max(0, size - 1 - clock)`. -/
def scanned_index (size clock i : Nat) : Bool :=
  decide (i + 3 ≤ size) && decide ((size - 3 - i) % 2 = 0) && decide (size - 1 - clock ≤ i)

/-- The number of scanned history entries whose hash equals the current hash. -/
def repetition_count (b : board) : Nat :=
  ((List.range b.history.length).filter (fun i =>
    scanned_index b.history.length b.fifty_move_clock i
      && decide ((b.history.get? i).map (fun info => info.hash_key) = some b.hash_key))).length


/-- The entries the loop of `is_draw` counts when it is started at index `i`: those at
`i`, `i - 2`, ... not below `end_index` whose hash is the current one. -/
def loop_counts (history : List board_info) (hash_key : Nat) (end_index i : Int) (j : Nat) :
    Bool :=
  decide ((j : Int) ≤ i) && decide ((i - (j : Int)) % 2 = 0) && decide (end_index ≤ (j : Int))
    && decide ((history.get? j).map (fun info => info.hash_key) = some hash_key)


/-- A sample position for `is_draw`: the initial array with the given clock, current hash 5 and
one snapshot per listed hash. -/
def draw_sample (clock : Nat) (hashes : List Nat) : board :=
  { initial_board with
    fifty_move_clock := clock
    hash_key := 5
    history := hashes.map (fun h => ⟨15, Null_Square, clock, chessmove.null, h⟩) }


/-- The castling rights tied to a square: the queen-side right of a colour to its a-file
corner, the king-side right to its h-file corner, both rights to its king square, and no
right to any other square. -/
def tied_rights (s : Square) : Nat :=
  if s = A1 then CASTLE_WHITE_QUEENSIDE
  else if s = H1 then CASTLE_WHITE_KINGSIDE
  else if s = E1 then CASTLE_WHITE_KINGSIDE ||| CASTLE_WHITE_QUEENSIDE
  else if s = A8 then CASTLE_BLACK_QUEENSIDE
  else if s = H8 then CASTLE_BLACK_KINGSIDE
  else if s = E8 then CASTLE_BLACK_KINGSIDE ||| CASTLE_BLACK_QUEENSIDE
  else 0


/-! ## Attack semantics -/

/-- The coordinates (`f`, `r`) are on the board. -/
def on_board (f r : Int) : Prop := 0 ≤ f ∧ f < 8 ∧ 0 ≤ r ∧ r < 8

instance (f r : Int) : Decidable (on_board f r) := by
  unfold on_board
  infer_instance

/-- Square `i` is reached from (`f`, `r`) in direction (`df`, `dr`) within `n` steps: it is
the `k`-th square of the ray, on the board, and the squares before it on the ray are on the
board and unoccupied. -/
def ray_reaches (occ : Nat) (df dr : Int) (n : Nat) (f r : Int) (i : Nat) : Prop :=
  ∃ k : Nat, 1 ≤ k ∧ k ≤ n ∧ on_board (f + k * df) (r + k * dr)
    ∧ i = (8 * (r + k * dr) + (f + k * df)).toNat
    ∧ ∀ j : Nat, 1 ≤ j → j < k → on_board (f + j * df) (r + j * dr)
      ∧ occ.testBit (8 * (r + j * dr) + (f + j * df)).toNat = false

/-- A piece of kind `p` and colour `c` standing on `x` attacks `s` under the occupancy `occ`:
rooks and queens along rook rays, bishops and queens along bishop rays, king and knights by
their tables, pawns by the capture directions of their colour. -/
def piece_attacks (T : AttackTables) (occ : Nat) (c : Color) (p : Piece) (x s : Square) : Bool :=
  match p with
  | Pawn => (T.PAWN_ATTACKS_TABLE c x).testBit s
  | Knight => (T.KNIGHT_ATTACKS x).testBit s
  | Bishop => (T.attacks Ray.BISHOP x occ).testBit s
  | Rook => (T.attacks Ray.ROOK x occ).testBit s
  | Queen => (T.attacks Ray.ROOK x occ).testBit s || (T.attacks Ray.BISHOP x occ).testBit s
  | King => (T.KING_ATTACKS x).testBit s
  | Null_Piece => false

/-- The attack tables are those of chess pieces in that square `x` lies in the attack set of
`s` exactly when `s` lies in the attack set of `x` (for pawns: of the other colour). -/
def tables_symmetric (T : AttackTables) : Prop :=
  ∀ x s, x < 64 → s < 64 →
    (∀ occ, (T.attacks Ray.ROOK s occ).testBit x = (T.attacks Ray.ROOK x occ).testBit s)
      ∧ (∀ occ, (T.attacks Ray.BISHOP s occ).testBit x = (T.attacks Ray.BISHOP x occ).testBit s)
      ∧ (T.KING_ATTACKS s).testBit x = (T.KING_ATTACKS x).testBit s
      ∧ (T.KNIGHT_ATTACKS s).testBit x = (T.KNIGHT_ATTACKS x).testBit s
      ∧ ∀ c, (T.PAWN_ATTACKS_TABLE c s).testBit x
        = (T.PAWN_ATTACKS_TABLE (other c) x).testBit s


/-! ## FEN placement fields -/

/-- The piece a FEN letter denotes: uppercase White, lowercase Black, letters P, N, B, R, Q,
K. -/
def fen_letter (ch : Char) : Option (Color × Piece) :=
  if ch = 'P' then some (White, Pawn)
  else if ch = 'N' then some (White, Knight)
  else if ch = 'B' then some (White, Bishop)
  else if ch = 'R' then some (White, Rook)
  else if ch = 'Q' then some (White, Queen)
  else if ch = 'K' then some (White, King)
  else if ch = 'p' then some (Black, Pawn)
  else if ch = 'n' then some (Black, Knight)
  else if ch = 'b' then some (Black, Bishop)
  else if ch = 'r' then some (Black, Rook)
  else if ch = 'q' then some (Black, Queen)
  else if ch = 'k' then some (Black, King)
  else none

/-- The length of the run of empty squares a FEN digit denotes. -/
def fen_run (ch : Char) : Option Nat :=
  if ch = '1' then some 1
  else if ch = '2' then some 2
  else if ch = '3' then some 3
  else if ch = '4' then some 4
  else if ch = '5' then some 5
  else if ch = '6' then some 6
  else if ch = '7' then some 7
  else if ch = '8' then some 8
  else none

/-- The contents of the files a rank description denotes, from the a-file on; `none` for a
description with a character that is neither a piece letter nor a digit `1 .. 8`. -/
def rank_cells : List Char → Option (List (Option (Color × Piece)))
  | [] => some []
  | ch :: rest =>
    match fen_letter ch with
    | some cp => (rank_cells rest).map (fun cells => some cp :: cells)
    | none =>
      match fen_run ch with
      | some n => (rank_cells rest).map (fun cells => List.replicate n none ++ cells)
      | none => none

/-- What a rank description denotes for file `f`. -/
def cell_at (w : List Char) (f : Nat) : Option (Option (Color × Piece)) :=
  (rank_cells w).bind (fun cells => cells.get? f)

/-- A well-formed placement field: eight rank descriptions, each describing eight files. -/
def well_formed_ranks (ranks : List (List Char)) : Prop :=
  ranks.length = 8 ∧ ∀ w ∈ ranks, (rank_cells w).map List.length = some 8

instance (ranks : List (List Char)) : Decidable (well_formed_ranks ranks) := by
  unfold well_formed_ranks
  infer_instance

/-- The placement field: the rank descriptions separated by `/`. -/
def placement_field (ranks : List (List Char)) : List Char :=
  List.intercalate ['/'] ranks

/-- The bitboards and mailbox record `o` for square `s`: a piece `(c, p)` when the bitboard of
`(c, p)` is the one piece bitboard containing `s` and the mailbox holds `p`; nothing when no
piece bitboard contains `s` and the mailbox holds `Null_Piece`. -/
def records (bitboards : Color → Piece → Nat) (pieces : Square → Piece) (s : Nat)
    (o : Option (Color × Piece)) : Prop :=
  (∀ c p, p ≠ Null_Piece → ((bitboards c p).testBit s = true ↔ o = some (c, p)))
    ∧ pieces s = (match o with
      | some cp => cp.2
      | none => Null_Piece)

/-- The rank descriptions of the default FEN. -/
def default_ranks : List (List Char) :=
  ["rnbqkbnr".toList, "pppppppp".toList, "8".toList, "8".toList, "8".toList, "8".toList,
    "PPPPPPPP".toList, "RNBQKBNR".toList]


/-! ## chessmove.hpp: move classification -/

/-- The table `square_to_string`. -/
def square_to_string : List String :=
  ["a1", "b1", "c1", "d1", "e1", "f1", "g1", "h1",
   "a2", "b2", "c2", "d2", "e2", "f2", "g2", "h2",
   "a3", "b3", "c3", "d3", "e3", "f3", "g3", "h3",
   "a4", "b4", "c4", "d4", "e4", "f4", "g4", "h4",
   "a5", "b5", "c5", "d5", "e5", "f5", "g5", "h5",
   "a6", "b6", "c6", "d6", "e6", "f6", "g6", "h6",
   "a7", "b7", "c7", "d7", "e7", "f7", "g7", "h7",
   "a8", "b8", "c8", "d8", "e8", "f8", "g8", "h8"]

/-- The `switch` of `is_quiet` on a move kind; `none` for the values 6 and 7, which are no
enumerator of `MoveType` and for which control leaves the `switch` without a `return`. -/
def is_quiet_kind (kind : MoveType) : Option Bool :=
  if kind = QUIET ∨ kind = DOUBLE_PAWN_PUSH ∨ kind = KING_CASTLE ∨ kind = QUEEN_CASTLE
      ∨ kind = KNIGHT_PROMOTION ∨ kind = BISHOP_PROMOTION ∨ kind = ROOK_PROMOTION
      ∨ kind = KNIGHT_PROMOTION_CAPTURE ∨ kind = BISHOP_PROMOTION_CAPTURE
      ∨ kind = ROOK_PROMOTION_CAPTURE then some true
  else if kind = CAPTURE ∨ kind = EN_PASSANT ∨ kind = QUEEN_PROMOTION
      ∨ kind = QUEEN_PROMOTION_CAPTURE then some false
  else none

/-- The member function `is_quiet`. -/
def chessmove.is_quiet (m : chessmove) : Option Bool := is_quiet_kind m.get_move_type

/-- The `switch` of `is_promotion` on a move kind; `none` as for `is_quiet_kind`. -/
def is_promotion_kind (kind : MoveType) : Option Bool :=
  if kind = QUIET ∨ kind = DOUBLE_PAWN_PUSH ∨ kind = KING_CASTLE ∨ kind = QUEEN_CASTLE
      ∨ kind = CAPTURE ∨ kind = EN_PASSANT
      ∨ kind = KNIGHT_PROMOTION ∨ kind = BISHOP_PROMOTION ∨ kind = ROOK_PROMOTION
      ∨ kind = KNIGHT_PROMOTION_CAPTURE ∨ kind = BISHOP_PROMOTION_CAPTURE
      ∨ kind = ROOK_PROMOTION_CAPTURE then some false
  else if kind = QUEEN_PROMOTION ∨ kind = QUEEN_PROMOTION_CAPTURE then some true
  else none

/-- The member function `is_promotion`. -/
def chessmove.is_promotion (m : chessmove) : Option Bool := is_promotion_kind m.get_move_type

/-- The member function `is_capture`, the negation of `is_quiet`. -/
def chessmove.is_capture (m : chessmove) : Option Bool := m.is_quiet.map (fun q => !q)

/-- The 14 enumerators of `MoveType`. -/
def defined_kind (kind : MoveType) : Prop := kind < 16 ∧ kind ≠ 6 ∧ kind ≠ 7

instance (kind : MoveType) : Decidable (defined_kind kind) := by
  unfold defined_kind
  infer_instance

/-- The default FEN with the half-move clock field 100. -/
def fen_clock_100 : String := "rnbqkbnr/pppppppp/8/8/8/8/PPPPPPPP/RNBQKBNR w KQkq - 100 1"

/-- The first character of a string is an ASCII letter. -/
def starts_with_letter (s : List Char) : Bool :=
  match s with
  | c :: _ => (97 ≤ c.toNat && c.toNat ≤ 122) || (65 ≤ c.toNat && c.toNat ≤ 90)
  | [] => false


/-! ## movelist.hpp: `get_next_move` -/

/-- The element `pseudolegal_moves[i]`. -/
def entry (entries : List (chessmove × Int)) (i : Nat) : chessmove × Int :=
  entries.getD i (chessmove.null, 0)

/-- The `for` loop of `get_next_move`: `best` starts at `index` and `i` runs from `index + 1`
up to `count - 1`. -/
def best_index (entries : List (chessmove × Int)) (index count : Nat) : Nat :=
  (List.range' (index + 1) (count - (index + 1))).foldl
    (fun best i => if (entry entries i).2 > (entry entries best).2 then i else best) index

/-- The call `std::swap(pseudolegal_moves[i], pseudolegal_moves[j])`. -/
def swap_entries (entries : List (chessmove × Int)) (i j : Nat) : List (chessmove × Int) :=
  (entries.set i (entry entries j)).set j (entry entries i)

/-- The member function `get_next_move`: the returned pair and the buffer after the call. -/
def movelist.get_next_move (ml : movelist) (index : Nat) : (chessmove × Int) × movelist :=
  let best := best_index ml.pseudolegal_moves index ml.count
  let entries := swap_entries ml.pseudolegal_moves index best
  (entry entries index, { ml with pseudolegal_moves := entries })

/-- The entries in the range `begin() .. end()`. -/
def movelist.entries (ml : movelist) : List (chessmove × Int) :=
  ml.pseudolegal_moves.take ml.count

/-- The calls `get_next_move(0)`, ..., `get_next_move(k - 1)` in that order: the buffer after
them and the pairs they returned. -/
def movelist.pull (ml : movelist) : Nat → movelist × List (chessmove × Int)
  | 0 => (ml, [])
  | k + 1 =>
    ((((ml.pull k).1).get_next_move k).2, (ml.pull k).2 ++ [(((ml.pull k).1).get_next_move k).1])

/-- A buffer of five scored moves. -/
def sample_movelist : movelist :=
  ⟨[(chessmove.new4 12 28 DOUBLE_PAWN_PUSH Pawn, 3), (chessmove.new4 6 21 QUIET Knight, 7),
      (chessmove.new4 1 18 QUIET Knight, 7), (chessmove.new4 11 27 DOUBLE_PAWN_PUSH Pawn, -2),
      (chessmove.new4 12 20 QUIET Pawn, 5)] ++ List.replicate 251 (chessmove.null, 0), 5⟩


/-! ## The sequence of moves a generator passes to `add` -/

/-- The calls `ml.add(m)` for the moves of `l`, in order. -/
def emit (l : List chessmove) (ml : movelist) : movelist := l.foldl movelist.add ml

/-- The moves added for one piece on `square` with the masked attack set `attack_bitboard`:
the captures in ascending target order, then (unless captures only) the quiet moves. -/
def target_moves (captures_only : Bool) (b : board) (square : Square) (piece : Piece)
    (attack_bitboard enemy empty : Nat) : List chessmove :=
  (serialize 64 (attack_bitboard &&& enemy)).map
      (fun t => chessmove.new5 square t CAPTURE piece (b.get_piece t))
    ++ (if captures_only then []
        else (serialize 64 (attack_bitboard &&& empty)).map
          (fun t => chessmove.new4 square t QUIET piece))

/-- The moves `generate_king_moves` adds, in order. -/
def king_moves_list (T : AttackTables) (captures_only : Bool) (b : board) (king_square : Square)
    (safe_squares empty enemy : Nat) : List chessmove :=
  target_moves captures_only b king_square King (T.KING_ATTACKS king_square &&& safe_squares)
    enemy empty

/-- The moves `generate_slider_moves` adds, in order. -/
def slider_moves_list (T : AttackTables) (ray : Ray) (piece : Piece) (captures_only : Bool)
    (b : board) (piece_bitboard checkmask enemy empty occupancy : Nat) : List chessmove :=
  (serialize 64 piece_bitboard).flatMap (fun square =>
    target_moves captures_only b square piece (T.attacks ray square occupancy &&& checkmask)
      enemy empty)

/-- The moves `generate_knight_moves` adds, in order. -/
def knight_moves_list (T : AttackTables) (captures_only : Bool) (b : board)
    (knight_bitboard target enemy empty : Nat) : List chessmove :=
  (serialize 64 knight_bitboard).flatMap (fun square =>
    target_moves captures_only b square Knight (T.KNIGHT_ATTACKS square &&& target) enemy empty)

/-- The moves the block `// PAWN PUSH` adds, in order. -/
def pawn_pushes_list (our_color : Color) (pawn_bitboard checkmask empty : Nat) :
    List chessmove :=
  (serialize 64
      (shift (up our_color) (pawn_bitboard &&& not_penultimate_rank our_color) &&& empty
        &&& checkmask)).map
      (fun t => chessmove.new4 (sq_sub t (up our_color)) t QUIET Pawn)
    ++ (serialize 64
      (shift (up our_color)
          (shift (up our_color) (pawn_bitboard &&& not_penultimate_rank our_color) &&& empty
            &&& enpassant_rank our_color)
        &&& (empty &&& checkmask))).map
      (fun t => chessmove.new4 (sq_sub t (up_2 our_color)) t DOUBLE_PAWN_PUSH Pawn)

/-- The moves one iteration of the promotion-push loop adds. -/
def promote_push_list (our_color : Color) (captures_only : Bool) (t : Square) :
    List chessmove :=
  chessmove.new4 (sq_sub t (up our_color)) t QUEEN_PROMOTION Pawn
    :: (if captures_only then []
        else [chessmove.new4 (sq_sub t (up our_color)) t ROOK_PROMOTION Pawn,
          chessmove.new4 (sq_sub t (up our_color)) t BISHOP_PROMOTION Pawn,
          chessmove.new4 (sq_sub t (up our_color)) t KNIGHT_PROMOTION Pawn])

/-- The moves one iteration of a promotion-capture loop adds. -/
def promote_capture_list (d : Direction) (captures_only : Bool) (b : board) (t : Square) :
    List chessmove :=
  chessmove.new5 (sq_sub t d) t QUEEN_PROMOTION_CAPTURE Pawn (b.get_piece t)
    :: (if captures_only then []
        else [chessmove.new5 (sq_sub t d) t ROOK_PROMOTION_CAPTURE Pawn (b.get_piece t),
          chessmove.new5 (sq_sub t d) t BISHOP_PROMOTION_CAPTURE Pawn (b.get_piece t),
          chessmove.new5 (sq_sub t d) t KNIGHT_PROMOTION_CAPTURE Pawn (b.get_piece t)])

/-- The moves the block `// PAWNS PROMOTE` adds, in order. -/
def pawn_promotions_list (our_color : Color) (captures_only : Bool) (b : board)
    (pawn_bitboard checkmask enemy empty : Nat) : List chessmove :=
  if pawn_bitboard &&& penultimate_rank our_color ≠ 0 then
    (serialize 64 (shift (up our_color) (pawn_bitboard &&& penultimate_rank our_color)
        &&& (empty &&& checkmask))).flatMap (promote_push_list our_color captures_only)
      ++ (serialize 64 (shift (antidiagonal_capture our_color)
          (pawn_bitboard &&& penultimate_rank our_color) &&& (enemy &&& checkmask))).flatMap
        (promote_capture_list (antidiagonal_capture our_color) captures_only b)
      ++ (serialize 64 (shift (diagonal_capture our_color)
          (pawn_bitboard &&& penultimate_rank our_color) &&& (enemy &&& checkmask))).flatMap
        (promote_capture_list (diagonal_capture our_color) captures_only b)
  else []

/-- The moves the block `// PAWN CAPTURES` adds, in order. -/
def pawn_captures_list (our_color : Color) (b : board) (pawn_bitboard checkmask enemy : Nat) :
    List chessmove :=
  (serialize 64 (shift (antidiagonal_capture our_color)
      (pawn_bitboard &&& not_penultimate_rank our_color) &&& (enemy &&& checkmask))).map
      (fun t => chessmove.new5 (sq_sub t (antidiagonal_capture our_color)) t CAPTURE Pawn
        (b.get_piece t))
    ++ (serialize 64 (shift (diagonal_capture our_color)
      (pawn_bitboard &&& not_penultimate_rank our_color) &&& (enemy &&& checkmask))).map
      (fun t => chessmove.new5 (sq_sub t (diagonal_capture our_color)) t CAPTURE Pawn
        (b.get_piece t))

/-- The moves the block `// EN PASSANT` adds, in order. -/
def pawn_enpassant_list (our_color : Color) (b : board) (pawn_bitboard : Nat) :
    List chessmove :=
  if b.enpassant_square ≠ Null_Square then
    (if shift (antidiagonal_capture our_color)
          (pawn_bitboard &&& not_penultimate_rank our_color) &&& bit b.enpassant_square ≠ 0 then
        [chessmove.new5 (sq_sub b.enpassant_square (antidiagonal_capture our_color))
          b.enpassant_square EN_PASSANT Pawn Pawn]
      else [])
    ++ (if shift (diagonal_capture our_color)
          (pawn_bitboard &&& not_penultimate_rank our_color) &&& bit b.enpassant_square ≠ 0 then
        [chessmove.new5 (sq_sub b.enpassant_square (diagonal_capture our_color))
          b.enpassant_square EN_PASSANT Pawn Pawn]
      else [])
  else []

/-- The moves `generate_pawn_moves` adds, in order. -/
def pawn_moves_list (our_color : Color) (captures_only : Bool) (b : board)
    (pawn_bitboard checkmask enemy empty : Nat) : List chessmove :=
  (if captures_only then [] else pawn_pushes_list our_color pawn_bitboard checkmask empty)
    ++ pawn_promotions_list our_color captures_only b pawn_bitboard checkmask enemy empty
    ++ pawn_captures_list our_color b pawn_bitboard checkmask enemy
    ++ pawn_enpassant_list our_color b pawn_bitboard

/-- The moves `generate_castle_moves` adds, in order. -/
def castle_moves_list (our_color : Color) (castling_right safe_squares empty : Nat) :
    List chessmove :=
  (if kingside_castle_ok our_color castling_right safe_squares empty then
      [chessmove.new4 (if our_color = White then E1 else E8)
        (if our_color = White then G1 else G8) KING_CASTLE King]
    else [])
  ++ (if queenside_castle_ok our_color castling_right safe_squares empty then
      [chessmove.new4 (if our_color = White then E1 else E8)
        (if our_color = White then C1 else C8) QUEEN_CASTLE King]
    else [])

/-- The king moves `generate_all_moves` adds. -/
def all_king_moves (T : AttackTables) (our_color : Color) (captures_only : Bool) (b : board) :
    List chessmove :=
  king_moves_list T captures_only b b.get_king_square (gen_safe_squares T our_color b)
    (not64 b.occupancy) (b.side_occupancy (other our_color))

/-- The moves `generate_all_moves` adds for the sliders of kind `piece`. -/
def all_slider_moves (T : AttackTables) (our_color : Color) (ray : Ray) (piece : Piece)
    (captures_only : Bool) (b : board) : List chessmove :=
  slider_moves_list T ray piece captures_only b (b.bitboards our_color piece)
    (gen_checkmask T our_color b) (b.side_occupancy (other our_color)) (not64 b.occupancy)
    b.occupancy

/-- The knight moves `generate_all_moves` adds. -/
def all_knight_moves (T : AttackTables) (our_color : Color) (captures_only : Bool) (b : board) :
    List chessmove :=
  knight_moves_list T captures_only b (b.bitboards our_color Knight) (gen_checkmask T our_color b)
    (b.side_occupancy (other our_color)) (not64 b.occupancy)

/-- The pawn moves `generate_all_moves` adds. -/
def all_pawn_moves (T : AttackTables) (our_color : Color) (captures_only : Bool) (b : board) :
    List chessmove :=
  pawn_moves_list our_color captures_only b (b.bitboards our_color Pawn)
    (gen_checkmask T our_color b) (b.side_occupancy (other our_color)) (not64 b.occupancy)

/-- The castle moves `generate_all_moves` adds. -/
def all_castle_moves (T : AttackTables) (our_color : Color) (captures_only : Bool) (b : board) :
    List chessmove :=
  if captures_only then []
  else castle_moves_list our_color b.castling_rights (gen_safe_squares T our_color b)
    (not64 b.occupancy)

/-- The moves `generate_all_moves` adds, in order: king, rooks, bishops, queens, knights,
pawns, castles. -/
def all_moves_list (T : AttackTables) (our_color : Color) (captures_only : Bool) (b : board) :
    List chessmove :=
  all_king_moves T our_color captures_only b
    ++ all_slider_moves T our_color Ray.ROOK Rook captures_only b
    ++ all_slider_moves T our_color Ray.BISHOP Bishop captures_only b
    ++ all_slider_moves T our_color Ray.QUEEN Queen captures_only b
    ++ all_knight_moves T our_color captures_only b
    ++ all_pawn_moves T our_color captures_only b
    ++ all_castle_moves T our_color captures_only b


/-- A position with a pinned knight: White king e1, White knight e2, Black rook e8, Black king
a8, White to move, no castling rights. -/
def pin_board : board := board.new sample_keys "k3r3/8/8/8/8/8/4N3/4K3 w - - 0 1"

/-- The position `pin_board` after the knight has moved from e2 to c3. -/
def pin_board_after : board :=
  (pin_board.unset_piece sample_keys White true 12 Knight).set_piece sample_keys White true 18
    Knight


/-! ## Pawn geometry -/

/-- The square `n` ranks ahead of `s` for a pawn of colour `c`. -/
def forward (c : Color) (s : Nat) (n : Nat) : Nat :=
  if c = White then s + 8 * n else s - 8 * n

/-- The square `s` lies on the start rank of the pawns of colour `c`: rank 2 for White,
rank 7 for Black. -/
def on_start_rank (c : Color) (s : Nat) : Prop :=
  if c = White then 8 ≤ s ∧ s < 16 else 48 ≤ s ∧ s < 56

instance (c : Color) (s : Nat) : Decidable (on_start_rank c s) := by
  unfold on_start_rank
  infer_instance

/-- A position with a check along the fourth rank: White king h4, White pawn e2, Black rook
a4, Black king h8, White to move. -/
def rank_check_board : board := board.new sample_keys "7k/8/8/8/r6K/8/4P3/8 w - - 0 1"


/-- A position with a promoting capture: White king h1, White pawn a7, Black rook b8, Black
king h8, White to move. -/
def promotion_board : board := board.new sample_keys "1r5k/P7/8/8/8/8/8/7K w - - 0 1"


/-! ## King safety -/

/-- The file (`0 .. 7`) of a square. -/
def file_of (s : Nat) : Nat := s % 8

/-- The rank (`0 .. 7`) of a square. -/
def rank_of (s : Nat) : Nat := s / 8

/-- The square `t` lies `n` ranks ahead of `s` for a pawn of colour `c`. -/
def ranks_ahead (c : Color) (s t n : Nat) : Prop :=
  if c = White then rank_of t = rank_of s + n else rank_of s = rank_of t + n

/-- The kinds that record a captured piece standing on the destination: `CAPTURE` and the
four promotion-captures. -/
def captures_piece (kind : MoveType) : Prop :=
  kind = CAPTURE ∨ kind = QUEEN_PROMOTION_CAPTURE ∨ kind = ROOK_PROMOTION_CAPTURE
    ∨ kind = BISHOP_PROMOTION_CAPTURE ∨ kind = KNIGHT_PROMOTION_CAPTURE

/-- The kinds of a pawn stepping one square straight ahead: `QUIET` and the four
promotions. -/
def single_push (kind : MoveType) : Prop :=
  kind = QUIET ∨ kind = QUEEN_PROMOTION ∨ kind = ROOK_PROMOTION ∨ kind = BISHOP_PROMOTION
    ∨ kind = KNIGHT_PROMOTION

instance (c : Color) (s t n : Nat) : Decidable (ranks_ahead c s t n) := by
  unfold ranks_ahead
  infer_instance

instance (kind : MoveType) : Decidable (captures_piece kind) := by
  unfold captures_piece
  infer_instance

instance (kind : MoveType) : Decidable (single_push kind) := by
  unfold single_push
  infer_instance

/-- The move `m` of colour `c` is well formed on the board `b`: its from-square holds a piece
of colour `c` of the kind recorded in the move; its to-square is not occupied by a piece of
colour `c`; a pawn push stays on its file and goes one rank ahead (two for a double push); a
pawn capture goes one rank ahead and changes file by exactly one; for the kinds `CAPTURE` and
promotion-capture the to-square holds an enemy piece, which is the recorded captured piece;
and `EN_PASSANT` records a pawn. -/
def move_well_formed (c : Color) (b : board) (m : chessmove) : Prop :=
  m.get_from < 64 ∧ m.get_to < 64
    ∧ (∃ p, p ≠ Null_Piece ∧ m.get_piece = p.val
        ∧ (b.bitboards c p).testBit m.get_from = true ∧ b.get_piece m.get_from = p)
    ∧ (b.side_occupancy c).testBit m.get_to = false
    ∧ (m.get_piece = Pawn.val →
        (single_push m.get_move_type →
            file_of m.get_to = file_of m.get_from ∧ ranks_ahead c m.get_from m.get_to 1)
          ∧ (m.get_move_type = DOUBLE_PAWN_PUSH →
            file_of m.get_to = file_of m.get_from ∧ ranks_ahead c m.get_from m.get_to 2)
          ∧ ((captures_piece m.get_move_type ∨ m.get_move_type = EN_PASSANT) →
            ranks_ahead c m.get_from m.get_to 1
              ∧ (file_of m.get_to = file_of m.get_from + 1
                ∨ file_of m.get_from = file_of m.get_to + 1)))
    ∧ (captures_piece m.get_move_type →
        (b.side_occupancy (other c)).testBit m.get_to = true
          ∧ b.get_piece m.get_to ≠ Null_Piece
          ∧ (b.bitboards (other c) (b.get_piece m.get_to)).testBit m.get_to = true
          ∧ m.get_captured_piece = (b.get_piece m.get_to).val)
    ∧ (m.get_move_type = EN_PASSANT → m.get_captured_piece = Pawn.val)

instance (c : Color) (b : board) (m : chessmove) : Decidable (move_well_formed c b m) := by
  unfold move_well_formed
  infer_instance

/-- The castling rights of colour `c` are set only when its king stands on `k`, its e-file
home square. -/
def castle_rights_at_home (c : Color) (b : board) (k : Square) : Prop :=
  (b.castling_rights &&& (if c = White then CASTLE_WHITE_KINGSIDE else CASTLE_BLACK_KINGSIDE) ≠ 0
      ∨ b.castling_rights
        &&& (if c = White then CASTLE_WHITE_QUEENSIDE else CASTLE_BLACK_QUEENSIDE) ≠ 0)
    → k = (if c = White then E1 else E8)

instance (c : Color) (b : board) (k : Square) : Decidable (castle_rights_at_home c b k) := by
  unfold castle_rights_at_home
  infer_instance

/-- A position whose en-passant square holds a piece of the side to move: White king e1,
White knight e6, White pawn d5, Black king e8, White to move, en-passant square e6. -/
def enpassant_blocked_board : board :=
  board.new sample_keys "4k3/8/4N3/3P4/8/8/8/4K3 w - e6 0 1"

/-- A board on which the square d2 holds a knight of each colour: the position White king e1,
Black knight d2, Black king e8 after `set_piece<White>(d2, Knight)`. -/
def doubly_occupied_board : board :=
  (board.new sample_keys "4k3/8/8/8/8/8/3n4/4K3 w - - 0 1").set_piece sample_keys White false 11
    Knight


/-! # Theorems -/

/-! ## Packed move word -/

theorem Piece.val_lt (p : Piece) : p.val < 8 := by
  cases p <;> decide

theorem or_shiftLeft_eq_add (a b n : Nat) (h : a < 2 ^ n) : a ||| (b <<< n) = a + b * 2 ^ n := by
  rw [Nat.shiftLeft_eq, Nat.or_comm, Nat.mul_comm b, ← Nat.mul_add_lt_is_or h, Nat.add_comm]

theorem pack_eq (f t k p c : Nat) (hf : f < 64) (ht : t < 64) (hk : k < 16) (hp : p < 8)
    (hc : c < 8) :
    (f ||| (t <<< 6) ||| (k <<< 12) ||| (p <<< 16) ||| (c <<< 19)) % 2 ^ 32
      = f + t * 64 + k * 4096 + p * 65536 + c * 524288 := by
  rw [or_shiftLeft_eq_add f t 6 (by omega)]
  rw [or_shiftLeft_eq_add _ k 12 (by omega)]
  rw [or_shiftLeft_eq_add _ p 16 (by omega)]
  rw [or_shiftLeft_eq_add _ c 19 (by omega)]
  omega

theorem new4_eq_new5 (f t k : Nat) (p : Piece) :
    chessmove.new4 f t k p = chessmove.new5 f t k p Pawn := by
  simp [chessmove.new4, chessmove.new5, Piece.val]

theorem and_low_eq_mod (x n : Nat) : x &&& (2 ^ n - 1) = x % 2 ^ n :=
  Nat.and_pow_two_sub_one_eq_mod x n

theorem div_mod_split (a b n : Nat) (h : a < n) : (a + b * n) / n = b ∧ (a + b * n) % n = a := by
  have hn : 0 < n := by omega
  constructor
  · rw [Nat.add_mul_div_right a b hn, Nat.div_eq_of_lt h, Nat.zero_add]
  · rw [Nat.add_mul_mod_self_right, Nat.mod_eq_of_lt h]

theorem new5_fields (f t k : Nat) (p c : Piece) (hf : f < 64) (ht : t < 64) (hk : k < 16) :
    (chessmove.new5 f t k p c).get_from = f ∧ (chessmove.new5 f t k p c).get_to = t
      ∧ (chessmove.new5 f t k p c).get_move_type = k
      ∧ (chessmove.new5 f t k p c).get_piece = p.val
      ∧ (chessmove.new5 f t k p c).get_captured_piece = c.val := by
  have hp := p.val_lt
  have hc := c.val_lt
  simp only [chessmove.new5, chessmove.get_from, chessmove.get_to, chessmove.get_move_type,
    chessmove.get_piece, chessmove.get_captured_piece]
  rw [pack_eq f t k p.val c.val hf ht hk hp hc]
  have e6 : (0b111111 : Nat) = 2 ^ 6 - 1 := by decide
  have e4 : (0b1111 : Nat) = 2 ^ 4 - 1 := by decide
  have e3 : (0b111 : Nat) = 2 ^ 3 - 1 := by decide
  rw [e6, e4, e3]
  simp only [and_low_eq_mod, Nat.shiftRight_eq_div_pow]
  generalize p.val = pv at hp ⊢
  generalize c.val = cv at hc ⊢
  have hX : f + t * 64 + k * 4096 + pv * 65536 + cv * 524288
      = f + (t + (k + (pv + cv * 8) * 16) * 64) * 64 := by ring
  rw [hX]
  have s1 := div_mod_split f (t + (k + (pv + cv * 8) * 16) * 64) 64 hf
  have s2 := div_mod_split t (k + (pv + cv * 8) * 16) 64 ht
  have s3 := div_mod_split k (pv + cv * 8) 16 hk
  have s4 := div_mod_split pv cv 8 hp
  have p12 : (2 : Nat) ^ 12 = 64 * 64 := by decide
  have p16 : (2 : Nat) ^ 16 = 64 * 64 * 16 := by decide
  have p19 : (2 : Nat) ^ 19 = 64 * 64 * 16 * 8 := by decide
  have p6 : (2 : Nat) ^ 6 = 64 := by decide
  have p4 : (2 : Nat) ^ 4 = 16 := by decide
  have p3 : (2 : Nat) ^ 3 = 8 := by decide
  rw [p12, p16, p19, p6, p4, p3]
  simp only [← Nat.div_div_eq_div_mul]
  rw [s1.1, s1.2, s2.1, s2.2, s3.1, s3.2, s4.1, s4.2, Nat.mod_eq_of_lt hc]
  exact ⟨rfl, rfl, rfl, rfl, rfl⟩

/-! ## 64-bit words -/

theorem testBit_full_board (i : Nat) : full_board.testBit i = decide (i < 64) := by
  have h : full_board = 2 ^ 64 - 1 := by decide
  rw [h, Nat.testBit_two_pow_sub_one]

theorem testBit_not64 (x i : Nat) : (not64 x).testBit i = (decide (i < 64) && !x.testBit i) := by
  unfold not64
  rw [Nat.testBit_xor, testBit_full_board, Nat.testBit_mod_two_pow]
  by_cases h : i < 64 <;> simp [h]

theorem testBit_shl64 (x k i : Nat) :
    (shl64 x k).testBit i = (decide (i < 64) && (decide (k ≤ i) && x.testBit (i - k))) := by
  unfold shl64
  rw [Nat.testBit_mod_two_pow, Nat.testBit_shiftLeft]

theorem testBit_bit (s i : Nat) : (bit s).testBit i = (decide (i < 64) && decide (i = s)) := by
  unfold bit
  rw [testBit_shl64]
  by_cases h1 : i < 64 <;> by_cases h2 : i = s
  · subst h2; simp [h1]
  · by_cases h3 : s ≤ i
    · have hne : i - s ≠ 0 := by omega
      have h1f : Nat.testBit 1 (i - s) = false := by
        cases h : Nat.testBit 1 (i - s) with
        | false => rfl
        | true => exact absurd (Nat.testBit_one_eq_true_iff_self_eq_zero.mp h) hne
      simp [h1, h2, h3, h1f]
    · simp [h1, h2, h3]
  · simp [h1]
  · simp [h1]

theorem lt_of_testBit_of_lt {x n i : Nat} (hx : x < 2 ^ n) (h : x.testBit i = true) : i < n := by
  by_contra hcon
  have hge : 2 ^ n ≤ 2 ^ i := Nat.pow_le_pow_right (by decide) (by omega)
  have := Nat.testBit_lt_two_pow (Nat.lt_of_lt_of_le hx hge)
  rw [this] at h
  exact Bool.noConfusion h

theorem not64_lt (x : Nat) : not64 x < 2 ^ 64 := by
  apply Nat.lt_pow_two_of_testBit
  intro i hi
  rw [testBit_not64]
  have : ¬ i < 64 := by omega
  simp [this]

theorem shl64_lt (x k : Nat) : shl64 x k < 2 ^ 64 :=
  Nat.mod_lt _ (by decide)

theorem bit_lt (s : Nat) : bit s < 2 ^ 64 :=
  shl64_lt 1 s

theorem and_lt_left {x y n : Nat} (h : x < 2 ^ n) : x &&& y < 2 ^ n :=
  Nat.lt_of_le_of_lt Nat.and_le_left h

theorem and_lt_right {x y n : Nat} (h : y < 2 ^ n) : x &&& y < 2 ^ n :=
  Nat.lt_of_le_of_lt Nat.and_le_right h

theorem shiftRight_lt {x n : Nat} (k : Nat) (h : x < 2 ^ n) : x >>> k < 2 ^ n := by
  rw [Nat.shiftRight_eq_div_pow]
  exact Nat.lt_of_le_of_lt (Nat.div_le_self _ _) h

/-! ## Lowest set bit -/

theorem countr_zero_aux_spec (fuel : Nat) : ∀ x : Nat, x ≠ 0 → x < 2 ^ fuel →
    IsLowest x (countr_zero_aux fuel x) := by
  induction fuel with
  | zero =>
    intro x hx hlt
    simp at hlt
    exact absurd hlt hx
  | succ n ih =>
    intro x hx hlt
    unfold countr_zero_aux
    by_cases h : x % 2 = 1
    · rw [if_pos h]
      refine ⟨by simp [h], ?_⟩
      intro j hj
      omega
    · rw [if_neg h]
      have hx2 : x / 2 ≠ 0 := by omega
      have hlt2 : x / 2 < 2 ^ n := by
        rw [Nat.pow_succ] at hlt
        omega
      obtain ⟨h1, h2⟩ := ih (x / 2) hx2 hlt2
      constructor
      · rw [Nat.add_comm, Nat.testBit_succ]
        exact h1
      · intro j hj
        cases j with
        | zero => simp [h]
        | succ j =>
          rw [Nat.testBit_succ]
          exact h2 j (by omega)

theorem lsb_spec {x : Nat} (hx : x ≠ 0) (hlt : x < 2 ^ 64) : IsLowest x (lsb x) :=
  countr_zero_aux_spec 64 x hx hlt

theorem lsb_lt {x : Nat} (hx : x ≠ 0) (hlt : x < 2 ^ 64) : lsb x < 64 :=
  lt_of_testBit_of_lt hlt (lsb_spec hx hlt).1

theorem testBit_and_pred (k : Nat) : ∀ x : Nat, IsLowest x k → ∀ i,
    (x &&& (x - 1)).testBit i = (x.testBit i && decide (i ≠ k)) := by
  induction k with
  | zero =>
    intro x ⟨h1, _⟩ i
    have hodd : x % 2 = 1 := by simpa using h1
    rw [Nat.testBit_and]
    cases i with
    | zero => simp [hodd]; omega
    | succ i =>
      rw [Nat.testBit_succ, Nat.testBit_succ]
      have : (x - 1) / 2 = x / 2 := by omega
      rw [this]
      simp
  | succ k ih =>
    intro x ⟨h1, h2⟩ i
    have h0 := h2 0 (by omega)
    have heven : ¬ x % 2 = 1 := by simpa using h0
    have hne : x ≠ 0 := by
      intro h
      rw [h] at h1
      simp at h1
    have hlow : IsLowest (x / 2) k := by
      constructor
      · rw [← Nat.testBit_succ]; exact h1
      · intro j hj
        rw [← Nat.testBit_succ]
        exact h2 (j + 1) (by omega)
    cases i with
    | zero =>
      rw [Nat.testBit_and, h0]
      simp
    | succ i =>
      have e := ih (x / 2) hlow i
      rw [Nat.testBit_and] at e ⊢
      rw [Nat.testBit_succ, Nat.testBit_succ]
      have : (x - 1) / 2 = x / 2 - 1 := by omega
      rw [this, e]
      simp

theorem testBit_pop_lsb {x : Nat} (hx : x ≠ 0) (hlt : x < 2 ^ 64) (i : Nat) :
    (pop_lsb x).2.testBit i = (x.testBit i && decide (i ≠ lsb x)) :=
  testBit_and_pred (lsb x) x (lsb_spec hx hlt) i

theorem pop_lsb_lt {x : Nat} (hlt : x < 2 ^ 64) : (pop_lsb x).2 < 2 ^ 64 :=
  and_lt_left hlt

/-! ## The pop_lsb loop -/

theorem while_pop_eq_foldl {σ : Type} (body : σ → Square → σ) (fuel : Nat) :
    ∀ (bb : Nat) (st : σ), while_pop fuel bb body st = (serialize fuel bb).foldl body st := by
  induction fuel with
  | zero => intro bb st; rfl
  | succ n ih =>
    intro bb st
    unfold while_pop serialize
    by_cases h : bb = 0
    · simp [h]
    · rw [if_neg h, if_neg h, List.foldl_cons]
      exact ih _ _

theorem serialize_zero (fuel : Nat) : serialize fuel 0 = [] := by
  cases fuel <;> simp [serialize]

theorem eq_zero_of_low_clear {bb k : Nat} (hlt : bb < 2 ^ 64) (hk : 64 ≤ k)
    (hlow : ∀ j, j < k → bb.testBit j = false) : bb = 0 := by
  apply Nat.eq_of_testBit_eq
  intro i
  rw [Nat.zero_testBit]
  by_cases hi : i < k
  · exact hlow i hi
  · cases h : bb.testBit i with
    | false => rfl
    | true =>
      have := lt_of_testBit_of_lt hlt h
      omega

theorem mem_serialize_aux (fuel : Nat) : ∀ (k bb : Nat), bb < 2 ^ 64 →
    (∀ j, j < k → bb.testBit j = false) → 64 ≤ k + fuel →
    ∀ i, i ∈ serialize fuel bb ↔ bb.testBit i = true := by
  induction fuel with
  | zero =>
    intro k bb hlt hlow hk i
    have h0 := eq_zero_of_low_clear hlt (by omega) hlow
    subst h0
    simp [serialize]
  | succ n ih =>
    intro k bb hlt hlow hk i
    unfold serialize
    by_cases h : bb = 0
    · subst h; simp
    · rw [if_neg h]
      have hl := lsb_spec h hlt
      have hkl : k ≤ lsb bb := by
        by_contra hcon
        have := hlow (lsb bb) (by omega)
        rw [hl.1] at this
        exact Bool.noConfusion this
      have hlow2 : ∀ j, j < k + 1 → (pop_lsb bb).2.testBit j = false := by
        intro j hj
        rw [testBit_pop_lsb h hlt]
        by_cases hjl : j = lsb bb
        · simp [hjl]
        · have : bb.testBit j = false := hl.2 j (by omega)
          simp [this]
      have e := ih (k + 1) (pop_lsb bb).2 (pop_lsb_lt hlt) hlow2 (by omega) i
      rw [List.mem_cons, e, testBit_pop_lsb h hlt]
      have hfst : (pop_lsb bb).1 = lsb bb := rfl
      rw [hfst]
      by_cases hil : i = lsb bb
      · subst hil; simp [hl.1]
      · simp [hil]

theorem mem_serialize {bb : Nat} (hlt : bb < 2 ^ 64) (i : Nat) :
    i ∈ serialize 64 bb ↔ bb.testBit i = true :=
  mem_serialize_aux 64 0 bb hlt (fun j hj => absurd hj (Nat.not_lt_zero j)) (by omega) i

theorem serialize_fuel_aux (fuel : Nat) : ∀ (k bb extra : Nat), bb < 2 ^ 64 →
    (∀ j, j < k → bb.testBit j = false) → 64 ≤ k + fuel →
    serialize (fuel + extra) bb = serialize fuel bb := by
  induction fuel with
  | zero =>
    intro k bb extra hlt hlow hk
    have h0 := eq_zero_of_low_clear hlt (by omega) hlow
    subst h0
    simp [serialize_zero]
  | succ n ih =>
    intro k bb extra hlt hlow hk
    have e : n + 1 + extra = (n + extra) + 1 := by omega
    rw [e]
    unfold serialize
    by_cases h : bb = 0
    · simp [h]
    · rw [if_neg h, if_neg h]
      have hl := lsb_spec h hlt
      have hkl : k ≤ lsb bb := by
        by_contra hcon
        have := hlow (lsb bb) (by omega)
        rw [hl.1] at this
        exact Bool.noConfusion this
      have hlow2 : ∀ j, j < k + 1 → (pop_lsb bb).2.testBit j = false := by
        intro j hj
        rw [testBit_pop_lsb h hlt]
        by_cases hjl : j = lsb bb
        · simp [hjl]
        · have : bb.testBit j = false := hl.2 j (by omega)
          simp [this]
      rw [ih (k + 1) (pop_lsb bb).2 extra (pop_lsb_lt hlt) hlow2 (by omega)]

/-- Sixty-four iterations exhaust any 64-bit word: more fuel changes nothing. -/
theorem while_pop_fuel_irrelevant {σ : Type} (body : σ → Square → σ) (bb extra : Nat) (st : σ)
    (hlt : bb < 2 ^ 64) : while_pop (64 + extra) bb body st = while_pop 64 bb body st := by
  rw [while_pop_eq_foldl, while_pop_eq_foldl,
    serialize_fuel_aux 64 0 bb extra hlt (fun j hj => absurd hj (Nat.not_lt_zero j)) (by omega)]

/-! ## Move buffer -/

theorem mem_take_set_first (x : chessmove) : ∀ (l : List (chessmove × Int)) (n c : Nat)
    (m : chessmove), n ≤ c + 1 → x ∈ ((set_first l c m).take n).map Prod.fst →
    x = m ∨ x ∈ (l.take c).map Prod.fst := by
  intro l
  induction l with
  | nil =>
    intro n c m _ h
    simp [set_first] at h
  | cons e rest ih =>
    intro n c m hn h
    cases c with
    | zero =>
      cases n with
      | zero => simp at h
      | succ n =>
        have hn0 : n = 0 := by omega
        subst hn0
        simp [set_first] at h
        exact Or.inl h
    | succ c =>
      cases n with
      | zero => simp at h
      | succ n =>
        simp only [set_first, List.take_succ_cons, List.map_cons, List.mem_cons] at h ⊢
        rcases h with h | h
        · exact Or.inr (Or.inl h)
        · rcases ih n c m (by omega) h with h2 | h2
          · exact Or.inl h2
          · exact Or.inr (Or.inr h2)

theorem mem_moves_add {ml : movelist} {m x : chessmove} (h : x ∈ (ml.add m).moves) :
    x = m ∨ x ∈ ml.moves := by
  unfold movelist.moves movelist.add at h
  exact mem_take_set_first x ml.pseudolegal_moves _ ml.count m
    (Nat.le_trans (Nat.mod_le _ _) (Nat.le_refl _)) h

theorem moves_add_of_all (P : chessmove → Prop) {ml : movelist} {m : chessmove}
    (h : ∀ x ∈ ml.moves, P x) (hm : P m) : ∀ x ∈ (ml.add m).moves, P x := by
  intro x hx
  rcases mem_moves_add hx with h1 | h1
  · rw [h1]; exact hm
  · exact h x h1

theorem foldl_moves (P : chessmove → Prop) (body : movelist → Square → movelist) :
    ∀ (l : List Square) (ml : movelist),
    (∀ ml sq, sq ∈ l → (∀ x ∈ ml.moves, P x) → ∀ x ∈ (body ml sq).moves, P x) →
    (∀ x ∈ ml.moves, P x) → ∀ x ∈ (l.foldl body ml).moves, P x := by
  intro l
  induction l with
  | nil => intro ml _ h; exact h
  | cons a rest ih =>
    intro ml hbody h
    rw [List.foldl_cons]
    apply ih
    · intro ml2 sq hsq h2
      exact hbody ml2 sq (List.mem_cons_of_mem _ hsq) h2
    · exact hbody ml a (List.mem_cons_self _ _) h

/-- A `pop_lsb` loop over a 64-bit word whose body keeps a property of the buffered moves,
for every set bit of the word, keeps it. -/
theorem while_pop_moves (P : chessmove → Prop) (body : movelist → Square → movelist) (bb : Nat)
    (hlt : bb < 2 ^ 64) (ml : movelist)
    (hbody : ∀ ml sq, bb.testBit sq = true → (∀ x ∈ ml.moves, P x) →
      ∀ x ∈ (body ml sq).moves, P x)
    (h : ∀ x ∈ ml.moves, P x) : ∀ x ∈ (while_pop 64 bb body ml).moves, P x := by
  rw [while_pop_eq_foldl]
  apply foldl_moves P body _ ml _ h
  intro ml2 sq hsq h2
  exact hbody ml2 sq ((mem_serialize hlt sq).mp hsq) h2

/-! ## What the generators add -/

theorem generate_slider_moves_sound (T : AttackTables) (c : Color) (ray : Ray) (piece : Piece)
    (captures_only : Bool) (b : board) (ml : movelist)
    (piece_bitboard checkmask enemy empty occupancy : Nat)
    (hp : piece_bitboard < 2 ^ 64) (he : enemy < 2 ^ 64) (hm : empty < 2 ^ 64) :
    ∀ x ∈ (generate_slider_moves T c ray piece captures_only b ml piece_bitboard checkmask enemy
        empty occupancy).moves,
      x ∈ ml.moves ∨ slider_move T ray piece captures_only b piece_bitboard checkmask enemy empty
        occupancy x := by
  unfold generate_slider_moves
  refine while_pop_moves (fun x => x ∈ ml.moves ∨ slider_move T ray piece captures_only b
    piece_bitboard checkmask enemy empty occupancy x) _ _ hp _ ?_ (fun x hx => Or.inl hx)
  intro ml1 square hsq h1
  have hcap : ∀ x ∈ (while_pop 64 (T.attacks ray square occupancy &&& checkmask &&& enemy)
      (fun ml target_square => ml.add (chessmove.new5 square target_square CAPTURE piece
        (b.get_piece target_square))) ml1).moves,
      x ∈ ml.moves ∨ slider_move T ray piece captures_only b piece_bitboard checkmask enemy
        empty occupancy x := by
    refine while_pop_moves (fun x => x ∈ ml.moves ∨ slider_move T ray piece captures_only b
      piece_bitboard checkmask enemy empty occupancy x) _ _ (and_lt_right he) _ ?_ h1
    intro ml2 t ht h2
    refine moves_add_of_all _ h2 ?_
    rw [Nat.testBit_and, Bool.and_eq_true] at ht
    exact Or.inr ⟨square, t, hsq, ht.1, Or.inl ⟨ht.2, rfl⟩⟩
  cases hco : captures_only with
  | true => simpa [hco] using hcap
  | false =>
    simp only [Bool.not_false, if_true]
    refine while_pop_moves (fun x => x ∈ ml.moves ∨ slider_move T ray piece false b
      piece_bitboard checkmask enemy empty occupancy x) _ _ (and_lt_right hm) _ ?_
      (by simpa [hco] using hcap)
    intro ml2 t ht h2
    refine moves_add_of_all _ h2 ?_
    rw [Nat.testBit_and, Bool.and_eq_true] at ht
    exact Or.inr ⟨square, t, hsq, ht.1, Or.inr ⟨rfl, ht.2, rfl⟩⟩

theorem generate_knight_moves_sound (T : AttackTables) (c : Color) (captures_only : Bool)
    (b : board) (ml : movelist) (knight_bitboard target enemy empty occupancy : Nat)
    (hp : knight_bitboard < 2 ^ 64) (he : enemy < 2 ^ 64) (hm : empty < 2 ^ 64) :
    ∀ x ∈ (generate_knight_moves T c captures_only b ml knight_bitboard target enemy empty
        occupancy).moves,
      x ∈ ml.moves ∨ knight_move T captures_only b knight_bitboard target enemy empty x := by
  unfold generate_knight_moves
  refine while_pop_moves (fun x => x ∈ ml.moves ∨ knight_move T captures_only b
    knight_bitboard target enemy empty x) _ _ hp _ ?_ (fun x hx => Or.inl hx)
  intro ml1 square hsq h1
  have hcap : ∀ x ∈ (while_pop 64 (T.KNIGHT_ATTACKS square &&& target &&& enemy)
      (fun ml target_square => ml.add (chessmove.new5 square target_square CAPTURE Knight
        (b.get_piece target_square))) ml1).moves,
      x ∈ ml.moves ∨ knight_move T captures_only b knight_bitboard target enemy empty x := by
    refine while_pop_moves (fun x => x ∈ ml.moves ∨ knight_move T captures_only b
      knight_bitboard target enemy empty x) _ _ (and_lt_right he) _ ?_ h1
    intro ml2 t ht h2
    refine moves_add_of_all _ h2 ?_
    rw [Nat.testBit_and, Bool.and_eq_true] at ht
    exact Or.inr ⟨square, t, hsq, ht.1, Or.inl ⟨ht.2, rfl⟩⟩
  cases hco : captures_only with
  | true => simpa [hco] using hcap
  | false =>
    simp only [Bool.not_false, if_true]
    refine while_pop_moves (fun x => x ∈ ml.moves ∨ knight_move T false b
      knight_bitboard target enemy empty x) _ _ (and_lt_right hm) _ ?_
      (by simpa [hco] using hcap)
    intro ml2 t ht h2
    refine moves_add_of_all _ h2 ?_
    rw [Nat.testBit_and, Bool.and_eq_true] at ht
    exact Or.inr ⟨square, t, hsq, ht.1, Or.inr ⟨rfl, ht.2, rfl⟩⟩

theorem generate_king_moves_sound (T : AttackTables) (c : Color) (captures_only : Bool)
    (b : board) (ml : movelist) (king_square : Square) (safe_squares empty enemy : Nat)
    (he : enemy < 2 ^ 64) (hm : empty < 2 ^ 64) :
    ∀ x ∈ (generate_king_moves T c captures_only b ml king_square safe_squares empty
        enemy).moves,
      x ∈ ml.moves ∨ king_move T captures_only b king_square safe_squares empty enemy x := by
  unfold generate_king_moves
  have hcap : ∀ x ∈ (while_pop 64 (T.KING_ATTACKS king_square &&& safe_squares &&& enemy)
      (fun ml target_square => ml.add (chessmove.new5 king_square target_square CAPTURE King
        (b.get_piece target_square))) ml).moves,
      x ∈ ml.moves ∨ king_move T captures_only b king_square safe_squares empty enemy x := by
    refine while_pop_moves (fun x => x ∈ ml.moves ∨ king_move T captures_only b king_square
      safe_squares empty enemy x) _ _ (and_lt_right he) _ ?_ (fun x hx => Or.inl hx)
    intro ml2 t ht h2
    refine moves_add_of_all _ h2 ?_
    rw [Nat.testBit_and, Bool.and_eq_true] at ht
    exact Or.inr ⟨t, ht.1, Or.inl ⟨ht.2, rfl⟩⟩
  cases hco : captures_only with
  | true => simpa [hco] using hcap
  | false =>
    simp only [Bool.not_false, if_true]
    refine while_pop_moves (fun x => x ∈ ml.moves ∨ king_move T false b king_square
      safe_squares empty enemy x) _ _ (and_lt_right hm) _ ?_ (by simpa [hco] using hcap)
    intro ml2 t ht h2
    refine moves_add_of_all _ h2 ?_
    rw [Nat.testBit_and, Bool.and_eq_true] at ht
    exact Or.inr ⟨t, ht.1, Or.inr ⟨rfl, ht.2, rfl⟩⟩

theorem generate_castle_moves_eq (c : Color) (ml : movelist)
    (castling_right safe_squares empty : Nat) :
    generate_castle_moves c ml castling_right safe_squares empty
      = if queenside_castle_ok c castling_right safe_squares empty then
          (if kingside_castle_ok c castling_right safe_squares empty then
            ml.add (chessmove.new4 (if c = White then E1 else E8)
              (if c = White then G1 else G8) KING_CASTLE King)
           else ml).add (chessmove.new4 (if c = White then E1 else E8)
              (if c = White then C1 else C8) QUEEN_CASTLE King)
        else
          (if kingside_castle_ok c castling_right safe_squares empty then
            ml.add (chessmove.new4 (if c = White then E1 else E8)
              (if c = White then G1 else G8) KING_CASTLE King)
           else ml) := by
  unfold generate_castle_moves
  by_cases hk : kingside_castle_ok c castling_right safe_squares empty <;>
  by_cases hq : queenside_castle_ok c castling_right safe_squares empty
  · rw [if_pos hq, if_pos hk]
    unfold kingside_castle_ok at hk
    unfold queenside_castle_ok at hq
    simp only [if_pos hk, if_pos hq]
  · rw [if_neg hq, if_pos hk]
    unfold kingside_castle_ok at hk
    unfold queenside_castle_ok at hq
    simp only [if_pos hk, if_neg hq]
  · rw [if_pos hq, if_neg hk]
    unfold kingside_castle_ok at hk
    unfold queenside_castle_ok at hq
    simp only [if_neg hk, if_pos hq]
  · rw [if_neg hq, if_neg hk]
    unfold kingside_castle_ok at hk
    unfold queenside_castle_ok at hq
    simp only [if_neg hk, if_neg hq]

theorem generate_castle_moves_sound (c : Color) (ml : movelist)
    (castling_right safe_squares empty : Nat) :
    ∀ x ∈ (generate_castle_moves c ml castling_right safe_squares empty).moves,
      x ∈ ml.moves
      ∨ (kingside_castle_ok c castling_right safe_squares empty
          ∧ x = chessmove.new4 (if c = White then E1 else E8) (if c = White then G1 else G8)
              KING_CASTLE King)
      ∨ (queenside_castle_ok c castling_right safe_squares empty
          ∧ x = chessmove.new4 (if c = White then E1 else E8) (if c = White then C1 else C8)
              QUEEN_CASTLE King) := by
  rw [generate_castle_moves_eq]
  intro x hx
  by_cases hk : kingside_castle_ok c castling_right safe_squares empty <;>
  by_cases hq : queenside_castle_ok c castling_right safe_squares empty
  · rw [if_pos hq, if_pos hk] at hx
    rcases mem_moves_add hx with h | h
    · exact Or.inr (Or.inr ⟨hq, h⟩)
    · rcases mem_moves_add h with h | h
      · exact Or.inr (Or.inl ⟨hk, h⟩)
      · exact Or.inl h
  · rw [if_neg hq, if_pos hk] at hx
    rcases mem_moves_add hx with h | h
    · exact Or.inr (Or.inl ⟨hk, h⟩)
    · exact Or.inl h
  · rw [if_pos hq, if_neg hk] at hx
    rcases mem_moves_add hx with h | h
    · exact Or.inr (Or.inr ⟨hq, h⟩)
    · exact Or.inl h
  · rw [if_neg hq, if_neg hk] at hx
    exact Or.inl hx

theorem shift_lt (d : Direction) {x : Nat} (hx : x < 2 ^ 64) : shift d x < 2 ^ 64 := by
  cases d <;> simp only [shift]
  all_goals first
    | exact shl64_lt _ _
    | exact shiftRight_lt _ hx
    | exact shiftRight_lt _ (and_lt_left hx)

theorem not_penultimate_rank_lt (c : Color) : not_penultimate_rank c < 2 ^ 64 := by
  cases c <;> decide

theorem penultimate_rank_lt (c : Color) : penultimate_rank c < 2 ^ 64 := by
  cases c <;> decide

theorem enpassant_rank_lt (c : Color) : enpassant_rank c < 2 ^ 64 := by
  cases c <;> decide

theorem while_pop_add_moves (P : chessmove → Prop) (bb : Nat) (hlt : bb < 2 ^ 64)
    (mv : Square → chessmove) (ml : movelist) (hmv : ∀ t, bb.testBit t = true → P (mv t))
    (h : ∀ x ∈ ml.moves, P x) :
    ∀ x ∈ (while_pop 64 bb (fun ml sq => ml.add (mv sq)) ml).moves, P x := by
  refine while_pop_moves P _ bb hlt ml ?_ h
  intro ml2 t ht h2
  exact moves_add_of_all P h2 (hmv t ht)

theorem pawn_pushes_moves (P : chessmove → Prop) (c : Color) (ml : movelist)
    (pawn_bitboard checkmask empty : Nat) (h : ∀ x ∈ ml.moves, P x)
    (h1 : ∀ t, (shift (up c) (pawn_bitboard &&& not_penultimate_rank c) &&& empty
        &&& checkmask).testBit t = true → P (chessmove.new4 (sq_sub t (up c)) t QUIET Pawn))
    (h2 : ∀ t, (shift (up c) (shift (up c) (pawn_bitboard &&& not_penultimate_rank c) &&& empty
          &&& enpassant_rank c) &&& (empty &&& checkmask)).testBit t = true →
        P (chessmove.new4 (sq_sub t (up_2 c)) t DOUBLE_PAWN_PUSH Pawn)) :
    ∀ x ∈ (pawn_pushes c ml pawn_bitboard checkmask empty).moves, P x := by
  have hs : shift (up c) (pawn_bitboard &&& not_penultimate_rank c) < 2 ^ 64 :=
    shift_lt _ (and_lt_right (not_penultimate_rank_lt c))
  unfold pawn_pushes
  refine while_pop_add_moves P _ ?_ _ _ h2 (while_pop_add_moves P _ ?_ _ _ h1 h)
  · exact and_lt_left (shift_lt _ (and_lt_right (enpassant_rank_lt c)))
  · exact and_lt_left (and_lt_left hs)

theorem promote_push_body_moves (P : chessmove → Prop) (c : Color) (captures_only : Bool)
    (ml : movelist) (t : Square) (h : ∀ x ∈ ml.moves, P x)
    (hk : ∀ k, (k = QUEEN_PROMOTION ∨ (captures_only = false
        ∧ (k = ROOK_PROMOTION ∨ k = BISHOP_PROMOTION ∨ k = KNIGHT_PROMOTION))) →
      P (chessmove.new4 (sq_sub t (up c)) t k Pawn)) :
    ∀ x ∈ (promote_push_body c captures_only ml t).moves, P x := by
  unfold promote_push_body
  have hq := moves_add_of_all P h (hk QUEEN_PROMOTION (Or.inl rfl))
  cases hco : captures_only with
  | true => simpa using hq
  | false =>
    simp only [Bool.not_false, if_true]
    refine moves_add_of_all P (moves_add_of_all P (moves_add_of_all P hq ?_) ?_) ?_
    · exact hk ROOK_PROMOTION (Or.inr ⟨hco, Or.inl rfl⟩)
    · exact hk BISHOP_PROMOTION (Or.inr ⟨hco, Or.inr (Or.inl rfl)⟩)
    · exact hk KNIGHT_PROMOTION (Or.inr ⟨hco, Or.inr (Or.inr rfl)⟩)

theorem promote_capture_body_moves (P : chessmove → Prop) (d : Direction) (captures_only : Bool)
    (b : board) (ml : movelist) (t : Square) (h : ∀ x ∈ ml.moves, P x)
    (hk : ∀ k, (k = QUEEN_PROMOTION_CAPTURE ∨ (captures_only = false
        ∧ (k = ROOK_PROMOTION_CAPTURE ∨ k = BISHOP_PROMOTION_CAPTURE
          ∨ k = KNIGHT_PROMOTION_CAPTURE))) →
      P (chessmove.new5 (sq_sub t d) t k Pawn (b.get_piece t))) :
    ∀ x ∈ (promote_capture_body d captures_only b ml t).moves, P x := by
  unfold promote_capture_body
  have hq := moves_add_of_all P h (hk QUEEN_PROMOTION_CAPTURE (Or.inl rfl))
  cases hco : captures_only with
  | true => simpa using hq
  | false =>
    simp only [Bool.not_false, if_true]
    refine moves_add_of_all P (moves_add_of_all P (moves_add_of_all P hq ?_) ?_) ?_
    · exact hk ROOK_PROMOTION_CAPTURE (Or.inr ⟨hco, Or.inl rfl⟩)
    · exact hk BISHOP_PROMOTION_CAPTURE (Or.inr ⟨hco, Or.inr (Or.inl rfl)⟩)
    · exact hk KNIGHT_PROMOTION_CAPTURE (Or.inr ⟨hco, Or.inr (Or.inr rfl)⟩)

theorem pawn_promotions_moves (P : chessmove → Prop) (c : Color) (captures_only : Bool)
    (b : board) (ml : movelist) (pawn_bitboard checkmask enemy empty : Nat)
    (h : ∀ x ∈ ml.moves, P x)
    (h1 : ∀ t k, (shift (up c) (pawn_bitboard &&& penultimate_rank c)
          &&& (empty &&& checkmask)).testBit t = true →
        (k = QUEEN_PROMOTION ∨ (captures_only = false
          ∧ (k = ROOK_PROMOTION ∨ k = BISHOP_PROMOTION ∨ k = KNIGHT_PROMOTION))) →
        P (chessmove.new4 (sq_sub t (up c)) t k Pawn))
    (h2 : ∀ d t k, (d = antidiagonal_capture c ∨ d = diagonal_capture c) →
        (shift d (pawn_bitboard &&& penultimate_rank c) &&& (enemy &&& checkmask)).testBit t = true →
        (k = QUEEN_PROMOTION_CAPTURE ∨ (captures_only = false
          ∧ (k = ROOK_PROMOTION_CAPTURE ∨ k = BISHOP_PROMOTION_CAPTURE
            ∨ k = KNIGHT_PROMOTION_CAPTURE))) →
        P (chessmove.new5 (sq_sub t d) t k Pawn (b.get_piece t))) :
    ∀ x ∈ (pawn_promotions c captures_only b ml pawn_bitboard checkmask enemy empty).moves,
      P x := by
  have hs : ∀ d, shift d (pawn_bitboard &&& penultimate_rank c) < 2 ^ 64 :=
    fun d => shift_lt d (and_lt_right (penultimate_rank_lt c))
  unfold pawn_promotions
  by_cases hpp : pawn_bitboard &&& penultimate_rank c ≠ 0
  · simp only [if_pos hpp]
    refine while_pop_moves P _ _ (and_lt_left (hs _)) _ ?_
      (while_pop_moves P _ _ (and_lt_left (hs _)) _ ?_
        (while_pop_moves P _ _ (and_lt_left (hs _)) _ ?_ h))
    · intro ml2 t ht h3
      exact promote_capture_body_moves P _ _ b ml2 t h3 (fun k hk => h2 _ t k (Or.inr rfl) ht hk)
    · intro ml2 t ht h3
      exact promote_capture_body_moves P _ _ b ml2 t h3 (fun k hk => h2 _ t k (Or.inl rfl) ht hk)
    · intro ml2 t ht h3
      exact promote_push_body_moves P c _ ml2 t h3 (fun k hk => h1 t k ht hk)
  · simp only [if_neg hpp]
    exact h

theorem pawn_captures_moves (P : chessmove → Prop) (c : Color) (b : board) (ml : movelist)
    (pawn_bitboard checkmask enemy : Nat) (h : ∀ x ∈ ml.moves, P x)
    (h1 : ∀ d t, (d = antidiagonal_capture c ∨ d = diagonal_capture c) →
        (shift d (pawn_bitboard &&& not_penultimate_rank c)
          &&& (enemy &&& checkmask)).testBit t = true →
        P (chessmove.new5 (sq_sub t d) t CAPTURE Pawn (b.get_piece t))) :
    ∀ x ∈ (pawn_captures c b ml pawn_bitboard checkmask enemy).moves, P x := by
  have hs : ∀ d, shift d (pawn_bitboard &&& not_penultimate_rank c) < 2 ^ 64 :=
    fun d => shift_lt d (and_lt_right (not_penultimate_rank_lt c))
  unfold pawn_captures
  refine while_pop_add_moves P _ (and_lt_left (hs _)) _ _ ?_
    (while_pop_add_moves P _ (and_lt_left (hs _)) _ _ ?_ h)
  · intro t ht
    exact h1 _ t (Or.inr rfl) ht
  · intro t ht
    exact h1 _ t (Or.inl rfl) ht

theorem pawn_enpassant_moves (P : chessmove → Prop) (c : Color) (b : board) (ml : movelist)
    (pawn_bitboard : Nat) (h : ∀ x ∈ ml.moves, P x)
    (h1 : ∀ d, (d = antidiagonal_capture c ∨ d = diagonal_capture c) →
        b.enpassant_square ≠ Null_Square →
        shift d (pawn_bitboard &&& not_penultimate_rank c) &&& bit b.enpassant_square ≠ 0 →
        P (chessmove.new5 (sq_sub b.enpassant_square d) b.enpassant_square EN_PASSANT Pawn
          Pawn)) :
    ∀ x ∈ (pawn_enpassant c b ml pawn_bitboard).moves, P x := by
  unfold pawn_enpassant
  by_cases hep : b.enpassant_square ≠ Null_Square
  · simp only [if_pos hep]
    have ha : ∀ x ∈ (if shift (antidiagonal_capture c) (pawn_bitboard &&& not_penultimate_rank c)
          &&& bit b.enpassant_square ≠ 0 then
        ml.add (chessmove.new5 (sq_sub b.enpassant_square (antidiagonal_capture c))
          b.enpassant_square EN_PASSANT Pawn Pawn) else ml).moves, P x := by
      by_cases hx : shift (antidiagonal_capture c) (pawn_bitboard &&& not_penultimate_rank c)
          &&& bit b.enpassant_square ≠ 0
      · rw [if_pos hx]
        exact moves_add_of_all P h (h1 _ (Or.inl rfl) hep hx)
      · rw [if_neg hx]
        exact h
    by_cases hx : shift (diagonal_capture c) (pawn_bitboard &&& not_penultimate_rank c)
        &&& bit b.enpassant_square ≠ 0
    · rw [if_pos hx]
      exact moves_add_of_all P ha (h1 _ (Or.inr rfl) hep hx)
    · rw [if_neg hx]
      exact ha
  · simp only [if_neg hep]
    exact h

theorem generate_pawn_moves_sound (c : Color) (captures_only : Bool) (b : board)
    (ml : movelist) (pawn_bitboard checkmask enemy empty : Nat) :
    ∀ x ∈ (generate_pawn_moves c captures_only b ml pawn_bitboard checkmask enemy empty).moves,
      x ∈ ml.moves ∨ pawn_move c captures_only b pawn_bitboard checkmask enemy empty x := by
  unfold generate_pawn_moves
  refine pawn_enpassant_moves _ c b _ pawn_bitboard
    (pawn_captures_moves _ c b _ pawn_bitboard checkmask enemy
      (pawn_promotions_moves _ c captures_only b _ pawn_bitboard checkmask enemy empty
        ?_ ?_ ?_) ?_) ?_
  · cases hco : captures_only with
    | true =>
      intro x hx
      exact Or.inl (by simpa using hx)
    | false =>
      simp only [Bool.not_false, if_true]
      refine pawn_pushes_moves _ c ml pawn_bitboard checkmask empty (fun x hx => Or.inl hx) ?_ ?_
      · intro t ht
        exact Or.inr (Or.inl ⟨rfl, t, ht, rfl⟩)
      · intro t ht
        exact Or.inr (Or.inr (Or.inl ⟨rfl, t, ht, rfl⟩))
  · intro t k ht hk
    exact Or.inr (Or.inr (Or.inr (Or.inl ⟨t, k, ht, hk, rfl⟩)))
  · intro d t k hd ht hk
    exact Or.inr (Or.inr (Or.inr (Or.inr (Or.inl ⟨d, t, k, hd, ht, hk, rfl⟩))))
  · intro d t hd ht
    exact Or.inr (Or.inr (Or.inr (Or.inr (Or.inr (Or.inl ⟨d, t, hd, ht, rfl⟩)))))
  · intro d hd hep hx
    exact Or.inr (Or.inr (Or.inr (Or.inr (Or.inr (Or.inr ⟨d, hd, hep, hx, rfl⟩)))))

theorem moves_new : movelist.new.moves = [] := by
  unfold movelist.moves movelist.new
  rfl

theorem generate_all_moves_snd (T : AttackTables) (c : Color) (captures_only : Bool)
    (b : board) (ml : movelist) :
    (generate_all_moves T c captures_only b ml).2.2
      = if !captures_only then
          generate_castle_moves c (generated_pieces T c captures_only b ml) b.castling_rights
            (gen_safe_squares T c b) (not64 b.occupancy)
        else generated_pieces T c captures_only b ml := by
  rfl

theorem generate_all_moves_fst (T : AttackTables) (c : Color) (captures_only : Bool)
    (b : board) (ml : movelist) :
    (generate_all_moves T c captures_only b ml).1 = (gen_checkmask T c b == full_board) := by
  rfl

theorem generated_pieces_sound (T : AttackTables) (c : Color) (captures_only : Bool)
    (b : board) (ml : movelist) (hwf : b.wf) :
    ∀ y ∈ (generated_pieces T c captures_only b ml).moves,
      y ∈ ml.moves ∨ generated_move T c captures_only b y := by
  obtain ⟨_, hso, hbb⟩ := hwf
  have hem : not64 b.occupancy < 2 ^ 64 := not64_lt _
  intro y hy
  unfold generated_pieces at hy
  rcases generate_pawn_moves_sound _ _ _ _ _ _ _ _ y hy with hkn | hpawn
  swap
  · exact Or.inr (generated_move.pawn hpawn)
  rcases generate_knight_moves_sound _ _ _ _ _ _ _ _ _ _ (hbb _ _) (hso _) hem y hkn
    with hq | hknight
  swap
  · exact Or.inr (generated_move.knight hknight)
  rcases generate_slider_moves_sound _ _ _ _ _ _ _ _ _ _ _ _ (hbb _ _) (hso _) hem y hq
    with hbi | hqueen
  swap
  · exact Or.inr (generated_move.queen hqueen)
  rcases generate_slider_moves_sound _ _ _ _ _ _ _ _ _ _ _ _ (hbb _ _) (hso _) hem y hbi
    with hr | hbishop
  swap
  · exact Or.inr (generated_move.bishop hbishop)
  rcases generate_slider_moves_sound _ _ _ _ _ _ _ _ _ _ _ _ (hbb _ _) (hso _) hem y hr
    with hk | hrook
  swap
  · exact Or.inr (generated_move.rook hrook)
  rcases generate_king_moves_sound _ _ _ _ _ _ _ _ _ (hso _) hem y hk with hold | hking
  · exact Or.inl hold
  · exact Or.inr (generated_move.king hking)

theorem generate_all_moves_sound (T : AttackTables) (c : Color) (captures_only : Bool)
    (b : board) (ml : movelist) (hwf : b.wf) :
    ∀ x ∈ (generate_all_moves T c captures_only b ml).2.2.moves,
      x ∈ ml.moves ∨ generated_move T c captures_only b x := by
  intro x hx
  rw [generate_all_moves_snd] at hx
  cases hco : captures_only with
  | true =>
    rw [hco] at hx
    simp only [Bool.not_true, Bool.false_eq_true, if_false] at hx
    exact generated_pieces_sound T c true b ml hwf x hx
  | false =>
    rw [hco] at hx
    simp only [Bool.not_false, if_true] at hx
    rcases generate_castle_moves_sound c _ _ _ _ x hx with h | h | h
    · exact generated_pieces_sound T c false b ml hwf x h
    · exact Or.inr (generated_move.king_castle rfl h.1 h.2)
    · exact Or.inr (generated_move.queen_castle rfl h.1 h.2)

/-! ## Shifts -/

theorem sq_sub_pos (t k : Nat) (d : Direction) (hd : d.val = (k : Int)) :
    sq_sub t d = t - k := by
  unfold sq_sub
  rw [hd]
  exact Int.toNat_sub t k

theorem sq_sub_neg (t k : Nat) (d : Direction) (hd : d.val = -(k : Int)) :
    sq_sub t d = k + t := by
  unfold sq_sub
  rw [hd]
  have e : (t : Int) - -(k : Int) = ((k + t : Nat) : Int) := by
    push_cast
    ring
  rw [e]
  exact Int.toNat_natCast _

/-- A set bit of a shifted bitboard comes from the set bit one step against the direction. -/
theorem shift_origin (d : Direction) (x t : Nat) (h : (shift d x).testBit t = true) :
    x.testBit (sq_sub t d) = true ∧ ((sq_sub t d : Nat) : Int) + d.val = (t : Int) := by
  cases d
  case NORTH =>
    simp only [shift, testBit_shl64, Bool.and_eq_true, decide_eq_true_eq] at h
    rw [sq_sub_pos t 8 NORTH rfl]
    exact ⟨h.2.2, by simp only [Direction.val]; omega⟩
  case SOUTH =>
    simp only [shift, Nat.testBit_shiftRight] at h
    rw [sq_sub_neg t 8 SOUTH rfl]
    exact ⟨h, by simp only [Direction.val]; omega⟩
  case NORTH_2 =>
    simp only [shift, testBit_shl64, Bool.and_eq_true, decide_eq_true_eq] at h
    rw [sq_sub_pos t 16 NORTH_2 rfl]
    exact ⟨h.2.2, by simp only [Direction.val]; omega⟩
  case SOUTH_2 =>
    simp only [shift, Nat.testBit_shiftRight] at h
    rw [sq_sub_neg t 16 SOUTH_2 rfl]
    exact ⟨h, by simp only [Direction.val]; omega⟩
  case NORTH_EAST =>
    simp only [shift, testBit_shl64, Nat.testBit_and, Bool.and_eq_true, decide_eq_true_eq] at h
    rw [sq_sub_pos t 9 NORTH_EAST rfl]
    exact ⟨h.2.2.1, by simp only [Direction.val]; omega⟩
  case NORTH_WEST =>
    simp only [shift, testBit_shl64, Nat.testBit_and, Bool.and_eq_true, decide_eq_true_eq] at h
    rw [sq_sub_pos t 7 NORTH_WEST rfl]
    exact ⟨h.2.2.1, by simp only [Direction.val]; omega⟩
  case SOUTH_EAST =>
    simp only [shift, Nat.testBit_shiftRight, Nat.testBit_and, Bool.and_eq_true] at h
    rw [sq_sub_neg t 7 SOUTH_EAST rfl]
    exact ⟨h.1, by simp only [Direction.val]; omega⟩
  case SOUTH_WEST =>
    simp only [shift, Nat.testBit_shiftRight, Nat.testBit_and, Bool.and_eq_true] at h
    rw [sq_sub_neg t 9 SOUTH_WEST rfl]
    exact ⟨h.1, by simp only [Direction.val]; omega⟩
  case EAST =>
    simp only [shift, testBit_shl64, Nat.testBit_and, Bool.and_eq_true, decide_eq_true_eq] at h
    rw [sq_sub_pos t 1 EAST rfl]
    exact ⟨h.2.2.1, by simp only [Direction.val]; omega⟩
  case WEST =>
    simp only [shift, Nat.testBit_shiftRight, Nat.testBit_and, Bool.and_eq_true] at h
    rw [sq_sub_neg t 1 WEST rfl]
    exact ⟨h.1, by simp only [Direction.val]; omega⟩

theorem shift_origin_lt (d : Direction) (x t : Nat) (hx : x < 2 ^ 64)
    (h : (shift d x).testBit t = true) : sq_sub t d < 64 ∧ t < 64 :=
  ⟨lt_of_testBit_of_lt hx (shift_origin d x t h).1, lt_of_testBit_of_lt (shift_lt d hx) h⟩

theorem sq_sub_up_2 (c : Color) (t : Nat) :
    sq_sub (sq_sub t (up c)) (up c) = sq_sub t (up_2 c) := by
  cases c
  · have e1 : up White = NORTH := rfl
    have e2 : up_2 White = NORTH_2 := rfl
    rw [e1, e2, sq_sub_pos t 8 NORTH rfl, sq_sub_pos _ 8 NORTH rfl, sq_sub_pos t 16 NORTH_2 rfl]
    show (t - 8 - 8 : Nat) = t - 16
    omega
  · have e1 : up Black = SOUTH := rfl
    have e2 : up_2 Black = SOUTH_2 := rfl
    rw [e1, e2, sq_sub_neg t 8 SOUTH rfl, sq_sub_neg _ 8 SOUTH rfl, sq_sub_neg t 16 SOUTH_2 rfl]
    show (8 + (8 + t) : Nat) = 16 + t
    omega

/-! ## Checkmask -/

theorem other_other (c : Color) : other (other c) = c := by
  cases c <;> rfl

theorem attackers_lt (T : AttackTables) (c : Color) (b : board) (sq : Square) (hwf : b.wf) :
    b.attackers T c sq < 2 ^ 64 := by
  obtain ⟨_, _, hbb⟩ := hwf
  unfold board.attackers
  refine Nat.or_lt_two_pow (Nat.or_lt_two_pow (Nat.or_lt_two_pow (Nat.or_lt_two_pow ?_ ?_) ?_) ?_) ?_
  · exact and_lt_right (Nat.or_lt_two_pow (hbb _ _) (hbb _ _))
  · exact and_lt_right (Nat.or_lt_two_pow (hbb _ _) (hbb _ _))
  · exact and_lt_right (hbb _ _)
  · exact and_lt_right (hbb _ _)
  · exact and_lt_right (hbb _ _)

theorem set_pop_bit_eq {occ k : Nat} (hocc : occ < 2 ^ 64) (hk : occ.testBit k = true) :
    set_bit (pop_bit occ k) k = occ := by
  apply Nat.eq_of_testBit_eq
  intro i
  have hk64 : k < 64 := lt_of_testBit_of_lt hocc hk
  simp only [set_bit, pop_bit, Nat.testBit_or, Nat.testBit_and, testBit_not64, testBit_bit]
  by_cases hik : i = k
  · subst hik
    simp [hk, hk64]
  · cases hi : occ.testBit i with
    | false => simp [hik]
    | true =>
      have : i < 64 := lt_of_testBit_of_lt hocc hi
      simp [hik, this]

/-- The helper `get_safe_squares` leaves the board as it was when the square is occupied. -/
theorem get_safe_squares_board (T : AttackTables) (ec : Color) (b : board) (k : Square)
    (hocc : b.occupancy < 2 ^ 64) (hk : b.occupancy.testBit k = true) :
    (b.get_safe_squares T ec k).2 = b := by
  unfold board.get_safe_squares
  simp only [set_pop_bit_eq hocc hk]

theorem gen_checkmask_eq (T : AttackTables) (c : Color) (b : board) (hwf : b.wf)
    (hk : b.occupancy.testBit b.get_king_square = true) :
    gen_checkmask T c b = b.get_checkmask T (other c) b.get_king_square := by
  unfold gen_checkmask
  rw [get_safe_squares_board T (other c) b b.get_king_square hwf.1 hk]

theorem get_checkmask_zero (T : AttackTables) (ec : Color) (b : board) (sq : Square)
    (h : b.attackers T (other ec) (lsb (b.bitboards (other ec) King)) = 0) :
    b.get_checkmask T ec sq = full_board := by
  unfold board.get_checkmask
  simp only [h, if_true]

theorem get_checkmask_one (T : AttackTables) (ec : Color) (b : board) (sq s : Square)
    (hwf : b.wf)
    (h : ∀ i, (b.attackers T (other ec) (lsb (b.bitboards (other ec) King))).testBit i = true
      ↔ i = s) :
    b.get_checkmask T ec sq = T.pinmask sq s := by
  have hlt := attackers_lt T (other ec) b (lsb (b.bitboards (other ec) King)) hwf
  have hne : b.attackers T (other ec) (lsb (b.bitboards (other ec) King)) ≠ 0 := by
    intro h0
    have := (h s).mpr rfl
    rw [h0] at this
    simp at this
  have hl := lsb_spec hne hlt
  have hls : lsb (b.attackers T (other ec) (lsb (b.bitboards (other ec) King))) = s :=
    (h _).mp hl.1
  have hrest : (pop_lsb (b.attackers T (other ec) (lsb (b.bitboards (other ec) King)))).2 = 0 := by
    apply Nat.eq_of_testBit_eq
    intro i
    rw [testBit_pop_lsb hne hlt, Nat.zero_testBit, hls]
    by_cases his : i = s
    · simp [his]
    · have : (b.attackers T (other ec) (lsb (b.bitboards (other ec) King))).testBit i = false := by
        cases hb : (b.attackers T (other ec) (lsb (b.bitboards (other ec) King))).testBit i with
        | false => rfl
        | true => exact absurd ((h i).mp hb) his
      simp [this]
  unfold board.get_checkmask
  simp only [if_neg hne, hrest, ne_eq, not_true_eq_false, if_false]
  show T.pinmask sq (lsb _) = _
  rw [hls]

theorem get_checkmask_two (T : AttackTables) (ec : Color) (b : board) (sq : Square)
    (hwf : b.wf)
    (h : ∃ i j, i ≠ j
      ∧ (b.attackers T (other ec) (lsb (b.bitboards (other ec) King))).testBit i = true
      ∧ (b.attackers T (other ec) (lsb (b.bitboards (other ec) King))).testBit j = true) :
    b.get_checkmask T ec sq = 0 := by
  have hlt := attackers_lt T (other ec) b (lsb (b.bitboards (other ec) King)) hwf
  obtain ⟨i, j, hij, hi, hj⟩ := h
  have hne : b.attackers T (other ec) (lsb (b.bitboards (other ec) King)) ≠ 0 := by
    intro h0
    rw [h0] at hi
    simp at hi
  have hrest : (pop_lsb (b.attackers T (other ec) (lsb (b.bitboards (other ec) King)))).2 ≠ 0 := by
    intro h0
    have e1 := testBit_pop_lsb hne hlt i
    have e2 := testBit_pop_lsb hne hlt j
    rw [h0, Nat.zero_testBit, hi] at e1
    rw [h0, Nat.zero_testBit, hj] at e2
    simp at e1 e2
    omega
  unfold board.get_checkmask
  simp only [if_neg hne, hrest, ne_eq, not_false_eq_true, if_true]

theorem get_checkmask_ne_full (T : AttackTables) (ec : Color) (b : board) (sq : Square)
    (hpin : ∀ a s, T.pinmask a s ≠ full_board)
    (h : b.attackers T (other ec) (lsb (b.bitboards (other ec) King)) ≠ 0) :
    b.get_checkmask T ec sq ≠ full_board := by
  unfold board.get_checkmask
  simp only [if_neg h]
  by_cases hr : (pop_lsb (b.attackers T (other ec) (lsb (b.bitboards (other ec) King)))).2 ≠ 0
  · simp only [if_pos hr]
    decide
  · simp only [if_neg hr]
    exact hpin _ _

/-! ## Decoding generated moves -/

theorem new4_fields (f t k : Nat) (p : Piece) (hf : f < 64) (ht : t < 64) (hk : k < 16) :
    (chessmove.new4 f t k p).get_from = f ∧ (chessmove.new4 f t k p).get_to = t
      ∧ (chessmove.new4 f t k p).get_move_type = k
      ∧ (chessmove.new4 f t k p).get_piece = p.val := by
  rw [new4_eq_new5]
  have h := new5_fields f t k p Pawn hf ht hk
  exact ⟨h.1, h.2.1, h.2.2.1, h.2.2.2.1⟩

theorem testBit_and_left {x y i : Nat} (h : (x &&& y).testBit i = true) : x.testBit i = true := by
  rw [Nat.testBit_and, Bool.and_eq_true] at h
  exact h.1

theorem testBit_and_right {x y i : Nat} (h : (x &&& y).testBit i = true) : y.testBit i = true := by
  rw [Nat.testBit_and, Bool.and_eq_true] at h
  exact h.2

theorem king_square_lt (b : board) (hwf : b.wf)
    (hking : b.occupancy.testBit b.get_king_square = true) : b.get_king_square < 64 :=
  lt_of_testBit_of_lt hwf.1 hking

theorem gen_safe_squares_lt (T : AttackTables) (c : Color) (b : board) :
    gen_safe_squares T c b < 2 ^ 64 :=
  not64_lt _

/-- Every king move and castle carries the piece `King`. -/
theorem king_move_piece (T : AttackTables) (co : Bool) (b : board) (k : Square)
    (safe empty enemy : Nat) (m : chessmove) (hk : k < 64) (hsafe : safe < 2 ^ 64)
    (h : king_move T co b k safe empty enemy m) : m.get_piece = King.val := by
  obtain ⟨t, ht, h | h⟩ := h
  · have ht64 : t < 64 := lt_of_testBit_of_lt hsafe (testBit_and_right ht)
    rw [h.2]
    exact (new5_fields k t CAPTURE King _ hk ht64 (by decide)).2.2.2.1
  · have ht64 : t < 64 := lt_of_testBit_of_lt hsafe (testBit_and_right ht)
    rw [h.2.2]
    exact (new4_fields k t QUIET King hk ht64 (by decide)).2.2.2

theorem castle_squares_lt (c : Color) :
    (if c = White then E1 else E8) < 64 ∧ (if c = White then G1 else G8) < 64
      ∧ (if c = White then C1 else C8) < 64 := by
  cases c <;> decide

theorem slider_move_to (T : AttackTables) (ray : Ray) (piece : Piece) (co : Bool) (b : board)
    (bb cm enemy empty occ : Nat) (m : chessmove) (hbb : bb < 2 ^ 64) (he : enemy < 2 ^ 64)
    (hem : empty < 2 ^ 64) (h : slider_move T ray piece co b bb cm enemy empty occ m) :
    cm.testBit m.get_to = true ∧ m.get_to < 64 ∧ m.get_piece = piece.val := by
  obtain ⟨sq, t, hsq, hatt, h | h⟩ := h
  · have hs64 : sq < 64 := lt_of_testBit_of_lt hbb hsq
    have ht64 : t < 64 := lt_of_testBit_of_lt he h.1
    have hf := new5_fields sq t CAPTURE piece (b.get_piece t) hs64 ht64 (by decide)
    rw [h.2, hf.2.1, hf.2.2.2.1]
    exact ⟨testBit_and_right hatt, ht64, rfl⟩
  · have hs64 : sq < 64 := lt_of_testBit_of_lt hbb hsq
    have ht64 : t < 64 := lt_of_testBit_of_lt hem h.2.1
    have hf := new4_fields sq t QUIET piece hs64 ht64 (by decide)
    rw [h.2.2, hf.2.1, hf.2.2.2]
    exact ⟨testBit_and_right hatt, ht64, rfl⟩

theorem knight_move_to (T : AttackTables) (co : Bool) (b : board)
    (bb cm enemy empty : Nat) (m : chessmove) (hbb : bb < 2 ^ 64) (he : enemy < 2 ^ 64)
    (hem : empty < 2 ^ 64) (h : knight_move T co b bb cm enemy empty m) :
    cm.testBit m.get_to = true ∧ m.get_to < 64 ∧ m.get_piece = Knight.val := by
  obtain ⟨sq, t, hsq, hatt, h | h⟩ := h
  · have hs64 : sq < 64 := lt_of_testBit_of_lt hbb hsq
    have ht64 : t < 64 := lt_of_testBit_of_lt he h.1
    have hf := new5_fields sq t CAPTURE Knight (b.get_piece t) hs64 ht64 (by decide)
    rw [h.2, hf.2.1, hf.2.2.2.1]
    exact ⟨testBit_and_right hatt, ht64, rfl⟩
  · have hs64 : sq < 64 := lt_of_testBit_of_lt hbb hsq
    have ht64 : t < 64 := lt_of_testBit_of_lt hem h.2.1
    have hf := new4_fields sq t QUIET Knight hs64 ht64 (by decide)
    rw [h.2.2, hf.2.1, hf.2.2.2]
    exact ⟨testBit_and_right hatt, ht64, rfl⟩

/-- A pawn move is an en-passant capture or lands inside the checkmask. -/
theorem pawn_move_to (c : Color) (co : Bool) (b : board) (bb cm enemy empty : Nat)
    (m : chessmove) (h : pawn_move c co b bb cm enemy empty m) :
    m.get_move_type = EN_PASSANT ∨ (cm.testBit m.get_to = true ∧ m.get_to < 64) := by
  have hnp : bb &&& not_penultimate_rank c < 2 ^ 64 := and_lt_right (not_penultimate_rank_lt c)
  have hpp : bb &&& penultimate_rank c < 2 ^ 64 := and_lt_right (penultimate_rank_lt c)
  rcases h with h | h | h | h | h | h
  · obtain ⟨_, t, ht, hm⟩ := h
    have ho := shift_origin_lt _ _ t hnp (testBit_and_left (testBit_and_left ht))
    have hf := new4_fields (sq_sub t (up c)) t QUIET Pawn ho.1 ho.2 (by decide)
    rw [hm, hf.2.1]
    exact Or.inr ⟨testBit_and_right ht, ho.2⟩
  · obtain ⟨_, t, ht, hm⟩ := h
    have h1 := testBit_and_left ht
    have ho := shift_origin_lt _ _ t (and_lt_right (enpassant_rank_lt c)) h1
    have h2 := (shift_origin _ _ t h1).1
    have ho2 := shift_origin_lt _ _ _ hnp (testBit_and_left (testBit_and_left h2))
    rw [sq_sub_up_2] at ho2
    have hf := new4_fields (sq_sub t (up_2 c)) t DOUBLE_PAWN_PUSH Pawn ho2.1 ho.2 (by decide)
    rw [hm, hf.2.1]
    exact Or.inr ⟨testBit_and_right (testBit_and_right ht), ho.2⟩
  · obtain ⟨t, k, ht, hk, hm⟩ := h
    have ho := shift_origin_lt _ _ t hpp (testBit_and_left ht)
    have hk16 : k < 16 := by
      rcases hk with hk | ⟨_, hk | hk | hk⟩ <;> rw [hk] <;> decide
    have hf := new4_fields (sq_sub t (up c)) t k Pawn ho.1 ho.2 hk16
    rw [hm, hf.2.1]
    exact Or.inr ⟨testBit_and_right (testBit_and_right ht), ho.2⟩
  · obtain ⟨d, t, k, _, ht, hk, hm⟩ := h
    have ho := shift_origin_lt _ _ t hpp (testBit_and_left ht)
    have hk16 : k < 16 := by
      rcases hk with hk | ⟨_, hk | hk | hk⟩ <;> rw [hk] <;> decide
    have hf := new5_fields (sq_sub t d) t k Pawn (b.get_piece t) ho.1 ho.2 hk16
    rw [hm, hf.2.1]
    exact Or.inr ⟨testBit_and_right (testBit_and_right ht), ho.2⟩
  · obtain ⟨d, t, _, ht, hm⟩ := h
    have ho := shift_origin_lt _ _ t hnp (testBit_and_left ht)
    have hf := new5_fields (sq_sub t d) t CAPTURE Pawn (b.get_piece t) ho.1 ho.2 (by decide)
    rw [hm, hf.2.1]
    exact Or.inr ⟨testBit_and_right (testBit_and_right ht), ho.2⟩
  · obtain ⟨d, _, _, hx, hm⟩ := h
    obtain ⟨i, hi⟩ := Nat.ne_zero_implies_bit_true hx
    have hbit := testBit_and_right hi
    rw [testBit_bit] at hbit
    simp only [Bool.and_eq_true, decide_eq_true_eq] at hbit
    have hie : i = b.enpassant_square := hbit.2
    rw [hie] at hi
    have ho := shift_origin_lt _ _ _ hnp (testBit_and_left hi)
    have hf := new5_fields (sq_sub b.enpassant_square d) b.enpassant_square EN_PASSANT Pawn Pawn
      ho.1 ho.2 (by decide)
    rw [hm, hf.2.2.1]
    exact Or.inl rfl

/-- Every generated move is a king move, an en-passant capture, or lands inside the
checkmask. -/
theorem generated_move_checkmask (T : AttackTables) (c : Color) (co : Bool) (b : board)
    (m : chessmove) (hwf : b.wf) (hking : b.occupancy.testBit b.get_king_square = true)
    (h : generated_move T c co b m) :
    m.get_piece = King.val ∨ m.get_move_type = EN_PASSANT
      ∨ ((gen_checkmask T c b).testBit m.get_to = true ∧ m.get_to < 64) := by
  have hk := king_square_lt b hwf hking
  have hem : not64 b.occupancy < 2 ^ 64 := not64_lt _
  obtain ⟨_, hso, hbb⟩ := hwf
  cases h with
  | king h => exact Or.inl (king_move_piece T co b _ _ _ _ m hk (gen_safe_squares_lt T c b) h)
  | rook h =>
    have := slider_move_to T _ _ co b _ _ _ _ _ m (hbb _ _) (hso _) hem h
    exact Or.inr (Or.inr ⟨this.1, this.2.1⟩)
  | bishop h =>
    have := slider_move_to T _ _ co b _ _ _ _ _ m (hbb _ _) (hso _) hem h
    exact Or.inr (Or.inr ⟨this.1, this.2.1⟩)
  | queen h =>
    have := slider_move_to T _ _ co b _ _ _ _ _ m (hbb _ _) (hso _) hem h
    exact Or.inr (Or.inr ⟨this.1, this.2.1⟩)
  | knight h =>
    have := knight_move_to T co b _ _ _ _ m (hbb _ _) (hso _) hem h
    exact Or.inr (Or.inr ⟨this.1, this.2.1⟩)
  | pawn h => exact Or.inr (pawn_move_to c co b _ _ _ _ m h)
  | king_castle _ _ hm =>
    left
    rw [hm]
    exact (new4_fields _ _ KING_CASTLE King (castle_squares_lt c).1 (castle_squares_lt c).2.1
      (by decide)).2.2.2
  | queen_castle _ _ hm =>
    left
    rw [hm]
    exact (new4_fields _ _ QUEEN_CASTLE King (castle_squares_lt c).1 (castle_squares_lt c).2.2
      (by decide)).2.2.2

/-! ## Claims: check resolution (C1), return value (C4) -/

/-- The blocks of the generator that read the checkmask: for every position with 64-bit
bitboards whose side-to-move king stands on an occupied square, every move emitted by
`generate_all_moves` whose moving piece is not the king and whose kind is not `EN_PASSANT` has
its destination inside the checkmask; when exactly one enemy piece `s` attacks the
side-to-move king the destination lies on `pinmask[king][s]`, and when two or more enemy
pieces attack the king no such move is emitted. -/
theorem checkmask_restricts_non_king_moves (T : AttackTables) (c : Color) (captures_only : Bool)
    (b : board) (m : chessmove) (hwf : b.wf) (hside : b.side = c)
    (hking : b.occupancy.testBit b.get_king_square = true)
    (hm : m ∈ (generate_all_moves T c captures_only b movelist.new).2.2.moves)
    (hnk : m.get_piece ≠ King.val) (hnep : m.get_move_type ≠ EN_PASSANT) :
    (b.get_checkmask T (other c) b.get_king_square).testBit m.get_to = true
      ∧ (∀ s, (∀ i, (b.attackers T c b.get_king_square).testBit i = true ↔ i = s) →
          (T.pinmask b.get_king_square s).testBit m.get_to = true)
      ∧ ¬ ∃ i j, i ≠ j ∧ (b.attackers T c b.get_king_square).testBit i = true
          ∧ (b.attackers T c b.get_king_square).testBit j = true := by
  have hgen : generated_move T c captures_only b m := by
    rcases generate_all_moves_sound T c captures_only b movelist.new hwf m hm with h | h
    · rw [moves_new] at h
      exact absurd h (List.not_mem_nil m)
    · exact h
  have hcm : (b.get_checkmask T (other c) b.get_king_square).testBit m.get_to = true := by
    rcases generated_move_checkmask T c captures_only b m hwf hking hgen with h | h | h
    · exact absurd h hnk
    · exact absurd h hnep
    · rw [← gen_checkmask_eq T c b hwf hking]
      exact h.1
  have hks : lsb (b.bitboards c King) = b.get_king_square := by
    rw [← hside]
    rfl
  refine ⟨hcm, ?_, ?_⟩
  · intro s hs
    have := get_checkmask_one T (other c) b b.get_king_square s hwf (by
      rw [other_other, hks]
      exact hs)
    rw [this] at hcm
    exact hcm
  · intro h2
    have := get_checkmask_two T (other c) b b.get_king_square hwf (by
      rw [other_other, hks]
      exact h2)
    rw [this, Nat.zero_testBit] at hcm
    exact Bool.noConfusion hcm

/-- Example: with the White king on h4 checked by the rook a4 alone, the double push e2-e4 is
emitted and lies on `pinmask[h4][a4]`. -/
theorem checkmask_restricts_non_king_moves_witness :
    (rank_check_board.get_checkmask std_tables (other White)
        rank_check_board.get_king_square).testBit
        (chessmove.new4 12 28 DOUBLE_PAWN_PUSH Pawn).get_to = true
      ∧ (∀ s, (∀ i, (rank_check_board.attackers std_tables White
            rank_check_board.get_king_square).testBit i = true ↔ i = s) →
          (std_tables.pinmask rank_check_board.get_king_square s).testBit
            (chessmove.new4 12 28 DOUBLE_PAWN_PUSH Pawn).get_to = true)
      ∧ ¬ ∃ i j, i ≠ j
          ∧ (rank_check_board.attackers std_tables White rank_check_board.get_king_square).testBit
            i = true
          ∧ (rank_check_board.attackers std_tables White rank_check_board.get_king_square).testBit
            j = true :=
  checkmask_restricts_non_king_moves std_tables White false rank_check_board
    (chessmove.new4 12 28 DOUBLE_PAWN_PUSH Pawn) (by decide!) (by decide!) (by decide!)
    (by decide!) (by decide!) (by decide!)

/-- C1, the code at the failing inputs: with the White king on h2 checked by the bishop b8
alone (the only attacker, `2^57`), `generate_all_moves` emits the pawn move d5xc6 en passant,
whose destination c6 is not on `pinmask[h2][b8]` and after which the bishop still attacks the
king; and with the White king on e1 checked by both the rook e8 and the knight f3, where the
checkmask is empty, it emits the same non-king move, after which both still attack the
king. -/
theorem enpassant_skips_checkmask :
    (bishop_check_board.wf ∧ bishop_check_board.side = White
      ∧ bishop_check_board.get_king_square = 15
      ∧ bishop_check_board.attackers std_tables White 15 = 2 ^ 57
      ∧ bishop_check_board.get_checkmask std_tables Black 15 = std_tables.pinmask 15 57
      ∧ chessmove.new5 35 42 EN_PASSANT Pawn Pawn
          ∈ (generate_all_moves std_tables White false bishop_check_board movelist.new).2.2.moves
      ∧ (chessmove.new5 35 42 EN_PASSANT Pawn Pawn).get_piece = Pawn.val
      ∧ (chessmove.new5 35 42 EN_PASSANT Pawn Pawn).get_to = 42
      ∧ (std_tables.pinmask 15 57).testBit 42 = false
      ∧ bishop_check_board_after.attackers std_tables White 15 = 2 ^ 57)
    ∧ (double_check_board.wf ∧ double_check_board.side = White
      ∧ double_check_board.get_king_square = 4
      ∧ double_check_board.attackers std_tables White 4 = 2 ^ 60 ||| 2 ^ 21
      ∧ double_check_board.get_checkmask std_tables Black 4 = 0
      ∧ chessmove.new5 35 42 EN_PASSANT Pawn Pawn
          ∈ (generate_all_moves std_tables White false double_check_board movelist.new).2.2.moves
      ∧ double_check_board_after.attackers std_tables White 4 = 2 ^ 60 ||| 2 ^ 21)
    := by
  decide!

/-- C4: for every position with 64-bit bitboards whose side-to-move king stands on an occupied
square, and every between table none of whose entries is the full board,
`generate_all_moves` returns true exactly when no enemy piece attacks the side-to-move
king. -/
theorem generate_all_moves_returns_true_iff_no_checker (T : AttackTables) (c : Color)
    (captures_only : Bool) (b : board) (ml : movelist) (hwf : b.wf) (hside : b.side = c)
    (hking : b.occupancy.testBit b.get_king_square = true)
    (hpin : ∀ a, a < 64 → ∀ s, s < 64 → T.pinmask a s ≠ full_board) :
    (generate_all_moves T c captures_only b ml).1 = true
      ↔ b.attackers T c b.get_king_square = 0 := by
  rw [generate_all_moves_fst, gen_checkmask_eq T c b hwf hking]
  have hks : lsb (b.bitboards c King) = b.get_king_square := by
    rw [← hside]
    rfl
  have hk64 := king_square_lt b hwf hking
  constructor
  · intro h
    by_contra hne
    have hlt := attackers_lt T c b b.get_king_square hwf
    have hne2 : b.get_checkmask T (other c) b.get_king_square ≠ full_board := by
      unfold board.get_checkmask
      simp only [other_other, hks, if_neg hne]
      by_cases hr : (pop_lsb (b.attackers T c b.get_king_square)).2 ≠ 0
      · simp only [if_pos hr]
        decide
      · simp only [if_neg hr]
        exact hpin _ hk64 _ (lsb_lt hne hlt)
    exact hne2 (by simpa using h)
  · intro h
    have := get_checkmask_zero T (other c) b b.get_king_square (by
      rw [other_other, hks]
      exact h)
    rw [this]
    rfl

/-- C4, witness: the initial position with the standard tables; no piece attacks the White
king and the generator returns true. -/
theorem generate_all_moves_returns_true_iff_no_checker_witness :
    (generate_all_moves std_tables White false initial_board movelist.new).1 = true
      ↔ initial_board.attackers std_tables White initial_board.get_king_square = 0 :=
  generate_all_moves_returns_true_iff_no_checker std_tables White false initial_board
    movelist.new (by decide!) (by decide!) (by decide!) (by decide!)

/-! ## Claim: move encoding round trip (C6) -/

/-- C6: for every from and to in `0 .. 63`, every move kind in `0 .. 15` and every piece and
captured value in `{Pawn, ..., King, Null_Piece}`, the move built by
`chessmove(from, to, kind, piece, captured)` decodes to the five constructor arguments; the
packed word is `from + 2^6 to + 2^12 kind + 2^16 piece + 2^19 captured`, so the fields occupy
bits 0-5, 6-11, 12-15, 16-18 and 19-21 without overlap. -/
theorem chessmove_roundtrip (from_sq to_sq kind : Nat) (piece captured : Piece)
    (hf : from_sq < 64) (ht : to_sq < 64) (hk : kind < 16) :
    (chessmove.new5 from_sq to_sq kind piece captured).get_from = from_sq
      ∧ (chessmove.new5 from_sq to_sq kind piece captured).get_to = to_sq
      ∧ (chessmove.new5 from_sq to_sq kind piece captured).get_move_type = kind
      ∧ (chessmove.new5 from_sq to_sq kind piece captured).get_piece = piece.val
      ∧ (chessmove.new5 from_sq to_sq kind piece captured).get_captured_piece = captured.val
      ∧ (chessmove.new5 from_sq to_sq kind piece captured).packed_move_data
          = from_sq + 2 ^ 6 * to_sq + 2 ^ 12 * kind + 2 ^ 16 * piece.val + 2 ^ 19 * captured.val
      := by
  have h := new5_fields from_sq to_sq kind piece captured hf ht hk
  refine ⟨h.1, h.2.1, h.2.2.1, h.2.2.2.1, h.2.2.2.2, ?_⟩
  unfold chessmove.new5
  rw [pack_eq from_sq to_sq kind piece.val captured.val hf ht hk piece.val_lt captured.val_lt]
  simp only [Nat.reducePow]
  omega

/-- C6, witness: the capture e4xd5 of a knight by a pawn. -/
theorem chessmove_roundtrip_witness :
    (chessmove.new5 28 35 CAPTURE Pawn Knight).get_from = 28
      ∧ (chessmove.new5 28 35 CAPTURE Pawn Knight).get_to = 35
      ∧ (chessmove.new5 28 35 CAPTURE Pawn Knight).get_move_type = CAPTURE
      ∧ (chessmove.new5 28 35 CAPTURE Pawn Knight).get_piece = Pawn.val
      ∧ (chessmove.new5 28 35 CAPTURE Pawn Knight).get_captured_piece = Knight.val
      ∧ (chessmove.new5 28 35 CAPTURE Pawn Knight).packed_move_data
          = 28 + 2 ^ 6 * 35 + 2 ^ 12 * CAPTURE + 2 ^ 16 * Pawn.val + 2 ^ 19 * Knight.val :=
  chessmove_roundtrip 28 35 CAPTURE Pawn Knight (by decide) (by decide) (by decide)

/-! ## Claim: castling (C5) -/

theorem and_two_pow_ne_zero_iff (x k : Nat) : x &&& 2 ^ k ≠ 0 ↔ x.testBit k = true := by
  constructor
  · intro h
    obtain ⟨i, hi⟩ := Nat.ne_zero_implies_bit_true h
    rw [Nat.testBit_and, Nat.testBit_two_pow, Bool.and_eq_true, decide_eq_true_eq] at hi
    rw [hi.2]
    exact hi.1
  · intro h h0
    have : (x &&& 2 ^ k).testBit k = true := by
      rw [Nat.testBit_and, h, Nat.testBit_two_pow_self]
      rfl
    rw [h0, Nat.zero_testBit] at this
    exact Bool.noConfusion this

theorem and_mask3_iff (x a b c : Nat) :
    x &&& (2 ^ a ||| 2 ^ b ||| 2 ^ c) = (2 ^ a ||| 2 ^ b ||| 2 ^ c)
      ↔ x.testBit a = true ∧ x.testBit b = true ∧ x.testBit c = true := by
  constructor
  · intro h
    have key : ∀ i, (2 ^ a ||| 2 ^ b ||| 2 ^ c).testBit i = true → x.testBit i = true := by
      intro i hi
      rw [← h] at hi
      exact testBit_and_left hi
    refine ⟨key a ?_, key b ?_, key c ?_⟩ <;>
      simp [Nat.testBit_or, Nat.testBit_two_pow]
  · intro ⟨ha, hb, hc⟩
    apply Nat.eq_of_testBit_eq
    intro i
    simp only [Nat.testBit_and, Nat.testBit_or, Nat.testBit_two_pow]
    by_cases h1 : a = i
    · subst h1; simp [ha]
    · by_cases h2 : b = i
      · subst h2; simp [hb]
      · by_cases h3 : c = i
        · subst h3; simp [hc]
        · simp [h1, h2, h3]

theorem kingside_castle_ok_iff (c : Color) (rights safe empty : Nat) :
    kingside_castle_ok c rights safe empty
      ↔ rights.testBit (castle_bit c true) = true
        ∧ safe.testBit (home_square c 4) = true ∧ safe.testBit (home_square c 5) = true
        ∧ safe.testBit (home_square c 6) = true
        ∧ empty.testBit (home_square c 5) = true ∧ empty.testBit (home_square c 6) = true := by
  unfold kingside_castle_ok
  cases c
  · have e1 : (0x70 : Nat) = 2 ^ 4 ||| 2 ^ 5 ||| 2 ^ 6 := by decide
    have e2 : (0x60 : Nat) = 2 ^ 5 ||| 2 ^ 6 ||| 2 ^ 6 := by decide
    have e3 : CASTLE_WHITE_KINGSIDE = 2 ^ 0 := by decide
    simp only [if_true, e1, e2, e3, and_mask3_iff, and_two_pow_ne_zero_iff, castle_bit,
      home_square]
    tauto
  · have e1 : (0x7000000000000000 : Nat) = 2 ^ 60 ||| 2 ^ 61 ||| 2 ^ 62 := by decide
    have e2 : (0x6000000000000000 : Nat) = 2 ^ 61 ||| 2 ^ 62 ||| 2 ^ 62 := by decide
    have e3 : CASTLE_BLACK_KINGSIDE = 2 ^ 2 := by decide
    have hc : (Black = White) = False := by simp
    simp only [hc, if_false, e1, e2, e3, and_mask3_iff, and_two_pow_ne_zero_iff, castle_bit,
      home_square]
    tauto

theorem queenside_castle_ok_iff (c : Color) (rights safe empty : Nat) :
    queenside_castle_ok c rights safe empty
      ↔ rights.testBit (castle_bit c false) = true
        ∧ safe.testBit (home_square c 2) = true ∧ safe.testBit (home_square c 3) = true
        ∧ safe.testBit (home_square c 4) = true
        ∧ empty.testBit (home_square c 1) = true ∧ empty.testBit (home_square c 2) = true
        ∧ empty.testBit (home_square c 3) = true := by
  unfold queenside_castle_ok
  cases c
  · have e1 : (0x1c : Nat) = 2 ^ 2 ||| 2 ^ 3 ||| 2 ^ 4 := by decide
    have e2 : (0xe : Nat) = 2 ^ 1 ||| 2 ^ 2 ||| 2 ^ 3 := by decide
    have e3 : CASTLE_WHITE_QUEENSIDE = 2 ^ 1 := by decide
    simp only [if_true, e1, e2, e3, and_mask3_iff, and_two_pow_ne_zero_iff, castle_bit,
      home_square]
    tauto
  · have e1 : (0x1c00000000000000 : Nat) = 2 ^ 58 ||| 2 ^ 59 ||| 2 ^ 60 := by decide
    have e2 : (0xe00000000000000 : Nat) = 2 ^ 57 ||| 2 ^ 58 ||| 2 ^ 59 := by decide
    have e3 : CASTLE_BLACK_QUEENSIDE = 2 ^ 3 := by decide
    have hc : (Black = White) = False := by simp
    simp only [hc, if_false, e1, e2, e3, and_mask3_iff, and_two_pow_ne_zero_iff, castle_bit,
      home_square]
    tauto

theorem moves_new_add (m : chessmove) : (movelist.new.add m).moves = [m] := by
  rfl

theorem moves_new_add_add (m1 m2 : chessmove) : ((movelist.new.add m1).add m2).moves = [m1, m2] := by
  rfl

/-- C5: for each colour, `generate_castle_moves` on a fresh buffer emits exactly: the king-side
castle (king from the e-file to the g-file home square, piece King) if and only if the
king-side rights bit is set, e, f and g of the home rank are in `safe_squares` and f and g are
in `empty`; then the queen-side castle (to the c-file) if and only if the queen-side rights
bit is set, c, d and e are in `safe_squares` and b, c and d are in `empty`.  The b-file square
need not be safe. -/
theorem generate_castle_moves_exact (c : Color) (rights safe empty : Nat) :
    (generate_castle_moves c movelist.new rights safe empty).moves
      = (if rights.testBit (castle_bit c true) = true
            ∧ safe.testBit (home_square c 4) = true ∧ safe.testBit (home_square c 5) = true
            ∧ safe.testBit (home_square c 6) = true
            ∧ empty.testBit (home_square c 5) = true ∧ empty.testBit (home_square c 6) = true
          then [chessmove.new4 (home_square c 4) (home_square c 6) KING_CASTLE King] else [])
        ++ (if rights.testBit (castle_bit c false) = true
            ∧ safe.testBit (home_square c 2) = true ∧ safe.testBit (home_square c 3) = true
            ∧ safe.testBit (home_square c 4) = true
            ∧ empty.testBit (home_square c 1) = true ∧ empty.testBit (home_square c 2) = true
            ∧ empty.testBit (home_square c 3) = true
          then [chessmove.new4 (home_square c 4) (home_square c 2) QUEEN_CASTLE King] else []) := by
  have he : (if c = White then E1 else E8) = home_square c 4 := by cases c <;> rfl
  have hg : (if c = White then G1 else G8) = home_square c 6 := by cases c <;> rfl
  have hc : (if c = White then C1 else C8) = home_square c 2 := by cases c <;> rfl
  rw [generate_castle_moves_eq, he, hg, hc]
  simp only [← kingside_castle_ok_iff, ← queenside_castle_ok_iff]
  by_cases hk : kingside_castle_ok c rights safe empty <;>
    by_cases hq : queenside_castle_ok c rights safe empty <;>
    simp only [hk, hq, if_true, if_false, moves_new_add, moves_new_add_add, moves_new,
      List.nil_append, List.append_nil, List.singleton_append]

/-! ## Positions built from a FEN do not depend on the hash keys -/

theorem place_char_keys (K1 K2 : ZobristKeys) (st1 st2 : placement) (fen_char : Char)
    (h : st1.square = st2.square ∧ st1.bitboards = st2.bitboards ∧ st1.pieces = st2.pieces) :
    (place_char K1 st1 fen_char).square = (place_char K2 st2 fen_char).square
      ∧ (place_char K1 st1 fen_char).bitboards = (place_char K2 st2 fen_char).bitboards
      ∧ (place_char K1 st1 fen_char).pieces = (place_char K2 st2 fen_char).pieces := by
  obtain ⟨h1, h2, h3⟩ := h
  unfold place_char
  split_ifs <;> simp [h1, h2, h3]

theorem foldl_place_char_keys (K1 K2 : ZobristKeys) (l : List Char) :
    ∀ st1 st2 : placement,
    (st1.square = st2.square ∧ st1.bitboards = st2.bitboards ∧ st1.pieces = st2.pieces) →
    (l.foldl (place_char K1) st1).square = (l.foldl (place_char K2) st2).square
      ∧ (l.foldl (place_char K1) st1).bitboards = (l.foldl (place_char K2) st2).bitboards
      ∧ (l.foldl (place_char K1) st1).pieces = (l.foldl (place_char K2) st2).pieces := by
  induction l with
  | nil => intro st1 st2 h; exact h
  | cons a rest ih =>
    intro st1 st2 h
    rw [List.foldl_cons, List.foldl_cons]
    exact ih _ _ (place_char_keys K1 K2 st1 st2 a h)

theorem board_new_keys (K1 K2 : ZobristKeys) (fen : String) :
    same_position (board.new K1 fen) (board.new K2 fen)
      ∧ (board.new K1 fen).fifty_move_clock = (board.new K2 fen).fifty_move_clock := by
  have h := foldl_place_char_keys K1 K2 ((stream_words fen.toList []).getD 0 [])
    ⟨A8, fun _ _ => 0, 0, fun _ => Null_Piece⟩ ⟨A8, fun _ _ => 0, 0, fun _ => Null_Piece⟩
    ⟨rfl, rfl, rfl⟩
  unfold same_position board.new board.fen_to_board
  simp only [h.2.1, h.2.2, and_self]

theorem attackers_same (T : AttackTables) (c : Color) (b1 b2 : board) (sq : Square)
    (h : same_position b1 b2) : b1.attackers T c sq = b2.attackers T c sq := by
  obtain ⟨_, _, _, _, hbb, _, hocc⟩ := h
  unfold board.attackers
  rw [hbb, hocc]

theorem get_king_square_same (b1 b2 : board) (h : same_position b1 b2) :
    b1.get_king_square = b2.get_king_square := by
  obtain ⟨hs, _, _, _, hbb, _, _⟩ := h
  unfold board.get_king_square
  rw [hbb, hs]

theorem in_check_same (T : AttackTables) (b1 b2 : board) (h : same_position b1 b2) :
    b1.in_check T = b2.in_check T := by
  unfold board.in_check
  rw [attackers_same T Black b1 b2 _ h, attackers_same T White b1 b2 _ h,
    get_king_square_same b1 b2 h, h.1]

theorem generate_all_moves_same (T : AttackTables) (c : Color) (co : Bool) (b1 b2 : board)
    (ml : movelist) (h : same_position b1 b2) :
    (generate_all_moves T c co b1 ml).1 = (generate_all_moves T c co b2 ml).1
      ∧ (generate_all_moves T c co b1 ml).2.2 = (generate_all_moves T c co b2 ml).2.2 := by
  obtain ⟨hs, hep, hcr, hp, hbb, hso, hocc⟩ := h
  cases b1
  cases b2
  simp only at hs hep hcr hp hbb hso hocc
  subst hs hep hcr hp hbb hso hocc
  exact ⟨rfl, rfl⟩

/-! ## Claims: the initial position (C2), `in_check` (C3) -/

theorem initial_board_moves :
    (generate_all_moves std_tables White false initial_board movelist.new).2.2.size = 20
      ∧ (generate_all_moves std_tables White false initial_board movelist.new).2.2.moves.length
          = 20
      ∧ ((generate_all_moves std_tables White false initial_board movelist.new).2.2.moves.filter
          (fun m => m.get_piece == Pawn.val)).length = 16
      ∧ ((generate_all_moves std_tables White false initial_board movelist.new).2.2.moves.filter
          (fun m => m.get_piece == Knight.val)).length = 4
      ∧ (generate_all_moves std_tables White false initial_board movelist.new).1 = true := by
  decide!

/-- C2: on the standard initial position (the default FEN, White to move, any hash keys), with
the standard attack tables, `generate_all_moves<White, false>` leaves exactly 20 moves in the
buffer, 16 of them pawn moves and 4 knight moves, and returns true. -/
theorem initial_position_twenty_moves (K : ZobristKeys) :
    (board.new K default_fen).side = White
      ∧ (generate_all_moves std_tables White false (board.new K default_fen)
          movelist.new).2.2.size = 20
      ∧ (generate_all_moves std_tables White false (board.new K default_fen)
          movelist.new).2.2.moves.length = 20
      ∧ ((generate_all_moves std_tables White false (board.new K default_fen)
          movelist.new).2.2.moves.filter (fun m => m.get_piece == Pawn.val)).length = 16
      ∧ ((generate_all_moves std_tables White false (board.new K default_fen)
          movelist.new).2.2.moves.filter (fun m => m.get_piece == Knight.val)).length = 4
      ∧ (generate_all_moves std_tables White false (board.new K default_fen) movelist.new).1
          = true := by
  have hpos := (board_new_keys K sample_keys default_fen).1
  have h := generate_all_moves_same std_tables White false (board.new K default_fen)
    initial_board movelist.new hpos
  have hside : initial_board.side = White := by decide!
  rw [h.1, h.2]
  exact ⟨hpos.1.trans hside, initial_board_moves⟩

theorem initial_board_in_check :
    initial_board.side = White
      ∧ initial_board.get_king_square = E1
      ∧ initial_board.attackers std_tables White E1 = 0
      ∧ initial_board.attackers std_tables Black E1 = 2 ^ D1
      ∧ initial_board.in_check std_tables = true := by
  decide!

/-- C3, the code at the failing input: in the standard initial position (White to move, king
on e1) no Black piece attacks e1 (`attackers<White>(e1)`, the set that `get_checkmask` and
`fen_to_board` compute, is empty), yet `in_check()` returns true: it evaluates
`attackers<Black>(e1)`, the White pieces that attack e1, which contains the White queen on
d1. -/
theorem in_check_initial_position (K : ZobristKeys) :
    (board.new K default_fen).side = White
      ∧ (board.new K default_fen).get_king_square = E1
      ∧ (board.new K default_fen).attackers std_tables White E1 = 0
      ∧ (board.new K default_fen).attackers std_tables Black E1 = 2 ^ D1
      ∧ (board.new K default_fen).in_check std_tables = true := by
  have hpos := (board_new_keys K sample_keys default_fen).1
  rw [in_check_same std_tables _ _ hpos, attackers_same std_tables White _ _ E1 hpos,
    attackers_same std_tables Black _ _ E1 hpos, get_king_square_same _ _ hpos, hpos.1]
  exact initial_board_in_check

/-! ## Invariants 1-3 -/

theorem testBit_set_bit (x s i : Nat) (hs : s < 64) :
    (x ||| bit s).testBit i = (x.testBit i || decide (i = s)) := by
  rw [Nat.testBit_or, testBit_bit]
  by_cases h : i = s
  · subst h; simp [hs]
  · simp [h]

theorem testBit_clear_bit (x s i : Nat) (hx : x < 2 ^ 64) :
    (x &&& not64 (bit s)).testBit i = (x.testBit i && decide (i ≠ s)) := by
  rw [Nat.testBit_and, testBit_not64, testBit_bit]
  cases hxi : x.testBit i with
  | false => simp
  | true =>
    have : i < 64 := lt_of_testBit_of_lt hx hxi
    by_cases h : i = s <;> simp [this, h]

theorem testBit_set_bitboard (bbs : Color → Piece → Nat) (c c2 : Color) (p p2 : Piece) (v i : Nat) :
    (set_bitboard bbs c p v c2 p2).testBit i
      = if c2 = c ∧ p2 = p then v.testBit i else (bbs c2 p2).testBit i := by
  unfold set_bitboard
  split_ifs <;> rfl

theorem foldl_xor_init {α : Type} (f : α → Nat) (l : List α) : ∀ a : Nat,
    l.foldl (fun acc x => acc ^^^ f x) a = a ^^^ l.foldl (fun acc x => acc ^^^ f x) 0 := by
  induction l with
  | nil => intro a; simp
  | cons x rest ih =>
    intro a
    rw [List.foldl_cons, List.foldl_cons, ih (a ^^^ f x), ih (0 ^^^ f x), Nat.zero_xor,
      Nat.xor_assoc]

theorem xor_fold_cons {α : Type} (f : α → Nat) (x : α) (l : List α) :
    xor_fold (x :: l) f = f x ^^^ xor_fold l f := by
  unfold xor_fold
  rw [List.foldl_cons, foldl_xor_init, Nat.zero_xor]

theorem xor_fold_congr {α : Type} (f g : α → Nat) (l : List α) (h : ∀ x ∈ l, g x = f x) :
    xor_fold l g = xor_fold l f := by
  induction l with
  | nil => rfl
  | cons x rest ih =>
    rw [xor_fold_cons, xor_fold_cons, h x (List.mem_cons_self _ _),
      ih (fun y hy => h y (List.mem_cons_of_mem _ hy))]

/-- Changing one term of an exclusive-or by `k` changes the whole by `k`. -/
theorem xor_fold_toggle {α : Type} (f g : α → Nat) (k : Nat) (x0 : α) (l : List α)
    (hnd : l.Nodup) (hmem : x0 ∈ l) (hother : ∀ x ∈ l, x ≠ x0 → g x = f x)
    (hx0 : g x0 = f x0 ^^^ k) : xor_fold l g = xor_fold l f ^^^ k := by
  induction l with
  | nil => exact absurd hmem (List.not_mem_nil x0)
  | cons x rest ih =>
    rw [xor_fold_cons, xor_fold_cons]
    rw [List.nodup_cons] at hnd
    by_cases hx : x = x0
    · subst hx
      have hrest : xor_fold rest g = xor_fold rest f := by
        apply xor_fold_congr
        intro y hy
        apply hother y (List.mem_cons_of_mem _ hy)
        intro hyx
        rw [hyx] at hy
        exact hnd.1 hy
      rw [hrest, hx0, Nat.xor_assoc, Nat.xor_assoc, Nat.xor_comm k]
    · have hmem2 : x0 ∈ rest := by
        rcases List.mem_cons.mp hmem with h | h
        · exact absurd h.symm hx
        · exact h
      rw [ih hnd.2 hmem2 (fun y hy => hother y (List.mem_cons_of_mem _ hy)),
        hother x (List.mem_cons_self _ _) hx, Nat.xor_assoc]

/-- Flipping bit `s` of the bitboard of `(c, p)` changes the piece-square hash by the key of
`(c, p, s)`. -/
theorem psqt_hash_toggle (K : ZobristKeys) (bbs : Color → Piece → Nat) (c : Color) (p : Piece)
    (s v : Nat) (hs : s < 64) (hp : p ≠ Null_Piece)
    (hsame : ∀ i, i < 64 → i ≠ s → v.testBit i = (bbs c p).testBit i)
    (hflip : v.testBit s = !(bbs c p).testBit s) :
    psqt_hash K (set_bitboard bbs c p v) = psqt_hash K bbs ^^^ K.psqt c p s := by
  unfold psqt_hash
  apply xor_fold_toggle _ _ _ c
  · decide
  · cases c <;> decide
  · intro c2 _ hc2
    apply xor_fold_congr
    intro p2 _
    apply xor_fold_congr
    intro i _
    have : set_bitboard bbs c p v c2 p2 = bbs c2 p2 := by
      unfold set_bitboard
      rw [if_neg (fun h => hc2 h.1)]
    rw [this]
  · apply xor_fold_toggle _ _ _ p
    · decide
    · cases p <;> first | decide | exact absurd rfl hp
    · intro p2 _ hp2
      apply xor_fold_congr
      intro i _
      have : set_bitboard bbs c p v c p2 = bbs c p2 := by
        unfold set_bitboard
        rw [if_neg (fun h => hp2 h.2)]
      rw [this]
    · have hv : set_bitboard bbs c p v c p = v := by
        unfold set_bitboard
        rw [if_pos ⟨rfl, rfl⟩]
      rw [hv]
      apply xor_fold_toggle _ _ _ s
      · exact List.nodup_range 64
      · exact List.mem_range.mpr hs
      · intro i hi his
        rw [hsame i (List.mem_range.mp hi) his]
      · rw [hflip]
        cases (bbs c p).testBit s <;> simp

theorem hash_ok_set_piece (K : ZobristKeys) (c : Color) (b : board) (s : Square) (p : Piece)
    (hs : s < 64) (hp : p ≠ Null_Piece) (hok : hash_ok K b) (hempty : square_empty b s) :
    hash_ok K (b.set_piece K c true s p) := by
  unfold hash_ok recomputed_hash at hok ⊢
  have hps : psqt_hash K (b.set_piece K c true s p).bitboards
      = psqt_hash K b.bitboards ^^^ K.psqt c p s := by
    apply psqt_hash_toggle K b.bitboards c p s _ hs hp
    · intro i _ his
      rw [testBit_set_bit _ _ _ hs]
      simp [his]
    · rw [testBit_set_bit _ _ _ hs, hempty c p hp]
      simp
  rw [hps]
  show update_psqt_hash K b.hash_key c p s = _
  unfold update_psqt_hash
  rw [hok]
  show _ = psqt_hash K b.bitboards ^^^ K.psqt c p s ^^^ (if b.side = Black then K.side else 0)
    ^^^ castling_key K b.castling_rights ^^^ enpassant_key K b.enpassant
  simp only [Nat.xor_assoc, Nat.xor_comm (K.psqt c p s)]

theorem hash_ok_unset_piece (K : ZobristKeys) (c : Color) (b : board) (s : Square) (p : Piece)
    (hs : s < 64) (hp : p ≠ Null_Piece) (hwf : b.wf) (hok : hash_ok K b)
    (hholds : square_holds b s c p) : hash_ok K (b.unset_piece K c true s p) := by
  unfold hash_ok recomputed_hash at hok ⊢
  have hps : psqt_hash K (b.unset_piece K c true s p).bitboards
      = psqt_hash K b.bitboards ^^^ K.psqt c p s := by
    apply psqt_hash_toggle K b.bitboards c p s _ hs hp
    · intro i _ his
      rw [testBit_clear_bit _ _ _ (hwf.2.2 c p)]
      simp [his]
    · rw [testBit_clear_bit _ _ _ (hwf.2.2 c p), (hholds c p hp).mpr ⟨rfl, rfl⟩]
      simp
  rw [hps]
  show update_psqt_hash K b.hash_key c p s = _
  unfold update_psqt_hash
  rw [hok]
  show _ = psqt_hash K b.bitboards ^^^ K.psqt c p s ^^^ (if b.side = Black then K.side else 0)
    ^^^ castling_key K b.castling_rights ^^^ enpassant_key K b.enpassant
  simp only [Nat.xor_assoc, Nat.xor_comm (K.psqt c p s)]

/-- Exclusive-or of four bit values after folding one of them out and another in. -/
theorem xor_bits4 (p s c e c2 : Bool) :
    xor (xor (xor (xor (xor p s) c) e) c) c2 = xor (xor (xor p s) c2) e := by
  cases p <;> cases s <;> cases c <;> cases e <;> cases c2 <;> rfl

theorem xor_swap_third (P S C E C2 : Nat) :
    P ^^^ S ^^^ C ^^^ E ^^^ C ^^^ C2 = P ^^^ S ^^^ C2 ^^^ E := by
  apply Nat.eq_of_testBit_eq
  intro i
  simp only [Nat.testBit_xor]
  exact xor_bits4 _ _ _ _ _

theorem xor_bits_two (p s c e k1 k2 : Bool) :
    xor (xor (xor (xor (xor p s) c) e) k1) k2 = xor (xor (xor (xor (xor p k2) k1) s) c) e := by
  cases p <;> cases s <;> cases c <;> cases e <;> cases k1 <;> cases k2 <;> rfl

theorem xor_two_keys (P S C E k1 k2 : Nat) :
    P ^^^ S ^^^ C ^^^ E ^^^ k1 ^^^ k2 = P ^^^ k2 ^^^ k1 ^^^ S ^^^ C ^^^ E := by
  apply Nat.eq_of_testBit_eq
  intro i
  simp only [Nat.testBit_xor]
  exact xor_bits_two _ _ _ _ _ _

theorem xor_bits_null (p s c e k : Bool) :
    xor (xor (xor (xor (xor p s) c) e) k) e = xor (xor (xor p (xor s k)) c) false := by
  cases p <;> cases s <;> cases c <;> cases e <;> cases k <;> rfl

theorem xor_null_move (P S C E k : Nat) :
    P ^^^ S ^^^ C ^^^ E ^^^ k ^^^ E = P ^^^ (S ^^^ k) ^^^ C ^^^ 0 := by
  apply Nat.eq_of_testBit_eq
  intro i
  simp only [Nat.testBit_xor, Nat.zero_testBit]
  exact xor_bits_null _ _ _ _ _

theorem hash_ok_replace_piece (K : ZobristKeys) (c c2 : Color) (b : board) (s : Square)
    (p cap : Piece) (hs : s < 64) (hp : p ≠ Null_Piece) (hcap : cap ≠ Null_Piece) (hwf : b.wf)
    (hok : hash_ok K b) (hholds : square_holds b s c2 cap) :
    hash_ok K (b.replace_piece K c c2 true s p cap) := by
  unfold hash_ok recomputed_hash at hok ⊢
  have h1 : psqt_hash K (set_bitboard b.bitboards c2 cap (b.bitboards c2 cap &&& not64 (bit s)))
      = psqt_hash K b.bitboards ^^^ K.psqt c2 cap s := by
    apply psqt_hash_toggle K b.bitboards c2 cap s _ hs hcap
    · intro i _ his
      rw [testBit_clear_bit _ _ _ (hwf.2.2 c2 cap)]
      simp [his]
    · rw [testBit_clear_bit _ _ _ (hwf.2.2 c2 cap), (hholds c2 cap hcap).mpr ⟨rfl, rfl⟩]
      simp
  have hcleared : (set_bitboard b.bitboards c2 cap (b.bitboards c2 cap &&& not64 (bit s)) c
      p).testBit s = false := by
    unfold set_bitboard
    by_cases hcp : c = c2 ∧ p = cap
    · rw [if_pos hcp, testBit_clear_bit _ _ _ (hwf.2.2 c2 cap)]
      simp
    · rw [if_neg hcp]
      cases hb : (b.bitboards c p).testBit s
      · rfl
      · exact absurd ((hholds c p hp).mp hb) hcp
  have h2 : psqt_hash K (b.replace_piece K c c2 true s p cap).bitboards
      = psqt_hash K b.bitboards ^^^ K.psqt c2 cap s ^^^ K.psqt c p s := by
    rw [← h1]
    apply psqt_hash_toggle K _ c p s _ hs hp
    · intro i _ his
      rw [testBit_set_bit _ _ _ hs]
      simp [his]
    · rw [testBit_set_bit _ _ _ hs, hcleared]
      simp
  rw [h2]
  show update_psqt_hash K (update_psqt_hash K b.hash_key c p s) c2 cap s = _
  unfold update_psqt_hash
  rw [hok]
  exact xor_two_keys _ _ _ _ _ _

theorem hash_ok_update_castling_rights (K : ZobristKeys) (b : board) (square : Square)
    (hok : hash_ok K b) : hash_ok K (b.update_castling_rights K square) := by
  unfold hash_ok recomputed_hash at hok ⊢
  show update_castling_hash K (update_castling_hash K b.hash_key b.castling_rights)
      (b.castling_rights &&& castling_mask.getD square 0)
    = psqt_hash K b.bitboards ^^^ (if b.side = Black then K.side else 0)
      ^^^ castling_key K (b.castling_rights &&& castling_mask.getD square 0)
      ^^^ enpassant_key K b.enpassant
  unfold update_castling_hash
  rw [hok]
  exact xor_swap_third _ _ _ _ _

theorem hash_ok_make_null_move (K : ZobristKeys) (b : board) (hok : hash_ok K b) :
    hash_ok K (b.make_null_move K b.side) := by
  unfold hash_ok recomputed_hash at hok ⊢
  show update_enpassant_hash K (update_side_hash K b.hash_key) b.enpassant
    = psqt_hash K b.bitboards ^^^ (if other b.side = Black then K.side else 0)
      ^^^ castling_key K b.castling_rights ^^^ enpassant_key K Null_Square
  unfold update_enpassant_hash update_side_hash
  rw [hok]
  have hside : (if other b.side = Black then K.side else 0)
      = (if b.side = Black then K.side else 0) ^^^ K.side := by
    cases b.side <;> simp [other]
  have hnull : enpassant_key K Null_Square = 0 := by simp [enpassant_key]
  rw [hside, hnull]
  exact xor_null_move _ _ _ _ _

/-- C8: if the hash of a position (with 64-bit bitboards) is the exclusive-or of the
piece-square keys of its occupied squares, the side key when Black is to move, the castling
keys of its rights and the en-passant key of its en-passant square, the same holds after
`set_piece<c, true>` of a piece on an empty square, after `unset_piece<c, true>` of the piece
the square holds, after `replace_piece<c, c2, true>` on a square holding the captured piece,
after `update_castling_rights(square)` and after `make_null_move` of the side to move. -/
theorem hash_invariant_preserved (K : ZobristKeys) (b : board) (hwf : b.wf)
    (hok : hash_ok K b)
    (c1 : Color) (p1 : Piece) (s1 : Square) (hs1 : s1 < 64) (hp1 : p1 ≠ Null_Piece)
    (hempty : square_empty b s1)
    (c2 : Color) (p2 : Piece) (s2 : Square) (hs2 : s2 < 64) (hp2 : p2 ≠ Null_Piece)
    (hholds2 : square_holds b s2 c2 p2)
    (c3 c3' : Color) (p3 cap3 : Piece) (s3 : Square) (hs3 : s3 < 64) (hp3 : p3 ≠ Null_Piece)
    (hcap3 : cap3 ≠ Null_Piece) (hholds3 : square_holds b s3 c3' cap3)
    (square : Square) :
    hash_ok K (b.set_piece K c1 true s1 p1)
      ∧ hash_ok K (b.unset_piece K c2 true s2 p2)
      ∧ hash_ok K (b.replace_piece K c3 c3' true s3 p3 cap3)
      ∧ hash_ok K (b.update_castling_rights K square)
      ∧ hash_ok K (b.make_null_move K b.side) :=
  ⟨hash_ok_set_piece K c1 b s1 p1 hs1 hp1 hok hempty,
    hash_ok_unset_piece K c2 b s2 p2 hs2 hp2 hwf hok hholds2,
    hash_ok_replace_piece K c3 c3' b s3 p3 cap3 hs3 hp3 hcap3 hwf hok hholds3,
    hash_ok_update_castling_rights K b square hok,
    hash_ok_make_null_move K b hok⟩

/-- C8, witness: the initial position with the sample keys; a White queen placed on e4, the
White pawn removed from e2, the Black pawn on e7 replaced by a White knight, the rights
updated for h1, and a null move by White. -/
theorem hash_invariant_preserved_witness :
    hash_ok sample_keys (initial_board.set_piece sample_keys White true 28 Queen)
      ∧ hash_ok sample_keys (initial_board.unset_piece sample_keys White true 12 Pawn)
      ∧ hash_ok sample_keys
          (initial_board.replace_piece sample_keys White Black true 52 Knight Pawn)
      ∧ hash_ok sample_keys (initial_board.update_castling_rights sample_keys 7)
      ∧ hash_ok sample_keys (initial_board.make_null_move sample_keys initial_board.side) :=
  hash_invariant_preserved sample_keys initial_board (by decide!) (by decide!)
    White Queen 28 (by decide) (by decide) (by decide!)
    White Pawn 12 (by decide) (by decide) (by decide!)
    White Black Knight Pawn 52 (by decide) (by decide) (by decide) (by decide!) 7

/-! ## History round trips -/

theorem Mutation.apply_history (K : ZobristKeys) (b : board) (m : Mutation) :
    (m.apply K b).history = b.history := by
  cases m <;> rfl

theorem apply_mutations_history (K : ZobristKeys) (ms : List Mutation) :
    ∀ b : board, (apply_mutations K ms b).history = b.history := by
  induction ms with
  | nil => intro b; rfl
  | cons m rest ih =>
    intro b
    show (apply_mutations K rest (m.apply K b)).history = b.history
    rw [ih, Mutation.apply_history]

theorem dropLast_append_singleton {α : Type} (l : List α) (x : α) :
    (l ++ [x]).dropLast = l := by
  simp

/-- C9: for every position whose top history snapshot mirrors its castling rights, en-passant
square, fifty-move clock and hash, any sequence of the scalar and piece mutations followed by
`emplace_history` and `undo_history` returns a position whose castling rights, en-passant
square, fifty-move clock and hash are those before the sequence and whose history stack is
the stack before the sequence; and whenever `undo_history` turns `b0` into `b1`, the side to
move, bitboards, occupancies and mailbox of `b1` are those of `b0`. -/
theorem history_roundtrip (K : ZobristKeys) (b : board) (ms : List Mutation)
    (captured : Piece) (move : chessmove) (hmirror : snapshot_mirrors b)
    (b0 b1 : board) (hundo : b0.undo_history = some b1) :
    (∃ b2, ((apply_mutations K ms b).emplace_history captured move).undo_history = some b2
        ∧ b2.castling_rights = b.castling_rights ∧ b2.enpassant = b.enpassant
        ∧ b2.fifty_move_clock = b.fifty_move_clock ∧ b2.hash_key = b.hash_key
        ∧ b2.history = b.history)
      ∧ b1.side = b0.side ∧ b1.bitboards = b0.bitboards
      ∧ b1.side_occupancy = b0.side_occupancy ∧ b1.occupancy = b0.occupancy
      ∧ b1.pieces = b0.pieces := by
  constructor
  · unfold snapshot_mirrors at hmirror
    cases htop : b.history.getLast? with
    | none => rw [htop] at hmirror; cases hmirror
    | some top =>
      rw [htop] at hmirror
      simp only [Option.map_some', Option.some.injEq, Prod.mk.injEq] at hmirror
      have hlast : ((apply_mutations K ms b).emplace_history captured
          move).history.dropLast.getLast? = some top := by
        show ((apply_mutations K ms b).history ++ _).dropLast.getLast? = some top
        rw [dropLast_append_singleton, apply_mutations_history, htop]
      unfold board.undo_history
      rw [hlast]
      refine ⟨_, rfl, hmirror.1, hmirror.2.1, hmirror.2.2.1, hmirror.2.2.2, ?_⟩
      show ((apply_mutations K ms b).history ++ _).dropLast = b.history
      rw [dropLast_append_singleton, apply_mutations_history]
  · unfold board.undo_history at hundo
    cases hl : b0.history.dropLast.getLast? with
    | none => rw [hl] at hundo; cases hundo
    | some top =>
      rw [hl] at hundo
      simp only [Option.some.injEq] at hundo
      subst hundo
      exact ⟨rfl, rfl, rfl, rfl, rfl⟩

/-- C9, witness: the initial position, the sample sequence (a pawn moved from e2 to e4 with
its en-passant square, clock and rights updates, a replacement on e7 and the hash update),
and the undo of a snapshot taken on the initial position. -/
theorem history_roundtrip_witness :
    snapshot_mirrors initial_board
      ∧ (initial_board.emplace_history Null_Piece chessmove.null).undo_history
          = some initial_board
      ∧ (∃ b2, ((apply_mutations sample_keys sample_mutations initial_board).emplace_history
            Null_Piece (chessmove.new4 12 28 DOUBLE_PAWN_PUSH Pawn)).undo_history = some b2
          ∧ b2.castling_rights = initial_board.castling_rights
          ∧ b2.enpassant = initial_board.enpassant
          ∧ b2.fifty_move_clock = initial_board.fifty_move_clock
          ∧ b2.hash_key = initial_board.hash_key
          ∧ b2.history = initial_board.history)
      ∧ initial_board.side = (initial_board.emplace_history Null_Piece chessmove.null).side
      ∧ initial_board.bitboards
          = (initial_board.emplace_history Null_Piece chessmove.null).bitboards
      ∧ initial_board.side_occupancy
          = (initial_board.emplace_history Null_Piece chessmove.null).side_occupancy
      ∧ initial_board.occupancy
          = (initial_board.emplace_history Null_Piece chessmove.null).occupancy
      ∧ initial_board.pieces
          = (initial_board.emplace_history Null_Piece chessmove.null).pieces :=
  ⟨by decide!, rfl,
    history_roundtrip sample_keys initial_board sample_mutations Null_Piece
      (chessmove.new4 12 28 DOUBLE_PAWN_PUSH Pawn) (by decide!)
      (initial_board.emplace_history Null_Piece chessmove.null) initial_board rfl⟩

/-- C10: for every position whose top history snapshot mirrors its scalar fields and whose side
to move is `c`, `make_null_move<c>` followed by `undo_null_move<c>` returns the position
itself (side, hash, en-passant square, castling rights, clock, history stack, bitboards,
occupancies and mailbox); `make_null_move<c>` alone keeps bitboards, occupancies and mailbox,
makes the opponent the side to move, clears the en-passant square, lengthens the history by
one entry and sets the clock to its successor modulo 256. -/
theorem null_move_roundtrip (K : ZobristKeys) (c : Color) (b : board)
    (hmirror : snapshot_mirrors b) (hside : b.side = c) :
    (b.make_null_move K c).undo_null_move c = some b
      ∧ (b.make_null_move K c).bitboards = b.bitboards
      ∧ (b.make_null_move K c).side_occupancy = b.side_occupancy
      ∧ (b.make_null_move K c).occupancy = b.occupancy
      ∧ (b.make_null_move K c).pieces = b.pieces
      ∧ (b.make_null_move K c).side = other c
      ∧ (b.make_null_move K c).enpassant = Null_Square
      ∧ (b.make_null_move K c).fifty_move_clock = (b.fifty_move_clock + 1) % 256
      ∧ (b.make_null_move K c).history.length = b.history.length + 1 := by
  subst hside
  unfold snapshot_mirrors at hmirror
  cases htop : b.history.getLast? with
  | none => rw [htop] at hmirror; cases hmirror
  | some top =>
    rw [htop] at hmirror
    simp only [Option.map_some', Option.some.injEq, Prod.mk.injEq] at hmirror
    obtain ⟨h1, h2, h3, h4⟩ := hmirror
    have hlast : (b.make_null_move K b.side).history.dropLast.getLast? = some top := by
      show (b.history ++ _).dropLast.getLast? = some top
      rw [dropLast_append_singleton, htop]
    refine ⟨?_, rfl, rfl, rfl, rfl, rfl, rfl, rfl, ?_⟩
    · unfold board.undo_null_move
      rw [hlast]
      have hhist : (b.make_null_move K b.side).history.dropLast = b.history := by
        show (b.history ++ _).dropLast = b.history
        rw [dropLast_append_singleton]
      simp only [hhist, h1, h2, h3, h4]
      rfl
    · show (b.history ++ _).length = b.history.length + 1
      rw [List.length_append, List.length_singleton]

/-- C10, witness: a null move by White in the initial position. -/
theorem null_move_roundtrip_witness :
    snapshot_mirrors initial_board ∧ initial_board.side = White
      ∧ (initial_board.make_null_move sample_keys White).undo_null_move White
        = some initial_board
      ∧ (initial_board.make_null_move sample_keys White).bitboards = initial_board.bitboards
      ∧ (initial_board.make_null_move sample_keys White).side_occupancy
        = initial_board.side_occupancy
      ∧ (initial_board.make_null_move sample_keys White).occupancy = initial_board.occupancy
      ∧ (initial_board.make_null_move sample_keys White).pieces = initial_board.pieces
      ∧ (initial_board.make_null_move sample_keys White).side = other White
      ∧ (initial_board.make_null_move sample_keys White).enpassant = Null_Square
      ∧ (initial_board.make_null_move sample_keys White).fifty_move_clock
        = (initial_board.fifty_move_clock + 1) % 256
      ∧ (initial_board.make_null_move sample_keys White).history.length
        = initial_board.history.length + 1 :=
  ⟨by decide!, by decide!,
    null_move_roundtrip sample_keys White initial_board (by decide!) (by decide!)⟩

/-- C10, counterexample: in the initial position after 207 clock increments and a snapshot,
the top snapshot mirrors the scalar fields, White is to move and the clock is 255; after
`make_null_move<White>` the clock is 0, not 256. -/
theorem null_move_clock_counterexample :
    snapshot_mirrors clock_max_board ∧ clock_max_board.side = White
      ∧ clock_max_board.fifty_move_clock = 255
      ∧ (clock_max_board.make_null_move sample_keys White).fifty_move_clock = 0
      ∧ ¬ ((clock_max_board.make_null_move sample_keys White).fifty_move_clock
        = clock_max_board.fifty_move_clock + 1) := by
  decide!

/-! ## Draw detection -/



theorem countP_split (l : List Nat) (a : Nat) (p q : Nat → Bool) (hnd : l.Nodup) (ha : a ∈ l)
    (hqa : q a = false) (hother : ∀ j ∈ l, j ≠ a → p j = q j) :
    l.countP p = (if p a then 1 else 0) + l.countP q := by
  induction l with
  | nil => exact absurd ha (List.not_mem_nil a)
  | cons x rest ih =>
    rw [List.nodup_cons] at hnd
    rw [List.countP_cons, List.countP_cons]
    by_cases hx : x = a
    · subst hx
      have hrest : rest.countP p = rest.countP q := by
        apply List.countP_congr
        intro j hj
        have hne : j ≠ x := fun h => hnd.1 (h ▸ hj)
        rw [hother j (List.mem_cons_of_mem _ hj) hne]
      rw [hrest, hqa]
      simp only [Bool.false_eq_true, if_false]
      omega
    · have ha2 : a ∈ rest := by
        rcases List.mem_cons.mp ha with h | h
        · exact absurd h.symm hx
        · exact h
      rw [ih hnd.2 ha2 (fun j hj => hother j (List.mem_cons_of_mem _ hj)),
        hother x (List.mem_cons_self _ _) hx]
      omega

theorem loop_counts_none (history : List board_info) (hash_key : Nat) (end_index i : Int)
    (h : ∀ j : Nat, ¬ (end_index ≤ (j : Int) ∧ (j : Int) ≤ i)) :
    (List.range history.length).countP (loop_counts history hash_key end_index i) = 0 := by
  rw [List.countP_eq_zero]
  intro j _
  unfold loop_counts
  by_cases h1 : (j : Int) ≤ i
  · have : ¬ (end_index ≤ (j : Int)) := fun h2 => h j ⟨h2, h1⟩
    simp [this]
  · simp [h1]

theorem is_draw_loop_count (history : List board_info) (hash_key : Nat) (end_index : Int)
    (hend : 0 ≤ end_index) :
    ∀ (fuel : Nat) (i : Int) (repetitions : Nat), i < history.length → i + 1 ≤ fuel →
      is_draw_loop history hash_key end_index fuel i repetitions
        = repetitions
          + (List.range history.length).countP (loop_counts history hash_key end_index i) := by
  intro fuel
  induction fuel with
  | zero =>
    intro i repetitions _ hfuel
    rw [loop_counts_none _ _ _ _ (by intro j; omega)]
    rfl
  | succ fuel ih =>
    intro i repetitions hi hfuel
    unfold is_draw_loop
    by_cases hge : i ≥ end_index
    · rw [if_pos hge]
      have hi0 : 0 ≤ i := le_trans hend hge
      obtain ⟨a, rfl⟩ := Int.eq_ofNat_of_zero_le hi0
      have han : a < history.length := by exact_mod_cast hi
      have hsplit := countP_split (List.range history.length) a
        (loop_counts history hash_key end_index (a : Int))
        (loop_counts history hash_key end_index ((a : Int) - 2))
        (List.nodup_range _) (List.mem_range.mpr han)
        (by
          have : ¬ ((a : Int) ≤ (a : Int) - 2) := by omega
          simp [loop_counts, this])
        (by
          intro j _ hja
          have hne : (j : Int) ≠ (a : Int) := by exact_mod_cast hja
          unfold loop_counts
          have h1 : (decide ((j : Int) ≤ (a : Int)) && decide (((a : Int) - (j : Int)) % 2 = 0))
              = (decide ((j : Int) ≤ (a : Int) - 2)
                && decide (((a : Int) - 2 - (j : Int)) % 2 = 0)) := by
            rw [Bool.eq_iff_iff]
            simp only [Bool.and_eq_true, decide_eq_true_eq]
            constructor
            · rintro ⟨h1, h2⟩
              constructor <;> omega
            · rintro ⟨h1, h2⟩
              constructor <;> omega
          rw [h1])
      rw [ih ((a : Int) - 2) _ (by omega) (by push_cast at hfuel ⊢; omega), hsplit]
      have hpa : loop_counts history hash_key end_index (a : Int) a
          = decide ((history.get? a).map (fun info => info.hash_key) = some hash_key) := by
        unfold loop_counts
        simp [hge]
      rw [hpa, Int.toNat_ofNat]
      cases hget : history.get? a with
      | none => simp
      | some info =>
        by_cases hh : info.hash_key = hash_key
        · simp [hh]; omega
        · simp [hh]
    · rw [if_neg hge, loop_counts_none _ _ _ _ (by intro j; omega)]
      rfl

theorem repetition_count_eq (b : board) :
    is_draw_loop b.history b.hash_key
        (max 0 ((b.history.length : Int) - 1 - (b.fifty_move_clock : Int))) b.history.length
        ((b.history.length : Int) - 3) 0
      = repetition_count b := by
  rw [is_draw_loop_count _ _ _ (le_max_left _ _) _ _ _ (by omega) (by omega), Nat.zero_add]
  unfold repetition_count
  rw [← List.countP_eq_length_filter]
  apply List.countP_congr
  intro j _
  unfold loop_counts
  have h : (decide ((j : Int) ≤ (b.history.length : Int) - 3)
        && decide (((b.history.length : Int) - 3 - (j : Int)) % 2 = 0)
        && decide (max 0 ((b.history.length : Int) - 1 - (b.fifty_move_clock : Int)) ≤ (j : Int)))
      = scanned_index b.history.length b.fifty_move_clock j := by
    unfold scanned_index
    rw [Bool.eq_iff_iff]
    simp only [Bool.and_eq_true, decide_eq_true_eq]
    constructor
    · rintro ⟨⟨h1, h2⟩, h3⟩
      refine ⟨⟨by omega, by omega⟩, by omega⟩
    · rintro ⟨⟨h1, h2⟩, h3⟩
      refine ⟨⟨by omega, by omega⟩, by omega⟩
  rw [h]

/-- C11: `is_draw()` returns true if and only if the fifty-move clock is at least 100, or at
least two of the history entries at the indices `size - 3`, `size - 5`, ... that are not below
`max(0, size - 1 - fifty_move_clock)` carry the current hash. -/
theorem is_draw_iff (b : board) :
    b.is_draw = true ↔ (100 ≤ b.fifty_move_clock ∨ 2 ≤ repetition_count b) := by
  unfold board.is_draw
  by_cases hc : b.fifty_move_clock ≥ 100
  · simp [hc]
  · rw [if_neg hc]
    simp only [repetition_count_eq, decide_eq_true_eq, ge_iff_le]
    constructor
    · intro h; exact Or.inr h
    · rintro (h | h)
      · exact absurd h hc
      · exact h

/-- Sample evaluations of `is_draw`: with clock 10 and five snapshots, two earlier snapshots
of the same side with the current hash give a draw, one alone does not, and neither does a
match outside the window of the clock; a clock of 100 gives a draw on its own. -/
theorem is_draw_examples :
    (draw_sample 10 [5, 8, 5, 8, 5]).is_draw = true
      ∧ (draw_sample 10 [4, 5, 5, 5, 5]).is_draw = false
      ∧ (draw_sample 3 [5, 8, 5, 8, 5]).is_draw = false
      ∧ (draw_sample 100 [5]).is_draw = true := by
  decide!

/-! ## Castling rights -/

theorem castling_mask_table :
    ∀ r, r < 16 → ∀ s, s < 64 →
      (∀ i, i < 4 → (r &&& castling_mask.getD s 0).testBit i
        = (r.testBit i && !(tied_rights s).testBit i))
      ∧ (r &&& castling_mask.getD s 0) &&& r = r &&& castling_mask.getD s 0
      ∧ (r &&& castling_mask.getD s 0) &&& castling_mask.getD s 0
        = r &&& castling_mask.getD s 0 := by
  decide!

/-- C12: for every position whose rights mask is in `0 .. 15` and every square `s` below 64,
after `update_castling_rights(s)` each rights bit is set exactly when it was set before and is
not tied to `s` (a1: White queen-side, h1: White king-side, e1: both White rights, a8: Black
queen-side, h8: Black king-side, e8: both Black rights, any other square: none); the new mask
is a sub-mask of the old one, and a second update with the same square changes nothing. -/
theorem update_castling_rights_removes_tied (K : ZobristKeys) (b : board) (s : Square)
    (hr : b.castling_rights < 16) (hs : s < 64) :
    (∀ i, (b.update_castling_rights K s).castling_rights.testBit i
        = (b.castling_rights.testBit i && !(tied_rights s).testBit i))
      ∧ (b.update_castling_rights K s).castling_rights &&& b.castling_rights
        = (b.update_castling_rights K s).castling_rights
      ∧ ((b.update_castling_rights K s).update_castling_rights K s).castling_rights
        = (b.update_castling_rights K s).castling_rights := by
  obtain ⟨h1, h2, h3⟩ := castling_mask_table b.castling_rights hr s hs
  refine ⟨?_, h2, h3⟩
  intro i
  show (b.castling_rights &&& castling_mask.getD s 0).testBit i = _
  by_cases hi : i < 4
  · exact h1 i hi
  · have hlow : b.castling_rights.testBit i = false := by
      cases hb : b.castling_rights.testBit i
      · rfl
      · exact absurd (lt_of_testBit_of_lt (n := 4) hr hb) hi
    rw [Nat.testBit_and, hlow]
    rfl

/-- C12, witness: the initial position (all four rights) and the square h1, leaving the
rights 14. -/
theorem update_castling_rights_removes_tied_witness :
    (initial_board.castling_rights = 15
        ∧ (initial_board.update_castling_rights sample_keys H1).castling_rights = 14)
      ∧ (∀ i, (initial_board.update_castling_rights sample_keys H1).castling_rights.testBit i
        = (initial_board.castling_rights.testBit i && !(tied_rights H1).testBit i))
      ∧ (initial_board.update_castling_rights sample_keys H1).castling_rights
          &&& initial_board.castling_rights
        = (initial_board.update_castling_rights sample_keys H1).castling_rights
      ∧ ((initial_board.update_castling_rights sample_keys H1).update_castling_rights
          sample_keys H1).castling_rights
        = (initial_board.update_castling_rights sample_keys H1).castling_rights :=
  ⟨by decide!,
    update_castling_rights_removes_tied sample_keys initial_board H1 (by decide!) (by decide)⟩

/-! ## Attackers -/



theorem coord_bit_on (f r : Int) (h : on_board f r) : coord_bit f r = 2 ^ (8 * r + f).toNat := by
  unfold on_board at h
  unfold coord_bit
  rw [if_pos h]

theorem coord_bit_off (f r : Int) (h : ¬ on_board f r) : coord_bit f r = 0 := by
  unfold on_board at h
  unfold coord_bit
  rw [if_neg h]

theorem ray_attacks_iff (occ : Nat) (df dr : Int) :
    ∀ (n : Nat) (f r : Int) (i : Nat),
      (ray_attacks occ df dr n f r).testBit i = true ↔ ray_reaches occ df dr n f r i := by
  intro n
  induction n with
  | zero =>
    intro f r i
    unfold ray_attacks ray_reaches
    simp only [Nat.zero_testBit, Bool.false_eq_true, false_iff, not_exists]
    intro k hk
    omega
  | succ n ih =>
    intro f r i
    unfold ray_attacks
    by_cases hon : on_board (f + df) (r + dr)
    · have hb : coord_bit (f + df) (r + dr) = 2 ^ (8 * (r + dr) + (f + df)).toNat :=
        coord_bit_on _ _ hon
      have hb0 : coord_bit (f + df) (r + dr) ≠ 0 := by
        rw [hb]; exact Nat.pos_iff_ne_zero.mp (Nat.two_pow_pos _)
      simp only [hb0, if_false]
      by_cases hocc : occ &&& coord_bit (f + df) (r + dr) ≠ 0
      · rw [if_pos hocc, hb, Nat.testBit_two_pow, decide_eq_true_eq]
        rw [hb, and_two_pow_ne_zero_iff] at hocc
        constructor
        · intro hi
          refine ⟨1, le_refl 1, by omega, ?_, ?_, ?_⟩
          · simpa using hon
          · simpa using hi.symm
          · intro j h1 h2; omega
        · rintro ⟨k, hk1, _, _, hik, hfree⟩
          by_cases hk : k = 1
          · subst hk
            simpa using hik.symm
          · have := (hfree 1 (le_refl 1) (by omega)).2
            simp only [Nat.cast_one, one_mul] at this
            rw [this] at hocc
            cases hocc
      · rw [if_neg hocc, Nat.testBit_or, Bool.or_eq_true, hb, Nat.testBit_two_pow,
          decide_eq_true_eq, ih]
        rw [hb, and_two_pow_ne_zero_iff, Bool.not_eq_true] at hocc
        constructor
        · rintro (hi | ⟨k, hk1, hkn, hkon, hik, hfree⟩)
          · refine ⟨1, le_refl 1, by omega, ?_, ?_, ?_⟩
            · simpa using hon
            · simpa using hi.symm
            · intro j h1 h2; omega
          · have e1 : f + ((k + 1 : Nat) : Int) * df = f + df + (k : Int) * df := by
              push_cast; ring
            have e2 : r + ((k + 1 : Nat) : Int) * dr = r + dr + (k : Int) * dr := by
              push_cast; ring
            refine ⟨k + 1, by omega, by omega, ?_, ?_, ?_⟩
            · rw [e1, e2]; exact hkon
            · rw [e1, e2]; exact hik
            · intro j hj1 hjk
              by_cases hj : j = 1
              · subst hj
                simpa using And.intro hon hocc
              · obtain ⟨j', rfl⟩ : ∃ j', j = j' + 1 := ⟨j - 1, by omega⟩
                have e3 : f + ((j' + 1 : Nat) : Int) * df = f + df + (j' : Int) * df := by
                  push_cast; ring
                have e4 : r + ((j' + 1 : Nat) : Int) * dr = r + dr + (j' : Int) * dr := by
                  push_cast; ring
                rw [e3, e4]
                exact hfree j' (by omega) (by omega)
        · rintro ⟨k, hk1, hkn, hkon, hik, hfree⟩
          by_cases hk : k = 1
          · subst hk
            left
            simpa using hik.symm
          · right
            obtain ⟨k', rfl⟩ : ∃ k', k = k' + 1 := ⟨k - 1, by omega⟩
            have e1 : f + ((k' + 1 : Nat) : Int) * df = f + df + (k' : Int) * df := by
              push_cast; ring
            have e2 : r + ((k' + 1 : Nat) : Int) * dr = r + dr + (k' : Int) * dr := by
              push_cast; ring
            rw [e1, e2] at hkon hik
            refine ⟨k', by omega, by omega, hkon, hik, ?_⟩
            intro j hj1 hjk
            have e3 : f + ((j + 1 : Nat) : Int) * df = f + df + (j : Int) * df := by
              push_cast; ring
            have e4 : r + ((j + 1 : Nat) : Int) * dr = r + dr + (j : Int) * dr := by
              push_cast; ring
            have := hfree (j + 1) (by omega) (by omega)
            rw [e3, e4] at this
            exact this
    · have hb : coord_bit (f + df) (r + dr) = 0 := coord_bit_off _ _ hon
      simp only [hb, if_true, Nat.zero_testBit, Bool.false_eq_true, false_iff]
      rintro ⟨k, hk1, _, hkon, _, hfree⟩
      by_cases hk : k = 1
      · subst hk
        apply hon
        simpa using hkon
      · apply hon
        simpa using (hfree 1 (le_refl 1) (by omega)).1

theorem square_coords (f r : Int) (h : on_board f r) (x : Nat) (hx : x = (8 * r + f).toNat) :
    ((x % 8 : Nat) : Int) = f ∧ ((x / 8 : Nat) : Int) = r := by
  unfold on_board at h
  have hcast : ((8 * r + f).toNat : Int) = 8 * r + f := Int.toNat_of_nonneg (by omega)
  have hxi : (x : Int) = 8 * r + f := by rw [hx, hcast]
  constructor <;> omega

theorem coords_square (s : Nat) :
    s = (8 * ((s / 8 : Nat) : Int) + ((s % 8 : Nat) : Int)).toNat := by
  have h : 8 * ((s / 8 : Nat) : Int) + ((s % 8 : Nat) : Int) = ((s : Nat) : Int) := by omega
  rw [h, Int.toNat_natCast]

theorem coords_on_board (s : Nat) (hs : s < 64) :
    on_board ((s % 8 : Nat) : Int) ((s / 8 : Nat) : Int) := by
  unfold on_board
  omega

/-- A ray from `s` that reaches `x` is, read backwards, a ray from `x` that reaches `s`. -/
theorem ray_reaches_symm (occ : Nat) (df dr : Int) (n : Nat) (s x : Nat) (hs : s < 64)
    (h : ray_reaches occ df dr n ((s % 8 : Nat) : Int) ((s / 8 : Nat) : Int) x) :
    ray_reaches occ (-df) (-dr) n ((x % 8 : Nat) : Int) ((x / 8 : Nat) : Int) s := by
  obtain ⟨k, hk1, hkn, hon, hxk, hfree⟩ := h
  obtain ⟨efx, erx⟩ := square_coords _ _ hon x hxk
  have e1 : ((x % 8 : Nat) : Int) + (k : Int) * -df = ((s % 8 : Nat) : Int) := by
    rw [efx]; ring
  have e2 : ((x / 8 : Nat) : Int) + (k : Int) * -dr = ((s / 8 : Nat) : Int) := by
    rw [erx]; ring
  refine ⟨k, hk1, hkn, ?_, ?_, ?_⟩
  · rw [e1, e2]; exact coords_on_board s hs
  · rw [e1, e2]; exact coords_square s
  · intro j hj1 hjk
    have e3 : ((x % 8 : Nat) : Int) + (j : Int) * -df
        = ((s % 8 : Nat) : Int) + ((k - j : Nat) : Int) * df := by
      rw [efx, Nat.cast_sub (le_of_lt hjk)]; ring
    have e4 : ((x / 8 : Nat) : Int) + (j : Int) * -dr
        = ((s / 8 : Nat) : Int) + ((k - j : Nat) : Int) * dr := by
      rw [erx, Nat.cast_sub (le_of_lt hjk)]; ring
    rw [e3, e4]
    exact hfree (k - j) (by omega) (by omega)

theorem ray_attacks_symm (occ : Nat) (df dr : Int) (s x : Nat) (hs : s < 64)
    (h : (ray_attacks occ df dr 7 ((s % 8 : Nat) : Int) ((s / 8 : Nat) : Int)).testBit x = true) :
    (ray_attacks occ (-df) (-dr) 7 ((x % 8 : Nat) : Int) ((x / 8 : Nat) : Int)).testBit s
      = true := by
  rw [ray_attacks_iff] at h ⊢
  exact ray_reaches_symm occ df dr 7 s x hs h

theorem std_rook_attacks_imp (occ : Nat) (s x : Nat) (hs : s < 64)
    (h : (std_rook_attacks s occ).testBit x = true) : (std_rook_attacks x occ).testBit s = true := by
  unfold std_rook_attacks at h ⊢
  simp only [Nat.testBit_or, Bool.or_eq_true] at h ⊢
  rcases h with ((h | h) | h) | h
  · have := ray_attacks_symm occ 1 0 s x hs h
    rw [neg_zero] at this
    exact Or.inl (Or.inl (Or.inr this))
  · have := ray_attacks_symm occ (-1) 0 s x hs h
    rw [neg_neg, neg_zero] at this
    exact Or.inl (Or.inl (Or.inl this))
  · have := ray_attacks_symm occ 0 1 s x hs h
    rw [neg_zero] at this
    exact Or.inr this
  · have := ray_attacks_symm occ 0 (-1) s x hs h
    rw [neg_neg, neg_zero] at this
    exact Or.inl (Or.inr this)

theorem std_bishop_attacks_imp (occ : Nat) (s x : Nat) (hs : s < 64)
    (h : (std_bishop_attacks s occ).testBit x = true) :
    (std_bishop_attacks x occ).testBit s = true := by
  unfold std_bishop_attacks at h ⊢
  simp only [Nat.testBit_or, Bool.or_eq_true] at h ⊢
  rcases h with ((h | h) | h) | h
  · exact Or.inr (ray_attacks_symm occ 1 1 s x hs h)
  · have := ray_attacks_symm occ (-1) 1 s x hs h
    rw [neg_neg] at this
    exact Or.inl (Or.inr this)
  · have := ray_attacks_symm occ 1 (-1) s x hs h
    rw [neg_neg] at this
    exact Or.inl (Or.inl (Or.inr this))
  · have := ray_attacks_symm occ (-1) (-1) s x hs h
    rw [neg_neg] at this
    exact Or.inl (Or.inl (Or.inl this))

theorem bool_eq_of_imp {a b : Bool} (h1 : a = true → b = true) (h2 : b = true → a = true) :
    a = b := by
  cases a <;> cases b <;> simp_all

theorem std_leapers_symmetric :
    ∀ x, x < 64 → ∀ s, s < 64 →
      (std_tables.KING_ATTACKS s).testBit x = (std_tables.KING_ATTACKS x).testBit s
        ∧ (std_tables.KNIGHT_ATTACKS s).testBit x = (std_tables.KNIGHT_ATTACKS x).testBit s
        ∧ (std_tables.PAWN_ATTACKS_TABLE White s).testBit x
          = (std_tables.PAWN_ATTACKS_TABLE Black x).testBit s
        ∧ (std_tables.PAWN_ATTACKS_TABLE Black s).testBit x
          = (std_tables.PAWN_ATTACKS_TABLE White x).testBit s := by
  decide!

theorem std_tables_symmetric : tables_symmetric std_tables := by
  intro x s hx hs
  obtain ⟨h1, h2, h3, h4⟩ := std_leapers_symmetric x hx s hs
  refine ⟨?_, ?_, h1, h2, ?_⟩
  · intro occ
    exact bool_eq_of_imp (std_rook_attacks_imp occ s x hs) (std_rook_attacks_imp occ x s hx)
  · intro occ
    exact bool_eq_of_imp (std_bishop_attacks_imp occ s x hs) (std_bishop_attacks_imp occ x s hx)
  · intro c
    cases c
    · exact h3
    · exact h4

theorem attackers_eq_attackers_occ (T : AttackTables) (c : Color) (b : board) (s : Square) :
    b.attackers T c s = b.attackers_occ T c s b.occupancy := rfl

theorem attackers_occ_iff (T : AttackTables) (hT : tables_symmetric T) (c : Color) (b : board)
    (s x : Square) (occ : Nat) (hs : s < 64) (hx : x < 64) :
    (b.attackers_occ T c s occ).testBit x = true
      ↔ ∃ p, (b.bitboards (other c) p).testBit x = true
          ∧ piece_attacks T occ (other c) p x s = true := by
  obtain ⟨hrook, hbishop, hking, hknight, hpawn⟩ := hT x s hx hs
  have hpawn2 := hpawn c
  unfold board.attackers_occ
  simp only [Nat.testBit_or, Nat.testBit_and, Bool.or_eq_true, Bool.and_eq_true, hrook occ,
    hbishop occ, hking, hknight, hpawn2]
  constructor
  · intro h
    rcases h with (((⟨h1, h2 | h2⟩ | ⟨h1, h2 | h2⟩) | ⟨h1, h2⟩) | ⟨h1, h2⟩) | ⟨h1, h2⟩
    · exact ⟨Rook, h2, h1⟩
    · exact ⟨Queen, h2, by simp [piece_attacks, h1]⟩
    · exact ⟨Bishop, h2, h1⟩
    · exact ⟨Queen, h2, by simp [piece_attacks, h1]⟩
    · exact ⟨King, h2, h1⟩
    · exact ⟨Knight, h2, h1⟩
    · exact ⟨Pawn, h2, h1⟩
  · rintro ⟨p, hp, hatt⟩
    cases p with
    | Pawn => exact Or.inr ⟨hatt, hp⟩
    | Knight => exact Or.inl (Or.inr ⟨hatt, hp⟩)
    | Bishop => exact Or.inl (Or.inl (Or.inl (Or.inr ⟨hatt, Or.inl hp⟩)))
    | Rook => exact Or.inl (Or.inl (Or.inl (Or.inl ⟨hatt, Or.inl hp⟩)))
    | Queen =>
      simp only [piece_attacks, Bool.or_eq_true] at hatt
      rcases hatt with hatt | hatt
      · exact Or.inl (Or.inl (Or.inl (Or.inl ⟨hatt, Or.inr hp⟩)))
      · exact Or.inl (Or.inl (Or.inl (Or.inr ⟨hatt, Or.inr hp⟩)))
    | King => exact Or.inl (Or.inl (Or.inr ⟨hatt, hp⟩))
    | Null_Piece => simp [piece_attacks] at hatt

/-- C13, as amended: for attack tables of chess pieces, every colour `c`, squares `s` and `x`
below 64 and every position, `x` is in `attackers<c>(s)` exactly when `x` holds a piece of the
colour opposite to `c` that attacks `s` under the current occupancy; the overload with an
occupancy argument is the same with that occupancy. -/
theorem attackers_are_opposing_pieces (T : AttackTables) (hT : tables_symmetric T) (c : Color)
    (b : board) (s x : Square) (occ : Nat) (hs : s < 64) (hx : x < 64) :
    ((b.attackers T c s).testBit x = true
        ↔ ∃ p, (b.bitboards (other c) p).testBit x = true
            ∧ piece_attacks T b.occupancy (other c) p x s = true)
      ∧ ((b.attackers_occ T c s occ).testBit x = true
        ↔ ∃ p, (b.bitboards (other c) p).testBit x = true
            ∧ piece_attacks T occ (other c) p x s = true) := by
  constructor
  · rw [attackers_eq_attackers_occ]
    exact attackers_occ_iff T hT c b s x b.occupancy hs hx
  · exact attackers_occ_iff T hT c b s x occ hs hx

/-- C13, witness: in the initial position with the standard tables, the Black pawn on d7
(square 51) is in `attackers<White>(e6)`. -/
theorem attackers_are_opposing_pieces_witness :
    (initial_board.attackers std_tables White 44).testBit 51 = true
      ∧ ((initial_board.attackers std_tables White 44).testBit 51 = true
        ↔ ∃ p, (initial_board.bitboards (other White) p).testBit 51 = true
            ∧ piece_attacks std_tables initial_board.occupancy (other White) p 51 44 = true)
      ∧ ((initial_board.attackers_occ std_tables White 44 0).testBit 51 = true
        ↔ ∃ p, (initial_board.bitboards (other White) p).testBit 51 = true
            ∧ piece_attacks std_tables 0 (other White) p 51 44 = true) :=
  ⟨by decide!,
    attackers_are_opposing_pieces std_tables std_tables_symmetric White initial_board 44 51 0
      (by decide) (by decide)⟩

/-- C13, counterexample: in the initial position the White queen on d1 attacks e1 under the
current occupancy, yet d1 is not in `attackers<White>(e1)`, which is empty. -/
theorem attackers_own_colour_counterexample :
    (initial_board.bitboards White Queen).testBit D1 = true
      ∧ piece_attacks std_tables initial_board.occupancy White Queen D1 E1 = true
      ∧ (initial_board.attackers std_tables White E1).testBit D1 = false
      ∧ initial_board.attackers std_tables White E1 = 0
      ∧ ¬ ((initial_board.attackers std_tables White E1).testBit D1 = true
        ↔ ∃ p, (initial_board.bitboards White p).testBit D1 = true
            ∧ piece_attacks std_tables initial_board.occupancy White p D1 E1 = true) := by
  refine ⟨by decide!, by decide!, by decide!, by decide!, ?_⟩
  intro h
  have hx := h.mpr ⟨Queen, by decide!, by decide!⟩
  revert hx
  decide!

/-! ## Loading the placement field of a FEN -/



theorem fen_letter_spec (ch : Char) (cp : Color × Piece) (h : fen_letter ch = some cp) :
    get_color_and_piece ch = cp ∧ cp.2 ≠ Null_Piece ∧ ch.isDigit = false ∧ ch ≠ '/'
      ∧ is_space ch = false := by
  unfold fen_letter at h
  by_cases h0 : ch = 'P'
  · subst h0; rw [if_pos rfl] at h; cases h; decide
  rw [if_neg h0] at h
  by_cases h1 : ch = 'N'
  · subst h1; rw [if_pos rfl] at h; cases h; decide
  rw [if_neg h1] at h
  by_cases h2 : ch = 'B'
  · subst h2; rw [if_pos rfl] at h; cases h; decide
  rw [if_neg h2] at h
  by_cases h3 : ch = 'R'
  · subst h3; rw [if_pos rfl] at h; cases h; decide
  rw [if_neg h3] at h
  by_cases h4 : ch = 'Q'
  · subst h4; rw [if_pos rfl] at h; cases h; decide
  rw [if_neg h4] at h
  by_cases h5 : ch = 'K'
  · subst h5; rw [if_pos rfl] at h; cases h; decide
  rw [if_neg h5] at h
  by_cases h6 : ch = 'p'
  · subst h6; rw [if_pos rfl] at h; cases h; decide
  rw [if_neg h6] at h
  by_cases h7 : ch = 'n'
  · subst h7; rw [if_pos rfl] at h; cases h; decide
  rw [if_neg h7] at h
  by_cases h8 : ch = 'b'
  · subst h8; rw [if_pos rfl] at h; cases h; decide
  rw [if_neg h8] at h
  by_cases h9 : ch = 'r'
  · subst h9; rw [if_pos rfl] at h; cases h; decide
  rw [if_neg h9] at h
  by_cases h10 : ch = 'q'
  · subst h10; rw [if_pos rfl] at h; cases h; decide
  rw [if_neg h10] at h
  by_cases h11 : ch = 'k'
  · subst h11; rw [if_pos rfl] at h; cases h; decide
  rw [if_neg h11] at h
  cases h

theorem fen_run_spec (ch : Char) (n : Nat) (h : fen_run ch = some n) :
    ch.isDigit = true ∧ (ch.toNat : Int) - 48 = n ∧ is_space ch = false := by
  unfold fen_run at h
  split_ifs at h <;> (subst_vars; cases h; decide)

theorem place_char_letter (K : ZobristKeys) (st : placement) (ch : Char) (cp : Color × Piece)
    (q : Nat) (h : fen_letter ch = some cp) (hsq : st.square = (q : Int)) (hq : q < 64)
    (hempty : records st.bitboards st.pieces q none)
    (hbound : ∀ c p, st.bitboards c p < 2 ^ 64) :
    (place_char K st ch).square = ((q + 1 : Nat) : Int)
      ∧ (∀ c p, (place_char K st ch).bitboards c p < 2 ^ 64)
      ∧ records (place_char K st ch).bitboards (place_char K st ch).pieces q (some cp)
      ∧ ∀ s o, s ≠ q → records st.bitboards st.pieces s o
          → records (place_char K st ch).bitboards (place_char K st ch).pieces s o := by
  obtain ⟨hcp, hnull, hdig, hslash, _⟩ := fen_letter_spec ch cp h
  have hstep : place_char K st ch =
      { square := st.square + 1
        bitboards := set_bitboard st.bitboards cp.1 cp.2 (st.bitboards cp.1 cp.2 ||| bit q)
        hash_key := update_psqt_hash K st.hash_key cp.1 cp.2 q
        pieces := set_at st.pieces q cp.2 } := by
    unfold place_char
    rw [hdig, if_neg (by simp), if_neg hslash, hcp, hsq, Int.toNat_natCast]
  rw [hstep]
  refine ⟨?_, ?_, ?_, ?_⟩
  · show st.square + 1 = _
    rw [hsq]; push_cast; rfl
  · intro c p
    show set_bitboard st.bitboards cp.1 cp.2 (st.bitboards cp.1 cp.2 ||| bit q) c p < 2 ^ 64
    unfold set_bitboard
    split_ifs
    · exact Nat.or_lt_two_pow (hbound _ _) (bit_lt q)
    · exact hbound c p
  · constructor
    · intro c p hp
      show (set_bitboard st.bitboards cp.1 cp.2 (st.bitboards cp.1 cp.2 ||| bit q) c p).testBit q
        = true ↔ _
      rw [testBit_set_bitboard]
      by_cases hc : c = cp.1 ∧ p = cp.2
      · rw [if_pos hc, testBit_set_bit _ _ _ hq]
        obtain ⟨h1, h2⟩ := hc
        subst h1 h2
        simp
      · rw [if_neg hc]
        have := (hempty.1 c p hp)
        constructor
        · intro hb
          exact absurd (this.mp hb) (by simp)
        · intro he
          exfalso
          apply hc
          cases he
          exact ⟨rfl, rfl⟩
    · show set_at st.pieces q cp.2 q = cp.2
      unfold set_at
      rw [if_pos rfl]
  · intro s o hs hrec
    constructor
    · intro c p hp
      show (set_bitboard st.bitboards cp.1 cp.2 (st.bitboards cp.1 cp.2 ||| bit q) c p).testBit s
        = true ↔ _
      rw [testBit_set_bitboard]
      by_cases hc : c = cp.1 ∧ p = cp.2
      · rw [if_pos hc, testBit_set_bit _ _ _ hq]
        obtain ⟨h1, h2⟩ := hc
        subst h1 h2
        simp only [hs, decide_False, Bool.or_false]
        exact hrec.1 _ _ hp
      · rw [if_neg hc]
        exact hrec.1 c p hp
    · show set_at st.pieces q cp.2 s = _
      unfold set_at
      rw [if_neg hs]
      exact hrec.2

theorem place_char_digit (K : ZobristKeys) (st : placement) (ch : Char) (n : Nat)
    (h : fen_run ch = some n) :
    place_char K st ch = { st with square := st.square + (n : Int) } := by
  obtain ⟨hdig, hval, _⟩ := fen_run_spec ch n h
  unfold place_char
  rw [if_pos hdig, hval]

theorem place_char_slash (K : ZobristKeys) (st : placement) :
    place_char K st '/' = { st with square := st.square - 16 } := by
  unfold place_char
  rw [if_neg (by decide), if_pos rfl]

theorem get?_replicate_append {α : Type} (n : Nat) (a : α) (l : List α) (f : Nat) (o : α)
    (h : (List.replicate n a ++ l).get? f = some o) :
    (f < n ∧ o = a) ∨ (n ≤ f ∧ l.get? (f - n) = some o) := by
  by_cases hf : f < n
  · left
    rw [List.get?_eq_getElem?, List.getElem?_append_left (by simpa using hf),
      List.getElem?_replicate, if_pos hf] at h
    exact ⟨hf, (Option.some.inj h).symm⟩
  · right
    rw [List.get?_eq_getElem?, List.getElem?_append_right (by simpa using hf),
      List.length_replicate] at h
    exact ⟨by omega, by rw [List.get?_eq_getElem?]; exact h⟩

/-- The placement loop over one rank description that starts on square `q` with the squares
of the rank still empty: it ends on square `q + length`, records the denoted contents on the
squares of the rank and changes no other square. -/
theorem foldl_rank (K : ZobristKeys) :
    ∀ (w : List Char) (cells : List (Option (Color × Piece))) (st : placement) (q : Nat),
      rank_cells w = some cells → st.square = (q : Int) → q + cells.length ≤ 64 →
      (∀ s, q ≤ s → s < q + cells.length → records st.bitboards st.pieces s none) →
      (∀ c p, st.bitboards c p < 2 ^ 64) →
      (w.foldl (place_char K) st).square = ((q + cells.length : Nat) : Int)
        ∧ (∀ c p, (w.foldl (place_char K) st).bitboards c p < 2 ^ 64)
        ∧ (∀ s o, (s < q ∨ q + cells.length ≤ s) → records st.bitboards st.pieces s o →
            records (w.foldl (place_char K) st).bitboards (w.foldl (place_char K) st).pieces s o)
        ∧ (∀ f o, cells.get? f = some o →
            records (w.foldl (place_char K) st).bitboards (w.foldl (place_char K) st).pieces
              (q + f) o) := by
  intro w
  induction w with
  | nil =>
    intro cells st q h hsq _ _ hbound
    simp only [rank_cells, Option.some.injEq] at h
    subst h
    refine ⟨by simpa using hsq, hbound, fun s o _ hr => hr, ?_⟩
    intro f o hf
    simp at hf
  | cons ch rest ih =>
    intro cells st q h hsq hlen hempty hbound
    rw [List.foldl_cons]
    unfold rank_cells at h
    cases hl : fen_letter ch with
    | some cp =>
      rw [hl] at h
      simp only [Option.map_eq_some'] at h
      obtain ⟨cells', hcells', rfl⟩ := h
      rw [List.length_cons] at hlen hempty
      obtain ⟨h1, h2, h3, h4⟩ := place_char_letter K st ch cp q hl hsq (by omega)
        (hempty q (le_refl q) (by omega)) hbound
      obtain ⟨i1, i2, i3, i4⟩ := ih cells' (place_char K st ch) (q + 1) hcells' h1 (by omega)
        (fun s hs1 hs2 => h4 s none (by omega) (hempty s (by omega) (by omega))) h2
      refine ⟨?_, i2, ?_, ?_⟩
      · rw [i1, List.length_cons]
        congr 1
        omega
      · intro s o hs hr
        rw [List.length_cons] at hs
        exact i3 s o (by omega) (h4 s o (by omega) hr)
      · intro f o hf
        cases f with
        | zero =>
          simp only [List.get?_cons_zero, Option.some.injEq] at hf
          subst hf
          exact i3 q (some cp) (by omega) h3
        | succ f' =>
          rw [List.get?_cons_succ] at hf
          have := i4 f' o hf
          rw [show q + (f' + 1) = q + 1 + f' by omega]
          exact this
    | none =>
      rw [hl] at h
      cases hr : fen_run ch with
      | none => rw [hr] at h; cases h
      | some n =>
        rw [hr] at h
        simp only [Option.map_eq_some'] at h
        obtain ⟨cells', hcells', rfl⟩ := h
        rw [List.length_append, List.length_replicate] at hlen hempty
        rw [place_char_digit K st ch n hr]
        obtain ⟨i1, i2, i3, i4⟩ := ih cells' { st with square := st.square + (n : Int) } (q + n)
          hcells' (by show st.square + (n : Int) = _; rw [hsq]; push_cast; rfl) (by omega)
          (fun s hs1 hs2 => hempty s (by omega) (by omega)) hbound
        refine ⟨?_, i2, ?_, ?_⟩
        · rw [i1, List.length_append, List.length_replicate]
          congr 1
          omega
        · intro s o hs hr
          rw [List.length_append, List.length_replicate] at hs
          exact i3 s o (by omega) hr
        · intro f o hf
          rcases get?_replicate_append n none cells' f o hf with ⟨hfn, rfl⟩ | ⟨hfn, hget⟩
          · exact i3 (q + f) none (by omega) (hempty (q + f) (by omega) (by omega))
          · have := i4 (f - n) o hget
            rw [show q + n + (f - n) = q + f by omega] at this
            exact this

theorem placement_field_single (w : List Char) : placement_field [w] = w := by
  simp [placement_field, List.intercalate]

theorem placement_field_cons (w w2 : List Char) (rest : List (List Char)) :
    placement_field (w :: w2 :: rest) = w ++ '/' :: placement_field (w2 :: rest) := by
  simp [placement_field, List.intercalate]

theorem rank_cells_of_length (w : List Char) (h : (rank_cells w).map List.length = some 8) :
    ∃ cells, rank_cells w = some cells ∧ cells.length = 8 := by
  cases hc : rank_cells w with
  | none => rw [hc] at h; cases h
  | some cells =>
    rw [hc] at h
    exact ⟨cells, rfl, Option.some.inj h⟩

/-- The placement loop over the rank descriptions of the ranks `i`, `i - 1`, ..., `0`
(counted from 0), started on the first square of rank `i` with these ranks still empty. -/
theorem foldl_ranks (K : ZobristKeys) :
    ∀ (ranks : List (List Char)) (st : placement) (i : Nat),
      ranks.length = i + 1 → i < 8 →
      (∀ w ∈ ranks, (rank_cells w).map List.length = some 8) →
      st.square = ((8 * i : Nat) : Int) →
      (∀ s, s < 8 * (i + 1) → records st.bitboards st.pieces s none) →
      (∀ c p, st.bitboards c p < 2 ^ 64) →
      (∀ c p, ((placement_field ranks).foldl (place_char K) st).bitboards c p < 2 ^ 64)
        ∧ (∀ s o, 8 * (i + 1) ≤ s → records st.bitboards st.pieces s o →
            records ((placement_field ranks).foldl (place_char K) st).bitboards
              ((placement_field ranks).foldl (place_char K) st).pieces s o)
        ∧ (∀ j f o, j ≤ i → cell_at (ranks.getD (i - j) []) f = some o →
            records ((placement_field ranks).foldl (place_char K) st).bitboards
              ((placement_field ranks).foldl (place_char K) st).pieces (8 * j + f) o) := by
  intro ranks
  induction ranks with
  | nil =>
    intro st i hlen
    simp at hlen
  | cons w rest ih =>
    intro st i hlen hi hwf hsq hempty hbound
    obtain ⟨cells, hcells, hclen⟩ := rank_cells_of_length w (hwf w (List.mem_cons_self _ _))
    obtain ⟨r1, r2, r3, r4⟩ := foldl_rank K w cells st (8 * i) hcells hsq (by omega)
      (fun s _ hs2 => hempty s (by omega)) hbound
    rw [hclen] at r1 r3
    cases rest with
    | nil =>
      have hi0 : i = 0 := by simpa using hlen.symm
      subst hi0
      rw [placement_field_single]
      refine ⟨r2, fun s o hs hr => r3 s o (by omega) hr, ?_⟩
      intro j f o hj hcell
      have hj0 : j = 0 := by omega
      subst hj0
      simp only [cell_at, Nat.sub_zero, List.getD_cons_zero, hcells, Option.some_bind] at hcell
      have := r4 f o hcell
      simpa using this
    | cons w2 rest2 =>
      obtain ⟨i', rfl⟩ : ∃ i', i = i' + 1 := ⟨i - 1, by simp at hlen; omega⟩
      rw [placement_field_cons, List.foldl_append, List.foldl_cons, place_char_slash]
      obtain ⟨q1, q2, q3⟩ := ih { (w.foldl (place_char K) st) with
          square := (w.foldl (place_char K) st).square - 16 } i'
        (by simpa using hlen) (by omega)
        (fun v hv => hwf v (List.mem_cons_of_mem _ hv))
        (by
          show (w.foldl (place_char K) st).square - 16 = _
          rw [r1]; push_cast; omega)
        (fun s hs => r3 s none (by omega) (hempty s (by omega))) r2
      refine ⟨q1, ?_, ?_⟩
      · intro s o hs hr
        exact q2 s o (by omega) (r3 s o (by omega) hr)
      · intro j f o hj hcell
        by_cases hji : j = i' + 1
        · subst hji
          simp only [cell_at, Nat.sub_self, List.getD_cons_zero, hcells, Option.some_bind]
            at hcell
          exact q2 _ o (by omega) (r4 f o hcell)
        · have hidx : i' + 1 - j = (i' - j) + 1 := by omega
          rw [hidx, List.getD_cons_succ] at hcell
          exact q3 j f o (by omega) hcell

theorem stream_words_first (rest : List Char) :
    ∀ (w cur : List Char), (∀ ch ∈ w, is_space ch = false) → (w ≠ [] ∨ cur ≠ []) →
      stream_words (w ++ ' ' :: rest) cur = (cur.reverse ++ w) :: stream_words rest [] := by
  intro w
  induction w with
  | nil =>
    intro cur _ hne
    have hcur : cur ≠ [] := by
      rcases hne with h | h
      · exact absurd rfl h
      · exact h
    rw [List.nil_append, List.append_nil]
    conv_lhs => unfold stream_words
    rw [if_pos (by decide), if_neg hcur]
  | cons c w ih =>
    intro cur hsp _
    have hc : is_space c = false := hsp c (List.mem_cons_self _ _)
    rw [List.cons_append]
    conv_lhs => unfold stream_words
    rw [hc, if_neg (by simp), ih (c :: cur) (fun ch hch => hsp ch (List.mem_cons_of_mem _ hch))
      (Or.inr (List.cons_ne_nil _ _))]
    simp

theorem rank_chars_not_space :
    ∀ (w : List Char), (rank_cells w).isSome = true → ∀ ch ∈ w, is_space ch = false := by
  intro w
  induction w with
  | nil => intro _ ch hch; exact absurd hch (List.not_mem_nil ch)
  | cons c rest ih =>
    intro h ch hch
    unfold rank_cells at h
    cases hl : fen_letter c with
    | some cp =>
      rw [hl] at h
      rcases List.mem_cons.mp hch with rfl | hmem
      · exact (fen_letter_spec ch cp hl).2.2.2.2
      · exact ih (by simpa using h) ch hmem
    | none =>
      rw [hl] at h
      cases hr : fen_run c with
      | none => rw [hr] at h; simp at h
      | some n =>
        rw [hr] at h
        rcases List.mem_cons.mp hch with rfl | hmem
        · exact (fen_run_spec ch n hr).2.2
        · exact ih (by simpa using h) ch hmem

theorem field_chars_not_space :
    ∀ (ranks : List (List Char)), (∀ w ∈ ranks, (rank_cells w).map List.length = some 8) →
      ∀ ch ∈ placement_field ranks, is_space ch = false := by
  intro ranks
  induction ranks with
  | nil => intro _ ch hch; simp [placement_field, List.intercalate] at hch
  | cons w rest ih =>
    intro hwf ch hch
    have hw : ∀ c ∈ w, is_space c = false := by
      apply rank_chars_not_space
      obtain ⟨cells, hcells, _⟩ := rank_cells_of_length w (hwf w (List.mem_cons_self _ _))
      rw [hcells]
      rfl
    cases rest with
    | nil =>
      rw [placement_field_single] at hch
      exact hw ch hch
    | cons w2 rest2 =>
      rw [placement_field_cons, List.mem_append, List.mem_cons] at hch
      rcases hch with h | rfl | h
      · exact hw ch h
      · decide
      · exact ih (fun v hv => hwf v (List.mem_cons_of_mem _ hv)) ch h

theorem fen_first_word (ranks : List (List Char)) (rest : List Char)
    (hwf : well_formed_ranks ranks) :
    (stream_words (String.mk (placement_field ranks ++ ' ' :: rest)).toList []).getD 0 []
      = placement_field ranks := by
  obtain ⟨hlen, hall⟩ := hwf
  have hne : placement_field ranks ≠ [] := by
    match ranks, hlen with
    | w :: w2 :: rest2, _ =>
      rw [placement_field_cons]
      simp
  show (stream_words (placement_field ranks ++ ' ' :: rest) []).getD 0 [] = _
  rw [stream_words_first rest _ [] (field_chars_not_space ranks hall) (Or.inl hne)]
  simp

theorem fen_to_board_fields (K : ZobristKeys) (b0 : board) (fen : String) :
    (b0.fen_to_board K fen).bitboards
        = (((stream_words fen.toList []).getD 0 []).foldl (place_char K)
            ⟨A8, fun _ _ => 0, 0, fun _ => Null_Piece⟩).bitboards
      ∧ (b0.fen_to_board K fen).pieces
        = (((stream_words fen.toList []).getD 0 []).foldl (place_char K)
            ⟨A8, fun _ _ => 0, 0, fun _ => Null_Piece⟩).pieces
      ∧ (∀ c, (b0.fen_to_board K fen).side_occupancy c
        = (b0.fen_to_board K fen).bitboards c Pawn ||| (b0.fen_to_board K fen).bitboards c Knight
          ||| (b0.fen_to_board K fen).bitboards c Bishop
          ||| (b0.fen_to_board K fen).bitboards c Rook
          ||| (b0.fen_to_board K fen).bitboards c Queen
          ||| (b0.fen_to_board K fen).bitboards c King)
      ∧ (b0.fen_to_board K fen).occupancy
        = (b0.fen_to_board K fen).side_occupancy White
          ||| (b0.fen_to_board K fen).side_occupancy Black
      ∧ (b0.fen_to_board K fen).history.length = 1 := by
  refine ⟨rfl, rfl, ?_, rfl, rfl⟩
  intro c
  show List.foldl _ 0 _ = _
  simp only [List.foldl_cons, List.foldl_nil, Nat.zero_or]
  rfl

/-- C14: for every well-formed placement field (eight rank descriptions separated by `/`,
listed from rank 8 down to rank 1, each describing eight files) followed by a space and the
other fields, after `fen_to_board` every square `8 * r + f` (rank index `r` and file `f` in
`0 .. 7`) records what the description of its rank denotes for file `f`: the denoted piece in
the bitboard of its colour (and in no other piece bitboard) and in the mailbox, or nothing;
the position satisfies invariants 1-3 and its history is one snapshot.  For the default FEN
the position is the standard initial array with all four castling rights, White to move and
no en-passant square. -/
theorem fen_to_board_placement (K : ZobristKeys) (b0 : board) (ranks : List (List Char))
    (rest : List Char) (hwf : well_formed_ranks ranks) :
    (∀ r f, r < 8 → f < 8 →
        ∃ o, cell_at (ranks.getD (7 - r) []) f = some o
          ∧ records (b0.fen_to_board K (String.mk (placement_field ranks ++ ' ' :: rest))).bitboards
              (b0.fen_to_board K (String.mk (placement_field ranks ++ ' ' :: rest))).pieces
              (8 * r + f) o)
      ∧ invariants (b0.fen_to_board K (String.mk (placement_field ranks ++ ' ' :: rest)))
      ∧ (b0.fen_to_board K (String.mk (placement_field ranks ++ ' ' :: rest))).history.length = 1
      ∧ (board.new K default_fen).side = White
      ∧ (board.new K default_fen).castling_rights = 15
      ∧ (board.new K default_fen).enpassant = Null_Square
      ∧ (board.new K default_fen).bitboards White Pawn = 0xFF00
      ∧ (board.new K default_fen).bitboards White Knight = 0x42
      ∧ (board.new K default_fen).bitboards White Bishop = 0x24
      ∧ (board.new K default_fen).bitboards White Rook = 0x81
      ∧ (board.new K default_fen).bitboards White Queen = 0x08
      ∧ (board.new K default_fen).bitboards White King = 0x10
      ∧ (board.new K default_fen).bitboards Black Pawn = 0x00FF000000000000
      ∧ (board.new K default_fen).bitboards Black Knight = 0x4200000000000000
      ∧ (board.new K default_fen).bitboards Black Bishop = 0x2400000000000000
      ∧ (board.new K default_fen).bitboards Black Rook = 0x8100000000000000
      ∧ (board.new K default_fen).bitboards Black Queen = 0x0800000000000000
      ∧ (board.new K default_fen).bitboards Black King = 0x1000000000000000 := by
  obtain ⟨hbb, hpc, hso, hocc, hhist⟩ :=
    fen_to_board_fields K b0 (String.mk (placement_field ranks ++ ' ' :: rest))
  rw [fen_first_word ranks rest hwf] at hbb hpc
  obtain ⟨q1, _, q3⟩ := foldl_ranks K ranks ⟨A8, fun _ _ => 0, 0, fun _ => Null_Piece⟩ 7
    hwf.1 (by decide) hwf.2 rfl
    (fun s _ => ⟨fun c p _ => by simp, rfl⟩)
    (fun c p => Nat.two_pow_pos 64)
  rw [← hbb] at q1
  rw [← hbb, ← hpc] at q3
  have hcells : ∀ r f, r < 8 → f < 8 →
      ∃ o, cell_at (ranks.getD (7 - r) []) f = some o
        ∧ records (b0.fen_to_board K (String.mk (placement_field ranks ++ ' ' :: rest))).bitboards
            (b0.fen_to_board K (String.mk (placement_field ranks ++ ' ' :: rest))).pieces
            (8 * r + f) o := by
    intro r f hr hf
    have hidx : 7 - r < ranks.length := by rw [hwf.1]; omega
    have hmem : ranks.getD (7 - r) [] ∈ ranks := by
      rw [List.getD_eq_getElem _ _ hidx]
      exact List.getElem_mem _
    obtain ⟨cells, hc, hclen⟩ := rank_cells_of_length _ (hwf.2 _ hmem)
    have hget : cells.get? f = some (cells.get ⟨f, by omega⟩) := List.get?_eq_get _
    have hcell : cell_at (ranks.getD (7 - r) []) f = some (cells.get ⟨f, by omega⟩) := by
      unfold cell_at
      rw [hc, Option.some_bind, hget]
    exact ⟨_, hcell, q3 r f _ (by omega) hcell⟩
  have hdefault := (board_new_keys K sample_keys default_fen).1
  obtain ⟨d1, d2, d3, _, d5, _, _⟩ := hdefault
  refine ⟨hcells, ⟨⟨?_, ?_, q1⟩, hocc, hso, ?_⟩, hhist, ?_⟩
  · rw [hocc]
    exact Nat.or_lt_two_pow (by
      rw [hso]
      exact Nat.or_lt_two_pow (Nat.or_lt_two_pow (Nat.or_lt_two_pow (Nat.or_lt_two_pow
        (Nat.or_lt_two_pow (q1 _ _) (q1 _ _)) (q1 _ _)) (q1 _ _)) (q1 _ _)) (q1 _ _)) (by
      rw [hso]
      exact Nat.or_lt_two_pow (Nat.or_lt_two_pow (Nat.or_lt_two_pow (Nat.or_lt_two_pow
        (Nat.or_lt_two_pow (q1 _ _) (q1 _ _)) (q1 _ _)) (q1 _ _)) (q1 _ _)) (q1 _ _))
  · intro c
    rw [hso]
    exact Nat.or_lt_two_pow (Nat.or_lt_two_pow (Nat.or_lt_two_pow (Nat.or_lt_two_pow
      (Nat.or_lt_two_pow (q1 _ _) (q1 _ _)) (q1 _ _)) (q1 _ _)) (q1 _ _)) (q1 _ _)
  · intro s hs p hp
    obtain ⟨o, _, hrec⟩ := hcells (s / 8) (s % 8) (by omega) (by omega)
    rw [show 8 * (s / 8) + s % 8 = s by omega] at hrec
    obtain ⟨hbit, hpiece⟩ := hrec
    constructor
    · rintro ⟨c, hc⟩
      have := (hbit c p hp).mp hc
      rw [hpiece, this]
    · intro hps
      cases o with
      | none =>
        rw [hpiece] at hps
        exact absurd hps.symm hp
      | some cp =>
        rw [hpiece] at hps
        refine ⟨cp.1, (hbit cp.1 p hp).mpr ?_⟩
        rw [← hps]
  · rw [d1, d3, d2, d5]
    decide!

/-- C14, witness: the default FEN, whose placement field is well-formed. -/
theorem fen_to_board_placement_witness :
    well_formed_ranks default_ranks
      ∧ String.mk (placement_field default_ranks ++ ' ' :: "w KQkq - 0 1".toList) = default_fen
      ∧ (∀ r f, r < 8 → f < 8 →
        ∃ o, cell_at (default_ranks.getD (7 - r) []) f = some o
          ∧ records
              (board.blank.fen_to_board sample_keys
                (String.mk (placement_field default_ranks ++ ' ' :: "w KQkq - 0 1".toList))).bitboards
              (board.blank.fen_to_board sample_keys
                (String.mk (placement_field default_ranks ++ ' ' :: "w KQkq - 0 1".toList))).pieces
              (8 * r + f) o)
      ∧ invariants (board.blank.fen_to_board sample_keys
          (String.mk (placement_field default_ranks ++ ' ' :: "w KQkq - 0 1".toList))) :=
  ⟨by decide!, by decide!,
    (fen_to_board_placement sample_keys board.blank default_ranks "w KQkq - 0 1".toList
      (by decide!)).1,
    (fen_to_board_placement sample_keys board.blank default_ranks "w KQkq - 0 1".toList
      (by decide!)).2.1⟩

/-! ## The half-move clock field of a FEN -/



theorem short_history_no_draw (b : board) (h1 : b.history.length = 1)
    (h2 : b.fifty_move_clock < 100) : b.is_draw = false := by
  unfold board.is_draw
  rw [if_neg (by omega), h1]
  simp [is_draw_loop]

theorem sample_fen_clocks :
    (board.new sample_keys default_fen).fifty_move_clock = 48
      ∧ (board.new sample_keys fen_clock_100).fifty_move_clock = 49 := by
  decide!

/-- C15, the code at the failing input: loading the default FEN, whose half-move clock field
is `0`, leaves the clock (and the clock of the root snapshot) at 48, the character code of
`0`; loading the same FEN with the field `100` leaves the clock at 49, the code of `1`, and
`is_draw` returns false. -/
theorem fen_clock_is_character_code (K : ZobristKeys) :
    (board.new K default_fen).fifty_move_clock = 48
      ∧ (board.new K default_fen).history.map (fun info => info.fifty_move_clock) = [48]
      ∧ (board.new K fen_clock_100).fifty_move_clock = 49
      ∧ (board.new K fen_clock_100).is_draw = false := by
  have h1 : (board.new K default_fen).fifty_move_clock = 48 := by
    rw [(board_new_keys K sample_keys default_fen).2]
    exact sample_fen_clocks.1
  have h2 : (board.new K fen_clock_100).fifty_move_clock = 49 := by
    rw [(board_new_keys K sample_keys fen_clock_100).2]
    exact sample_fen_clocks.2
  refine ⟨h1, ?_, h2, ?_⟩
  · show [(board.new K default_fen).fifty_move_clock] = [48]
    rw [h1]
  · exact short_history_no_draw _ rfl (by rw [h2]; decide)

/-! ## Parsing squares -/

theorem square_from_string_table :
    ∀ s, s < 64 → square_from_string (square_to_string.getD s "").toList = s := by
  decide!

/-- C16, as amended: `square_from_string(square_to_string[s]) = s` for every square `s` in
`0 .. 63`, and every string whose first character is not an ASCII letter (such as `-` or the
empty string) gives the no-square sentinel. -/
theorem square_from_string_parses (str : List Char) (h : starts_with_letter str = false) :
    square_from_string str = Null_Square
      ∧ ∀ s, s < 64 → square_from_string (square_to_string.getD s "").toList = s := by
  refine ⟨?_, square_from_string_table⟩
  unfold square_from_string
  cases str with
  | nil => simp [char_at]
  | cons c rest =>
    simp only [starts_with_letter, Bool.or_eq_false_iff, Bool.and_eq_false_imp,
      decide_eq_true_eq, decide_eq_false_iff_not] at h
    have hc : char_at (c :: rest) 0 = c.toNat := rfl
    simp only [hc]
    rw [if_neg (fun hh => h.1 hh.1 hh.2), if_neg (fun hh => h.2 hh.1 hh.2)]

/-- C16, witness: the string `-`. -/
theorem square_from_string_parses_witness :
    square_from_string "-".toList = Null_Square
      ∧ ∀ s, s < 64 → square_from_string (square_to_string.getD s "").toList = s :=
  square_from_string_parses "-".toList (by decide)

/-- C16, counterexample: the strings `z1`, `i9` and `a0` are not in `square_to_string`, yet
`square_from_string` gives 25, 72 and 248 for them, not the sentinel 64. -/
theorem square_from_string_unvalidated_counterexample :
    Null_Square = 64
      ∧ "z1" ∉ square_to_string ∧ square_from_string "z1".toList = 25
      ∧ "i9" ∉ square_to_string ∧ square_from_string "i9".toList = 72
      ∧ "a0" ∉ square_to_string ∧ square_from_string "a0".toList = 248 := by
  decide!

/-! ## Move classification -/

theorem get_move_type_lt (m : chessmove) : m.get_move_type < 16 := by
  unfold chessmove.get_move_type
  exact Nat.lt_of_le_of_lt Nat.and_le_right (by decide)

theorem kind_tables :
    ∀ k, k < 16 → defined_kind k →
      is_quiet_kind k = some (decide (¬ (k = CAPTURE ∨ k = EN_PASSANT ∨ k = QUEEN_PROMOTION
          ∨ k = QUEEN_PROMOTION_CAPTURE)))
        ∧ is_promotion_kind k
          = some (decide (k = QUEEN_PROMOTION ∨ k = QUEEN_PROMOTION_CAPTURE)) := by
  decide

/-- C17, as amended: for every move of one of the 14 defined kinds, `is_quiet()` is false
exactly when the kind is CAPTURE, EN_PASSANT, QUEEN_PROMOTION or QUEEN_PROMOTION_CAPTURE, and
`is_capture()` is its negation. -/
theorem is_quiet_classification (m : chessmove) (h : defined_kind m.get_move_type) :
    m.is_quiet = some (decide (¬ (m.get_move_type = CAPTURE ∨ m.get_move_type = EN_PASSANT
        ∨ m.get_move_type = QUEEN_PROMOTION ∨ m.get_move_type = QUEEN_PROMOTION_CAPTURE)))
      ∧ m.is_capture = some (decide (m.get_move_type = CAPTURE ∨ m.get_move_type = EN_PASSANT
        ∨ m.get_move_type = QUEEN_PROMOTION ∨ m.get_move_type = QUEEN_PROMOTION_CAPTURE)) := by
  have hq := (kind_tables m.get_move_type (get_move_type_lt m) h).1
  unfold chessmove.is_capture chessmove.is_quiet
  rw [hq]
  refine ⟨rfl, ?_⟩
  simp

/-- C17, witness: the capture e4xd5 of a knight by a pawn is not quiet and is a capture. -/
theorem is_quiet_classification_witness :
    (chessmove.new5 28 35 CAPTURE Pawn Knight).is_quiet = some false
      ∧ (chessmove.new5 28 35 CAPTURE Pawn Knight).is_capture = some true
      ∧ (chessmove.new5 28 35 CAPTURE Pawn Knight).is_quiet
        = some (decide (¬ ((chessmove.new5 28 35 CAPTURE Pawn Knight).get_move_type = CAPTURE
          ∨ (chessmove.new5 28 35 CAPTURE Pawn Knight).get_move_type = EN_PASSANT
          ∨ (chessmove.new5 28 35 CAPTURE Pawn Knight).get_move_type = QUEEN_PROMOTION
          ∨ (chessmove.new5 28 35 CAPTURE Pawn Knight).get_move_type
            = QUEEN_PROMOTION_CAPTURE)))
      ∧ (chessmove.new5 28 35 CAPTURE Pawn Knight).is_capture
        = some (decide ((chessmove.new5 28 35 CAPTURE Pawn Knight).get_move_type = CAPTURE
          ∨ (chessmove.new5 28 35 CAPTURE Pawn Knight).get_move_type = EN_PASSANT
          ∨ (chessmove.new5 28 35 CAPTURE Pawn Knight).get_move_type = QUEEN_PROMOTION
          ∨ (chessmove.new5 28 35 CAPTURE Pawn Knight).get_move_type
            = QUEEN_PROMOTION_CAPTURE)) :=
  ⟨by decide, by decide,
    is_quiet_classification (chessmove.new5 28 35 CAPTURE Pawn Knight) (by decide)⟩

/-- C17, counterexample: the knight-promotion capture e7xd8=N is quiet and not a capture, and
the queen promotion e7-e8=Q without capture is a capture and not quiet. -/
theorem is_capture_promotion_counterexample :
    (chessmove.new5 52 59 KNIGHT_PROMOTION_CAPTURE Pawn Rook).get_move_type
        = KNIGHT_PROMOTION_CAPTURE
      ∧ (chessmove.new5 52 59 KNIGHT_PROMOTION_CAPTURE Pawn Rook).is_capture = some false
      ∧ (chessmove.new5 52 59 KNIGHT_PROMOTION_CAPTURE Pawn Rook).is_quiet = some true
      ∧ (chessmove.new4 52 60 QUEEN_PROMOTION Pawn).get_move_type = QUEEN_PROMOTION
      ∧ (chessmove.new4 52 60 QUEEN_PROMOTION Pawn).is_capture = some true
      ∧ (chessmove.new4 52 60 QUEEN_PROMOTION Pawn).is_quiet = some false := by
  decide

/-- C18, as amended: for every move of one of the 14 defined kinds, `is_promotion()` is true
exactly when the kind is QUEEN_PROMOTION or QUEEN_PROMOTION_CAPTURE; it is a function of the
kind field. -/
theorem is_promotion_classification (m : chessmove) (h : defined_kind m.get_move_type) :
    m.is_promotion = some (decide (m.get_move_type = QUEEN_PROMOTION
        ∨ m.get_move_type = QUEEN_PROMOTION_CAPTURE))
      ∧ m.is_promotion = is_promotion_kind m.get_move_type :=
  ⟨(kind_tables m.get_move_type (get_move_type_lt m) h).2, rfl⟩

/-- C18, witness: the queen promotion e7-e8=Q is a promotion. -/
theorem is_promotion_classification_witness :
    (chessmove.new4 52 60 QUEEN_PROMOTION Pawn).is_promotion = some true
      ∧ (chessmove.new4 52 60 QUEEN_PROMOTION Pawn).is_promotion
        = some (decide ((chessmove.new4 52 60 QUEEN_PROMOTION Pawn).get_move_type
            = QUEEN_PROMOTION
          ∨ (chessmove.new4 52 60 QUEEN_PROMOTION Pawn).get_move_type
            = QUEEN_PROMOTION_CAPTURE))
      ∧ (chessmove.new4 52 60 QUEEN_PROMOTION Pawn).is_promotion
        = is_promotion_kind (chessmove.new4 52 60 QUEEN_PROMOTION Pawn).get_move_type :=
  ⟨by decide, is_promotion_classification (chessmove.new4 52 60 QUEEN_PROMOTION Pawn) (by decide)⟩

/-- C18, counterexample: the knight promotion e7-e8=N and the rook-promotion capture e7xd8=R
are of promotion kinds, yet `is_promotion()` is false for them. -/
theorem is_promotion_underpromotion_counterexample :
    (chessmove.new4 52 60 KNIGHT_PROMOTION Pawn).get_move_type = KNIGHT_PROMOTION
      ∧ (chessmove.new4 52 60 KNIGHT_PROMOTION Pawn).is_promotion = some false
      ∧ (chessmove.new5 52 59 ROOK_PROMOTION_CAPTURE Pawn Rook).get_move_type
        = ROOK_PROMOTION_CAPTURE
      ∧ (chessmove.new5 52 59 ROOK_PROMOTION_CAPTURE Pawn Rook).is_promotion = some false := by
  decide

/-! ## Selection of the next move -/



theorem best_index_fold (entries : List (chessmove × Int)) (index : Nat) :
    ∀ k, index ≤ (List.range' (index + 1) k).foldl
          (fun best i => if (entry entries i).2 > (entry entries best).2 then i else best) index
      ∧ (List.range' (index + 1) k).foldl
          (fun best i => if (entry entries i).2 > (entry entries best).2 then i else best) index
          < index + 1 + k
      ∧ (∀ j, index ≤ j → j < index + 1 + k → (entry entries j).2
          ≤ (entry entries ((List.range' (index + 1) k).foldl
            (fun best i => if (entry entries i).2 > (entry entries best).2 then i else best)
            index)).2)
      ∧ (∀ j, index ≤ j → j < (List.range' (index + 1) k).foldl
            (fun best i => if (entry entries i).2 > (entry entries best).2 then i else best) index →
          (entry entries j).2 < (entry entries ((List.range' (index + 1) k).foldl
            (fun best i => if (entry entries i).2 > (entry entries best).2 then i else best)
            index)).2) := by
  intro k
  induction k with
  | zero =>
    simp only [List.range'_zero, List.foldl_nil]
    refine ⟨le_refl _, by omega, ?_, ?_⟩
    · intro j h1 h2
      have : j = index := by omega
      rw [this]
    · intro j h1 h2
      omega
  | succ k ih =>
    rw [List.range'_concat, List.foldl_append, List.foldl_cons, List.foldl_nil, Nat.one_mul]
    obtain ⟨h1, h2, h3, h4⟩ := ih
    generalize (List.range' (index + 1) k).foldl
      (fun best i => if (entry entries i).2 > (entry entries best).2 then i else best) index
      = best at h1 h2 h3 h4 ⊢
    by_cases hgt : (entry entries (index + 1 + k)).2 > (entry entries best).2
    · rw [if_pos hgt]
      refine ⟨by omega, by omega, ?_, ?_⟩
      · intro j hj1 hj2
        by_cases hj : j = index + 1 + k
        · rw [hj]
        · exact le_of_lt (lt_of_le_of_lt (h3 j hj1 (by omega)) hgt)
      · intro j hj1 hj2
        exact lt_of_le_of_lt (h3 j hj1 hj2) hgt
    · rw [if_neg hgt]
      refine ⟨h1, by omega, ?_, h4⟩
      intro j hj1 hj2
      by_cases hj : j = index + 1 + k
      · rw [hj]
        exact not_lt.mp hgt
      · exact h3 j hj1 (by omega)

/-- The loop of `get_next_move` ends on the lowest index of a maximal score among
`index .. count - 1`. -/
theorem best_index_spec (entries : List (chessmove × Int)) (index count : Nat)
    (h : index < count) :
    index ≤ best_index entries index count ∧ best_index entries index count < count
      ∧ (∀ j, index ≤ j → j < count →
          (entry entries j).2 ≤ (entry entries (best_index entries index count)).2)
      ∧ (∀ j, index ≤ j → j < best_index entries index count →
          (entry entries j).2 < (entry entries (best_index entries index count)).2) := by
  obtain ⟨h1, h2, h3, h4⟩ := best_index_fold entries index (count - (index + 1))
  unfold best_index
  refine ⟨h1, by omega, ?_, h4⟩
  intro j hj1 hj2
  exact h3 j hj1 (by omega)

theorem entry_swap_entries (l : List (chessmove × Int)) (i j k : Nat) (hi : i < l.length)
    (hj : j < l.length) :
    entry (swap_entries l i j) k
      = if k = j then entry l i else if k = i then entry l j else entry l k := by
  simp only [swap_entries, entry, List.getD_eq_getElem?_getD, List.getElem?_set, List.length_set]
  by_cases hkj : k = j
  · subst hkj
    simp [hj]
  · by_cases hki : k = i
    · subst hki
      simp [hkj, hi, Ne.symm hkj]
    · simp [hkj, hki, Ne.symm hkj, Ne.symm hki]

theorem set_getD_self {α : Type} (d : α) : ∀ (l : List α) (i : Nat), l.set i (l.getD i d) = l := by
  intro l
  induction l with
  | nil => intro i; rfl
  | cons a t ih =>
    intro i
    cases i with
    | zero => rfl
    | succ i => simp only [List.set_cons_succ, List.getD_cons_succ, ih]

theorem getD_cons_set_perm {α : Type} (d a : α) :
    ∀ (t : List α) (k : Nat), k < t.length → (t.getD k d :: t.set k a).Perm (a :: t) := by
  intro t
  induction t with
  | nil => intro k hk; simp at hk
  | cons x rest ih =>
    intro k hk
    cases k with
    | zero => exact List.Perm.swap a x rest
    | succ k =>
      simp only [List.getD_cons_succ, List.set_cons_succ]
      have h1 : (rest.getD k d :: x :: rest.set k a).Perm (x :: rest.getD k d :: rest.set k a) :=
        List.Perm.swap _ _ _
      have h2 : (x :: rest.getD k d :: rest.set k a).Perm (x :: a :: rest) :=
        (ih k (by simpa using hk)).cons x
      exact (h1.trans h2).trans (List.Perm.swap _ _ _)

theorem set_set_perm_of_lt {α : Type} (d : α) :
    ∀ (l : List α) (i j : Nat), i < j → j < l.length →
      ((l.set i (l.getD j d)).set j (l.getD i d)).Perm l := by
  intro l
  induction l with
  | nil => intro i j _ hj; simp at hj
  | cons a t ih =>
    intro i j hij hj
    obtain ⟨j', rfl⟩ : ∃ j', j = j' + 1 := ⟨j - 1, by omega⟩
    cases i with
    | zero =>
      simp only [List.set_cons_zero, List.set_cons_succ, List.getD_cons_succ, List.getD_cons_zero]
      exact getD_cons_set_perm d a t j' (by simpa using hj)
    | succ i =>
      simp only [List.set_cons_succ, List.getD_cons_succ]
      exact (ih i j' (by omega) (by simpa using hj)).cons a

theorem swap_entries_perm (l : List (chessmove × Int)) (i j : Nat) (hij : i ≤ j)
    (hj : j < l.length) : (swap_entries l i j).Perm l := by
  unfold swap_entries entry
  by_cases h : i = j
  · subst h
    rw [set_getD_self, set_getD_self]
  · exact set_set_perm_of_lt _ l i j (by omega) hj

theorem entry_take (l : List (chessmove × Int)) (n k : Nat) (hk : k < n) :
    entry (l.take n) k = entry l k := by
  unfold entry
  simp only [List.getD_eq_getElem?_getD, List.getElem?_take_of_lt hk]

theorem take_swap_entries (l : List (chessmove × Int)) (n i j : Nat) (hi : i < n) (hj : j < n) :
    (swap_entries l i j).take n = swap_entries (l.take n) i j := by
  unfold swap_entries
  rw [List.set_take, List.set_take, entry_take l n i hi, entry_take l n j hj]

theorem take_swap_entries_of_le (l : List (chessmove × Int)) (n i j : Nat) (hi : n ≤ i)
    (hj : n ≤ j) : (swap_entries l i j).take n = l.take n := by
  unfold swap_entries
  rw [List.set_take, List.set_take,
    List.set_eq_of_length_le (by rw [List.length_set, List.length_take]; omega),
    List.set_eq_of_length_le (by rw [List.length_take]; omega)]

/-- What one call of `get_next_move` does. -/
theorem get_next_move_spec (ml : movelist) (index : Nat)
    (hcap : ml.count ≤ ml.pseudolegal_moves.length) (hi : index < ml.count) :
    (ml.get_next_move index).1 = entry (ml.get_next_move index).2.pseudolegal_moves index
      ∧ (∃ best, index ≤ best ∧ best < ml.count
          ∧ (ml.get_next_move index).1 = entry ml.pseudolegal_moves best
          ∧ (∀ j, index ≤ j → j < best →
              (entry ml.pseudolegal_moves j).2 < (entry ml.pseudolegal_moves best).2)
          ∧ (ml.get_next_move index).2.pseudolegal_moves
              = swap_entries ml.pseudolegal_moves index best)
      ∧ (∀ j, index ≤ j → j < ml.count →
          (entry ml.pseudolegal_moves j).2 ≤ (ml.get_next_move index).1.2)
      ∧ (∀ j, index ≤ j → j < ml.count →
          (entry (ml.get_next_move index).2.pseudolegal_moves j).2
            ≤ (ml.get_next_move index).1.2)
      ∧ (∀ j, j < index →
          entry (ml.get_next_move index).2.pseudolegal_moves j = entry ml.pseudolegal_moves j)
      ∧ (ml.get_next_move index).2.count = ml.count
      ∧ (ml.get_next_move index).2.pseudolegal_moves.length = ml.pseudolegal_moves.length
      ∧ (ml.get_next_move index).2.entries.Perm ml.entries := by
  obtain ⟨b1, b2, b3, b4⟩ := best_index_spec ml.pseudolegal_moves index ml.count hi
  have hilen : index < ml.pseudolegal_moves.length := by omega
  have hblen : best_index ml.pseudolegal_moves index ml.count < ml.pseudolegal_moves.length := by
    omega
  have hnew : (ml.get_next_move index).2.pseudolegal_moves
      = swap_entries ml.pseudolegal_moves index
          (best_index ml.pseudolegal_moves index ml.count) := rfl
  have hret : (ml.get_next_move index).1
      = entry ml.pseudolegal_moves (best_index ml.pseudolegal_moves index ml.count) := by
    show entry (swap_entries ml.pseudolegal_moves index _) index = _
    rw [entry_swap_entries _ _ _ _ hilen hblen]
    by_cases h : index = best_index ml.pseudolegal_moves index ml.count
    · rw [if_pos h, ← h]
    · rw [if_neg h, if_pos rfl]
  refine ⟨rfl, ⟨_, b1, b2, hret, b4, hnew⟩, ?_, ?_, ?_, rfl, ?_, ?_⟩
  · intro j hj1 hj2
    rw [hret]
    exact b3 j hj1 hj2
  · intro j hj1 hj2
    rw [hret, hnew, entry_swap_entries _ _ _ _ hilen hblen]
    split_ifs
    · exact b3 index (le_refl _) hi
    · exact le_refl _
    · exact b3 j hj1 hj2
  · intro j hj
    rw [hnew, entry_swap_entries _ _ _ _ hilen hblen, if_neg (by omega), if_neg (by omega)]
  · rw [hnew]
    simp [swap_entries]
  · show ((ml.get_next_move index).2.pseudolegal_moves.take ml.count).Perm
      (ml.pseudolegal_moves.take ml.count)
    rw [hnew, take_swap_entries _ _ _ _ hi b2]
    exact swap_entries_perm _ _ _ b1 (by rw [List.length_take]; omega)

/-- C19: for every buffer whose `count` entries lie within the array and every `index` below
`count`, `get_next_move(index)` returns the entry that sits at `index` after the call; this
is the entry that was at the lowest index `best` of a maximal score among the indices
`index .. count - 1`, so its score is at least the score of each of these entries, before and
after the call; the entries below `index` are unchanged, the array after the call is the
array before with the entries at `index` and `best` exchanged, `count` and the array length
are unchanged, and the entries after the call are a permutation of the entries before. -/
theorem get_next_move_selects_best (ml : movelist) (index : Nat)
    (hcap : ml.count ≤ ml.pseudolegal_moves.length) (hi : index < ml.count) :
    (ml.get_next_move index).1 = entry (ml.get_next_move index).2.pseudolegal_moves index
      ∧ (∃ best, index ≤ best ∧ best < ml.count
          ∧ (ml.get_next_move index).1 = entry ml.pseudolegal_moves best
          ∧ (∀ j, index ≤ j → j < best →
              (entry ml.pseudolegal_moves j).2 < (entry ml.pseudolegal_moves best).2)
          ∧ (ml.get_next_move index).2.pseudolegal_moves
              = swap_entries ml.pseudolegal_moves index best)
      ∧ (∀ j, index ≤ j → j < ml.count →
          (entry ml.pseudolegal_moves j).2 ≤ (ml.get_next_move index).1.2)
      ∧ (∀ j, index ≤ j → j < ml.count →
          (entry (ml.get_next_move index).2.pseudolegal_moves j).2
            ≤ (ml.get_next_move index).1.2)
      ∧ (∀ j, j < index →
          entry (ml.get_next_move index).2.pseudolegal_moves j = entry ml.pseudolegal_moves j)
      ∧ (ml.get_next_move index).2.count = ml.count
      ∧ (ml.get_next_move index).2.pseudolegal_moves.length = ml.pseudolegal_moves.length
      ∧ (ml.get_next_move index).2.entries.Perm ml.entries :=
  get_next_move_spec ml index hcap hi

/-- C19, witness: the sample buffer with the scores 3, 7, 7, -2, 5 and the index 0; the call
returns the knight move of index 1, the first of the two entries of score 7. -/
theorem get_next_move_selects_best_witness :
    (sample_movelist.get_next_move 0).1 = (chessmove.new4 6 21 QUIET Knight, 7)
      ∧ (sample_movelist.get_next_move 0).1
        = entry (sample_movelist.get_next_move 0).2.pseudolegal_moves 0
      ∧ (∀ j, 0 ≤ j → j < sample_movelist.count →
          (entry sample_movelist.pseudolegal_moves j).2 ≤ (sample_movelist.get_next_move 0).1.2)
      ∧ (sample_movelist.get_next_move 0).2.entries.Perm sample_movelist.entries :=
  ⟨by decide,
    (get_next_move_selects_best sample_movelist 0 (by decide!) (by decide)).1,
    (get_next_move_selects_best sample_movelist 0 (by decide!) (by decide)).2.2.1,
    (get_next_move_selects_best sample_movelist 0 (by decide!) (by decide)).2.2.2.2.2.2.2⟩

theorem take_succ_entry (l : List (chessmove × Int)) (k : Nat) (hk : k < l.length) :
    l.take (k + 1) = l.take k ++ [entry l k] := by
  rw [List.take_succ]
  unfold entry
  simp [List.getElem?_eq_getElem hk]

/-- The state after the first `k` calls of the sequence `get_next_move(0)`,
`get_next_move(1)`, ...: the returned pairs are the first `k` entries of the buffer, in
non-increasing score order, each at least as good as every entry still to come. -/
theorem pull_invariant (ml : movelist) (hcap : ml.count ≤ ml.pseudolegal_moves.length) :
    ∀ k, k ≤ ml.count →
      (ml.pull k).1.count = ml.count
        ∧ (ml.pull k).1.pseudolegal_moves.length = ml.pseudolegal_moves.length
        ∧ (ml.pull k).2 = (ml.pull k).1.pseudolegal_moves.take k
        ∧ (ml.pull k).1.entries.Perm ml.entries
        ∧ (ml.pull k).2.Pairwise (fun a b => b.2 ≤ a.2)
        ∧ ∀ a ∈ (ml.pull k).2, ∀ j, k ≤ j → j < ml.count →
            (entry (ml.pull k).1.pseudolegal_moves j).2 ≤ a.2 := by
  intro k
  induction k with
  | zero =>
    intro _
    refine ⟨rfl, rfl, by simp [movelist.pull], List.Perm.refl _, by simp [movelist.pull], ?_⟩
    intro a ha
    simp [movelist.pull] at ha
  | succ k ih =>
    intro hk
    obtain ⟨i1, i2, i3, i4, i5, i6⟩ := ih (by omega)
    have hkc : k < (ml.pull k).1.count := by omega
    have hcap2 : (ml.pull k).1.count ≤ (ml.pull k).1.pseudolegal_moves.length := by omega
    obtain ⟨s1, ⟨best, sb1, sb2, sb3, _, sb5⟩, s3, s4, _, s6, s7, s8⟩ :=
      get_next_move_spec (ml.pull k).1 k hcap2 hkc
    have hstep1 : (ml.pull (k + 1)).1 = ((ml.pull k).1.get_next_move k).2 := rfl
    have hstep2 : (ml.pull (k + 1)).2 = (ml.pull k).2 ++ [((ml.pull k).1.get_next_move k).1] :=
      rfl
    rw [hstep1, hstep2]
    refine ⟨by omega, by omega, ?_, s8.trans i4, ?_, ?_⟩
    · rw [take_succ_entry _ _ (by omega), ← s1, sb5, take_swap_entries_of_le _ _ _ _ (le_refl k) sb1,
        ← i3]
    · rw [List.pairwise_append]
      refine ⟨i5, List.pairwise_singleton _ _, ?_⟩
      intro a ha b hb
      rw [List.mem_singleton] at hb
      rw [hb, sb3]
      exact i6 a ha best sb1 (by omega)
    · intro a ha j hj1 hj2
      rcases List.mem_append.mp ha with h | h
      · rw [sb5, entry_swap_entries _ _ _ _ (by omega) (by omega)]
        split_ifs
        · exact i6 a h k (le_refl k) (by omega)
        · exact i6 a h best sb1 (by omega)
        · exact i6 a h j (by omega) hj2
      · rw [List.mem_singleton] at h
        rw [h]
        exact s4 j (by omega) (by omega)

/-- C20: for every buffer whose `count` entries lie within the array, the calls
`get_next_move(0)`, ..., `get_next_move(count - 1)` made in that order return `count` pairs
that are a permutation of the entries of the buffer, in non-increasing order of score. -/
theorem get_next_move_sequence_sorted (ml : movelist)
    (hcap : ml.count ≤ ml.pseudolegal_moves.length) :
    (ml.pull ml.count).2.length = ml.count
      ∧ (ml.pull ml.count).2.Perm ml.entries
      ∧ (ml.pull ml.count).2.Pairwise (fun a b => b.2 ≤ a.2) := by
  obtain ⟨i1, i2, i3, i4, i5, _⟩ := pull_invariant ml hcap ml.count (le_refl _)
  have hacc : (ml.pull ml.count).2 = (ml.pull ml.count).1.entries := by
    rw [i3]
    unfold movelist.entries
    rw [i1]
  refine ⟨?_, ?_, i5⟩
  · rw [i3, List.length_take]
    omega
  · rw [hacc]
    exact i4

/-- C20, witness: the sample buffer with the scores 3, 7, 7, -2, 5; the five calls return
the scores 7, 7, 5, 3, -2. -/
theorem get_next_move_sequence_sorted_witness :
    (sample_movelist.pull sample_movelist.count).2.map Prod.snd = [7, 7, 5, 3, -2]
      ∧ (sample_movelist.pull sample_movelist.count).2.length = sample_movelist.count
      ∧ (sample_movelist.pull sample_movelist.count).2.Perm sample_movelist.entries
      ∧ (sample_movelist.pull sample_movelist.count).2.Pairwise (fun a b => b.2 ≤ a.2) :=
  ⟨by decide!, get_next_move_sequence_sorted sample_movelist (by decide!)⟩

/-! ## The sequence of moves passed to `add` -/



theorem emit_nil (ml : movelist) : emit [] ml = ml := rfl

theorem emit_cons (m : chessmove) (l : List chessmove) (ml : movelist) :
    emit (m :: l) ml = emit l (ml.add m) := rfl

theorem emit_append (l1 l2 : List chessmove) (ml : movelist) :
    emit (l1 ++ l2) ml = emit l2 (emit l1 ml) := by
  unfold emit
  rw [List.foldl_append]

theorem emit_map {α : Type} (f : α → chessmove) (l : List α) (ml : movelist) :
    emit (l.map f) ml = l.foldl (fun ml x => ml.add (f x)) ml := by
  unfold emit
  rw [List.foldl_map]

theorem emit_flatMap {α : Type} (f : α → List chessmove) :
    ∀ (l : List α) (ml : movelist),
      emit (l.flatMap f) ml = l.foldl (fun ml x => emit (f x) ml) ml := by
  intro l
  induction l with
  | nil => intro ml; rfl
  | cons a rest ih =>
    intro ml
    rw [List.flatMap_cons, emit_append, ih, List.foldl_cons]

theorem target_moves_emit (captures_only : Bool) (b : board) (square : Square) (piece : Piece)
    (attack_bitboard enemy empty : Nat) (ml : movelist) :
    (if !captures_only then
        while_pop 64 (attack_bitboard &&& empty) (fun ml target_square =>
          ml.add (chessmove.new4 square target_square QUIET piece))
          (while_pop 64 (attack_bitboard &&& enemy) (fun ml target_square =>
            ml.add (chessmove.new5 square target_square CAPTURE piece
              (b.get_piece target_square))) ml)
      else while_pop 64 (attack_bitboard &&& enemy) (fun ml target_square =>
            ml.add (chessmove.new5 square target_square CAPTURE piece
              (b.get_piece target_square))) ml)
      = emit (target_moves captures_only b square piece attack_bitboard enemy empty) ml := by
  unfold target_moves
  simp only [emit_append, emit_map, while_pop_eq_foldl]
  cases captures_only
  · simp only [Bool.not_false, if_true, Bool.false_eq_true, if_false, emit_map]
  · simp only [Bool.not_true, Bool.false_eq_true, if_false, if_true]
    rfl

theorem generate_king_moves_emit (T : AttackTables) (c : Color) (captures_only : Bool)
    (b : board) (ml : movelist) (king_square : Square) (safe_squares empty enemy : Nat) :
    generate_king_moves T c captures_only b ml king_square safe_squares empty enemy
      = emit (king_moves_list T captures_only b king_square safe_squares empty enemy) ml := by
  unfold king_moves_list
  rw [← target_moves_emit]
  rfl

theorem generate_slider_moves_emit (T : AttackTables) (c : Color) (ray : Ray) (piece : Piece)
    (captures_only : Bool) (b : board) (ml : movelist)
    (piece_bitboard checkmask enemy empty occupancy : Nat) :
    generate_slider_moves T c ray piece captures_only b ml piece_bitboard checkmask enemy empty
        occupancy
      = emit (slider_moves_list T ray piece captures_only b piece_bitboard checkmask enemy empty
          occupancy) ml := by
  unfold slider_moves_list generate_slider_moves
  rw [emit_flatMap, while_pop_eq_foldl]
  congr 1
  funext ml2 square
  rw [← target_moves_emit]

theorem generate_knight_moves_emit (T : AttackTables) (c : Color) (captures_only : Bool)
    (b : board) (ml : movelist) (knight_bitboard target enemy empty occupancy : Nat) :
    generate_knight_moves T c captures_only b ml knight_bitboard target enemy empty occupancy
      = emit (knight_moves_list T captures_only b knight_bitboard target enemy empty) ml := by
  unfold knight_moves_list generate_knight_moves
  rw [emit_flatMap, while_pop_eq_foldl]
  congr 1
  funext ml2 square
  rw [← target_moves_emit]

theorem pawn_pushes_emit (c : Color) (ml : movelist) (pawn_bitboard checkmask empty : Nat) :
    pawn_pushes c ml pawn_bitboard checkmask empty
      = emit (pawn_pushes_list c pawn_bitboard checkmask empty) ml := by
  unfold pawn_pushes pawn_pushes_list
  simp only [emit_append, emit_map, while_pop_eq_foldl]

theorem promote_push_body_emit (c : Color) (captures_only : Bool) (ml : movelist) (t : Square) :
    promote_push_body c captures_only ml t = emit (promote_push_list c captures_only t) ml := by
  unfold promote_push_body promote_push_list
  cases captures_only <;> rfl

theorem promote_capture_body_emit (d : Direction) (captures_only : Bool) (b : board)
    (ml : movelist) (t : Square) :
    promote_capture_body d captures_only b ml t
      = emit (promote_capture_list d captures_only b t) ml := by
  unfold promote_capture_body promote_capture_list
  cases captures_only <;> rfl

theorem pawn_promotions_emit (c : Color) (captures_only : Bool) (b : board) (ml : movelist)
    (pawn_bitboard checkmask enemy empty : Nat) :
    pawn_promotions c captures_only b ml pawn_bitboard checkmask enemy empty
      = emit (pawn_promotions_list c captures_only b pawn_bitboard checkmask enemy empty) ml := by
  unfold pawn_promotions pawn_promotions_list
  by_cases h : pawn_bitboard &&& penultimate_rank c ≠ 0
  · simp only [h, ne_eq, not_false_eq_true, if_true, emit_append, emit_flatMap,
      while_pop_eq_foldl]
    have e1 : (fun ml x => emit (promote_push_list c captures_only x) ml)
        = promote_push_body c captures_only := by
      funext ml2 x; rw [promote_push_body_emit]
    have e2 : ∀ d, (fun ml x => emit (promote_capture_list d captures_only b x) ml)
        = promote_capture_body d captures_only b := by
      intro d; funext ml2 x; rw [promote_capture_body_emit]
    rw [e1, e2, e2]
  · simp only [h, if_false]
    rfl

theorem pawn_captures_emit (c : Color) (b : board) (ml : movelist)
    (pawn_bitboard checkmask enemy : Nat) :
    pawn_captures c b ml pawn_bitboard checkmask enemy
      = emit (pawn_captures_list c b pawn_bitboard checkmask enemy) ml := by
  unfold pawn_captures pawn_captures_list
  simp only [emit_append, emit_map, while_pop_eq_foldl]

theorem pawn_enpassant_emit (c : Color) (b : board) (ml : movelist) (pawn_bitboard : Nat) :
    pawn_enpassant c b ml pawn_bitboard = emit (pawn_enpassant_list c b pawn_bitboard) ml := by
  unfold pawn_enpassant pawn_enpassant_list
  by_cases hep : b.enpassant_square ≠ Null_Square
  · simp only [hep, ne_eq, not_false_eq_true, if_true, emit_append]
    split_ifs <;> rfl
  · simp only [hep, if_false]
    rfl

theorem generate_pawn_moves_emit (c : Color) (captures_only : Bool) (b : board) (ml : movelist)
    (pawn_bitboard checkmask enemy empty : Nat) :
    generate_pawn_moves c captures_only b ml pawn_bitboard checkmask enemy empty
      = emit (pawn_moves_list c captures_only b pawn_bitboard checkmask enemy empty) ml := by
  unfold generate_pawn_moves pawn_moves_list
  simp only [emit_append, pawn_enpassant_emit, pawn_captures_emit, pawn_promotions_emit]
  cases captures_only
  · simp only [Bool.not_false, if_true, Bool.false_eq_true, if_false, pawn_pushes_emit]
  · simp only [Bool.not_true, Bool.false_eq_true, if_false, if_true, emit_nil]

theorem generate_castle_moves_emit (c : Color) (ml : movelist)
    (castling_right safe_squares empty : Nat) :
    generate_castle_moves c ml castling_right safe_squares empty
      = emit (castle_moves_list c castling_right safe_squares empty) ml := by
  rw [generate_castle_moves_eq]
  unfold castle_moves_list
  split_ifs <;> rfl

theorem target_moves_board (captures_only : Bool) (b1 b2 : board) (h : b1.pieces = b2.pieces)
    (square : Square) (piece : Piece) (attack_bitboard enemy empty : Nat) :
    target_moves captures_only b1 square piece attack_bitboard enemy empty
      = target_moves captures_only b2 square piece attack_bitboard enemy empty := by
  unfold target_moves board.get_piece
  rw [h]

theorem king_moves_list_board (T : AttackTables) (captures_only : Bool) (b1 b2 : board)
    (h : b1.pieces = b2.pieces) (king_square : Square) (safe_squares empty enemy : Nat) :
    king_moves_list T captures_only b1 king_square safe_squares empty enemy
      = king_moves_list T captures_only b2 king_square safe_squares empty enemy := by
  unfold king_moves_list
  rw [target_moves_board captures_only b1 b2 h]

theorem slider_moves_list_board (T : AttackTables) (ray : Ray) (piece : Piece)
    (captures_only : Bool) (b1 b2 : board) (h : b1.pieces = b2.pieces)
    (piece_bitboard checkmask enemy empty occupancy : Nat) :
    slider_moves_list T ray piece captures_only b1 piece_bitboard checkmask enemy empty occupancy
      = slider_moves_list T ray piece captures_only b2 piece_bitboard checkmask enemy empty
          occupancy := by
  unfold slider_moves_list
  simp only [target_moves_board captures_only b1 b2 h]

theorem knight_moves_list_board (T : AttackTables) (captures_only : Bool) (b1 b2 : board)
    (h : b1.pieces = b2.pieces) (knight_bitboard target enemy empty : Nat) :
    knight_moves_list T captures_only b1 knight_bitboard target enemy empty
      = knight_moves_list T captures_only b2 knight_bitboard target enemy empty := by
  unfold knight_moves_list
  simp only [target_moves_board captures_only b1 b2 h]

theorem pawn_moves_list_board (c : Color) (captures_only : Bool) (b1 b2 : board)
    (h : b1.pieces = b2.pieces) (he : b1.enpassant = b2.enpassant)
    (pawn_bitboard checkmask enemy empty : Nat) :
    pawn_moves_list c captures_only b1 pawn_bitboard checkmask enemy empty
      = pawn_moves_list c captures_only b2 pawn_bitboard checkmask enemy empty := by
  unfold pawn_moves_list pawn_promotions_list pawn_captures_list pawn_enpassant_list
    promote_capture_list board.get_piece board.enpassant_square
  rw [h, he]

theorem generated_pieces_emit (T : AttackTables) (c : Color) (captures_only : Bool)
    (b : board) (ml : movelist) :
    generated_pieces T c captures_only b ml
      = emit (all_king_moves T c captures_only b
          ++ all_slider_moves T c Ray.ROOK Rook captures_only b
          ++ all_slider_moves T c Ray.BISHOP Bishop captures_only b
          ++ all_slider_moves T c Ray.QUEEN Queen captures_only b
          ++ all_knight_moves T c captures_only b
          ++ all_pawn_moves T c captures_only b) ml := by
  have hp : (b.get_safe_squares T (other c) b.get_king_square).2.pieces = b.pieces := rfl
  have he : (b.get_safe_squares T (other c) b.get_king_square).2.enpassant = b.enpassant := rfl
  unfold generated_pieces all_king_moves all_slider_moves all_knight_moves all_pawn_moves
  simp only [emit_append, generate_pawn_moves_emit, generate_knight_moves_emit,
    generate_slider_moves_emit, generate_king_moves_emit]
  rw [pawn_moves_list_board c captures_only _ b hp he,
    knight_moves_list_board T captures_only _ b hp,
    slider_moves_list_board T Ray.QUEEN Queen captures_only _ b hp,
    slider_moves_list_board T Ray.BISHOP Bishop captures_only _ b hp,
    slider_moves_list_board T Ray.ROOK Rook captures_only _ b hp,
    king_moves_list_board T captures_only _ b hp]

/-- The buffer `generate_all_moves` leaves is the buffer it was given with the moves of
`all_moves_list` added in order. -/
theorem generate_all_moves_emit (T : AttackTables) (c : Color) (captures_only : Bool)
    (b : board) (ml : movelist) :
    (generate_all_moves T c captures_only b ml).2.2
      = emit (all_moves_list T c captures_only b) ml := by
  rw [generate_all_moves_snd, generated_pieces_emit]
  unfold all_moves_list all_castle_moves
  rw [emit_append _ (if captures_only = true then [] else _)]
  cases captures_only
  · simp only [Bool.not_false, if_true, Bool.false_eq_true, if_false,
      generate_castle_moves_emit]
  · simp only [Bool.not_true, Bool.false_eq_true, if_false, if_true, emit_nil]

/-! ## Membership in the emitted lists -/

theorem mem_target_moves (captures_only : Bool) (b : board) (square : Square) (piece : Piece)
    (attack_bitboard enemy empty : Nat) (he : enemy < 2 ^ 64) (hem : empty < 2 ^ 64)
    (m : chessmove) :
    m ∈ target_moves captures_only b square piece attack_bitboard enemy empty
      ↔ ∃ t, attack_bitboard.testBit t = true
          ∧ ((enemy.testBit t = true
              ∧ m = chessmove.new5 square t CAPTURE piece (b.get_piece t))
            ∨ (captures_only = false ∧ empty.testBit t = true
              ∧ m = chessmove.new4 square t QUIET piece)) := by
  unfold target_moves
  rw [List.mem_append, List.mem_map]
  simp only [mem_serialize (and_lt_right he), Nat.testBit_and, Bool.and_eq_true]
  constructor
  · rintro (⟨t, ⟨h1, h2⟩, rfl⟩ | h)
    · exact ⟨t, h1, Or.inl ⟨h2, rfl⟩⟩
    · cases captures_only with
      | true => simp at h
      | false =>
        simp only [Bool.false_eq_true, if_false, List.mem_map,
          mem_serialize (and_lt_right hem), Nat.testBit_and, Bool.and_eq_true] at h
        obtain ⟨t, ⟨h1, h2⟩, rfl⟩ := h
        exact ⟨t, h1, Or.inr ⟨rfl, h2, rfl⟩⟩
  · rintro ⟨t, h1, ⟨h2, rfl⟩ | ⟨hco, h2, rfl⟩⟩
    · exact Or.inl ⟨t, ⟨h1, h2⟩, rfl⟩
    · right
      subst hco
      simp only [Bool.false_eq_true, if_false, List.mem_map, mem_serialize (and_lt_right hem),
        Nat.testBit_and, Bool.and_eq_true]
      exact ⟨t, ⟨h1, h2⟩, rfl⟩

theorem mem_king_moves_list (T : AttackTables) (captures_only : Bool) (b : board)
    (king_square : Square) (safe_squares empty enemy : Nat) (he : enemy < 2 ^ 64)
    (hem : empty < 2 ^ 64) (m : chessmove) :
    m ∈ king_moves_list T captures_only b king_square safe_squares empty enemy
      ↔ king_move T captures_only b king_square safe_squares empty enemy m := by
  unfold king_moves_list king_move
  rw [mem_target_moves _ _ _ _ _ _ _ he hem]

theorem mem_slider_moves_list (T : AttackTables) (ray : Ray) (piece : Piece)
    (captures_only : Bool) (b : board) (piece_bitboard checkmask enemy empty occupancy : Nat)
    (hbb : piece_bitboard < 2 ^ 64) (he : enemy < 2 ^ 64) (hem : empty < 2 ^ 64)
    (m : chessmove) :
    m ∈ slider_moves_list T ray piece captures_only b piece_bitboard checkmask enemy empty
        occupancy
      ↔ slider_move T ray piece captures_only b piece_bitboard checkmask enemy empty occupancy
          m := by
  unfold slider_moves_list slider_move
  rw [List.mem_flatMap]
  simp only [mem_serialize hbb, mem_target_moves _ _ _ _ _ _ _ he hem]
  constructor
  · rintro ⟨sq, hsq, t, ht, h⟩
    exact ⟨sq, t, hsq, ht, h⟩
  · rintro ⟨sq, t, hsq, ht, h⟩
    exact ⟨sq, hsq, t, ht, h⟩

theorem mem_knight_moves_list (T : AttackTables) (captures_only : Bool) (b : board)
    (knight_bitboard target enemy empty : Nat) (hbb : knight_bitboard < 2 ^ 64)
    (he : enemy < 2 ^ 64) (hem : empty < 2 ^ 64) (m : chessmove) :
    m ∈ knight_moves_list T captures_only b knight_bitboard target enemy empty
      ↔ knight_move T captures_only b knight_bitboard target enemy empty m := by
  unfold knight_moves_list knight_move
  rw [List.mem_flatMap]
  simp only [mem_serialize hbb, mem_target_moves _ _ _ _ _ _ _ he hem]
  constructor
  · rintro ⟨sq, hsq, t, ht, h⟩
    exact ⟨sq, t, hsq, ht, h⟩
  · rintro ⟨sq, t, hsq, ht, h⟩
    exact ⟨sq, hsq, t, ht, h⟩

theorem mem_castle_moves_list (c : Color) (rights safe empty : Nat) (m : chessmove) :
    m ∈ castle_moves_list c rights safe empty
      ↔ (kingside_castle_ok c rights safe empty
          ∧ m = chessmove.new4 (if c = White then E1 else E8) (if c = White then G1 else G8)
            KING_CASTLE King)
        ∨ (queenside_castle_ok c rights safe empty
          ∧ m = chessmove.new4 (if c = White then E1 else E8) (if c = White then C1 else C8)
            QUEEN_CASTLE King) := by
  unfold castle_moves_list
  rw [List.mem_append]
  by_cases h1 : kingside_castle_ok c rights safe empty <;>
    by_cases h2 : queenside_castle_ok c rights safe empty <;>
    simp [h1, h2]

theorem shift_zero (d : Direction) : shift d 0 = 0 := by
  cases d <;> simp [shift, shl64]

theorem shift_and_lt (d : Direction) (bb rank mask : Nat) (hr : rank < 2 ^ 64) :
    shift d (bb &&& rank) &&& mask < 2 ^ 64 :=
  and_lt_left (shift_lt d (and_lt_right hr))

theorem mem_pawn_pushes_list (c : Color) (bb cm empty : Nat) (m : chessmove) :
    m ∈ pawn_pushes_list c bb cm empty
      ↔ (∃ t, (shift (up c) (bb &&& not_penultimate_rank c) &&& empty &&& cm).testBit t = true
          ∧ m = chessmove.new4 (sq_sub t (up c)) t QUIET Pawn)
        ∨ (∃ t, (shift (up c) (shift (up c) (bb &&& not_penultimate_rank c) &&& empty
              &&& enpassant_rank c) &&& (empty &&& cm)).testBit t = true
          ∧ m = chessmove.new4 (sq_sub t (up_2 c)) t DOUBLE_PAWN_PUSH Pawn) := by
  unfold pawn_pushes_list
  rw [List.mem_append, List.mem_map, List.mem_map]
  have h1 : shift (up c) (bb &&& not_penultimate_rank c) &&& empty &&& cm < 2 ^ 64 :=
    and_lt_left (shift_and_lt _ _ _ _ (not_penultimate_rank_lt c))
  have h2 : shift (up c) (shift (up c) (bb &&& not_penultimate_rank c) &&& empty
      &&& enpassant_rank c) &&& (empty &&& cm) < 2 ^ 64 :=
    and_lt_left (shift_lt _ (and_lt_right (enpassant_rank_lt c)))
  simp only [mem_serialize h1, mem_serialize h2]
  constructor
  · rintro (⟨t, ht, rfl⟩ | ⟨t, ht, rfl⟩)
    · exact Or.inl ⟨t, ht, rfl⟩
    · exact Or.inr ⟨t, ht, rfl⟩
  · rintro (⟨t, ht, rfl⟩ | ⟨t, ht, rfl⟩)
    · exact Or.inl ⟨t, ht, rfl⟩
    · exact Or.inr ⟨t, ht, rfl⟩

theorem mem_promote_push_list (c : Color) (co : Bool) (t : Square) (m : chessmove) :
    m ∈ promote_push_list c co t
      ↔ ∃ k, (k = QUEEN_PROMOTION ∨ (co = false
            ∧ (k = ROOK_PROMOTION ∨ k = BISHOP_PROMOTION ∨ k = KNIGHT_PROMOTION)))
          ∧ m = chessmove.new4 (sq_sub t (up c)) t k Pawn := by
  unfold promote_push_list
  cases co
  · simp only [Bool.false_eq_true, if_false, List.mem_cons, List.mem_singleton, true_and]
    constructor
    · rintro (rfl | rfl | rfl | rfl | h)
      · exact ⟨_, Or.inl rfl, rfl⟩
      · exact ⟨_, Or.inr (Or.inl rfl), rfl⟩
      · exact ⟨_, Or.inr (Or.inr (Or.inl rfl)), rfl⟩
      · exact ⟨_, Or.inr (Or.inr (Or.inr rfl)), rfl⟩
      · exact absurd h (List.not_mem_nil _)
    · rintro ⟨k, (rfl | rfl | rfl | rfl), rfl⟩
      · exact Or.inl rfl
      · exact Or.inr (Or.inl rfl)
      · exact Or.inr (Or.inr (Or.inl rfl))
      · exact Or.inr (Or.inr (Or.inr (Or.inl rfl)))
  · simp only [if_true, List.mem_singleton, Bool.true_eq_false, false_and, or_false]
    constructor
    · rintro rfl
      exact ⟨_, rfl, rfl⟩
    · rintro ⟨k, rfl, rfl⟩
      rfl

theorem mem_promote_capture_list (d : Direction) (co : Bool) (b : board) (t : Square)
    (m : chessmove) :
    m ∈ promote_capture_list d co b t
      ↔ ∃ k, (k = QUEEN_PROMOTION_CAPTURE ∨ (co = false
            ∧ (k = ROOK_PROMOTION_CAPTURE ∨ k = BISHOP_PROMOTION_CAPTURE
              ∨ k = KNIGHT_PROMOTION_CAPTURE)))
          ∧ m = chessmove.new5 (sq_sub t d) t k Pawn (b.get_piece t) := by
  unfold promote_capture_list
  cases co
  · simp only [Bool.false_eq_true, if_false, List.mem_cons, List.mem_singleton, true_and]
    constructor
    · rintro (rfl | rfl | rfl | rfl | h)
      · exact ⟨_, Or.inl rfl, rfl⟩
      · exact ⟨_, Or.inr (Or.inl rfl), rfl⟩
      · exact ⟨_, Or.inr (Or.inr (Or.inl rfl)), rfl⟩
      · exact ⟨_, Or.inr (Or.inr (Or.inr rfl)), rfl⟩
      · exact absurd h (List.not_mem_nil _)
    · rintro ⟨k, (rfl | rfl | rfl | rfl), rfl⟩
      · exact Or.inl rfl
      · exact Or.inr (Or.inl rfl)
      · exact Or.inr (Or.inr (Or.inl rfl))
      · exact Or.inr (Or.inr (Or.inr (Or.inl rfl)))
  · simp only [if_true, List.mem_singleton, Bool.true_eq_false, false_and, or_false]
    constructor
    · rintro rfl
      exact ⟨_, rfl, rfl⟩
    · rintro ⟨k, rfl, rfl⟩
      rfl

theorem mem_pawn_promotions_list (c : Color) (co : Bool) (b : board)
    (bb cm enemy empty : Nat) (m : chessmove) :
    m ∈ pawn_promotions_list c co b bb cm enemy empty
      ↔ (∃ t k, (shift (up c) (bb &&& penultimate_rank c) &&& (empty &&& cm)).testBit t = true
          ∧ (k = QUEEN_PROMOTION ∨ (co = false
              ∧ (k = ROOK_PROMOTION ∨ k = BISHOP_PROMOTION ∨ k = KNIGHT_PROMOTION)))
          ∧ m = chessmove.new4 (sq_sub t (up c)) t k Pawn)
        ∨ (∃ d t k, (d = antidiagonal_capture c ∨ d = diagonal_capture c)
          ∧ (shift d (bb &&& penultimate_rank c) &&& (enemy &&& cm)).testBit t = true
          ∧ (k = QUEEN_PROMOTION_CAPTURE ∨ (co = false
              ∧ (k = ROOK_PROMOTION_CAPTURE ∨ k = BISHOP_PROMOTION_CAPTURE
                ∨ k = KNIGHT_PROMOTION_CAPTURE)))
          ∧ m = chessmove.new5 (sq_sub t d) t k Pawn (b.get_piece t)) := by
  unfold pawn_promotions_list
  by_cases h0 : bb &&& penultimate_rank c = 0
  · rw [if_neg (not_not.mpr h0)]
    simp only [h0, shift_zero, Nat.zero_and, Nat.zero_testBit, Bool.false_eq_true, false_and,
      exists_false, and_false, or_self, List.not_mem_nil]
  · rw [if_pos h0]
    simp only [List.mem_append, List.mem_flatMap, mem_promote_push_list,
      mem_promote_capture_list,
      mem_serialize (shift_and_lt _ bb _ _ (penultimate_rank_lt c))]
    constructor
    · rintro ((⟨t, ht, k, hk, rfl⟩ | ⟨t, ht, k, hk, rfl⟩) | ⟨t, ht, k, hk, rfl⟩)
      · exact Or.inl ⟨t, k, ht, hk, rfl⟩
      · exact Or.inr ⟨_, t, k, Or.inl rfl, ht, hk, rfl⟩
      · exact Or.inr ⟨_, t, k, Or.inr rfl, ht, hk, rfl⟩
    · rintro (⟨t, k, ht, hk, rfl⟩ | ⟨d, t, k, (rfl | rfl), ht, hk, rfl⟩)
      · exact Or.inl (Or.inl ⟨t, ht, k, hk, rfl⟩)
      · exact Or.inl (Or.inr ⟨t, ht, k, hk, rfl⟩)
      · exact Or.inr ⟨t, ht, k, hk, rfl⟩

theorem mem_pawn_captures_list (c : Color) (b : board) (bb cm enemy : Nat) (m : chessmove) :
    m ∈ pawn_captures_list c b bb cm enemy
      ↔ ∃ d t, (d = antidiagonal_capture c ∨ d = diagonal_capture c)
          ∧ (shift d (bb &&& not_penultimate_rank c) &&& (enemy &&& cm)).testBit t = true
          ∧ m = chessmove.new5 (sq_sub t d) t CAPTURE Pawn (b.get_piece t) := by
  unfold pawn_captures_list
  simp only [List.mem_append, List.mem_map,
    mem_serialize (shift_and_lt _ bb _ _ (not_penultimate_rank_lt c))]
  constructor
  · rintro (⟨t, ht, rfl⟩ | ⟨t, ht, rfl⟩)
    · exact ⟨_, t, Or.inl rfl, ht, rfl⟩
    · exact ⟨_, t, Or.inr rfl, ht, rfl⟩
  · rintro ⟨d, t, (rfl | rfl), ht, rfl⟩
    · exact Or.inl ⟨t, ht, rfl⟩
    · exact Or.inr ⟨t, ht, rfl⟩

theorem mem_pawn_enpassant_list (c : Color) (b : board) (bb : Nat) (m : chessmove) :
    m ∈ pawn_enpassant_list c b bb
      ↔ ∃ d, (d = antidiagonal_capture c ∨ d = diagonal_capture c)
          ∧ b.enpassant_square ≠ Null_Square
          ∧ shift d (bb &&& not_penultimate_rank c) &&& bit b.enpassant_square ≠ 0
          ∧ m = chessmove.new5 (sq_sub b.enpassant_square d) b.enpassant_square EN_PASSANT
              Pawn Pawn := by
  unfold pawn_enpassant_list
  by_cases hep : b.enpassant_square = Null_Square
  · rw [if_neg (not_not.mpr hep)]
    constructor
    · intro h
      exact absurd h (List.not_mem_nil _)
    · rintro ⟨d, _, h, _⟩
      exact absurd hep h
  · rw [if_pos hep, List.mem_append]
    constructor
    · rintro (h | h)
      · split_ifs at h with h1
        · rw [List.mem_singleton] at h
          exact ⟨_, Or.inl rfl, hep, h1, h⟩
        · exact absurd h (List.not_mem_nil _)
      · split_ifs at h with h1
        · rw [List.mem_singleton] at h
          exact ⟨_, Or.inr rfl, hep, h1, h⟩
        · exact absurd h (List.not_mem_nil _)
    · rintro ⟨d, (rfl | rfl), _, h1, rfl⟩
      · left
        rw [if_pos h1]
        exact List.mem_singleton.mpr rfl
      · right
        rw [if_pos h1]
        exact List.mem_singleton.mpr rfl

theorem mem_pawn_moves_list (c : Color) (co : Bool) (b : board) (bb cm enemy empty : Nat)
    (m : chessmove) :
    m ∈ pawn_moves_list c co b bb cm enemy empty ↔ pawn_move c co b bb cm enemy empty m := by
  unfold pawn_moves_list pawn_move
  rw [List.mem_append, List.mem_append, List.mem_append, mem_pawn_promotions_list,
    mem_pawn_captures_list, mem_pawn_enpassant_list]
  cases co
  · simp only [Bool.false_eq_true, if_false, mem_pawn_pushes_list, true_and, or_assoc]
  · simp only [if_true, List.not_mem_nil, Bool.true_eq_false, false_and, false_or, or_assoc]

/-! ## Filling the move buffer -/

theorem take_set_first (m : chessmove) :
    ∀ (l : List (chessmove × Int)) (c : Nat), c < l.length →
      (set_first l c m).take (c + 1) = l.take c ++ [(m, (entry l c).2)] := by
  intro l
  induction l with
  | nil => intro c hc; simp at hc
  | cons e rest ih =>
    intro c hc
    cases c with
    | zero => rfl
    | succ c =>
      simp only [set_first, List.take_succ_cons, List.cons_append]
      rw [ih c (by simpa using hc)]
      rfl

theorem length_set_first (m : chessmove) :
    ∀ (l : List (chessmove × Int)) (c : Nat), (set_first l c m).length = l.length := by
  intro l
  induction l with
  | nil => intro c; rfl
  | cons e rest ih =>
    intro c
    cases c with
    | zero => rfl
    | succ c => simp only [set_first, List.length_cons, ih]

theorem map_snd_set_first (m : chessmove) :
    ∀ (l : List (chessmove × Int)) (c : Nat),
      (set_first l c m).map Prod.snd = l.map Prod.snd := by
  intro l
  induction l with
  | nil => intro c; rfl
  | cons e rest ih =>
    intro c
    cases c with
    | zero => rfl
    | succ c => simp only [set_first, List.map_cons, ih]

theorem entry_set_first (m : chessmove) :
    ∀ (l : List (chessmove × Int)) (c j : Nat), j ≠ c →
      entry (set_first l c m) j = entry l j := by
  intro l
  induction l with
  | nil => intro c j _; rfl
  | cons e rest ih =>
    intro c j hj
    cases c with
    | zero =>
      cases j with
      | zero => exact absurd rfl hj
      | succ j => rfl
    | succ c =>
      cases j with
      | zero => rfl
      | succ j =>
        have := ih c j (by omega)
        simpa [entry, set_first] using this

/-- One `add` below the capacity of the 8-bit count appends the move. -/
theorem add_moves (ml : movelist) (m : chessmove) (hc : ml.count < 255)
    (hlen : ml.count < ml.pseudolegal_moves.length) :
    (ml.add m).moves = ml.moves ++ [m] ∧ (ml.add m).count = ml.count + 1
      ∧ (ml.add m).pseudolegal_moves.length = ml.pseudolegal_moves.length := by
  refine ⟨?_, ?_, length_set_first m _ _⟩
  · unfold movelist.moves movelist.add
    simp only
    rw [Nat.mod_eq_of_lt (by omega), take_set_first m _ _ hlen]
    simp
  · unfold movelist.add
    simp only
    exact Nat.mod_eq_of_lt (by omega)

/-- A sequence of `add` calls that stays below the capacity of the 8-bit count appends the
moves in order. -/
theorem emit_moves : ∀ (l : List chessmove) (ml : movelist),
    ml.count + l.length ≤ 255 → ml.count + l.length ≤ ml.pseudolegal_moves.length →
    (emit l ml).moves = ml.moves ++ l ∧ (emit l ml).count = ml.count + l.length
      ∧ (emit l ml).pseudolegal_moves.length = ml.pseudolegal_moves.length := by
  intro l
  induction l with
  | nil => intro ml _ _; simp [emit_nil]
  | cons m rest ih =>
    intro ml h1 h2
    rw [List.length_cons] at h1 h2
    obtain ⟨a1, a2, a3⟩ := add_moves ml m (by omega) (by omega)
    obtain ⟨i1, i2, i3⟩ := ih (ml.add m) (by omega) (by omega)
    rw [emit_cons]
    refine ⟨?_, ?_, ?_⟩
    · rw [i1, a1, List.append_assoc, List.singleton_append]
    · rw [i2, a2, List.length_cons]; omega
    · rw [i3, a3]

theorem emit_scores : ∀ (l : List chessmove) (ml : movelist),
    (emit l ml).pseudolegal_moves.map Prod.snd = ml.pseudolegal_moves.map Prod.snd := by
  intro l
  induction l with
  | nil => intro ml; rfl
  | cons m rest ih =>
    intro ml
    rw [emit_cons, ih]
    exact map_snd_set_first m _ _

/-- C21, as amended: for every sequence of at most 255 moves, after adding them to a freshly
constructed buffer `size()` is their number and `begin() .. end()` holds them in insertion
order; all scores of the buffer are 0; and every `add` leaves the scores of all entries and
every entry other than the one at index `count` unchanged. -/
theorem add_appends_below_capacity (l : List chessmove) (h : l.length ≤ 255) :
    (emit l movelist.new).size = l.length
      ∧ (emit l movelist.new).moves = l
      ∧ (emit l movelist.new).pseudolegal_moves.map Prod.snd = List.replicate 256 0
      ∧ (∀ (ml : movelist) (m : chessmove),
          (ml.add m).pseudolegal_moves.map Prod.snd = ml.pseudolegal_moves.map Prod.snd
            ∧ ∀ j, j ≠ ml.count →
              entry (ml.add m).pseudolegal_moves j = entry ml.pseudolegal_moves j) := by
  obtain ⟨h1, h2, _⟩ := emit_moves l movelist.new (by
    show 0 + l.length ≤ 255
    omega) (by
    show 0 + l.length ≤ (List.replicate 256 (chessmove.null, (0 : Int))).length
    rw [List.length_replicate]
    omega)
  refine ⟨?_, ?_, ?_, ?_⟩
  · show (emit l movelist.new).count = l.length
    rw [h2]
    show 0 + l.length = l.length
    omega
  · rw [h1, moves_new, List.nil_append]
  · rw [emit_scores]
    show (List.replicate 256 (chessmove.null, (0 : Int))).map Prod.snd = _
    rw [List.map_replicate]
  · intro ml m
    exact ⟨map_snd_set_first m _ _, fun j hj => entry_set_first m _ _ j hj⟩

/-- C21, witness: three moves added to a fresh buffer. -/
theorem add_appends_below_capacity_witness :
    (emit [chessmove.new4 12 28 DOUBLE_PAWN_PUSH Pawn, chessmove.new4 6 21 QUIET Knight,
        chessmove.new4 1 18 QUIET Knight] movelist.new).size = 3
      ∧ (emit [chessmove.new4 12 28 DOUBLE_PAWN_PUSH Pawn, chessmove.new4 6 21 QUIET Knight,
        chessmove.new4 1 18 QUIET Knight] movelist.new).moves
        = [chessmove.new4 12 28 DOUBLE_PAWN_PUSH Pawn, chessmove.new4 6 21 QUIET Knight,
          chessmove.new4 1 18 QUIET Knight] :=
  ⟨(add_appends_below_capacity [chessmove.new4 12 28 DOUBLE_PAWN_PUSH Pawn,
      chessmove.new4 6 21 QUIET Knight, chessmove.new4 1 18 QUIET Knight] (by decide)).1,
    (add_appends_below_capacity [chessmove.new4 12 28 DOUBLE_PAWN_PUSH Pawn,
      chessmove.new4 6 21 QUIET Knight, chessmove.new4 1 18 QUIET Knight] (by decide)).2.1⟩

/-- C21, counterexample: after 256 calls of `add` on a fresh buffer the 8-bit count has
wrapped to 0: `size()` is 0, not 256, and `begin() .. end()` is empty. -/
theorem add_wraps_at_256_counterexample :
    (List.replicate 256 (chessmove.new4 6 21 QUIET Knight)).length = 256
      ∧ (emit (List.replicate 256 (chessmove.new4 6 21 QUIET Knight)) movelist.new).size = 0
      ∧ (emit (List.replicate 256 (chessmove.new4 6 21 QUIET Knight)) movelist.new).moves
        = [] := by
  decide!

/-! ## Pinned pieces -/



/-- C22: the position with White king e1, White knight e2, Black rook e8 and Black king a8
(White to move, no castling rights) satisfies invariants 1-3 and has one king per side; the
White king is not attacked; `generate_all_moves<White, false>` emits the knight move e2-c3,
which leaves the e-file, and in the position after this move the Black rook on e8 attacks the
White king on e1. -/
theorem pinned_knight_move_emitted :
    invariants pin_board
      ∧ pin_board.side = White ∧ pin_board.castling_rights = 0
      ∧ pin_board.bitboards White King = 2 ^ E1 ∧ pin_board.bitboards Black King = 2 ^ A8
      ∧ pin_board.bitboards White Knight = 2 ^ 12 ∧ pin_board.bitboards Black Rook = 2 ^ E8
      ∧ pin_board.occupancy = 2 ^ E1 ||| 2 ^ 12 ||| 2 ^ E8 ||| 2 ^ A8
      ∧ pin_board.attackers std_tables White E1 = 0
      ∧ chessmove.new4 12 18 QUIET Knight
          ∈ (generate_all_moves std_tables White false pin_board movelist.new).2.2.moves
      ∧ chessmove.new4 12 18 QUIET Knight ∈ all_moves_list std_tables White false pin_board
      ∧ invariants pin_board_after
      ∧ pin_board_after.bitboards White Knight = 2 ^ 18
      ∧ pin_board_after.bitboards White King = 2 ^ E1
      ∧ pin_board_after.attackers std_tables White E1 = 2 ^ E8
      ∧ (std_tables.attacks Ray.ROOK E8 pin_board_after.occupancy).testBit E1 = true := by
  decide!

/-! ## Attacked squares -/

theorem foldl_or_testBit (f : Square → Nat) (s : Nat) :
    ∀ (l : List Square) (acc : Nat),
      (l.foldl (fun acc sq => acc ||| f sq) acc).testBit s = true
        ↔ (acc.testBit s = true ∨ ∃ x, x ∈ l ∧ (f x).testBit s = true) := by
  intro l
  induction l with
  | nil => intro acc; simp
  | cons a rest ih =>
    intro acc
    rw [List.foldl_cons, ih, Nat.testBit_or, Bool.or_eq_true]
    constructor
    · rintro ((h | h) | ⟨x, hx, h⟩)
      · exact Or.inl h
      · exact Or.inr ⟨a, List.mem_cons_self _ _, h⟩
      · exact Or.inr ⟨x, List.mem_cons_of_mem _ hx, h⟩
    · rintro (h | ⟨x, hx, h⟩)
      · exact Or.inl (Or.inl h)
      · rcases List.mem_cons.mp hx with rfl | hx
        · exact Or.inl (Or.inr h)
        · exact Or.inr ⟨x, hx, h⟩

theorem while_pop_or_testBit (f : Square → Nat) (bb acc s : Nat) (hbb : bb < 2 ^ 64) :
    (while_pop 64 bb (fun acc sq => acc ||| f sq) acc).testBit s = true
      ↔ (acc.testBit s = true ∨ ∃ x, bb.testBit x = true ∧ (f x).testBit s = true) := by
  rw [while_pop_eq_foldl, foldl_or_testBit]
  simp only [mem_serialize hbb]

theorem lsb_two_pow (k : Nat) (hk : k < 64) : lsb (2 ^ k) = k := by
  have h := (lsb_spec (x := 2 ^ k) (Nat.pos_iff_ne_zero.mp (Nat.two_pow_pos k))
    (Nat.pow_lt_pow_right (by decide) hk)).1
  rw [Nat.testBit_two_pow, decide_eq_true_eq] at h
  exact h.symm

/-- Membership in the set `get_attacked_squares<d>()` computes. -/
theorem get_attacked_squares_iff (T : AttackTables) (d : Color) (b : board) (hwf : b.wf)
    (s : Nat) :
    (b.get_attacked_squares T d).testBit s = true
      ↔ ((∃ x, (b.bitboards d Pawn).testBit x = true
            ∧ (T.PAWN_ATTACKS_TABLE d x).testBit s = true)
          ∨ (∃ x, (b.bitboards d Knight).testBit x = true
            ∧ (T.KNIGHT_ATTACKS x).testBit s = true)
          ∨ (∃ x, ((b.bitboards d Bishop).testBit x = true
              ∨ (b.bitboards d Queen).testBit x = true)
            ∧ (T.attacks Ray.BISHOP x b.occupancy).testBit s = true)
          ∨ (∃ x, ((b.bitboards d Rook).testBit x = true
              ∨ (b.bitboards d Queen).testBit x = true)
            ∧ (T.attacks Ray.ROOK x b.occupancy).testBit s = true)
          ∨ (T.KING_ATTACKS (lsb (b.bitboards d King))).testBit s = true) := by
  obtain ⟨_, _, hbb⟩ := hwf
  unfold board.get_attacked_squares
  simp only [Nat.testBit_or, Bool.or_eq_true]
  rw [while_pop_or_testBit _ _ _ _ (Nat.or_lt_two_pow (hbb _ _) (hbb _ _)),
    while_pop_or_testBit _ _ _ _ (Nat.or_lt_two_pow (hbb _ _) (hbb _ _)),
    while_pop_or_testBit _ _ _ _ (hbb _ _), while_pop_or_testBit _ _ _ _ (hbb _ _)]
  simp only [Nat.zero_testBit, Bool.false_eq_true, false_or, or_assoc, Nat.testBit_or,
    Bool.or_eq_true]

theorem attackers_ne_zero_iff (T : AttackTables) (c : Color) (b : board) (hwf : b.wf)
    (s : Square) :
    b.attackers T c s ≠ 0 ↔ ∃ x, x < 64 ∧ (b.attackers T c s).testBit x = true := by
  constructor
  · intro h
    obtain ⟨x, hx⟩ := Nat.ne_zero_implies_bit_true h
    exact ⟨x, lt_of_testBit_of_lt (attackers_lt T c b s hwf) hx, hx⟩
  · rintro ⟨x, _, hx⟩ h0
    rw [h0, Nat.zero_testBit] at hx
    cases hx

theorem attacked_iff_attackers (T : AttackTables) (hT : tables_symmetric T) (d : Color)
    (b : board) (hwf : b.wf) (k : Square) (hk : k < 64) (hking : b.bitboards d King = 2 ^ k)
    (s : Square) (hs : s < 64) :
    (b.get_attacked_squares T d).testBit s = true ↔ b.attackers T (other d) s ≠ 0 := by
  have hbb := hwf.2.2
  rw [get_attacked_squares_iff T d b hwf s, attackers_ne_zero_iff T (other d) b hwf s, hking,
    lsb_two_pow k hk]
  have hsym : ∀ x, x < 64 →
      (T.attacks Ray.ROOK s b.occupancy).testBit x = (T.attacks Ray.ROOK x b.occupancy).testBit s
      ∧ (T.attacks Ray.BISHOP s b.occupancy).testBit x
        = (T.attacks Ray.BISHOP x b.occupancy).testBit s
      ∧ (T.KING_ATTACKS s).testBit x = (T.KING_ATTACKS x).testBit s
      ∧ (T.KNIGHT_ATTACKS s).testBit x = (T.KNIGHT_ATTACKS x).testBit s
      ∧ (T.PAWN_ATTACKS_TABLE (other d) s).testBit x = (T.PAWN_ATTACKS_TABLE d x).testBit s := by
    intro x hx
    obtain ⟨h1, h2, h3, h4, h5⟩ := hT x s hx hs
    refine ⟨h1 _, h2 _, h3, h4, ?_⟩
    have := h5 (other d)
    rw [other_other] at this
    exact this
  have hunf : ∀ x, (b.attackers T (other d) s).testBit x = true ↔
      ((T.attacks Ray.ROOK s b.occupancy).testBit x = true
          ∧ ((b.bitboards d Rook).testBit x = true ∨ (b.bitboards d Queen).testBit x = true))
        ∨ ((T.attacks Ray.BISHOP s b.occupancy).testBit x = true
          ∧ ((b.bitboards d Bishop).testBit x = true ∨ (b.bitboards d Queen).testBit x = true))
        ∨ ((T.KING_ATTACKS s).testBit x = true ∧ x = k)
        ∨ ((T.KNIGHT_ATTACKS s).testBit x = true ∧ (b.bitboards d Knight).testBit x = true)
        ∨ ((T.PAWN_ATTACKS_TABLE (other d) s).testBit x = true
          ∧ (b.bitboards d Pawn).testBit x = true) := by
    intro x
    unfold board.attackers
    simp only [other_other, Nat.testBit_or, Nat.testBit_and, Bool.or_eq_true, Bool.and_eq_true,
      hking, Nat.testBit_two_pow, decide_eq_true_eq, or_assoc]
    constructor
    · rintro (h | h | ⟨h1, h2⟩ | h | h)
      · exact Or.inl h
      · exact Or.inr (Or.inl h)
      · exact Or.inr (Or.inr (Or.inl ⟨h1, h2.symm⟩))
      · exact Or.inr (Or.inr (Or.inr (Or.inl h)))
      · exact Or.inr (Or.inr (Or.inr (Or.inr h)))
    · rintro (h | h | ⟨h1, h2⟩ | h | h)
      · exact Or.inl h
      · exact Or.inr (Or.inl h)
      · exact Or.inr (Or.inr (Or.inl ⟨h1, h2.symm⟩))
      · exact Or.inr (Or.inr (Or.inr (Or.inl h)))
      · exact Or.inr (Or.inr (Or.inr (Or.inr h)))
  have hlt : ∀ p x, (b.bitboards d p).testBit x = true → x < 64 :=
    fun p x h => lt_of_testBit_of_lt (hbb d p) h
  have hlt2 : ∀ p q x, ((b.bitboards d p).testBit x = true ∨ (b.bitboards d q).testBit x = true)
      → x < 64 := by
    intro p q x h
    rcases h with h | h
    · exact hlt p x h
    · exact hlt q x h
  constructor
  · rintro (⟨x, h1, h2⟩ | ⟨x, h1, h2⟩ | ⟨x, h1, h2⟩ | ⟨x, h1, h2⟩ | h)
    · have hx := hlt _ x h1
      refine ⟨x, hx, (hunf x).mpr ?_⟩
      right; right; right; right
      exact ⟨by rw [(hsym x hx).2.2.2.2]; exact h2, h1⟩
    · have hx := hlt _ x h1
      refine ⟨x, hx, (hunf x).mpr ?_⟩
      right; right; right; left
      exact ⟨by rw [(hsym x hx).2.2.2.1]; exact h2, h1⟩
    · have hx := hlt2 _ _ x h1
      refine ⟨x, hx, (hunf x).mpr ?_⟩
      right; left
      exact ⟨by rw [(hsym x hx).2.1]; exact h2, h1⟩
    · have hx := hlt2 _ _ x h1
      refine ⟨x, hx, (hunf x).mpr ?_⟩
      left
      exact ⟨by rw [(hsym x hx).1]; exact h2, h1⟩
    · refine ⟨k, hk, (hunf k).mpr ?_⟩
      right; right; left
      exact ⟨by rw [(hsym k hk).2.2.1]; exact h, rfl⟩
  · rintro ⟨x, hx, h⟩
    obtain ⟨s1, s2, s3, s4, s5⟩ := hsym x hx
    rcases (hunf x).mp h with ⟨h1, h2⟩ | ⟨h1, h2⟩ | ⟨h1, h2⟩ | ⟨h1, h2⟩ | ⟨h1, h2⟩
    · right; right; right; left
      exact ⟨x, h2, by rw [← s1]; exact h1⟩
    · right; right; left
      exact ⟨x, h2, by rw [← s2]; exact h1⟩
    · subst h2
      right; right; right; right
      rw [← s3]; exact h1
    · right; left
      exact ⟨x, h2, by rw [← s4]; exact h1⟩
    · left
      exact ⟨x, h2, by rw [← s5]; exact h1⟩

/-- C29: for attack tables of chess pieces, every position (with 64-bit bitboards) whose only
king of colour `d` stands on `k`, and every square `s`: `s` is in `get_attacked_squares<d>()`
if and only if `attackers<c>(s)` is non-empty for the colour `c` opposite to `d`; and
`get_safe_squares<d>(sq)` returns the 64-bit complement of the attacked set computed with `sq`
removed from the occupancy, and leaves the position as it was when `sq` is occupied. -/
theorem attacked_squares_agree_with_attackers (T : AttackTables) (hT : tables_symmetric T)
    (d : Color) (b : board) (hwf : b.wf) (k : Square) (hk : k < 64)
    (hking : b.bitboards d King = 2 ^ k) (s : Square) (hs : s < 64) (sq : Square)
    (hsq : b.occupancy.testBit sq = true) :
    ((b.get_attacked_squares T d).testBit s = true ↔ b.attackers T (other d) s ≠ 0)
      ∧ (b.get_safe_squares T d sq).1
        = not64 (board.get_attacked_squares T d { b with occupancy := pop_bit b.occupancy sq })
      ∧ ((b.get_safe_squares T d sq).1.testBit s
        = !(board.get_attacked_squares T d
            { b with occupancy := pop_bit b.occupancy sq }).testBit s)
      ∧ (b.get_safe_squares T d sq).2 = b := by
  refine ⟨attacked_iff_attackers T hT d b hwf k hk hking s hs, rfl, ?_,
    get_safe_squares_board T d b sq hwf.1 hsq⟩
  show (not64 _).testBit s = _
  rw [testBit_not64]
  simp [hs]

/-- C29, witness: the initial position with the standard tables, the Black king on e8, the
square e6 (attacked by the Black pawns on d7 and f7) and the White king square e1. -/
theorem attacked_squares_agree_with_attackers_witness :
    (initial_board.get_attacked_squares std_tables Black).testBit 44 = true
      ∧ ((initial_board.get_attacked_squares std_tables Black).testBit 44 = true
        ↔ initial_board.attackers std_tables (other Black) 44 ≠ 0)
      ∧ (initial_board.get_safe_squares std_tables Black E1).2 = initial_board :=
  ⟨by decide!,
    (attacked_squares_agree_with_attackers std_tables std_tables_symmetric Black initial_board
      (by decide!) E8 (by decide) (by decide!) 44 (by decide) E1 (by decide!)).1,
    (attacked_squares_agree_with_attackers std_tables std_tables_symmetric Black initial_board
      (by decide!) E8 (by decide) (by decide!) 44 (by decide) E1 (by decide!)).2.2.2⟩

/-! ## Decoding the emitted moves -/

/-- The fields of a move of `target_moves`. -/
theorem target_moves_decode (co : Bool) (b : board) (sq : Square) (piece : Piece)
    (att enemy empty : Nat) (hsq : sq < 64) (he : enemy < 2 ^ 64) (hem : empty < 2 ^ 64)
    (m : chessmove) (h : m ∈ target_moves co b sq piece att enemy empty) :
    m.get_from = sq ∧ m.get_to < 64 ∧ att.testBit m.get_to = true ∧ m.get_piece = piece.val
      ∧ ((m.get_move_type = CAPTURE ∧ enemy.testBit m.get_to = true
            ∧ m.get_captured_piece = (b.get_piece m.get_to).val
            ∧ m = chessmove.new5 sq m.get_to CAPTURE piece (b.get_piece m.get_to))
        ∨ (co = false ∧ m.get_move_type = QUIET ∧ empty.testBit m.get_to = true
            ∧ m = chessmove.new4 sq m.get_to QUIET piece)) := by
  obtain ⟨t, hatt, h | h⟩ := (mem_target_moves co b sq piece att enemy empty he hem m).mp h
  · have ht : t < 64 := lt_of_testBit_of_lt he h.1
    have hf := new5_fields sq t CAPTURE piece (b.get_piece t) hsq ht (by decide)
    rw [h.2, hf.1, hf.2.1, hf.2.2.1, hf.2.2.2.1, hf.2.2.2.2]
    exact ⟨rfl, ht, hatt, rfl, Or.inl ⟨rfl, h.1, rfl, rfl⟩⟩
  · have ht : t < 64 := lt_of_testBit_of_lt hem h.2.1
    have hf := new4_fields sq t QUIET piece hsq ht (by decide)
    rw [h.2.2, hf.1, hf.2.1, hf.2.2.1, hf.2.2.2]
    exact ⟨rfl, ht, hatt, rfl, Or.inr ⟨h.1, rfl, h.2.1, rfl⟩⟩

/-- The fields of a move of `slider_moves_list`. -/
theorem slider_moves_decode (T : AttackTables) (ray : Ray) (piece : Piece) (co : Bool)
    (b : board) (bb cm enemy empty occ : Nat) (hbb : bb < 2 ^ 64) (he : enemy < 2 ^ 64)
    (hem : empty < 2 ^ 64) (m : chessmove)
    (h : m ∈ slider_moves_list T ray piece co b bb cm enemy empty occ) :
    bb.testBit m.get_from = true ∧ m.get_from < 64 ∧ m.get_to < 64
      ∧ (T.attacks ray m.get_from occ &&& cm).testBit m.get_to = true
      ∧ m.get_piece = piece.val
      ∧ ((m.get_move_type = CAPTURE ∧ enemy.testBit m.get_to = true
            ∧ m.get_captured_piece = (b.get_piece m.get_to).val
            ∧ m = chessmove.new5 m.get_from m.get_to CAPTURE piece (b.get_piece m.get_to))
        ∨ (co = false ∧ m.get_move_type = QUIET ∧ empty.testBit m.get_to = true
            ∧ m = chessmove.new4 m.get_from m.get_to QUIET piece)) := by
  unfold slider_moves_list at h
  rw [List.mem_flatMap] at h
  obtain ⟨sq, hsq, hm⟩ := h
  rw [mem_serialize hbb] at hsq
  have hs64 : sq < 64 := lt_of_testBit_of_lt hbb hsq
  obtain ⟨h1, h2, h3, h4, h5⟩ := target_moves_decode co b sq piece _ enemy empty hs64 he hem m hm
  rw [h1]
  exact ⟨hsq, hs64, h2, h3, h4, h5⟩

/-- The fields of a move of `knight_moves_list`. -/
theorem knight_moves_decode (T : AttackTables) (co : Bool) (b : board)
    (bb cm enemy empty : Nat) (hbb : bb < 2 ^ 64) (he : enemy < 2 ^ 64)
    (hem : empty < 2 ^ 64) (m : chessmove)
    (h : m ∈ knight_moves_list T co b bb cm enemy empty) :
    bb.testBit m.get_from = true ∧ m.get_from < 64 ∧ m.get_to < 64
      ∧ (T.KNIGHT_ATTACKS m.get_from &&& cm).testBit m.get_to = true
      ∧ m.get_piece = Knight.val
      ∧ ((m.get_move_type = CAPTURE ∧ enemy.testBit m.get_to = true
            ∧ m.get_captured_piece = (b.get_piece m.get_to).val
            ∧ m = chessmove.new5 m.get_from m.get_to CAPTURE Knight (b.get_piece m.get_to))
        ∨ (co = false ∧ m.get_move_type = QUIET ∧ empty.testBit m.get_to = true
            ∧ m = chessmove.new4 m.get_from m.get_to QUIET Knight)) := by
  unfold knight_moves_list at h
  rw [List.mem_flatMap] at h
  obtain ⟨sq, hsq, hm⟩ := h
  rw [mem_serialize hbb] at hsq
  have hs64 : sq < 64 := lt_of_testBit_of_lt hbb hsq
  obtain ⟨h1, h2, h3, h4, h5⟩ := target_moves_decode co b sq Knight _ enemy empty hs64 he hem m hm
  rw [h1]
  exact ⟨hsq, hs64, h2, h3, h4, h5⟩

/-- The fields of a move of `king_moves_list`. -/
theorem king_moves_decode (T : AttackTables) (co : Bool) (b : board) (k : Square)
    (safe empty enemy : Nat) (hk : k < 64) (he : enemy < 2 ^ 64)
    (hem : empty < 2 ^ 64) (m : chessmove)
    (h : m ∈ king_moves_list T co b k safe empty enemy) :
    m.get_from = k ∧ m.get_to < 64
      ∧ (T.KING_ATTACKS k &&& safe).testBit m.get_to = true
      ∧ m.get_piece = King.val
      ∧ ((m.get_move_type = CAPTURE ∧ enemy.testBit m.get_to = true
            ∧ m.get_captured_piece = (b.get_piece m.get_to).val
            ∧ m = chessmove.new5 k m.get_to CAPTURE King (b.get_piece m.get_to))
        ∨ (co = false ∧ m.get_move_type = QUIET ∧ empty.testBit m.get_to = true
            ∧ m = chessmove.new4 k m.get_to QUIET King)) :=
  target_moves_decode co b k King _ enemy empty hk he hem m h

/-- The fields of a move of `castle_moves_list`. -/
theorem castle_moves_decode (c : Color) (rights safe empty : Nat) (m : chessmove)
    (h : m ∈ castle_moves_list c rights safe empty) :
    m.get_from = (if c = White then E1 else E8) ∧ m.get_piece = King.val
      ∧ ((m.get_move_type = KING_CASTLE ∧ m.get_to = (if c = White then G1 else G8)
            ∧ kingside_castle_ok c rights safe empty)
        ∨ (m.get_move_type = QUEEN_CASTLE ∧ m.get_to = (if c = White then C1 else C8)
            ∧ queenside_castle_ok c rights safe empty)) := by
  have hsq := castle_squares_lt c
  rcases (mem_castle_moves_list c rights safe empty m).mp h with ⟨hok, hm⟩ | ⟨hok, hm⟩
  · have hf := new4_fields _ _ KING_CASTLE King hsq.1 hsq.2.1 (by decide)
    rw [hm, hf.1, hf.2.1, hf.2.2.1, hf.2.2.2]
    exact ⟨rfl, rfl, Or.inl ⟨rfl, rfl, hok⟩⟩
  · have hf := new4_fields _ _ QUEEN_CASTLE King hsq.1 hsq.2.2 (by decide)
    rw [hm, hf.1, hf.2.1, hf.2.2.1, hf.2.2.2]
    exact ⟨rfl, rfl, Or.inr ⟨rfl, rfl, hok⟩⟩

/-- The fields of a move of `generate_pawn_moves`, block by block. -/
theorem pawn_move_decode (c : Color) (co : Bool) (b : board) (bb cm enemy empty : Nat)
    (m : chessmove) (h : pawn_move c co b bb cm enemy empty m) :
    m.get_from < 64 ∧ m.get_to < 64 ∧ m.get_piece = Pawn.val
      ∧ ((co = false ∧ m.get_move_type = QUIET
            ∧ (shift (up c) (bb &&& not_penultimate_rank c) &&& empty &&& cm).testBit m.get_to
              = true
            ∧ m.get_from = sq_sub m.get_to (up c)
            ∧ m = chessmove.new4 m.get_from m.get_to QUIET Pawn)
        ∨ (co = false ∧ m.get_move_type = DOUBLE_PAWN_PUSH
            ∧ (shift (up c) (shift (up c) (bb &&& not_penultimate_rank c) &&& empty
                &&& enpassant_rank c) &&& (empty &&& cm)).testBit m.get_to = true
            ∧ m.get_from = sq_sub m.get_to (up_2 c)
            ∧ m = chessmove.new4 m.get_from m.get_to DOUBLE_PAWN_PUSH Pawn)
        ∨ ((m.get_move_type = QUEEN_PROMOTION ∨ (co = false
              ∧ (m.get_move_type = ROOK_PROMOTION ∨ m.get_move_type = BISHOP_PROMOTION
                ∨ m.get_move_type = KNIGHT_PROMOTION)))
            ∧ (shift (up c) (bb &&& penultimate_rank c) &&& (empty &&& cm)).testBit m.get_to
              = true
            ∧ m.get_from = sq_sub m.get_to (up c)
            ∧ m = chessmove.new4 m.get_from m.get_to m.get_move_type Pawn)
        ∨ (∃ d, (d = antidiagonal_capture c ∨ d = diagonal_capture c)
            ∧ (m.get_move_type = QUEEN_PROMOTION_CAPTURE ∨ (co = false
              ∧ (m.get_move_type = ROOK_PROMOTION_CAPTURE
                ∨ m.get_move_type = BISHOP_PROMOTION_CAPTURE
                ∨ m.get_move_type = KNIGHT_PROMOTION_CAPTURE)))
            ∧ (shift d (bb &&& penultimate_rank c) &&& (enemy &&& cm)).testBit m.get_to = true
            ∧ m.get_from = sq_sub m.get_to d
            ∧ m.get_captured_piece = (b.get_piece m.get_to).val
            ∧ m = chessmove.new5 m.get_from m.get_to m.get_move_type Pawn
                (b.get_piece m.get_to))
        ∨ (∃ d, (d = antidiagonal_capture c ∨ d = diagonal_capture c)
            ∧ m.get_move_type = CAPTURE
            ∧ (shift d (bb &&& not_penultimate_rank c) &&& (enemy &&& cm)).testBit m.get_to
              = true
            ∧ m.get_from = sq_sub m.get_to d
            ∧ m.get_captured_piece = (b.get_piece m.get_to).val
            ∧ m = chessmove.new5 m.get_from m.get_to m.get_move_type Pawn
                (b.get_piece m.get_to))
        ∨ (∃ d, (d = antidiagonal_capture c ∨ d = diagonal_capture c)
            ∧ m.get_move_type = EN_PASSANT
            ∧ b.enpassant_square ≠ Null_Square
            ∧ m.get_to = b.enpassant_square
            ∧ (shift d (bb &&& not_penultimate_rank c)).testBit m.get_to = true
            ∧ m.get_from = sq_sub m.get_to d
            ∧ m.get_captured_piece = Pawn.val
            ∧ m = chessmove.new5 m.get_from m.get_to EN_PASSANT Pawn Pawn)) := by
  have hnp : bb &&& not_penultimate_rank c < 2 ^ 64 := and_lt_right (not_penultimate_rank_lt c)
  have hpp : bb &&& penultimate_rank c < 2 ^ 64 := and_lt_right (penultimate_rank_lt c)
  rcases h with h | h | h | h | h | h
  · obtain ⟨hco, t, ht, hm⟩ := h
    have ho := shift_origin_lt _ _ t hnp (testBit_and_left (testBit_and_left ht))
    have hf := new4_fields (sq_sub t (up c)) t QUIET Pawn ho.1 ho.2 (by decide)
    rw [hm, hf.1, hf.2.1, hf.2.2.1, hf.2.2.2]
    exact ⟨ho.1, ho.2, rfl, Or.inl ⟨hco, rfl, ht, rfl, rfl⟩⟩
  · obtain ⟨hco, t, ht, hm⟩ := h
    have h1 := testBit_and_left ht
    have ho := shift_origin_lt _ _ t (and_lt_right (enpassant_rank_lt c)) h1
    have h2 := (shift_origin _ _ t h1).1
    have ho2 := shift_origin_lt _ _ _ hnp (testBit_and_left (testBit_and_left h2))
    rw [sq_sub_up_2] at ho2
    have hf := new4_fields (sq_sub t (up_2 c)) t DOUBLE_PAWN_PUSH Pawn ho2.1 ho.2 (by decide)
    rw [hm, hf.1, hf.2.1, hf.2.2.1, hf.2.2.2]
    exact ⟨ho2.1, ho.2, rfl, Or.inr (Or.inl ⟨hco, rfl, ht, rfl, rfl⟩)⟩
  · obtain ⟨t, k, ht, hk, hm⟩ := h
    have ho := shift_origin_lt _ _ t hpp (testBit_and_left ht)
    have hk16 : k < 16 := by
      rcases hk with hk | ⟨_, hk | hk | hk⟩ <;> rw [hk] <;> decide
    have hf := new4_fields (sq_sub t (up c)) t k Pawn ho.1 ho.2 hk16
    rw [hm, hf.1, hf.2.1, hf.2.2.1, hf.2.2.2]
    exact ⟨ho.1, ho.2, rfl, Or.inr (Or.inr (Or.inl ⟨hk, ht, rfl, rfl⟩))⟩
  · obtain ⟨d, t, k, hd, ht, hk, hm⟩ := h
    have ho := shift_origin_lt _ _ t hpp (testBit_and_left ht)
    have hk16 : k < 16 := by
      rcases hk with hk | ⟨_, hk | hk | hk⟩ <;> rw [hk] <;> decide
    have hf := new5_fields (sq_sub t d) t k Pawn (b.get_piece t) ho.1 ho.2 hk16
    rw [hm, hf.1, hf.2.1, hf.2.2.1, hf.2.2.2.1, hf.2.2.2.2]
    exact ⟨ho.1, ho.2, rfl, Or.inr (Or.inr (Or.inr (Or.inl ⟨d, hd, hk, ht, rfl, rfl, rfl⟩)))⟩
  · obtain ⟨d, t, hd, ht, hm⟩ := h
    have ho := shift_origin_lt _ _ t hnp (testBit_and_left ht)
    have hf := new5_fields (sq_sub t d) t CAPTURE Pawn (b.get_piece t) ho.1 ho.2 (by decide)
    rw [hm, hf.1, hf.2.1, hf.2.2.1, hf.2.2.2.1, hf.2.2.2.2]
    exact ⟨ho.1, ho.2, rfl,
      Or.inr (Or.inr (Or.inr (Or.inr (Or.inl ⟨d, hd, rfl, ht, rfl, rfl, rfl⟩))))⟩
  · obtain ⟨d, hd, hep, hx, hm⟩ := h
    obtain ⟨i, hi⟩ := Nat.ne_zero_implies_bit_true hx
    have hbit := testBit_and_right hi
    rw [testBit_bit] at hbit
    simp only [Bool.and_eq_true, decide_eq_true_eq] at hbit
    have hie : i = b.enpassant_square := hbit.2
    rw [hie] at hi
    have ho := shift_origin_lt _ _ _ hnp (testBit_and_left hi)
    have hf := new5_fields (sq_sub b.enpassant_square d) b.enpassant_square EN_PASSANT Pawn Pawn
      ho.1 ho.2 (by decide)
    rw [hm, hf.1, hf.2.1, hf.2.2.1, hf.2.2.2.1, hf.2.2.2.2]
    exact ⟨ho.1, ho.2, rfl,
      Or.inr (Or.inr (Or.inr (Or.inr (Or.inr
        ⟨d, hd, rfl, hep, rfl, testBit_and_left hi, rfl, rfl, rfl⟩))))⟩

/-! ## Claims: checkmask (C24), double push (C25) -/

/-- C24: for every position and every checkmask value (bitboards being 64-bit words), the
moves that `generate_slider_moves` and `generate_knight_moves` add all have their destination
inside the checkmask, and so has every move `generate_pawn_moves` adds whose kind is not
`EN_PASSANT`; with an empty checkmask the slider and knight generators add nothing and the
pawn generator adds en-passant captures only. -/
theorem non_king_destinations_in_checkmask (T : AttackTables) (c : Color) (ray : Ray)
    (piece : Piece) (captures_only : Bool) (b : board) (ml : movelist)
    (piece_bitboard checkmask enemy empty occupancy : Nat)
    (hbb : piece_bitboard < 2 ^ 64) (he : enemy < 2 ^ 64) (hem : empty < 2 ^ 64) :
    (generate_slider_moves T c ray piece captures_only b ml piece_bitboard checkmask enemy empty
          occupancy
        = emit (slider_moves_list T ray piece captures_only b piece_bitboard checkmask enemy
            empty occupancy) ml
      ∧ (∀ m ∈ slider_moves_list T ray piece captures_only b piece_bitboard checkmask enemy
            empty occupancy, checkmask.testBit m.get_to = true)
      ∧ (checkmask = 0 → slider_moves_list T ray piece captures_only b piece_bitboard checkmask
            enemy empty occupancy = []))
    ∧ (generate_knight_moves T c captures_only b ml piece_bitboard checkmask enemy empty
          occupancy
        = emit (knight_moves_list T captures_only b piece_bitboard checkmask enemy empty) ml
      ∧ (∀ m ∈ knight_moves_list T captures_only b piece_bitboard checkmask enemy empty,
          checkmask.testBit m.get_to = true)
      ∧ (checkmask = 0
          → knight_moves_list T captures_only b piece_bitboard checkmask enemy empty = []))
    ∧ (generate_pawn_moves c captures_only b ml piece_bitboard checkmask enemy empty
        = emit (pawn_moves_list c captures_only b piece_bitboard checkmask enemy empty) ml
      ∧ (∀ m ∈ pawn_moves_list c captures_only b piece_bitboard checkmask enemy empty,
          m.get_move_type ≠ EN_PASSANT → checkmask.testBit m.get_to = true)
      ∧ (checkmask = 0
          → ∀ m ∈ pawn_moves_list c captures_only b piece_bitboard checkmask enemy empty,
            m.get_move_type = EN_PASSANT)) := by
  have hs : ∀ m ∈ slider_moves_list T ray piece captures_only b piece_bitboard checkmask enemy
      empty occupancy, checkmask.testBit m.get_to = true := fun m hm =>
    testBit_and_right (slider_moves_decode T ray piece captures_only b _ _ _ _ _ hbb he hem m
      hm).2.2.2.1
  have hn : ∀ m ∈ knight_moves_list T captures_only b piece_bitboard checkmask enemy empty,
      checkmask.testBit m.get_to = true := fun m hm =>
    testBit_and_right (knight_moves_decode T captures_only b _ _ _ _ hbb he hem m hm).2.2.2.1
  have hp : ∀ m ∈ pawn_moves_list c captures_only b piece_bitboard checkmask enemy empty,
      m.get_move_type = EN_PASSANT ∨ checkmask.testBit m.get_to = true := fun m hm =>
    (pawn_move_to c captures_only b _ _ _ _ m ((mem_pawn_moves_list _ _ _ _ _ _ _ m).mp hm)).imp
      id (fun h => h.1)
  refine ⟨⟨generate_slider_moves_emit _ _ _ _ _ _ _ _ _ _ _ _, hs, ?_⟩,
    ⟨generate_knight_moves_emit _ _ _ _ _ _ _ _ _ _, hn, ?_⟩,
    ⟨generate_pawn_moves_emit _ _ _ _ _ _ _ _, ?_, ?_⟩⟩
  · intro h0
    apply List.eq_nil_iff_forall_not_mem.mpr
    intro m hm
    have := hs m hm
    rw [h0, Nat.zero_testBit] at this
    exact Bool.noConfusion this
  · intro h0
    apply List.eq_nil_iff_forall_not_mem.mpr
    intro m hm
    have := hn m hm
    rw [h0, Nat.zero_testBit] at this
    exact Bool.noConfusion this
  · intro m hm hne
    exact (hp m hm).resolve_left hne
  · intro h0 m hm
    rcases hp m hm with h | h
    · exact h
    · rw [h0, Nat.zero_testBit] at h
      exact Bool.noConfusion h

/-- C24, witness: in the position with the White king on h4 checked by the rook a4, the pawn
generator adds the double push e2-e4, and its destination lies inside the checkmask. -/
theorem non_king_destinations_in_checkmask_witness :
    chessmove.new4 12 28 DOUBLE_PAWN_PUSH Pawn
        ∈ pawn_moves_list White false rank_check_board (rank_check_board.bitboards White Pawn)
          (gen_checkmask std_tables White rank_check_board)
          (rank_check_board.side_occupancy Black) (not64 rank_check_board.occupancy)
      ∧ (gen_checkmask std_tables White rank_check_board).testBit
          (chessmove.new4 12 28 DOUBLE_PAWN_PUSH Pawn).get_to = true :=
  ⟨by decide!,
    (non_king_destinations_in_checkmask std_tables White Ray.ROOK Rook false rank_check_board
      movelist.new (rank_check_board.bitboards White Pawn)
      (gen_checkmask std_tables White rank_check_board) (rank_check_board.side_occupancy Black)
      (not64 rank_check_board.occupancy) rank_check_board.occupancy (by decide!) (by decide!)
      (by decide!)).2.2.2.1 (chessmove.new4 12 28 DOUBLE_PAWN_PUSH Pawn) (by decide!)
      (by decide!)⟩

theorem testBit_not_penultimate_start (c : Color) (s : Nat) (h : on_start_rank c s) :
    (not_penultimate_rank c).testBit s = true := by
  cases c
  · have h2 : 8 ≤ s ∧ s < 16 := h
    obtain ⟨ha, hb⟩ := h2
    interval_cases s <;> decide
  · have h2 : 48 ≤ s ∧ s < 56 := h
    obtain ⟨ha, hb⟩ := h2
    interval_cases s <;> decide

theorem testBit_enpassant_rank (c : Color) (i : Nat) :
    (enpassant_rank c).testBit i = true
      ↔ (if c = White then 16 ≤ i ∧ i < 24 else 40 ≤ i ∧ i < 48) := by
  cases c
  · have e : enpassant_rank White = 2 ^ 16 * (2 ^ 8 - 1) := by decide
    rw [e, Nat.testBit_mul_pow_two, Nat.testBit_two_pow_sub_one]
    simp only [if_true, Bool.and_eq_true, decide_eq_true_eq]
    omega
  · have e : enpassant_rank Black = 2 ^ 40 * (2 ^ 8 - 1) := by decide
    rw [e, Nat.testBit_mul_pow_two, Nat.testBit_two_pow_sub_one]
    have hne : ¬ (Black = White) := by decide
    simp only [hne, if_false, Bool.and_eq_true, decide_eq_true_eq]
    omega

/-- The double-push bit of the target `t`, spelled out on the pawn square. -/
theorem double_push_bit (c : Color) (bb cm empty : Nat) (t : Nat) :
    (shift (up c) (shift (up c) (bb &&& not_penultimate_rank c) &&& empty &&& enpassant_rank c)
        &&& (empty &&& cm)).testBit t = true
      ↔ on_start_rank c (sq_sub t (up_2 c)) ∧ t = forward c (sq_sub t (up_2 c)) 2
        ∧ bb.testBit (sq_sub t (up_2 c)) = true
        ∧ empty.testBit (forward c (sq_sub t (up_2 c)) 1) = true
        ∧ empty.testBit t = true ∧ cm.testBit t = true := by
  cases c
  · have e1 : up White = NORTH := rfl
    have e2 : up_2 White = NORTH_2 := rfl
    rw [e1, e2, sq_sub_pos t 16 NORTH_2 rfl]
    simp only [shift, Nat.testBit_and, testBit_shl64, Bool.and_eq_true, decide_eq_true_eq,
      testBit_enpassant_rank, if_true, on_start_rank, forward]
    constructor
    · rintro ⟨⟨h1, h2, ⟨⟨h3, h4, h5, h6⟩, h7⟩, h8, h9⟩, h10, h11⟩
      have e : t - 8 - 8 = t - 16 := by omega
      rw [e] at h5
      have e3 : t - 16 + 8 * 1 = t - 8 := by omega
      rw [e3]
      exact ⟨⟨by omega, by omega⟩, by omega, h5, h7, h10, h11⟩
    · rintro ⟨⟨h1, h2⟩, h3, h4, h5, h6, h7⟩
      have e3 : t - 16 + 8 * 1 = t - 8 := by omega
      rw [e3] at h5
      have e : t - 8 - 8 = t - 16 := by omega
      have hnp := testBit_not_penultimate_start White (t - 16) ⟨h1, h2⟩
      rw [e]
      exact ⟨⟨by omega, by omega, ⟨⟨by omega, by omega, h4, hnp⟩, h5⟩, by omega, by omega⟩,
        h6, h7⟩
  · have e1 : up Black = SOUTH := rfl
    have e2 : up_2 Black = SOUTH_2 := rfl
    have hne : ¬ (Black = White) := by decide
    rw [e1, e2, sq_sub_neg t 16 SOUTH_2 rfl]
    simp only [shift, Nat.testBit_and, Nat.testBit_shiftRight, Bool.and_eq_true,
      testBit_enpassant_rank, hne, if_false, on_start_rank, forward]
    have e : 8 + (8 + t) = 16 + t := by omega
    have e3 : 16 + t - 8 * 1 = 8 + t := by omega
    rw [e, e3]
    constructor
    · rintro ⟨⟨⟨⟨h5, h6⟩, h7⟩, h8, h9⟩, h10, h11⟩
      exact ⟨⟨by omega, by omega⟩, by omega, h5, h7, h10, h11⟩
    · rintro ⟨⟨h1, h2⟩, h3, h4, h5, h6, h7⟩
      have hnp := testBit_not_penultimate_start Black (16 + t) ⟨h1, h2⟩
      exact ⟨⟨⟨⟨h4, hnp⟩, h5⟩, by omega, by omega⟩, h6, h7⟩

theorem sq_sub_forward (c : Color) (s : Nat) (h : on_start_rank c s) :
    sq_sub (forward c s 2) (up_2 c) = s ∧ s < 64 ∧ forward c s 2 < 64 := by
  cases c
  · have h2 : 8 ≤ s ∧ s < 16 := h
    have e2 : up_2 White = NORTH_2 := rfl
    rw [e2, sq_sub_pos _ 16 NORTH_2 rfl]
    simp only [forward, if_true]
    refine ⟨?_, by omega, by omega⟩
    show (s + 8 * 2 - 16 : Nat) = s
    omega
  · have h2 : 48 ≤ s ∧ s < 56 := h
    have e2 : up_2 Black = SOUTH_2 := rfl
    have hne : ¬ (Black = White) := by decide
    rw [e2, sq_sub_neg _ 16 SOUTH_2 rfl]
    simp only [forward, hne, if_false]
    refine ⟨?_, by omega, by omega⟩
    show (16 + (s - 8 * 2) : Nat) = s
    omega

/-- The double pushes among the moves `generate_pawn_moves` adds in full mode. -/
theorem double_push_spec (c : Color) (b : board) (bb cm enemy empty : Nat) :
    (∀ s, (∃ m ∈ pawn_moves_list c false b bb cm enemy empty,
          m.get_move_type = DOUBLE_PAWN_PUSH ∧ m.get_from = s)
        ↔ (bb.testBit s = true ∧ on_start_rank c s ∧ empty.testBit (forward c s 1) = true
            ∧ empty.testBit (forward c s 2) = true ∧ cm.testBit (forward c s 2) = true))
      ∧ (∀ m ∈ pawn_moves_list c false b bb cm enemy empty,
          m.get_move_type = DOUBLE_PAWN_PUSH →
            on_start_rank c m.get_from ∧ m.get_to = forward c m.get_from 2
              ∧ m = chessmove.new4 m.get_from (forward c m.get_from 2) DOUBLE_PAWN_PUSH Pawn) := by
  have key : ∀ m ∈ pawn_moves_list c false b bb cm enemy empty,
      m.get_move_type = DOUBLE_PAWN_PUSH →
        on_start_rank c m.get_from ∧ m.get_to = forward c m.get_from 2
          ∧ bb.testBit m.get_from = true ∧ empty.testBit (forward c m.get_from 1) = true
          ∧ empty.testBit m.get_to = true ∧ cm.testBit m.get_to = true
          ∧ m = chessmove.new4 m.get_from m.get_to DOUBLE_PAWN_PUSH Pawn := by
    intro m hm hk
    obtain ⟨_, _, _, hd⟩ := pawn_move_decode c false b bb cm enemy empty m
      ((mem_pawn_moves_list _ _ _ _ _ _ _ m).mp hm)
    rcases hd with h | h | h | h | h | h
    · exact absurd (h.2.1.symm.trans hk) (by decide)
    · obtain ⟨_, _, hbit, hfrom, heq⟩ := h
      obtain ⟨h1, h2, h3, h4, h5, h6⟩ := (double_push_bit c bb cm empty m.get_to).mp hbit
      rw [← hfrom] at h1 h2 h3 h4
      exact ⟨h1, h2, h3, h4, h5, h6, heq⟩
    · rcases h.1 with h1 | ⟨_, h1 | h1 | h1⟩ <;> exact absurd (h1.symm.trans hk) (by decide)
    · obtain ⟨d, _, h1, _⟩ := h
      rcases h1 with h1 | ⟨_, h1 | h1 | h1⟩ <;> exact absurd (h1.symm.trans hk) (by decide)
    · obtain ⟨d, _, h1, _⟩ := h
      exact absurd (h1.symm.trans hk) (by decide)
    · obtain ⟨d, _, h1, _⟩ := h
      exact absurd (h1.symm.trans hk) (by decide)
  refine ⟨fun s => ⟨?_, ?_⟩, ?_⟩
  · rintro ⟨m, hm, hk, hf⟩
    obtain ⟨h1, h2, h3, h4, h5, h6, _⟩ := key m hm hk
    rw [h2] at h5 h6
    rw [hf] at h1 h3 h4 h5 h6
    exact ⟨h3, h1, h4, h5, h6⟩
  · rintro ⟨h1, h2, h3, h4, h5⟩
    obtain ⟨e, hs, ht⟩ := sq_sub_forward c s h2
    have hf := new4_fields s (forward c s 2) DOUBLE_PAWN_PUSH Pawn hs ht (by decide)
    refine ⟨chessmove.new4 s (forward c s 2) DOUBLE_PAWN_PUSH Pawn, ?_, hf.2.2.1, hf.1⟩
    rw [mem_pawn_moves_list]
    refine Or.inr (Or.inl ⟨rfl, forward c s 2, ?_, by rw [e]⟩)
    rw [double_push_bit, e]
    exact ⟨h2, rfl, h1, h3, h4, h5⟩
  · intro m hm hk
    obtain ⟨h1, h2, _, _, _, _, h7⟩ := key m hm hk
    refine ⟨h1, h2, ?_⟩
    rw [← h2]
    exact h7

/-- C25: in full generation, for each colour, the pawn generator adds a `DOUBLE_PAWN_PUSH`
from the square `s` exactly when a pawn of the bitboard stands on `s`, `s` lies on the start
rank (rank 2 for White, rank 7 for Black), the squares one and two ranks ahead are empty and
the square two ranks ahead is in the checkmask; every double push added goes from the start
rank to the square two ranks ahead; and the intermediate square need not be in the checkmask:
with the White king on h4 checked by the rook a4, e3 is outside the checkmask and e2-e4 is
emitted by `generate_all_moves`. -/
theorem double_push_exact (c : Color) (b : board) (ml : movelist) (bb cm enemy empty : Nat) :
    generate_pawn_moves c false b ml bb cm enemy empty
        = emit (pawn_moves_list c false b bb cm enemy empty) ml
      ∧ (∀ s, (∃ m ∈ pawn_moves_list c false b bb cm enemy empty,
            m.get_move_type = DOUBLE_PAWN_PUSH ∧ m.get_from = s)
          ↔ (bb.testBit s = true ∧ on_start_rank c s ∧ empty.testBit (forward c s 1) = true
              ∧ empty.testBit (forward c s 2) = true ∧ cm.testBit (forward c s 2) = true))
      ∧ (∀ m ∈ pawn_moves_list c false b bb cm enemy empty,
          m.get_move_type = DOUBLE_PAWN_PUSH →
            on_start_rank c m.get_from ∧ m.get_to = forward c m.get_from 2
              ∧ m = chessmove.new4 m.get_from (forward c m.get_from 2) DOUBLE_PAWN_PUSH Pawn)
      ∧ ((gen_checkmask std_tables White rank_check_board).testBit (forward White 12 1) = false
        ∧ (gen_checkmask std_tables White rank_check_board).testBit (forward White 12 2) = true
        ∧ chessmove.new4 12 28 DOUBLE_PAWN_PUSH Pawn
            ∈ (generate_all_moves std_tables White false rank_check_board
                movelist.new).2.2.moves
        ∧ chessmove.new4 12 20 QUIET Pawn
            ∉ (generate_all_moves std_tables White false rank_check_board
                movelist.new).2.2.moves) :=
  ⟨generate_pawn_moves_emit _ _ _ _ _ _ _ _, (double_push_spec c b bb cm enemy empty).1,
    (double_push_spec c b bb cm enemy empty).2, by decide!⟩

/-! ## Claim: promotion kinds (C26) -/

/-- The kinds of the pawn moves added in captures-only mode. -/
theorem pawn_kind_captures_only (c : Color) (b : board) (bb cm enemy empty : Nat)
    (m : chessmove) (h : m ∈ pawn_moves_list c true b bb cm enemy empty) :
    m.get_move_type = CAPTURE ∨ m.get_move_type = EN_PASSANT
      ∨ m.get_move_type = QUEEN_PROMOTION ∨ m.get_move_type = QUEEN_PROMOTION_CAPTURE := by
  obtain ⟨_, _, _, hd⟩ := pawn_move_decode c true b bb cm enemy empty m
    ((mem_pawn_moves_list _ _ _ _ _ _ _ m).mp h)
  rcases hd with h | h | h | h | h | h
  · exact Bool.noConfusion h.1
  · exact Bool.noConfusion h.1
  · rcases h.1 with h1 | ⟨h0, _⟩
    · exact Or.inr (Or.inr (Or.inl h1))
    · exact Bool.noConfusion h0
  · obtain ⟨d, _, h1, _⟩ := h
    rcases h1 with h1 | ⟨h0, _⟩
    · exact Or.inr (Or.inr (Or.inr h1))
    · exact Bool.noConfusion h0
  · obtain ⟨d, _, h1, _⟩ := h
    exact Or.inl h1
  · obtain ⟨d, _, h1, _⟩ := h
    exact Or.inr (Or.inl h1)

/-- The promoting pushes among the moves `generate_pawn_moves` adds. -/
theorem promotion_push_kinds (c : Color) (co : Bool) (b : board) (bb cm enemy empty : Nat)
    (t : Nat)
    (ht : (shift (up c) (bb &&& penultimate_rank c) &&& (empty &&& cm)).testBit t = true)
    (k : MoveType)
    (hk : k = QUEEN_PROMOTION ∨ k = ROOK_PROMOTION ∨ k = BISHOP_PROMOTION
      ∨ k = KNIGHT_PROMOTION) :
    chessmove.new4 (sq_sub t (up c)) t k Pawn ∈ pawn_moves_list c co b bb cm enemy empty
      ↔ (k = QUEEN_PROMOTION ∨ co = false) := by
  have ho := shift_origin_lt _ _ t (and_lt_right (penultimate_rank_lt c)) (testBit_and_left ht)
  have hk16 : k < 16 := by
    rcases hk with hk | hk | hk | hk <;> rw [hk] <;> decide
  have hf := new4_fields (sq_sub t (up c)) t k Pawn ho.1 ho.2 hk16
  constructor
  · intro hm
    cases co with
    | false => exact Or.inr rfl
    | true =>
      left
      have hkind := pawn_kind_captures_only c b bb cm enemy empty _ hm
      rw [hf.2.2.1] at hkind
      rcases hkind with h | h | h | h
      · rw [h] at hk
        exact absurd hk (by decide)
      · rw [h] at hk
        exact absurd hk (by decide)
      · exact h
      · rw [h] at hk
        exact absurd hk (by decide)
  · intro h
    rw [mem_pawn_moves_list]
    refine Or.inr (Or.inr (Or.inl ⟨t, k, ht, ?_, rfl⟩))
    rcases h with h | h
    · exact Or.inl h
    · rcases hk with hk | hk
      · exact Or.inl hk
      · exact Or.inr ⟨h, hk⟩

/-- The promoting captures among the moves `generate_pawn_moves` adds. -/
theorem promotion_capture_kinds (c : Color) (co : Bool) (b : board) (bb cm enemy empty : Nat)
    (d : Direction) (hd : d = antidiagonal_capture c ∨ d = diagonal_capture c) (t : Nat)
    (ht : (shift d (bb &&& penultimate_rank c) &&& (enemy &&& cm)).testBit t = true)
    (k : MoveType)
    (hk : k = QUEEN_PROMOTION_CAPTURE ∨ k = ROOK_PROMOTION_CAPTURE
      ∨ k = BISHOP_PROMOTION_CAPTURE ∨ k = KNIGHT_PROMOTION_CAPTURE) :
    chessmove.new5 (sq_sub t d) t k Pawn (b.get_piece t)
        ∈ pawn_moves_list c co b bb cm enemy empty
      ↔ (k = QUEEN_PROMOTION_CAPTURE ∨ co = false) := by
  have ho := shift_origin_lt _ _ t (and_lt_right (penultimate_rank_lt c)) (testBit_and_left ht)
  have hk16 : k < 16 := by
    rcases hk with hk | hk | hk | hk <;> rw [hk] <;> decide
  have hf := new5_fields (sq_sub t d) t k Pawn (b.get_piece t) ho.1 ho.2 hk16
  constructor
  · intro hm
    cases co with
    | false => exact Or.inr rfl
    | true =>
      left
      have hkind := pawn_kind_captures_only c b bb cm enemy empty _ hm
      rw [hf.2.2.1] at hkind
      rcases hkind with h | h | h | h
      · rw [h] at hk
        exact absurd hk (by decide)
      · rw [h] at hk
        exact absurd hk (by decide)
      · rw [h] at hk
        exact absurd hk (by decide)
      · exact h
  · intro h
    rw [mem_pawn_moves_list]
    refine Or.inr (Or.inr (Or.inr (Or.inl ⟨d, t, k, hd, ht, ?_, rfl⟩)))
    rcases h with h | h
    · exact Or.inl h
    · rcases hk with hk | hk
      · exact Or.inl hk
      · exact Or.inr ⟨h, hk⟩

/-- C26, as amended: for every pawn standing on the second-to-last rank, a promoting push
(onto an empty square inside the checkmask) is added as `QUEEN_PROMOTION` in both modes and
as rook, bishop and knight promotion exactly in full generation; a promoting capture (onto an
enemy piece inside the checkmask) is added as `QUEEN_PROMOTION_CAPTURE` in both modes and as
rook, bishop and knight promotion-capture exactly in full generation; in captures-only
generation every pawn move added has kind `CAPTURE`, `EN_PASSANT`, `QUEEN_PROMOTION` or
`QUEEN_PROMOTION_CAPTURE`. -/
theorem promotion_kinds_by_mode (c : Color) (captures_only : Bool) (b : board) (ml : movelist)
    (bb cm enemy empty : Nat) :
    generate_pawn_moves c captures_only b ml bb cm enemy empty
        = emit (pawn_moves_list c captures_only b bb cm enemy empty) ml
      ∧ (∀ t, (shift (up c) (bb &&& penultimate_rank c) &&& (empty &&& cm)).testBit t = true →
          ∀ k, (k = QUEEN_PROMOTION ∨ k = ROOK_PROMOTION ∨ k = BISHOP_PROMOTION
              ∨ k = KNIGHT_PROMOTION) →
            (chessmove.new4 (sq_sub t (up c)) t k Pawn
                ∈ pawn_moves_list c captures_only b bb cm enemy empty
              ↔ (k = QUEEN_PROMOTION ∨ captures_only = false)))
      ∧ (∀ d, (d = antidiagonal_capture c ∨ d = diagonal_capture c) →
          ∀ t, (shift d (bb &&& penultimate_rank c) &&& (enemy &&& cm)).testBit t = true →
          ∀ k, (k = QUEEN_PROMOTION_CAPTURE ∨ k = ROOK_PROMOTION_CAPTURE
              ∨ k = BISHOP_PROMOTION_CAPTURE ∨ k = KNIGHT_PROMOTION_CAPTURE) →
            (chessmove.new5 (sq_sub t d) t k Pawn (b.get_piece t)
                ∈ pawn_moves_list c captures_only b bb cm enemy empty
              ↔ (k = QUEEN_PROMOTION_CAPTURE ∨ captures_only = false)))
      ∧ (∀ m ∈ pawn_moves_list c true b bb cm enemy empty,
          m.get_move_type = CAPTURE ∨ m.get_move_type = EN_PASSANT
            ∨ m.get_move_type = QUEEN_PROMOTION
            ∨ m.get_move_type = QUEEN_PROMOTION_CAPTURE) :=
  ⟨generate_pawn_moves_emit _ _ _ _ _ _ _ _,
    fun t ht k hk => promotion_push_kinds c captures_only b bb cm enemy empty t ht k hk,
    fun d hd t ht k hk => promotion_capture_kinds c captures_only b bb cm enemy empty d hd t ht k
      hk,
    fun m hm => pawn_kind_captures_only c b bb cm enemy empty m hm⟩

/-- C26, counterexample: with a White pawn on a7 (second-to-last rank) and a Black rook on b8
inside the full checkmask, captures-only generation emits the promoting capture a7xb8 as
`QUEEN_PROMOTION_CAPTURE` only (its whole list is the queen promotion a7-a8 followed by that
capture), whereas full generation emits the rook promotion-capture as well. -/
theorem promotion_kinds_by_mode_counterexample :
    promotion_board.wf
      ∧ (promotion_board.bitboards White Pawn &&& penultimate_rank White).testBit 48 = true
      ∧ (promotion_board.side_occupancy Black).testBit 57 = true
      ∧ promotion_board.get_piece 57 = Rook
      ∧ (gen_checkmask std_tables White promotion_board).testBit 57 = true
      ∧ (generate_all_moves std_tables White true promotion_board movelist.new).2.2.moves
          = [chessmove.new4 48 56 QUEEN_PROMOTION Pawn,
              chessmove.new5 48 57 QUEEN_PROMOTION_CAPTURE Pawn Rook]
      ∧ chessmove.new5 48 57 ROOK_PROMOTION_CAPTURE Pawn Rook
          ∉ (generate_all_moves std_tables White true promotion_board movelist.new).2.2.moves
      ∧ chessmove.new5 48 57 ROOK_PROMOTION_CAPTURE Pawn Rook
          ∈ (generate_all_moves std_tables White false promotion_board movelist.new).2.2.moves
    := by
  decide!

/-! ## Captures-only generation as a filter of full generation -/

theorem filter_flatMap_mem {α : Type} (p : chessmove → Bool) (f g : α → List chessmove) :
    ∀ (l : List α), (∀ x ∈ l, g x = (f x).filter p) →
      l.flatMap g = (l.flatMap f).filter p := by
  intro l
  induction l with
  | nil => intro _; rfl
  | cons a rest ih =>
    intro h
    rw [List.flatMap_cons, List.flatMap_cons, List.filter_append,
      h a (List.mem_cons_self _ _), ih (fun x hx => h x (List.mem_cons_of_mem _ hx))]

theorem filter_map_all {α : Type} (p : chessmove → Bool) (f : α → chessmove) (l : List α)
    (h : ∀ x ∈ l, p (f x) = true) : (l.map f).filter p = l.map f := by
  apply List.filter_eq_self.mpr
  intro m hm
  obtain ⟨x, hx, rfl⟩ := List.mem_map.mp hm
  exact h x hx

theorem filter_map_none {α : Type} (p : chessmove → Bool) (f : α → chessmove) (l : List α)
    (h : ∀ x ∈ l, p (f x) = false) : (l.map f).filter p = [] := by
  apply List.filter_eq_nil_iff.mpr
  intro m hm
  obtain ⟨x, hx, rfl⟩ := List.mem_map.mp hm
  rw [h x hx]
  exact Bool.false_ne_true

/-- The predicate "not `is_quiet()`" on a freshly constructed move. -/
theorem not_quiet_new5 (f t k : Nat) (p c : Piece) (hf : f < 64) (ht : t < 64) (hk : k < 16) :
    (!((chessmove.new5 f t k p c).is_quiet == some true)) = !(is_quiet_kind k == some true) := by
  unfold chessmove.is_quiet
  rw [(new5_fields f t k p c hf ht hk).2.2.1]

theorem not_quiet_new4 (f t k : Nat) (p : Piece) (hf : f < 64) (ht : t < 64) (hk : k < 16) :
    (!((chessmove.new4 f t k p).is_quiet == some true)) = !(is_quiet_kind k == some true) := by
  rw [new4_eq_new5]
  exact not_quiet_new5 f t k p Pawn hf ht hk

theorem target_moves_filter (b : board) (sq : Square) (piece : Piece) (att enemy empty : Nat)
    (hsq : sq < 64) (he : enemy < 2 ^ 64) (hem : empty < 2 ^ 64) :
    target_moves true b sq piece att enemy empty
      = (target_moves false b sq piece att enemy empty).filter
          (fun m => !(m.is_quiet == some true)) := by
  unfold target_moves
  simp only [if_true, Bool.false_eq_true, if_false, List.append_nil, List.filter_append]
  rw [filter_map_all, filter_map_none, List.append_nil]
  · intro t ht
    rw [mem_serialize (and_lt_right hem)] at ht
    have ht64 := lt_of_testBit_of_lt hem (testBit_and_right ht)
    have := not_quiet_new4 sq t QUIET piece hsq ht64 (by decide)
    simp only [this]
    decide
  · intro t ht
    rw [mem_serialize (and_lt_right he)] at ht
    have ht64 := lt_of_testBit_of_lt he (testBit_and_right ht)
    have := not_quiet_new5 sq t CAPTURE piece (b.get_piece t) hsq ht64 (by decide)
    simp only [this]
    decide

theorem slider_moves_filter (T : AttackTables) (ray : Ray) (piece : Piece) (b : board)
    (bb cm enemy empty occ : Nat) (hbb : bb < 2 ^ 64) (he : enemy < 2 ^ 64)
    (hem : empty < 2 ^ 64) :
    slider_moves_list T ray piece true b bb cm enemy empty occ
      = (slider_moves_list T ray piece false b bb cm enemy empty occ).filter
          (fun m => !(m.is_quiet == some true)) := by
  unfold slider_moves_list
  apply filter_flatMap_mem
  intro sq hsq
  rw [mem_serialize hbb] at hsq
  exact target_moves_filter b sq piece _ enemy empty (lt_of_testBit_of_lt hbb hsq) he hem

theorem knight_moves_filter (T : AttackTables) (b : board)
    (bb cm enemy empty : Nat) (hbb : bb < 2 ^ 64) (he : enemy < 2 ^ 64)
    (hem : empty < 2 ^ 64) :
    knight_moves_list T true b bb cm enemy empty
      = (knight_moves_list T false b bb cm enemy empty).filter
          (fun m => !(m.is_quiet == some true)) := by
  unfold knight_moves_list
  apply filter_flatMap_mem
  intro sq hsq
  rw [mem_serialize hbb] at hsq
  exact target_moves_filter b sq Knight _ enemy empty (lt_of_testBit_of_lt hbb hsq) he hem

theorem pawn_pushes_filter (c : Color) (bb cm empty : Nat) :
    (pawn_pushes_list c bb cm empty).filter (fun m => !(m.is_quiet == some true)) = [] := by
  apply List.filter_eq_nil_iff.mpr
  intro m hm
  have hnp : bb &&& not_penultimate_rank c < 2 ^ 64 := and_lt_right (not_penultimate_rank_lt c)
  rcases (mem_pawn_pushes_list c bb cm empty m).mp hm with ⟨t, ht, rfl⟩ | ⟨t, ht, rfl⟩
  · have ho := shift_origin_lt _ _ t hnp (testBit_and_left (testBit_and_left ht))
    rw [not_quiet_new4 _ t QUIET Pawn ho.1 ho.2 (by decide)]
    decide
  · have h1 := testBit_and_left ht
    have ho := shift_origin_lt _ _ t (and_lt_right (enpassant_rank_lt c)) h1
    have h2 := (shift_origin _ _ t h1).1
    have ho2 := shift_origin_lt _ _ _ hnp (testBit_and_left (testBit_and_left h2))
    rw [sq_sub_up_2] at ho2
    rw [not_quiet_new4 _ t DOUBLE_PAWN_PUSH Pawn ho2.1 ho.2 (by decide)]
    decide

theorem promote_push_filter (c : Color) (t : Nat) (hf : sq_sub t (up c) < 64) (ht : t < 64) :
    promote_push_list c true t
      = (promote_push_list c false t).filter (fun m => !(m.is_quiet == some true)) := by
  unfold promote_push_list
  simp only [if_true, Bool.false_eq_true, if_false, List.filter_cons, List.filter_nil,
    not_quiet_new4 _ t _ Pawn hf ht (show QUEEN_PROMOTION < 16 by decide),
    not_quiet_new4 _ t _ Pawn hf ht (show ROOK_PROMOTION < 16 by decide),
    not_quiet_new4 _ t _ Pawn hf ht (show BISHOP_PROMOTION < 16 by decide),
    not_quiet_new4 _ t _ Pawn hf ht (show KNIGHT_PROMOTION < 16 by decide)]
  rfl

theorem promote_capture_filter (d : Direction) (b : board) (t : Nat) (hf : sq_sub t d < 64)
    (ht : t < 64) :
    promote_capture_list d true b t
      = (promote_capture_list d false b t).filter (fun m => !(m.is_quiet == some true)) := by
  unfold promote_capture_list
  simp only [if_true, Bool.false_eq_true, if_false, List.filter_cons, List.filter_nil,
    not_quiet_new5 _ t _ Pawn _ hf ht (show QUEEN_PROMOTION_CAPTURE < 16 by decide),
    not_quiet_new5 _ t _ Pawn _ hf ht (show ROOK_PROMOTION_CAPTURE < 16 by decide),
    not_quiet_new5 _ t _ Pawn _ hf ht (show BISHOP_PROMOTION_CAPTURE < 16 by decide),
    not_quiet_new5 _ t _ Pawn _ hf ht (show KNIGHT_PROMOTION_CAPTURE < 16 by decide)]
  rfl

theorem pawn_promotions_filter (c : Color) (b : board) (bb cm enemy empty : Nat) :
    pawn_promotions_list c true b bb cm enemy empty
      = (pawn_promotions_list c false b bb cm enemy empty).filter
          (fun m => !(m.is_quiet == some true)) := by
  have hpp : bb &&& penultimate_rank c < 2 ^ 64 := and_lt_right (penultimate_rank_lt c)
  unfold pawn_promotions_list
  by_cases h0 : bb &&& penultimate_rank c = 0
  · rw [if_neg (not_not.mpr h0), if_neg (not_not.mpr h0)]
    rfl
  · rw [if_pos h0, if_pos h0, List.filter_append, List.filter_append]
    congr 1
    · congr 1
      · apply filter_flatMap_mem
        intro t ht
        rw [mem_serialize (shift_and_lt _ bb _ _ (penultimate_rank_lt c))] at ht
        have ho := shift_origin_lt _ _ t hpp (testBit_and_left ht)
        exact promote_push_filter c t ho.1 ho.2
      · apply filter_flatMap_mem
        intro t ht
        rw [mem_serialize (shift_and_lt _ bb _ _ (penultimate_rank_lt c))] at ht
        have ho := shift_origin_lt _ _ t hpp (testBit_and_left ht)
        exact promote_capture_filter _ b t ho.1 ho.2
    · apply filter_flatMap_mem
      intro t ht
      rw [mem_serialize (shift_and_lt _ bb _ _ (penultimate_rank_lt c))] at ht
      have ho := shift_origin_lt _ _ t hpp (testBit_and_left ht)
      exact promote_capture_filter _ b t ho.1 ho.2

theorem pawn_captures_filter (c : Color) (b : board) (bb cm enemy : Nat) :
    (pawn_captures_list c b bb cm enemy).filter (fun m => !(m.is_quiet == some true))
      = pawn_captures_list c b bb cm enemy := by
  apply List.filter_eq_self.mpr
  intro m hm
  have hnp : bb &&& not_penultimate_rank c < 2 ^ 64 := and_lt_right (not_penultimate_rank_lt c)
  obtain ⟨d, t, _, ht, rfl⟩ := (mem_pawn_captures_list c b bb cm enemy m).mp hm
  have ho := shift_origin_lt _ _ t hnp (testBit_and_left ht)
  rw [not_quiet_new5 _ t CAPTURE Pawn _ ho.1 ho.2 (by decide)]
  decide

theorem pawn_enpassant_filter (c : Color) (b : board) (bb : Nat) :
    (pawn_enpassant_list c b bb).filter (fun m => !(m.is_quiet == some true))
      = pawn_enpassant_list c b bb := by
  apply List.filter_eq_self.mpr
  intro m hm
  have hnp : bb &&& not_penultimate_rank c < 2 ^ 64 := and_lt_right (not_penultimate_rank_lt c)
  obtain ⟨d, _, _, hx, rfl⟩ := (mem_pawn_enpassant_list c b bb m).mp hm
  obtain ⟨i, hi⟩ := Nat.ne_zero_implies_bit_true hx
  have hbit := testBit_and_right hi
  rw [testBit_bit] at hbit
  simp only [Bool.and_eq_true, decide_eq_true_eq] at hbit
  have hie : i = b.enpassant_square := hbit.2
  rw [hie] at hi
  have ho := shift_origin_lt _ _ _ hnp (testBit_and_left hi)
  rw [not_quiet_new5 _ _ EN_PASSANT Pawn _ ho.1 ho.2 (by decide)]
  decide

theorem pawn_moves_filter (c : Color) (b : board) (bb cm enemy empty : Nat) :
    pawn_moves_list c true b bb cm enemy empty
      = (pawn_moves_list c false b bb cm enemy empty).filter
          (fun m => !(m.is_quiet == some true)) := by
  unfold pawn_moves_list
  simp only [if_true, Bool.false_eq_true, if_false, List.nil_append, List.filter_append,
    pawn_pushes_filter, pawn_captures_filter, pawn_enpassant_filter]
  rw [← pawn_promotions_filter]

theorem castle_moves_filter (c : Color) (rights safe empty : Nat) :
    (castle_moves_list c rights safe empty).filter (fun m => !(m.is_quiet == some true))
      = [] := by
  apply List.filter_eq_nil_iff.mpr
  intro m hm
  have hsq := castle_squares_lt c
  rcases (mem_castle_moves_list c rights safe empty m).mp hm with ⟨_, rfl⟩ | ⟨_, rfl⟩
  · rw [not_quiet_new4 _ _ KING_CASTLE King hsq.1 hsq.2.1 (by decide)]
    decide
  · rw [not_quiet_new4 _ _ QUEEN_CASTLE King hsq.1 hsq.2.2 (by decide)]
    decide

/-- The moves added in captures-only mode are those added in full mode that are not
`is_quiet()`, in the same order. -/
theorem all_moves_filter (T : AttackTables) (c : Color) (b : board) (hwf : b.wf)
    (hking : b.occupancy.testBit b.get_king_square = true) :
    all_moves_list T c true b
      = (all_moves_list T c false b).filter (fun m => !(m.is_quiet == some true)) := by
  have hk := king_square_lt b hwf hking
  have hem : not64 b.occupancy < 2 ^ 64 := not64_lt _
  obtain ⟨_, hso, hbb⟩ := hwf
  unfold all_moves_list all_king_moves all_slider_moves all_knight_moves all_pawn_moves
    all_castle_moves king_moves_list
  simp only [if_true, Bool.false_eq_true, if_false, List.append_nil, List.filter_append,
    castle_moves_filter]
  rw [← target_moves_filter b _ King _ _ _ hk (hso _) hem,
    ← slider_moves_filter T Ray.ROOK Rook b _ _ _ _ _ (hbb _ _) (hso _) hem,
    ← slider_moves_filter T Ray.BISHOP Bishop b _ _ _ _ _ (hbb _ _) (hso _) hem,
    ← slider_moves_filter T Ray.QUEEN Queen b _ _ _ _ _ (hbb _ _) (hso _) hem,
    ← knight_moves_filter T b _ _ _ _ (hbb _ _) (hso _) hem,
    ← pawn_moves_filter]

/-- The kinds of the moves added in captures-only mode. -/
theorem all_moves_kind_captures_only (T : AttackTables) (c : Color) (b : board) (hwf : b.wf)
    (hking : b.occupancy.testBit b.get_king_square = true) (m : chessmove)
    (h : m ∈ all_moves_list T c true b) :
    m.get_move_type = CAPTURE ∨ m.get_move_type = EN_PASSANT
      ∨ m.get_move_type = QUEEN_PROMOTION ∨ m.get_move_type = QUEEN_PROMOTION_CAPTURE := by
  have hk := king_square_lt b hwf hking
  have hem : not64 b.occupancy < 2 ^ 64 := not64_lt _
  obtain ⟨_, hso, hbb⟩ := hwf
  have hcap : ∀ {P Q : Prop}, (m.get_move_type = CAPTURE ∧ P) ∨ (true = false ∧ Q) →
      m.get_move_type = CAPTURE := by
    intro P Q h
    rcases h with h | h
    · exact h.1
    · exact Bool.noConfusion h.1
  unfold all_moves_list at h
  simp only [List.mem_append] at h
  rcases h with (((((h | h) | h) | h) | h) | h) | h
  · exact Or.inl (hcap (king_moves_decode T true b _ _ _ _ hk (hso _) hem m h).2.2.2.2)
  · exact Or.inl (hcap (slider_moves_decode T _ _ true b _ _ _ _ _ (hbb _ _) (hso _) hem m
      h).2.2.2.2.2)
  · exact Or.inl (hcap (slider_moves_decode T _ _ true b _ _ _ _ _ (hbb _ _) (hso _) hem m
      h).2.2.2.2.2)
  · exact Or.inl (hcap (slider_moves_decode T _ _ true b _ _ _ _ _ (hbb _ _) (hso _) hem m
      h).2.2.2.2.2)
  · exact Or.inl (hcap (knight_moves_decode T true b _ _ _ _ (hbb _ _) (hso _) hem m
      h).2.2.2.2.2)
  · exact pawn_kind_captures_only c b _ _ _ _ m h
  · exact absurd h (List.not_mem_nil m)

theorem moves_emit_new (l : List chessmove) (h : l.length ≤ 255) :
    (emit l movelist.new).moves = l := by
  have := (emit_moves l movelist.new (by
    show 0 + l.length ≤ 255
    omega) (by
    show 0 + l.length ≤ (List.replicate 256 (chessmove.null, (0 : Int))).length
    rw [List.length_replicate]
    omega)).1
  rw [this, moves_new, List.nil_append]

/-- C27: for every position with 64-bit bitboards whose side-to-move king stands on an
occupied square, and each colour, the sequence of moves `generate_all_moves` adds in
captures-only mode equals, in the same order, the sequence it adds in full mode with every
move satisfying `is_quiet()` removed; the same holds of the two buffers filled from an empty
buffer whenever full mode adds at most 255 moves (the capacity of the 8-bit count); every
move added in captures-only mode has kind `CAPTURE`, `EN_PASSANT`, `QUEEN_PROMOTION` or
`QUEEN_PROMOTION_CAPTURE`; and both modes return the same boolean. -/
theorem captures_only_filters_full (T : AttackTables) (c : Color) (b : board) (hwf : b.wf)
    (hking : b.occupancy.testBit b.get_king_square = true) :
    (∀ ml, (generate_all_moves T c true b ml).2.2 = emit (all_moves_list T c true b) ml
        ∧ (generate_all_moves T c false b ml).2.2 = emit (all_moves_list T c false b) ml)
      ∧ all_moves_list T c true b
          = (all_moves_list T c false b).filter (fun m => !(m.is_quiet == some true))
      ∧ ((all_moves_list T c false b).length ≤ 255 →
          (generate_all_moves T c true b movelist.new).2.2.moves
            = ((generate_all_moves T c false b movelist.new).2.2.moves).filter
                (fun m => !(m.is_quiet == some true)))
      ∧ (∀ m ∈ all_moves_list T c true b,
          m.get_move_type = CAPTURE ∨ m.get_move_type = EN_PASSANT
            ∨ m.get_move_type = QUEEN_PROMOTION
            ∨ m.get_move_type = QUEEN_PROMOTION_CAPTURE)
      ∧ (∀ ml, (generate_all_moves T c true b ml).1
          = (generate_all_moves T c false b ml).1) := by
  refine ⟨fun ml => ⟨generate_all_moves_emit T c true b ml,
      generate_all_moves_emit T c false b ml⟩,
    all_moves_filter T c b hwf hking, ?_,
    fun m hm => all_moves_kind_captures_only T c b hwf hking m hm, fun ml => rfl⟩
  intro hlen
  have hlen2 : (all_moves_list T c true b).length ≤ 255 := by
    rw [all_moves_filter T c b hwf hking]
    exact Nat.le_trans (List.length_filter_le _ _) hlen
  rw [generate_all_moves_emit, generate_all_moves_emit, moves_emit_new _ hlen,
    moves_emit_new _ hlen2]
  exact all_moves_filter T c b hwf hking

/-- C27, witness: in the position with a White pawn on a7 and a Black rook on b8, the
captures-only buffer is the full-mode buffer without its quiet moves, and it holds the two
queen promotions. -/
theorem captures_only_filters_full_witness :
    (generate_all_moves std_tables White true promotion_board movelist.new).2.2.moves
        = ((generate_all_moves std_tables White false promotion_board
            movelist.new).2.2.moves).filter (fun m => !(m.is_quiet == some true))
      ∧ (generate_all_moves std_tables White true promotion_board movelist.new).2.2.moves
        = [chessmove.new4 48 56 QUEEN_PROMOTION Pawn,
            chessmove.new5 48 57 QUEEN_PROMOTION_CAPTURE Pawn Rook] :=
  ⟨(captures_only_filters_full std_tables White promotion_board (by decide!)
      (by decide!)).2.2.1 (by decide!), by decide!⟩

/-! ## King moves -/

theorem own_clear_of_enemy (b : board) (c : Color)
    (hdisj : b.side_occupancy White &&& b.side_occupancy Black = 0) (t : Nat)
    (h : (b.side_occupancy (other c)).testBit t = true) :
    (b.side_occupancy c).testBit t = false := by
  have h0 : (b.side_occupancy White &&& b.side_occupancy Black).testBit t = false := by
    rw [hdisj, Nat.zero_testBit]
  rw [Nat.testBit_and] at h0
  cases c
  · have e : other White = Black := rfl
    rw [e] at h
    rw [h, Bool.and_true] at h0
    exact h0
  · have e : other Black = White := rfl
    rw [e] at h
    rw [h, Bool.true_and] at h0
    exact h0

theorem occupied_of_side (b : board) (c : Color) (hinv1 : inv1 b) (t : Nat)
    (h : (b.side_occupancy c).testBit t = true) : b.occupancy.testBit t = true := by
  rw [hinv1, Nat.testBit_or]
  cases c
  · rw [h, Bool.true_or]
  · rw [h, Bool.or_true]

theorem own_clear_of_empty (b : board) (c : Color) (hinv1 : inv1 b) (t : Nat)
    (h : (not64 b.occupancy).testBit t = true) : (b.side_occupancy c).testBit t = false := by
  rw [testBit_not64, Bool.and_eq_true] at h
  cases hb : (b.side_occupancy c).testBit t with
  | false => rfl
  | true =>
    have := occupied_of_side b c hinv1 t hb
    rw [this] at h
    exact Bool.noConfusion h.2

theorem king_square_eq (b : board) (c : Color) (hside : b.side = c) (k : Square) (hk : k < 64)
    (hking : b.bitboards c King = 2 ^ k) : b.get_king_square = k := by
  unfold board.get_king_square
  rw [hside, hking, lsb_two_pow k hk]

theorem holds_piece (b : board) (hinv3 : inv3 b) (c : Color) (p : Piece) (s : Nat)
    (hs : s < 64) (hp : p ≠ Null_Piece) (h : (b.bitboards c p).testBit s = true) :
    b.get_piece s = p :=
  (hinv3 s hs p hp).mp ⟨c, h⟩

theorem side_piece (b : board) (hinv2 : inv2 b) (hinv3 : inv3 b) (c : Color) (t : Nat)
    (ht : t < 64) (h : (b.side_occupancy c).testBit t = true) :
    b.get_piece t ≠ Null_Piece ∧ (b.bitboards c (b.get_piece t)).testBit t = true := by
  rw [hinv2 c] at h
  simp only [Nat.testBit_or, Bool.or_eq_true] at h
  have key : ∀ p, p ≠ Null_Piece → (b.bitboards c p).testBit t = true →
      b.get_piece t ≠ Null_Piece ∧ (b.bitboards c (b.get_piece t)).testBit t = true := by
    intro p hp hb
    rw [holds_piece b hinv3 c p t ht hp hb]
    exact ⟨hp, hb⟩
  rcases h with ((((h | h) | h) | h) | h) | h
  · exact key Pawn (by decide) h
  · exact key Knight (by decide) h
  · exact key Bishop (by decide) h
  · exact key Rook (by decide) h
  · exact key Queen (by decide) h
  · exact key King (by decide) h

theorem kind_exclusive (k : MoveType) :
    (single_push k → k ≠ DOUBLE_PAWN_PUSH ∧ ¬ captures_piece k ∧ k ≠ EN_PASSANT)
      ∧ (k = DOUBLE_PAWN_PUSH → ¬ single_push k ∧ ¬ captures_piece k ∧ k ≠ EN_PASSANT)
      ∧ (captures_piece k → ¬ single_push k ∧ k ≠ DOUBLE_PAWN_PUSH ∧ k ≠ EN_PASSANT)
      ∧ (k = EN_PASSANT → ¬ single_push k ∧ k ≠ DOUBLE_PAWN_PUSH ∧ ¬ captures_piece k) := by
  refine ⟨?_, ?_, ?_, ?_⟩
  · rintro (rfl | rfl | rfl | rfl | rfl) <;> decide
  · rintro rfl
    decide
  · rintro (rfl | rfl | rfl | rfl | rfl) <;> decide
  · rintro rfl
    decide

theorem val_eq_pawn (p : Piece) (h : p.val = Pawn.val) : p = Pawn := by
  cases p <;> first | rfl | exact absurd h (by decide)

/-- Well-formedness of a move of a piece other than a pawn to a target of its attack set. -/
theorem target_well_formed (c : Color) (b : board) (hinv : invariants b)
    (hdisj : b.side_occupancy White &&& b.side_occupancy Black = 0) (p : Piece)
    (hp : p ≠ Null_Piece) (hpp : p ≠ Pawn) (m : chessmove) (hf : m.get_from < 64)
    (ht : m.get_to < 64) (hbit : (b.bitboards c p).testBit m.get_from = true)
    (hpiece : m.get_piece = p.val)
    (h : (m.get_move_type = CAPTURE ∧ (b.side_occupancy (other c)).testBit m.get_to = true
            ∧ m.get_captured_piece = (b.get_piece m.get_to).val)
        ∨ (m.get_move_type = QUIET ∧ (not64 b.occupancy).testBit m.get_to = true)) :
    move_well_formed c b m := by
  obtain ⟨_, hinv1, hinv2, hinv3⟩ := hinv
  refine ⟨hf, ht, ⟨p, hp, hpiece, hbit, holds_piece b hinv3 c p _ hf hp hbit⟩, ?_, ?_, ?_, ?_⟩
  · rcases h with h | h
    · exact own_clear_of_enemy b c hdisj _ h.2.1
    · exact own_clear_of_empty b c hinv1 _ h.2
  · intro hpawn
    rw [hpiece] at hpawn
    exact absurd (val_eq_pawn p hpawn) hpp
  · intro hk
    rcases h with h | h
    · have := side_piece b hinv2 hinv3 (other c) _ ht h.2.1
      exact ⟨h.2.1, this.1, this.2, h.2.2⟩
    · rw [h.1] at hk
      exact absurd hk (by decide)
  · intro hk
    rcases h with h | h
    · rw [h.1] at hk
      exact absurd hk (by decide)
    · rw [h.1] at hk
      exact absurd hk (by decide)

theorem testBit_file_a (i : Nat) (hi : i < 64) : FILE_A_BB.testBit i = decide (i % 8 = 0) := by
  interval_cases i <;> decide

theorem testBit_file_h (i : Nat) (hi : i < 64) : FILE_H_BB.testBit i = decide (i % 8 = 7) := by
  interval_cases i <;> decide

/-- A pawn push goes one rank ahead on the same file. -/
theorem push_geometry (c : Color) (x t : Nat) (h : (shift (up c) x).testBit t = true) :
    file_of t = file_of (sq_sub t (up c)) ∧ ranks_ahead c (sq_sub t (up c)) t 1 := by
  cases c
  · have e1 : up White = NORTH := rfl
    rw [e1] at h ⊢
    rw [sq_sub_pos t 8 NORTH rfl]
    simp only [shift, testBit_shl64, Bool.and_eq_true, decide_eq_true_eq] at h
    simp only [file_of, ranks_ahead, rank_of, if_true]
    omega
  · have e1 : up Black = SOUTH := rfl
    have hne : ¬ (Black = White) := by decide
    rw [e1]
    rw [sq_sub_neg t 8 SOUTH rfl]
    simp only [file_of, ranks_ahead, rank_of, hne, if_false]
    omega

/-- A pawn capture goes one rank ahead and changes file by exactly one. -/
theorem capture_geometry (c : Color) (d : Direction)
    (hd : d = antidiagonal_capture c ∨ d = diagonal_capture c) (x t : Nat) (hx : x < 2 ^ 64)
    (h : (shift d x).testBit t = true) :
    ranks_ahead c (sq_sub t d) t 1
      ∧ (file_of t = file_of (sq_sub t d) + 1 ∨ file_of (sq_sub t d) = file_of t + 1) := by
  have ho := shift_origin_lt d x t hx h
  cases c
  · have ea : antidiagonal_capture White = NORTH_WEST := rfl
    have ed : diagonal_capture White = NORTH_EAST := rfl
    rw [ea, ed] at hd
    rcases hd with rfl | rfl
    · rw [sq_sub_pos t 7 NORTH_WEST rfl] at ho ⊢
      simp only [shift, testBit_shl64, Nat.testBit_and, testBit_not64, Bool.and_eq_true,
        decide_eq_true_eq, Bool.not_eq_true', testBit_file_a _ ho.1, decide_eq_false_iff_not]
        at h
      simp only [file_of, ranks_ahead, rank_of, if_true]
      omega
    · rw [sq_sub_pos t 9 NORTH_EAST rfl] at ho ⊢
      simp only [shift, testBit_shl64, Nat.testBit_and, testBit_not64, Bool.and_eq_true,
        decide_eq_true_eq, Bool.not_eq_true', testBit_file_h _ ho.1, decide_eq_false_iff_not]
        at h
      simp only [file_of, ranks_ahead, rank_of, if_true]
      omega
  · have ea : antidiagonal_capture Black = SOUTH_EAST := rfl
    have ed : diagonal_capture Black = SOUTH_WEST := rfl
    have hne : ¬ (Black = White) := by decide
    rw [ea, ed] at hd
    rcases hd with rfl | rfl
    · rw [sq_sub_neg t 7 SOUTH_EAST rfl] at ho ⊢
      simp only [shift, Nat.testBit_shiftRight, Nat.testBit_and, testBit_not64,
        Bool.and_eq_true, decide_eq_true_eq, Bool.not_eq_true', testBit_file_h _ ho.1,
        decide_eq_false_iff_not] at h
      simp only [file_of, ranks_ahead, rank_of, hne, if_false]
      omega
    · rw [sq_sub_neg t 9 SOUTH_WEST rfl] at ho ⊢
      simp only [shift, Nat.testBit_shiftRight, Nat.testBit_and, testBit_not64,
        Bool.and_eq_true, decide_eq_true_eq, Bool.not_eq_true', testBit_file_a _ ho.1,
        decide_eq_false_iff_not] at h
      simp only [file_of, ranks_ahead, rank_of, hne, if_false]
      omega

/-- A double push goes two ranks ahead on the same file. -/
theorem double_geometry (c : Color) (bb cm empty t : Nat)
    (h : (shift (up c) (shift (up c) (bb &&& not_penultimate_rank c) &&& empty
        &&& enpassant_rank c) &&& (empty &&& cm)).testBit t = true) :
    file_of t = file_of (sq_sub t (up_2 c)) ∧ ranks_ahead c (sq_sub t (up_2 c)) t 2 := by
  obtain ⟨h1, h2, _⟩ := (double_push_bit c bb cm empty t).mp h
  have key : ∀ s : Nat, on_start_rank c s → t = forward c s 2 →
      file_of t = file_of s ∧ ranks_ahead c s t 2 := by
    intro s h1 h2
    cases c
    · have h3 : 8 ≤ s ∧ s < 16 := h1
      simp only [forward, if_true] at h2
      simp only [file_of, ranks_ahead, rank_of, if_true]
      omega
    · have h3 : 48 ≤ s ∧ s < 56 := h1
      have hne : ¬ (Black = White) := by decide
      simp only [forward, hne, if_false] at h2
      simp only [file_of, ranks_ahead, rank_of, hne, if_false]
      omega
  exact key _ h1 h2

theorem pawn_push_wf (c : Color) (b : board) (hinv : invariants b) (m : chessmove)
    (hf : m.get_from < 64) (ht : m.get_to < 64) (hpiece : m.get_piece = Pawn.val)
    (hsp : single_push m.get_move_type)
    (hbit : (b.bitboards c Pawn).testBit m.get_from = true)
    (hempty : (not64 b.occupancy).testBit m.get_to = true)
    (hgeo : file_of m.get_to = file_of m.get_from ∧ ranks_ahead c m.get_from m.get_to 1) :
    move_well_formed c b m := by
  obtain ⟨_, hinv1, _, hinv3⟩ := hinv
  obtain ⟨e1, e2, e3⟩ := (kind_exclusive m.get_move_type).1 hsp
  exact ⟨hf, ht, ⟨Pawn, by decide, hpiece, hbit, holds_piece b hinv3 c Pawn _ hf (by decide) hbit⟩,
    own_clear_of_empty b c hinv1 _ hempty,
    fun _ => ⟨fun _ => hgeo, fun h => absurd h e1,
      fun h => h.elim (fun h => absurd h e2) (fun h => absurd h e3)⟩,
    fun h => absurd h e2, fun h => absurd h e3⟩

theorem pawn_double_wf (c : Color) (b : board) (hinv : invariants b) (m : chessmove)
    (hf : m.get_from < 64) (ht : m.get_to < 64) (hpiece : m.get_piece = Pawn.val)
    (hk : m.get_move_type = DOUBLE_PAWN_PUSH)
    (hbit : (b.bitboards c Pawn).testBit m.get_from = true)
    (hempty : (not64 b.occupancy).testBit m.get_to = true)
    (hgeo : file_of m.get_to = file_of m.get_from ∧ ranks_ahead c m.get_from m.get_to 2) :
    move_well_formed c b m := by
  obtain ⟨_, hinv1, _, hinv3⟩ := hinv
  obtain ⟨e1, e2, e3⟩ := (kind_exclusive m.get_move_type).2.1 hk
  exact ⟨hf, ht, ⟨Pawn, by decide, hpiece, hbit, holds_piece b hinv3 c Pawn _ hf (by decide) hbit⟩,
    own_clear_of_empty b c hinv1 _ hempty,
    fun _ => ⟨fun h => absurd h e1, fun _ => hgeo,
      fun h => h.elim (fun h => absurd h e2) (fun h => absurd h e3)⟩,
    fun h => absurd h e2, fun h => absurd h e3⟩

theorem pawn_capture_wf (c : Color) (b : board) (hinv : invariants b)
    (hdisj : b.side_occupancy White &&& b.side_occupancy Black = 0) (m : chessmove)
    (hf : m.get_from < 64) (ht : m.get_to < 64) (hpiece : m.get_piece = Pawn.val)
    (hk : captures_piece m.get_move_type)
    (hbit : (b.bitboards c Pawn).testBit m.get_from = true)
    (henemy : (b.side_occupancy (other c)).testBit m.get_to = true)
    (hcap : m.get_captured_piece = (b.get_piece m.get_to).val)
    (hgeo : ranks_ahead c m.get_from m.get_to 1
      ∧ (file_of m.get_to = file_of m.get_from + 1
        ∨ file_of m.get_from = file_of m.get_to + 1)) :
    move_well_formed c b m := by
  obtain ⟨_, hinv1, hinv2, hinv3⟩ := hinv
  obtain ⟨e1, e2, e3⟩ := (kind_exclusive m.get_move_type).2.2.1 hk
  have hside := side_piece b hinv2 hinv3 (other c) _ ht henemy
  exact ⟨hf, ht, ⟨Pawn, by decide, hpiece, hbit, holds_piece b hinv3 c Pawn _ hf (by decide) hbit⟩,
    own_clear_of_enemy b c hdisj _ henemy,
    fun _ => ⟨fun h => absurd h e1, fun h => absurd h e2, fun _ => hgeo⟩,
    fun _ => ⟨henemy, hside.1, hside.2, hcap⟩, fun h => absurd h e3⟩

theorem pawn_enpassant_wf (c : Color) (b : board) (hinv : invariants b) (m : chessmove)
    (hf : m.get_from < 64) (ht : m.get_to < 64) (hpiece : m.get_piece = Pawn.val)
    (hk : m.get_move_type = EN_PASSANT)
    (hbit : (b.bitboards c Pawn).testBit m.get_from = true)
    (hown : (b.side_occupancy c).testBit m.get_to = false)
    (hcap : m.get_captured_piece = Pawn.val)
    (hgeo : ranks_ahead c m.get_from m.get_to 1
      ∧ (file_of m.get_to = file_of m.get_from + 1
        ∨ file_of m.get_from = file_of m.get_to + 1)) :
    move_well_formed c b m := by
  obtain ⟨_, _, _, hinv3⟩ := hinv
  obtain ⟨e1, e2, e3⟩ := (kind_exclusive m.get_move_type).2.2.2 hk
  exact ⟨hf, ht, ⟨Pawn, by decide, hpiece, hbit, holds_piece b hinv3 c Pawn _ hf (by decide) hbit⟩,
    hown, fun _ => ⟨fun h => absurd h e1, fun h => absurd h e2, fun _ => hgeo⟩,
    fun h => absurd h e3, fun _ => hcap⟩

/-- Well-formedness of the moves of `generate_pawn_moves`. -/
theorem pawn_well_formed (c : Color) (b : board) (hinv : invariants b)
    (hdisj : b.side_occupancy White &&& b.side_occupancy Black = 0)
    (hep : b.enpassant_square ≠ Null_Square
      → (b.side_occupancy c).testBit b.enpassant_square = false)
    (co : Bool) (cm : Nat) (m : chessmove)
    (h : pawn_move c co b (b.bitboards c Pawn) cm (b.side_occupancy (other c))
      (not64 b.occupancy) m) :
    move_well_formed c b m := by
  have hnp : b.bitboards c Pawn &&& not_penultimate_rank c < 2 ^ 64 :=
    and_lt_right (not_penultimate_rank_lt c)
  have hpp : b.bitboards c Pawn &&& penultimate_rank c < 2 ^ 64 :=
    and_lt_right (penultimate_rank_lt c)
  obtain ⟨hf, ht, hpiece, hd⟩ := pawn_move_decode c co b _ cm _ _ m h
  rcases hd with h | h | h | h | h | h
  · obtain ⟨_, hk, hb, hfrom, _⟩ := h
    have h1 := testBit_and_left (testBit_and_left hb)
    have ho := (shift_origin _ _ _ h1).1
    have hg := push_geometry c _ _ h1
    rw [← hfrom] at ho hg
    exact pawn_push_wf c b hinv m hf ht hpiece (Or.inl hk) (testBit_and_left ho)
      (testBit_and_right (testBit_and_left hb)) hg
  · obtain ⟨_, hk, hb, hfrom, _⟩ := h
    have hg := double_geometry c _ _ _ _ hb
    obtain ⟨_, _, h3, _⟩ := (double_push_bit c _ _ _ _).mp hb
    rw [← hfrom] at hg h3
    exact pawn_double_wf c b hinv m hf ht hpiece hk h3
      (testBit_and_left (testBit_and_right hb)) hg
  · obtain ⟨hk, hb, hfrom, _⟩ := h
    have h1 := testBit_and_left hb
    have ho := (shift_origin _ _ _ h1).1
    have hg := push_geometry c _ _ h1
    rw [← hfrom] at ho hg
    have hsp : single_push m.get_move_type := by
      rcases hk with hk | ⟨_, hk | hk | hk⟩
      · exact Or.inr (Or.inl hk)
      · exact Or.inr (Or.inr (Or.inl hk))
      · exact Or.inr (Or.inr (Or.inr (Or.inl hk)))
      · exact Or.inr (Or.inr (Or.inr (Or.inr hk)))
    exact pawn_push_wf c b hinv m hf ht hpiece hsp (testBit_and_left ho)
      (testBit_and_left (testBit_and_right hb)) hg
  · obtain ⟨d, hd, hk, hb, hfrom, hcap, _⟩ := h
    have h1 := testBit_and_left hb
    have ho := (shift_origin _ _ _ h1).1
    have hg := capture_geometry c d hd _ _ hpp h1
    rw [← hfrom] at ho hg
    have hcp : captures_piece m.get_move_type := by
      rcases hk with hk | ⟨_, hk | hk | hk⟩
      · exact Or.inr (Or.inl hk)
      · exact Or.inr (Or.inr (Or.inl hk))
      · exact Or.inr (Or.inr (Or.inr (Or.inl hk)))
      · exact Or.inr (Or.inr (Or.inr (Or.inr hk)))
    exact pawn_capture_wf c b hinv hdisj m hf ht hpiece hcp (testBit_and_left ho)
      (testBit_and_left (testBit_and_right hb)) hcap hg
  · obtain ⟨d, hd, hk, hb, hfrom, hcap, _⟩ := h
    have h1 := testBit_and_left hb
    have ho := (shift_origin _ _ _ h1).1
    have hg := capture_geometry c d hd _ _ hnp h1
    rw [← hfrom] at ho hg
    exact pawn_capture_wf c b hinv hdisj m hf ht hpiece (Or.inl hk) (testBit_and_left ho)
      (testBit_and_left (testBit_and_right hb)) hcap hg
  · obtain ⟨d, hd, hk, hne, hto, hb, hfrom, hcap, _⟩ := h
    have ho := (shift_origin _ _ _ hb).1
    have hg := capture_geometry c d hd _ _ hnp hb
    rw [← hfrom] at ho hg
    have hown := hep hne
    rw [← hto] at hown
    exact pawn_enpassant_wf c b hinv m hf ht hpiece hk (testBit_and_left ho) hown hcap hg

theorem testBit_of_and_eq (x mask i : Nat) (h : x &&& mask = mask)
    (hm : mask.testBit i = true) : x.testBit i = true := by
  have := congrArg (fun y => y.testBit i) h
  simp only [Nat.testBit_and, hm, Bool.and_true] at this
  exact this

/-- Well-formedness of the moves of `generate_castle_moves`. -/
theorem castle_well_formed (c : Color) (b : board) (hinv : invariants b) (k : Square)
    (hking : b.bitboards c King = 2 ^ k) (hhome : castle_rights_at_home c b k) (safe : Nat)
    (m : chessmove) (h : m ∈ castle_moves_list c b.castling_rights safe (not64 b.occupancy)) :
    move_well_formed c b m := by
  obtain ⟨_, hinv1, _, hinv3⟩ := hinv
  have hsq := castle_squares_lt c
  obtain ⟨hfrom, hpiece, hd⟩ := castle_moves_decode c _ _ _ m h
  have hright : b.castling_rights
        &&& (if c = White then CASTLE_WHITE_KINGSIDE else CASTLE_BLACK_KINGSIDE) ≠ 0
      ∨ b.castling_rights
        &&& (if c = White then CASTLE_WHITE_QUEENSIDE else CASTLE_BLACK_QUEENSIDE) ≠ 0 := by
    rcases hd with hd | hd
    · exact Or.inl hd.2.2.1
    · exact Or.inr hd.2.2.1
  have hk := hhome hright
  have hbit : (b.bitboards c King).testBit m.get_from = true := by
    rw [hfrom, hking, hk, Nat.testBit_two_pow_self]
  have hf : m.get_from < 64 := by
    rw [hfrom]
    exact hsq.1
  have hempty : (not64 b.occupancy).testBit m.get_to = true ∧ m.get_to < 64
      ∧ (m.get_move_type = KING_CASTLE ∨ m.get_move_type = QUEEN_CASTLE) := by
    rcases hd with ⟨hkind, hto, hok⟩ | ⟨hkind, hto, hok⟩
    · rw [hto]
      refine ⟨testBit_of_and_eq _ _ _ hok.2.2 ?_, hsq.2.1, Or.inl hkind⟩
      cases c <;> decide
    · rw [hto]
      refine ⟨testBit_of_and_eq _ _ _ hok.2.2 ?_, hsq.2.2, Or.inr hkind⟩
      cases c <;> decide
  obtain ⟨he, ht, hkind⟩ := hempty
  refine ⟨hf, ht, ⟨King, by decide, hpiece, hbit, holds_piece b hinv3 c King _ hf (by decide) hbit⟩,
    own_clear_of_empty b c hinv1 _ he, ?_, ?_, ?_⟩
  · intro hp
    rw [hpiece] at hp
    exact absurd hp (by decide)
  · intro hc
    rcases hkind with hkind | hkind <;> rw [hkind] at hc <;> exact absurd hc (by decide)
  · intro hc
    rcases hkind with hkind | hkind <;> rw [hkind] at hc <;> exact absurd hc (by decide)

/-- Well-formedness of every move `generate_all_moves` adds. -/
theorem all_moves_well_formed (T : AttackTables) (c : Color) (co : Bool) (b : board)
    (hinv : invariants b) (hdisj : b.side_occupancy White &&& b.side_occupancy Black = 0)
    (hside : b.side = c) (k : Square) (hk : k < 64) (hking : b.bitboards c King = 2 ^ k)
    (hhome : castle_rights_at_home c b k)
    (hep : b.enpassant_square ≠ Null_Square
      → (b.side_occupancy c).testBit b.enpassant_square = false) :
    ∀ m ∈ all_moves_list T c co b, move_well_formed c b m := by
  intro m h
  have hks := king_square_eq b c hside k hk hking
  have hem : not64 b.occupancy < 2 ^ 64 := not64_lt _
  have hwf := hinv.1
  obtain ⟨_, hso, hbb⟩ := hwf
  have hslider : ∀ (ray : Ray) (p : Piece), p ≠ Null_Piece → p ≠ Pawn →
      m ∈ all_slider_moves T c ray p co b → move_well_formed c b m := by
    intro ray p hp hpp hm
    obtain ⟨h1, h2, h3, _, h5, h6⟩ := slider_moves_decode T ray p co b _ _ _ _ _ (hbb _ _)
      (hso _) hem m hm
    exact target_well_formed c b hinv hdisj p hp hpp m h2 h3 h1 h5
      (h6.imp (fun h => ⟨h.1, h.2.1, h.2.2.1⟩) (fun h => ⟨h.2.1, h.2.2.1⟩))
  unfold all_moves_list at h
  simp only [List.mem_append] at h
  rcases h with (((((h | h) | h) | h) | h) | h) | h
  · unfold all_king_moves at h
    rw [hks] at h
    obtain ⟨h1, h2, _, h4, h5⟩ := king_moves_decode T co b k _ _ _ hk (hso _) hem m h
    have hbit : (b.bitboards c King).testBit m.get_from = true := by
      rw [h1, hking, Nat.testBit_two_pow_self]
    have hf : m.get_from < 64 := by
      rw [h1]
      exact hk
    exact target_well_formed c b hinv hdisj King (by decide) (by decide) m hf h2 hbit h4
      (h5.imp (fun h => ⟨h.1, h.2.1, h.2.2.1⟩) (fun h => ⟨h.2.1, h.2.2.1⟩))
  · exact hslider Ray.ROOK Rook (by decide) (by decide) h
  · exact hslider Ray.BISHOP Bishop (by decide) (by decide) h
  · exact hslider Ray.QUEEN Queen (by decide) (by decide) h
  · obtain ⟨h1, h2, h3, _, h5, h6⟩ := knight_moves_decode T co b _ _ _ _ (hbb _ _)
      (hso _) hem m h
    exact target_well_formed c b hinv hdisj Knight (by decide) (by decide) m h2 h3 h1 h5
      (h6.imp (fun h => ⟨h.1, h.2.1, h.2.2.1⟩) (fun h => ⟨h.2.1, h.2.2.1⟩))
  · exact pawn_well_formed c b hinv hdisj hep co _ m
      ((mem_pawn_moves_list _ _ _ _ _ _ _ m).mp h)
  · unfold all_castle_moves at h
    cases co with
    | true => exact absurd h (List.not_mem_nil m)
    | false =>
      simp only [Bool.false_eq_true, if_false] at h
      exact castle_well_formed c b hinv k hking hhome _ m h

/-- Every move of the relation `generated_move` is a member of the emitted list. -/
theorem mem_all_moves_of_generated (T : AttackTables) (c : Color) (co : Bool) (b : board)
    (hwf : b.wf) (m : chessmove) (h : generated_move T c co b m) :
    m ∈ all_moves_list T c co b := by
  have hem : not64 b.occupancy < 2 ^ 64 := not64_lt _
  obtain ⟨_, hso, hbb⟩ := hwf
  unfold all_moves_list
  simp only [List.mem_append]
  cases h with
  | king h =>
    exact Or.inl (Or.inl (Or.inl (Or.inl (Or.inl (Or.inl
      ((mem_king_moves_list T co b _ _ _ _ (hso _) hem m).mpr h))))))
  | rook h =>
    exact Or.inl (Or.inl (Or.inl (Or.inl (Or.inl (Or.inr
      ((mem_slider_moves_list T _ _ co b _ _ _ _ _ (hbb _ _) (hso _) hem m).mpr h))))))
  | bishop h =>
    exact Or.inl (Or.inl (Or.inl (Or.inl (Or.inr
      ((mem_slider_moves_list T _ _ co b _ _ _ _ _ (hbb _ _) (hso _) hem m).mpr h)))))
  | queen h =>
    exact Or.inl (Or.inl (Or.inl (Or.inr
      ((mem_slider_moves_list T _ _ co b _ _ _ _ _ (hbb _ _) (hso _) hem m).mpr h))))
  | knight h =>
    exact Or.inl (Or.inl (Or.inr
      ((mem_knight_moves_list T co b _ _ _ _ (hbb _ _) (hso _) hem m).mpr h)))
  | pawn h =>
    exact Or.inl (Or.inr ((mem_pawn_moves_list _ _ _ _ _ _ _ m).mpr h))
  | king_castle hfull hok hm =>
    right
    unfold all_castle_moves
    rw [hfull]
    simp only [Bool.false_eq_true, if_false]
    exact (mem_castle_moves_list c _ _ _ m).mpr (Or.inl ⟨hok, hm⟩)
  | queen_castle hfull hok hm =>
    right
    unfold all_castle_moves
    rw [hfull]
    simp only [Bool.false_eq_true, if_false]
    exact (mem_castle_moves_list c _ _ _ m).mpr (Or.inr ⟨hok, hm⟩)

/-- C28, as amended: for every position that satisfies invariants 1-3 (on 64-bit bitboards),
in which no square holds pieces of both colours, that has exactly one king of the side to
move (on `k`), has a castling right of that side set only when `k` is its e-file home square,
and whose en-passant square, if any, is not occupied by a piece of the side to move: every
move `generate_all_moves` adds, and every move it leaves in a buffer that was empty, is well
formed. -/
theorem emitted_moves_well_formed (T : AttackTables) (c : Color) (captures_only : Bool)
    (b : board) (hinv : invariants b)
    (hdisj : b.side_occupancy White &&& b.side_occupancy Black = 0)
    (hside : b.side = c) (k : Square) (hk : k < 64) (hking : b.bitboards c King = 2 ^ k)
    (hhome : castle_rights_at_home c b k)
    (hep : b.enpassant_square ≠ Null_Square
      → (b.side_occupancy c).testBit b.enpassant_square = false) :
    (∀ ml, (generate_all_moves T c captures_only b ml).2.2
        = emit (all_moves_list T c captures_only b) ml)
      ∧ (∀ m ∈ all_moves_list T c captures_only b, move_well_formed c b m)
      ∧ (∀ m ∈ (generate_all_moves T c captures_only b movelist.new).2.2.moves,
          move_well_formed c b m) := by
  have hall := all_moves_well_formed T c captures_only b hinv hdisj hside k hk hking hhome hep
  refine ⟨fun ml => generate_all_moves_emit T c captures_only b ml, hall, ?_⟩
  intro m hm
  rcases generate_all_moves_sound T c captures_only b movelist.new hinv.1 m hm with h | h
  · rw [moves_new] at h
    exact absurd h (List.not_mem_nil m)
  · exact hall m (mem_all_moves_of_generated T c captures_only b hinv.1 m h)

/-- C28, witness: in the position with a White pawn on a7 and a Black rook on b8 the
promoting capture a7xb8 is emitted and well formed. -/
theorem emitted_moves_well_formed_witness :
    chessmove.new5 48 57 QUEEN_PROMOTION_CAPTURE Pawn Rook
        ∈ (generate_all_moves std_tables White false promotion_board movelist.new).2.2.moves
      ∧ move_well_formed White promotion_board
          (chessmove.new5 48 57 QUEEN_PROMOTION_CAPTURE Pawn Rook) :=
  ⟨by decide!,
    (emitted_moves_well_formed std_tables White false promotion_board (by decide!) (by decide!)
      (by decide!) 7 (by decide) (by decide!) (by decide!) (by decide!)).2.2
      (chessmove.new5 48 57 QUEEN_PROMOTION_CAPTURE Pawn Rook) (by decide!)⟩

/-- C28, counterexample: the position with the White king e1, knight e6 and pawn d5, the Black
king e8 and the en-passant square e6 satisfies invariants 1-3, has one White king and no
castling right, and `generate_all_moves` emits the en-passant capture d5xe6, whose to-square
holds the White knight; and on the board that satisfies invariants 1-3 with a knight of each
colour on d2 it emits the king capture e1xd2 onto the square of the White knight. -/
theorem emitted_moves_well_formed_counterexample :
    (invariants enpassant_blocked_board ∧ enpassant_blocked_board.side = White
      ∧ enpassant_blocked_board.bitboards White King = 2 ^ 4
      ∧ castle_rights_at_home White enpassant_blocked_board 4
      ∧ chessmove.new5 35 44 EN_PASSANT Pawn Pawn
          ∈ (generate_all_moves std_tables White false enpassant_blocked_board
              movelist.new).2.2.moves
      ∧ (chessmove.new5 35 44 EN_PASSANT Pawn Pawn).get_to = 44
      ∧ (enpassant_blocked_board.bitboards White Knight).testBit 44 = true
      ∧ ¬ move_well_formed White enpassant_blocked_board
          (chessmove.new5 35 44 EN_PASSANT Pawn Pawn))
    ∧ (invariants doubly_occupied_board ∧ doubly_occupied_board.side = White
      ∧ doubly_occupied_board.bitboards White King = 2 ^ 4
      ∧ castle_rights_at_home White doubly_occupied_board 4
      ∧ doubly_occupied_board.enpassant_square = Null_Square
      ∧ chessmove.new5 4 11 CAPTURE King Knight
          ∈ (generate_all_moves std_tables White false doubly_occupied_board
              movelist.new).2.2.moves
      ∧ (chessmove.new5 4 11 CAPTURE King Knight).get_to = 11
      ∧ (doubly_occupied_board.bitboards White Knight).testBit 11 = true
      ∧ ¬ move_well_formed White doubly_occupied_board
          (chessmove.new5 4 11 CAPTURE King Knight)) := by
  decide!

end Motor
